import Mathlib

/-!
# Adblock Plus core (compiled/): filter parsing, domain scoping and the download parser

A shallow embedding of `src/compiled/StringScanner.h`,
`src/compiled/filter/Filter.cpp`, `src/compiled/filter/ElemHideBase.cpp`,
`src/compiled/filter/ActiveFilter.h`, `src/compiled/filter/ActiveFilter.cpp`,
`src/compiled/subscription/DownloadableSubscription.h` and
`src/compiled/subscription/DownloadableSubscription.cpp`.

Conventions of the embedding.

* A `String` / `DependentString` is the list of its characters (`Text`); a
  `DependentString` that is re-pointed with `reset(str, pos, len)` becomes
  `(str.drop pos).take len`, which clamps exactly like the `std::min` calls of
  the `DependentString` constructor.
* `String::size_type` values are natural numbers (texts are far shorter than
  the machine word); the one expression that relies on unsigned wrap-around,
  `scanner.position() + 1` at the cursor 0, has a definition of its own.
* `int64_t` values are integers, and the one `int64_t` product is reduced to
  the two's complement range; a number that is passed to an `unsigned int` or
  `uint64_t` parameter is reduced modulo 2^32 or 2^64.
* Every `while`/`for` loop is a function that recurses on a fuel counter; the
  callers pass a fuel that covers the whole text, and the theorems show that
  this fuel is never exhausted.
* A read `str[i]` is `charAt str i`; the download parser is embedded a second
  time with every read checked against the length of the text (`Checked`).
-/

namespace ABP

/-- The characters of a `String`. -/
abbrev Text := List Char

/-- Read access `str[i]`. -/
def charAt (s : Text) (i : Nat) : Char := s.getD i '\x00'

/-- Modelled from the spec: `String::toLower` (String.h is not part of the
sources): "Lowercase the domain prefix", here the ASCII letters `A`..`Z`. -/
def lowerChar (c : Char) : Char :=
  if 'A' ≤ c ∧ c ≤ 'Z' then Char.ofNat (c.toNat + 32) else c

/-- In-place `toLower()` on a whole text. -/
def toLower (s : Text) : Text := s.map lowerChar

/-! ## StringScanner.h -/

/-- The class `StringScanner` (the scanned text, cursor, end and terminator). -/
structure StringScanner where
  mStr : Text
  mPos : Nat
  mEnd : Nat
  mTerminator : Char
deriving DecidableEq, Repr

namespace StringScanner

/-- The constructor `StringScanner(str, pos, terminator)`. -/
def create (str : Text) (pos : Nat) (terminator : Char) : StringScanner :=
  ⟨str, pos, str.length, terminator⟩

/-- The method `done()`. -/
def done (s : StringScanner) : Bool := decide (s.mPos ≥ s.mEnd)

/-- The method `position()`: `mPos - 1`. Every caller below asks for it after at
least one `next()`, where `mPos ≥ 1`. -/
def position (s : StringScanner) : Nat := s.mPos - 1

/-- The method `next()`: the character under the cursor (the terminator when
done) and the scanner with the cursor advanced. -/
def next (s : StringScanner) : Char × StringScanner :=
  (if s.done then s.mTerminator else charAt s.mStr s.mPos,
   ⟨s.mStr, s.mPos + 1, s.mEnd, s.mTerminator⟩)

/-- The method `skipOne(ch)`. -/
def skipOne (s : StringScanner) (ch : Char) : Bool × StringScanner :=
  if !s.done && charAt s.mStr s.mPos == ch then
    (true, ⟨s.mStr, s.mPos + 1, s.mEnd, s.mTerminator⟩)
  else
    (false, s)

/-- The loop `while ((skipped = skipOne(ch)));` of `skip`: it runs until
`skipOne` fails and leaves that last result in `skipped`. -/
def skipLoop (ch : Char) : Nat → StringScanner → Option (Bool × StringScanner)
  | 0, _ => none
  | fuel + 1, s =>
    let r := s.skipOne ch
    if r.1 then skipLoop ch fuel r.2 else some (r.1, r.2)

/-- The method `skip(ch)`: returns the variable `skipped` after the loop. -/
def skip (s : StringScanner) (ch : Char) : Option (Bool × StringScanner) :=
  skipLoop ch (s.mEnd - s.mPos + 1) s

end StringScanner

/-! ## Types that the sources use but do not declare -/

/-- Modelled from the spec: the enumeration `Filter::Type` (Filter.h is not part
of the sources); the constants are the ones the sources name. -/
inductive FilterType where
  | UNKNOWN
  | INVALID
  | COMMENT
  | ACTIVE
  | BLOCKING
  | WHITELIST
  | ELEMHIDEBASE
  | ELEMHIDE
  | ELEMHIDEEXCEPTION
  | ELEMHIDEEMULATION
deriving DecidableEq, Repr

/-- Modelled from the spec: `StringMap<V>` (StringMap.h is not part of the
sources), a map from texts to values with at most one entry per key, kept as
the list of its entries. -/
abbrev StringMap (V : Type) := List (Text × V)

namespace StringMap

/-- The lookup `map.find(key)`: the value stored under `key`, if any. -/
def find {V : Type} (m : StringMap V) (key : Text) : Option V :=
  match m with
  | [] => none
  | (k, v) :: rest => if k = key then some v else find rest key

/-- The assignment `map[key] = value`: overwrite the entry or add one. -/
def assign {V : Type} (m : StringMap V) (key : Text) (value : V) : StringMap V :=
  match m with
  | [] => [(key, value)]
  | (k, v) :: rest => if k = key then (k, value) :: rest else (k, v) :: assign rest key value

/-- The call `map.erase(key)`. -/
def erase {V : Type} (m : StringMap V) (key : Text) : StringMap V :=
  m.filter (fun e => decide (e.1 ≠ key))

end StringMap

/-- The type `ActiveFilter::DomainMap`, `StringMap<bool>`. -/
abbrev DomainMap := StringMap Bool

/-- The read `(*domains)[key]` of a `DomainMap`: the stored value, and the
value-initialised `false` for an absent key. -/
def DomainMap.get (m : DomainMap) (key : Text) : Bool := (StringMap.find m key).getD false

/-- Modelled from the spec: `StringSet` (StringMap.h is not part of the
sources), the list of its members. -/
abbrev SitekeySet := List Text

/-- The constant `ActiveFilter::DEFAULT_DOMAIN`, the empty text. -/
def DEFAULT_DOMAIN : Text := []

/-- Modelled from the spec: `String::find(ch)` (String.h is not part of the
sources): the index of the first occurrence, `none` standing for `npos`. -/
def findChar : Text → Char → Option Nat
  | [], _ => none
  | c :: rest, ch => if c = ch then some 0 else (findChar rest ch).map (fun i => i + 1)

/-- The view `DependentString(str, pos, len)`. -/
def substr (str : Text) (pos len : Nat) : Text := (str.drop pos).take len

/-! ## Filter.cpp: whitespace normalisation -/

namespace Filter

/-- First loop of `NormalizeWhitespace`:
`for (; start < end; start++) if (text[start] > ' ') break;` -/
def skipLeading (text : Text) (endPos : Nat) : Nat → Nat → Option Nat
  | 0, _ => none
  | fuel + 1, start =>
    if start < endPos then
      if charAt text start > ' ' then some start
      else skipLeading text endPos fuel (start + 1)
    else some start

/-- Second loop: `for (pos = start; pos < end; pos++) if (text[pos] < ' ') break;` -/
def findInvalid (text : Text) (endPos : Nat) : Nat → Nat → Option Nat
  | 0, _ => none
  | fuel + 1, pos =>
    if pos < endPos then
      if charAt text pos < ' ' then some pos
      else findInvalid text endPos fuel (pos + 1)
    else some pos

/-- Third loop, the in-place copy:
`for (pos = pos + 1; pos < end; pos++)
   if (text[pos] < ' ') delta++; else text[pos - delta] = text[pos];` -/
def copyValid (endPos : Nat) : Nat → Nat → Text → Nat → Option (Text × Nat)
  | 0, _, _, _ => none
  | fuel + 1, pos, text, delta =>
    if pos < endPos then
      if charAt text pos < ' ' then copyValid endPos fuel (pos + 1) text (delta + 1)
      else copyValid endPos fuel (pos + 1) (text.set (pos - delta) (charAt text pos)) delta
    else some (text, delta)

/-- Fourth loop: `for (; end > 0; end--) if (text[end - 1] != ' ') break;` -/
def trimTrailing (text : Text) : Nat → Nat → Option Nat
  | 0, _ => none
  | fuel + 1, endPos =>
    if endPos > 0 then
      if charAt text (endPos - 1) ≠ ' ' then some endPos
      else trimTrailing text fuel (endPos - 1)
    else some endPos

/-- The function `NormalizeWhitespace(text)` of Filter.cpp; the result is the
text that the argument refers to afterwards. (The unsigned difference
`end - start` of the last line is below zero only when `start` is the length of
the text, where `reset` yields the empty text for every `len`.) -/
def NormalizeWhitespace (text : Text) : Option Text :=
  let endPos := text.length
  match skipLeading text endPos (text.length + 1) 0 with
  | none => none
  | some start =>
    match findInvalid text endPos (text.length + 1) start with
    | none => none
    | some pos =>
      match (if pos < endPos then
               (copyValid endPos (text.length + 1) (pos + 1) text 1).map
                 (fun r => (r.1, endPos - r.2))
             else some (text, endPos)) with
      | none => none
      | some (text1, end1) =>
        match trimTrailing text1 (text.length + 1) end1 with
        | none => none
        | some end2 => some (substr text1 start (end2 - start))

/-- Reference for the normalisation, in the words of the specification: delete
every character below U+0020, then strip leading and trailing spaces. -/
def NormalizeWhitespace_spec (t : Text) : Text :=
  ((t.filter (fun c => !decide (c < ' '))).dropWhile (fun c => c == ' ')).rdropWhile
    (fun c => c == ' ')

end Filter

/-! ## ActiveFilter.h / ActiveFilter.cpp -/

/-- The struct `ParsedDomains::Domain`. -/
structure ParsedDomain where
  pos : Nat
  len : Nat
  reverse : Bool
deriving DecidableEq, Repr

/-- The struct `ParsedDomains`. -/
structure ParsedDomains where
  hasIncludes : Bool
  hasEmpty : Bool
  domains : List ParsedDomain
deriving DecidableEq, Repr

/-- The constructor `ParsedDomains()`. -/
def ParsedDomains.create : ParsedDomains := ⟨false, false, []⟩

/-- The state of an `ActiveFilter` object (with the `Filter` members `mText`
and `mType` it inherits); `mDomains` and `mSitekeys` are `none` for a null
pointer. -/
structure ActiveFilter where
  mType : FilterType
  mText : Text
  mIgnoreTrailingDot : Bool
  mDisabled : Bool
  mHitCount : Nat
  mLastHit : Nat
  mDomains : Option DomainMap
  mSitekeys : Option SitekeySet
deriving DecidableEq, Repr

namespace ActiveFilter

/-- The constructor `ActiveFilter(type, text, ignoreTrailingDot)`. -/
def create (type : FilterType) (text : Text) (ignoreTrailingDot : Bool) : ActiveFilter :=
  ⟨type, text, ignoreTrailingDot, false, 0, 0, none, none⟩

/-- The method `GetDomains()`. -/
def GetDomains (f : ActiveFilter) : Option DomainMap := f.mDomains

/-- The method `GetSitekeys()`. -/
def GetSitekeys (f : ActiveFilter) : Option SitekeySet := f.mSitekeys

/-- The body of the `while (!done)` loop of `ParseDomainsInternal` after
`currChar = scanner.next()`, with `position` the value of `scanner.position()`:
the new `start`, `reverse` and `parsed`. -/
def parseDomainsStep (domains : Text) (separator : Char) (ignoreTrailingDot : Bool)
    (currChar : Char) (position start : Nat) (reverse : Bool) (parsed : ParsedDomains) :
    Nat × Bool × ParsedDomains :=
  if currChar = '~' ∧ position = start then (start + 1, true, parsed)
  else if currChar = separator then
    let len0 := position - start
    let len :=
      if len0 > 0 ∧ ignoreTrailingDot = true ∧ charAt domains (start + len0 - 1) = '.' then
        len0 - 1
      else len0
    let parsed1 : ParsedDomains :=
      if len > 0 then
        ⟨if !reverse then true else parsed.hasIncludes, parsed.hasEmpty,
          parsed.domains ++ [⟨start, len, reverse⟩]⟩
      else
        ⟨parsed.hasIncludes, true, parsed.domains⟩
    (position + 1, false, parsed1)
  else (start, reverse, parsed)

/-- The `while (!done)` loop of `ParseDomainsInternal`; the state is the
scanner, `start`, `reverse`, `parsed` and `done`. -/
def parseDomainsLoop (domains : Text) (separator : Char) (ignoreTrailingDot : Bool) :
    Nat → StringScanner → Nat → Bool → ParsedDomains → Bool → Option ParsedDomains
  | 0, _, _, _, _, _ => none
  | fuel + 1, scanner, start, reverse, parsed, done =>
    if done then some parsed
    else
      let done1 := scanner.done
      let currChar := scanner.next.1
      let scanner1 := scanner.next.2
      let st := parseDomainsStep domains separator ignoreTrailingDot currChar
        scanner1.position start reverse parsed
      parseDomainsLoop domains separator ignoreTrailingDot fuel scanner1 st.1 st.2.1 st.2.2 done1

/-- The function `ActiveFilter::ParseDomainsInternal` (the counting loop before
the scan only sizes the vector). -/
def ParseDomainsInternal (domains : Text) (separator : Char) (ignoreTrailingDot : Bool) :
    Option ParsedDomains :=
  let scanner := StringScanner.create domains 0 separator
  parseDomainsLoop domains separator ignoreTrailingDot (domains.length + 2) scanner 0 false
    ParsedDomains.create scanner.done

/-- The loop of `FillDomains`: `(*mDomains)[DependentString(domains, d.pos, d.len)] = !d.reverse`. -/
def fillLoop (domains : Text) : List ParsedDomain → DomainMap → DomainMap
  | [], m => m
  | d :: rest, m => fillLoop domains rest (StringMap.assign m (substr domains d.pos d.len) (!d.reverse))

/-- The method `FillDomains`: the new value of `mDomains`. -/
def FillDomains (domains : Text) (parsed : ParsedDomains) : DomainMap :=
  StringMap.assign (fillLoop domains parsed.domains []) DEFAULT_DOMAIN (!parsed.hasIncludes)

/-- The `while (true)` loop of `IsActiveOnDomain`. -/
def domainLoop (domains : DomainMap) : Nat → Text → Option Bool
  | 0, _ => none
  | fuel + 1, docDomain =>
    match StringMap.find domains docDomain with
    | some v => some v
    | none =>
      match findChar docDomain '.' with
      | none => some (DomainMap.get domains DEFAULT_DOMAIN)
      | some nextDot => domainLoop domains fuel (docDomain.drop (nextDot + 1))

/-- The lines shared by `IsActiveOnDomain` and `IsActiveOnlyOnDomain`:
`docDomain.toLower()` and the removal of one trailing dot. -/
def normalizeDocDomain (ignoreTrailingDot : Bool) (docDomain : Text) : Text :=
  let lowered := toLower docDomain
  let len := lowered.length
  if len > 0 ∧ ignoreTrailingDot = true ∧ charAt lowered (len - 1) = '.' then
    substr lowered 0 (len - 1)
  else lowered

/-- The method `ActiveFilter::IsActiveOnDomain(docDomain, sitekey)`. -/
def IsActiveOnDomain (f : ActiveFilter) (docDomain sitekey : Text) : Option Bool :=
  if (match f.GetSitekeys with
      | some sitekeys => !(sitekeys.contains sitekey)
      | none => false) then some false
  else
    match f.GetDomains with
    | none => some true
    | some domains =>
      if docDomain = [] then some (DomainMap.get domains DEFAULT_DOMAIN)
      else
        let doc := normalizeDocDomain f.mIgnoreTrailingDot docDomain
        domainLoop domains (doc.length + 1) doc

/-- The test in the body of the `for` loop of `IsActiveOnlyOnDomain`: `true`
when the entry lets the loop continue, `false` when it makes it return false. -/
def onlyEntryOk (docDomain : Text) (item : Text × Bool) : Bool :=
  if !item.2 || decide (item.1 = docDomain) then true
  else
    let len1 := item.1.length
    let len2 := docDomain.length
    if len1 > len2 ∧ item.1.drop (len1 - len2) = docDomain ∧
        charAt item.1 (len1 - len2 - 1) = '.' then true
    else false

/-- The method `ActiveFilter::IsActiveOnlyOnDomain(docDomain)`. -/
def IsActiveOnlyOnDomain (f : ActiveFilter) (docDomain : Text) : Bool :=
  match f.GetDomains with
  | none => false
  | some domains =>
    if docDomain = [] ∨ DomainMap.get domains DEFAULT_DOMAIN = true then false
    else
      let doc := normalizeDocDomain f.mIgnoreTrailingDot docDomain
      domains.all (onlyEntryOk doc)

/-- The method `ActiveFilter::IsGeneric()`. -/
def IsGeneric (f : ActiveFilter) : Bool :=
  match f.GetSitekeys, f.GetDomains with
  | none, none => true
  | none, some domains => DomainMap.get domains DEFAULT_DOMAIN
  | some _, _ => false

end ActiveFilter

/-! ## ElemHideBase.h / ElemHideBase.cpp -/

/-- The struct `ElemHideData`. -/
structure ElemHideData where
  mDomainsEnd : Nat
  mSelectorStart : Nat
deriving DecidableEq, Repr

namespace ElemHideData

/-- The method `HasDomains()`. -/
def HasDomains (d : ElemHideData) : Bool := decide (d.mDomainsEnd ≠ 0)

/-- The method `GetDomainsSource(text)`. -/
def GetDomainsSource (d : ElemHideData) (text : Text) : Text := substr text 0 d.mDomainsEnd

/-- The method `GetSelector(text)`. -/
def GetSelector (d : ElemHideData) (text : Text) : Text := text.drop d.mSelectorStart

end ElemHideData

namespace ElemHideBase

/-- The `for` loop of the `NormalizeWhitespace` of ElemHideBase.cpp; the state
is `pos`, the text, `domainsEnd` and `delta`. -/
def normalizeLoop (len selectorStart : Nat) :
    Nat → Nat → Text → Nat → Nat → Option (Text × Nat × Nat)
  | 0, _, _, _, _ => none
  | fuel + 1, pos, text, domainsEnd, delta =>
    if pos < len then
      let domainsEnd1 := if pos = domainsEnd then domainsEnd - delta else domainsEnd
      if pos < selectorStart ∧ charAt text pos = ' ' then
        normalizeLoop len selectorStart fuel (pos + 1) text domainsEnd1 (delta + 1)
      else
        normalizeLoop len selectorStart fuel (pos + 1) (text.set (pos - delta) (charAt text pos))
          domainsEnd1 delta
    else some (text, domainsEnd, delta)

/-- The function `NormalizeWhitespace(text, domainsEnd, selectorStart)` of
ElemHideBase.cpp: the new text, `domainsEnd` and `selectorStart`. -/
def NormalizeWhitespace (text : Text) (domainsEnd selectorStart : Nat) :
    Option (Text × Nat × Nat) :=
  let len := text.length
  match normalizeLoop len selectorStart (len + 1) 1 text domainsEnd 0 with
  | none => none
  | some (text1, domainsEnd1, delta) =>
    some (substr text1 0 (len - delta), domainsEnd1, selectorStart - delta)

/-- How the first loop of `Parse` ends: by `return Type::UNKNOWN`, or by leaving
the loop (at a `#`, or at the end of the text). -/
inductive DomainsScan where
  | unknown
  | left (scanner : StringScanner) (data : ElemHideData) (seenSpaces : Bool)
deriving DecidableEq, Repr

/-- The loop `while (!scanner.done())` over the domains part in `Parse`. -/
def scanDomains : Nat → StringScanner → ElemHideData → Bool → Option DomainsScan
  | 0, _, _, _ => none
  | fuel + 1, scanner, data, seenSpaces =>
    if !scanner.done then
      let next := scanner.next.1
      let scanner1 := scanner.next.2
      if next = '#' then
        some (.left scanner1 ⟨scanner1.position, data.mSelectorStart⟩ seenSpaces)
      else if next = '/' ∨ next = '*' ∨ next = '|' ∨ next = '@' ∨ next = '"' ∨ next = '!' then
        some .unknown
      else if next = ' ' then
        scanDomains fuel scanner1 data true
      else
        scanDomains fuel scanner1 data seenSpaces
    else some (.left scanner data seenSpaces)

/-- What `Parse` leaves behind: the returned type and the four reference
arguments. -/
structure ParseResult where
  type : FilterType
  text : Text
  error : Text
  data : ElemHideData
  parsedDomains : ParsedDomains
deriving DecidableEq, Repr

/-- The lines of `Parse` from `seenSpaces |= scanner.skip(' ')` to `next()`:
the scanner after the separator characters, `seenSpaces`, `exception`,
`emulation` and the character `next`. -/
def scanSeparator (scanner : StringScanner) (seenSpaces : Bool) :
    Option (StringScanner × Bool × Bool × Bool × Char) :=
  match scanner.skip ' ' with
  | none => none
  | some (skipped1, scanner1) =>
    let seenSpaces1 := seenSpaces || skipped1
    let exception := (scanner1.skipOne '@').1
    let scanner2 := (scanner1.skipOne '@').2
    if exception then
      match scanner2.skip ' ' with
      | none => none
      | some (skipped2, scanner3) =>
        some (scanner3.next.2, seenSpaces1 || skipped2, exception, false, scanner3.next.1)
    else
      let emulation := (scanner2.skipOne '?').1
      let scanner3 := (scanner2.skipOne '?').2
      some (scanner3.next.2, seenSpaces1, exception, emulation, scanner3.next.1)

/-- The function `ElemHideBase::Parse(text, error, data, parsedDomains)`. -/
def Parse (text error : Text) (data : ElemHideData) (parsedDomains : ParsedDomains) :
    Option ParseResult :=
  let scanner := StringScanner.create text 0 '\x00'
  match scanDomains (text.length + 1) scanner data false with
  | none => none
  | some .unknown => some ⟨.UNKNOWN, text, error, data, parsedDomains⟩
  | some (.left scanner1 data1 seenSpaces1) =>
    match scanSeparator scanner1 seenSpaces1 with
    | none => none
    | some (scanner2, seenSpaces2, exception, emulation, next) =>
      if next ≠ '#' then some ⟨.UNKNOWN, text, error, data1, parsedDomains⟩
      else
        match scanner2.skip ' ' with
        | none => none
        | some (skipped3, scanner3) =>
          let seenSpaces3 := seenSpaces2 || skipped3
          if scanner3.done then some ⟨.UNKNOWN, text, error, data1, parsedDomains⟩
          else
            let data2 : ElemHideData := ⟨data1.mDomainsEnd, scanner3.position + 1⟩
            match (if seenSpaces3 then
                     NormalizeWhitespace text data2.mDomainsEnd data2.mSelectorStart
                   else some (text, data2.mDomainsEnd, data2.mSelectorStart)) with
            | none => none
            | some (text1, domainsEnd, selectorStart) =>
              let data3 : ElemHideData := ⟨domainsEnd, selectorStart⟩
              let text2 := toLower (text1.take data3.mDomainsEnd) ++ text1.drop data3.mDomainsEnd
              match ActiveFilter.ParseDomainsInternal (data3.GetDomainsSource text2) ',' false with
              | none => none
              | some parsed =>
                if parsed.hasEmpty then
                  some ⟨.INVALID, text2, "filter_invalid_domain".toList, data3, parsed⟩
                else if exception then
                  some ⟨.ELEMHIDEEXCEPTION, text2, error, data3, parsed⟩
                else if emulation then
                  some ⟨.ELEMHIDEEMULATION, text2, error, data3, parsed⟩
                else
                  some ⟨.ELEMHIDE, text2, error, data3, parsed⟩

/-- The constructor `ElemHideBase(type, text, data, parsedDomains)`: the
`ActiveFilter` part of the new object. -/
def create (type : FilterType) (text : Text) (data : ElemHideData)
    (parsedDomains : ParsedDomains) : ActiveFilter :=
  let base := ActiveFilter.create type text false
  if data.HasDomains then
    ⟨base.mType, base.mText, base.mIgnoreTrailingDot, base.mDisabled, base.mHitCount,
      base.mLastHit, some (ActiveFilter.FillDomains (data.GetDomainsSource text) parsedDomains),
      base.mSitekeys⟩
  else base

end ElemHideBase

/-! ## Filter.cpp: the registry and `Filter::FromText` -/

/-- Modelled from the spec: `CommentFilter::Parse` (CommentFilter.cpp is not
part of the sources): "If the first character is `!`, classify as Comment." -/
def CommentFilter.Parse (text : Text) : FilterType :=
  if text.head? = some '!' then .COMMENT else .UNKNOWN

/-- Modelled from the spec: the payload of a network filter, `RegExpFilterData`
(RegExpFilter.h is not part of the sources): pattern, content-type mask,
match-case flag and the two tri-states. -/
structure RegExpFilterData where
  pattern : Text
  contentType : Nat
  matchCase : Bool
  thirdParty : Option Bool
  collapse : Option Bool
deriving DecidableEq, Repr

/-- What a call `RegExpFilter::Parse(text, error, data.regexp)` leaves behind.
RegExpFilter.cpp is not part of the sources, so `FromText` takes that function
as an argument. -/
structure RegExpParseResult where
  type : FilterType
  text : Text
  error : Text
  data : RegExpFilterData
deriving DecidableEq, Repr

/-- A filter object on the heap, by class: `CommentFilter`, `InvalidFilter`, the
network filters (`BlockingFilter`, `WhitelistFilter`) and the element-hide
filters (`ElemHideFilter`, `ElemHideException`, `ElemHideEmulationFilter`). -/
inductive FilterObject where
  | comment (mText : Text)
  | invalid (mText : Text) (mReason : Text)
  | regexp (base : ActiveFilter) (mData : RegExpFilterData)
  | elemhide (base : ActiveFilter) (mData : ElemHideData)
deriving DecidableEq, Repr

namespace FilterObject

/-- The member `Filter::mType`. -/
def mType : FilterObject → FilterType
  | comment _ => .COMMENT
  | invalid _ _ => .INVALID
  | regexp base _ => base.mType
  | elemhide base _ => base.mType

/-- The member `Filter::mText`. -/
def mText : FilterObject → Text
  | comment t => t
  | invalid t _ => t
  | regexp base _ => base.mText
  | elemhide base _ => base.mText

end FilterObject

/-- A heap cell: the object and its reference count. -/
structure FilterCell where
  filter : FilterObject
  mRefCount : Nat
deriving DecidableEq, Repr

/-- The state `FromText` works on: the filter objects by address (`none` for a
destroyed object) and the map `knownFilters` from text to address. -/
structure World where
  heap : List (Option FilterCell)
  knownFilters : StringMap Nat
deriving DecidableEq, Repr

namespace World

/-- The expression `new T(...)`: the object gets the next address and the
reference count 1. -/
def alloc (w : World) (f : FilterObject) : Nat × World :=
  (w.heap.length, ⟨w.heap ++ [some ⟨f, 1⟩], w.knownFilters⟩)

/-- The call `AddRef()` on the object at an address. -/
def addRef (w : World) (p : Nat) : World :=
  ⟨w.heap.modify (Option.map fun c => ⟨c.filter, c.mRefCount + 1⟩) p, w.knownFilters⟩

/-- The destruction of the object at an address: `Filter::~Filter` erases its
text from `knownFilters`. -/
def destroy (w : World) (p : Nat) : World :=
  match w.heap.getD p none with
  | none => w
  | some c => ⟨w.heap.set p none, StringMap.erase w.knownFilters c.filter.mText⟩

/-- The object at an address. -/
def deref (w : World) (p : Nat) : Option FilterObject :=
  (w.heap.getD p none).map FilterCell.filter

end World

namespace Filter

/-- What `FromText` leaves behind: the returned pointer (`none` for `nullptr`),
the text its argument refers to afterwards, and the new state. -/
structure FromTextResult where
  result : Option Nat
  text : Text
  world : World
deriving DecidableEq, Repr

/-- The `switch (type)` of `FromText` and the registration after it, run when
the text is not a known filter. -/
def construct (w : World) (type : FilterType) (text error : Text) (elemhide : ElemHideData)
    (regexp : RegExpFilterData) (parsedDomains : ParsedDomains) : FromTextResult :=
  let made : Option (Nat × World) :=
    match type with
    | .COMMENT => some (w.alloc (.comment text))
    | .INVALID => some (w.alloc (.invalid text error))
    | .BLOCKING => some (w.alloc (.regexp (ActiveFilter.create .BLOCKING text true) regexp))
    | .WHITELIST => some (w.alloc (.regexp (ActiveFilter.create .WHITELIST text true) regexp))
    | .ELEMHIDE =>
      some (w.alloc (.elemhide (ElemHideBase.create .ELEMHIDE text elemhide parsedDomains)
        elemhide))
    | .ELEMHIDEEXCEPTION =>
      some (w.alloc
        (.elemhide (ElemHideBase.create .ELEMHIDEEXCEPTION text elemhide parsedDomains)
          elemhide))
    | .ELEMHIDEEMULATION =>
      let emulation := ElemHideBase.create .ELEMHIDEEMULATION text elemhide parsedDomains
      let first := w.alloc (.elemhide emulation elemhide)
      if emulation.IsGeneric then
        let second := first.2.alloc
          (.invalid text "filter_elemhideemulation_nodomain".toList)
        some (second.1, second.2.destroy first.1)
      else some first
    | _ => none
  match made with
  | none => ⟨none, text, w⟩
  | some (p, w1) =>
    match w1.deref p with
    | none => ⟨none, text, w1⟩
    | some filter =>
      ⟨some p, text, ⟨w1.heap, StringMap.assign w1.knownFilters filter.mText p⟩⟩

/-- The function `Filter::FromText(text)`. -/
def FromText (regexpParse : Text → RegExpParseResult) (w : World) (text : Text) :
    Option FromTextResult :=
  match NormalizeWhitespace text with
  | none => none
  | some text1 =>
    if text1 = [] then some ⟨none, text1, w⟩
    else
      let type1 := CommentFilter.Parse text1
      match (if type1 = .UNKNOWN then
               ElemHideBase.Parse text1 [] ⟨0, 0⟩ ParsedDomains.create
             else some ⟨type1, text1, [], ⟨0, 0⟩, ParsedDomains.create⟩) with
      | none => none
      | some parsed =>
        let re : RegExpParseResult :=
          if parsed.type = .UNKNOWN then regexpParse parsed.text
          else ⟨parsed.type, parsed.text, parsed.error, ⟨[], 0, false, none, none⟩⟩
        match StringMap.find w.knownFilters re.text with
        | some known => some ⟨some known, re.text, w.addRef known⟩
        | none =>
          some (construct w re.type re.text re.error parsed.data re.data parsed.parsedDomains)

end Filter

/-! ## The release of a reference, `ParseDomains` and `GetSelector` -/

/-- Modelled from the spec: `ref_counted::ReleaseRef` (intrusive_ptr.h is not
part of the sources): "`erase(text)` (invoked when reference count reaches
zero)". The count of the object drops by one, and the object is destroyed when
no reference is left. -/
def World.releaseRef (w : World) (p : Nat) : World :=
  match w.heap.getD p none with
  | none => w
  | some c =>
    if c.mRefCount ≤ 1 then w.destroy p
    else ⟨w.heap.set p (some ⟨c.filter, c.mRefCount - 1⟩), w.knownFilters⟩

/-- The method `ActiveFilter::ParseDomains`: the new value of `mDomains`. -/
def ActiveFilter.ParseDomains (domains : Text) (separator : Char) (ignoreTrailingDot : Bool) :
    Option DomainMap :=
  match ActiveFilter.ParseDomainsInternal domains separator ignoreTrailingDot with
  | none => none
  | some parsed => some (ActiveFilter.FillDomains domains parsed)

namespace ElemHideBase

/-- The constant `OPENING_CURLY_REPLACEMENT`, the literal `"\\7B "`. -/
def OPENING_CURLY_REPLACEMENT : Text := ['\\', '7', 'B', ' ']

/-- The constant `CLOSING_CURLY_REPLACEMENT`, the literal `"\\7D "`. -/
def CLOSING_CURLY_REPLACEMENT : Text := ['\\', '7', 'D', ' ']

/-- Modelled from the spec: `str_length_of` (Utils.h is not part of the
sources), the number of characters of a literal; scenario S4 has the
replacements without a terminating NUL. The constant `CURLY_REPLACEMENT_SIZE`. -/
def CURLY_REPLACEMENT_SIZE : Nat := OPENING_CURLY_REPLACEMENT.length

/-- The call `std::memcpy(dest + current, src, n)` on character buffers. -/
def memcpy (dest : Text) (current : Nat) (src : Text) : Nat → Text
  | 0 => dest
  | n + 1 => (memcpy dest current src n).set (current + n) (charAt src n)

/-- The `for` loop of `EscapeCurlies`; the state is `i`, the buffer `result`
and the write position `current`. -/
def escapeLoop (str : Text) : Nat → Nat → Text → Nat → Option Text
  | 0, _, _, _ => none
  | fuel + 1, i, result, current =>
    if i < str.length then
      if charAt str i = '\x7d' then
        escapeLoop str fuel (i + 1)
          (memcpy result current CLOSING_CURLY_REPLACEMENT CURLY_REPLACEMENT_SIZE)
          (current + CURLY_REPLACEMENT_SIZE)
      else if charAt str i = '\x7b' then
        escapeLoop str fuel (i + 1)
          (memcpy result current OPENING_CURLY_REPLACEMENT CURLY_REPLACEMENT_SIZE)
          (current + CURLY_REPLACEMENT_SIZE)
      else
        escapeLoop str fuel (i + 1) (result.set current (charAt str i)) (current + 1)
    else some result

/-- The function `EscapeCurlies(replacementCount, str)`; the buffer
`OwnedString result(size)` starts with `size` unset characters. -/
def EscapeCurlies (replacementCount : Nat) (str : Text) : Option Text :=
  escapeLoop str (str.length + 1) 0
    (List.replicate (str.length + replacementCount * (CURLY_REPLACEMENT_SIZE - 1)) '\x00') 0

/-- The counting loop of `GetSelector`. -/
def countLoop (selector : Text) : Nat → Nat → Nat → Option Nat
  | 0, _, _ => none
  | fuel + 1, i, replacementCount =>
    if i < selector.length then
      if charAt selector i = '\x7d' ∨ charAt selector i = '\x7b' then
        countLoop selector fuel (i + 1) (replacementCount + 1)
      else countLoop selector fuel (i + 1) replacementCount
    else some replacementCount

/-- The method `ElemHideBase::GetSelector()` of a filter with the members
`mText` (in `base`) and `mData`. -/
def GetSelector (base : ActiveFilter) (mData : ElemHideData) : Option Text :=
  let selector := mData.GetSelector base.mText
  match countLoop selector (selector.length + 1) 0 0 with
  | none => none
  | some replacementCount =>
    if replacementCount ≠ 0 then EscapeCurlies replacementCount selector
    else some selector

end ElemHideBase

/-- The method `GetSelector()` on a filter object; only the element-hide
classes have it. -/
def FilterObject.GetSelector : FilterObject → Option Text
  | .elemhide base mData => ElemHideBase.GetSelector base mData
  | _ => none

/-! ## C library functions and `lexical_cast`; the rest of StringScanner.h -/

/-- The C library function `std::iswdigit`: the decimal digits. -/
def iswdigit (c : Char) : Bool := decide ('0' ≤ c ∧ c ≤ '9')

/-- The C library function `std::iswspace`, in the "C" locale: the space and the
characters from `\t` to `\r`. -/
def iswspace (c : Char) : Bool := decide (c = ' ' ∨ ('\t' ≤ c ∧ c ≤ '\r'))

/-- The largest value of `int64_t`. -/
def INT64_MAX : Int := 9223372036854775807

/-- The value that a result of `int64_t` arithmetic has in two's complement. -/
def wrapInt64 (x : Int) : Int := (x + 9223372036854775808) % 18446744073709551616 - 9223372036854775808

/-- The number that a run of decimal digits denotes. -/
def digitsValue (s : Text) : Nat := s.foldl (fun n c => 10 * n + (c.toNat - '0'.toNat)) 0

/-- Modelled from the spec: `lexical_cast<int64_t>` (String.h is not part of the
sources) on a run of digits: "Integer parses default to 0 on failure", which
covers the empty text, a text with another character and a value that does not
fit. -/
def lexical_cast_int64 (s : Text) : Int :=
  if s ≠ [] ∧ s.all iswdigit = true ∧ (digitsValue s : Int) ≤ INT64_MAX then (digitsValue s : Int)
  else 0

/-- Modelled from the spec: `String::find(str)` (String.h is not part of the
sources): the index of the first occurrence of `str`, `none` standing for
`npos`. -/
def findStr : Text → Text → Option Nat
  | [], pat => if pat = [] then some 0 else none
  | c :: rest, pat =>
    if pat.isPrefixOf (c :: rest) then some 0 else (findStr rest pat).map (fun i => i + 1)

namespace StringScanner

/-- The method `back()`. -/
def back (s : StringScanner) : StringScanner :=
  if s.mPos > 0 then ⟨s.mStr, s.mPos - 1, s.mEnd, s.mTerminator⟩ else s

/-- The expression `position() + 1` in `size_type` arithmetic: `position()` is
`mPos - 1` modulo the word size, so the sum is `mPos` for every cursor, also
for `mPos = 0`, where `position()` alone wraps around. -/
def positionPlusOne (s : StringScanner) : Nat := s.mPos

/-- The loop of `skipWhiteSpace`. -/
def skipWhiteSpaceLoop : Nat → StringScanner → Bool → Option (Bool × StringScanner)
  | 0, _, _ => none
  | fuel + 1, s, skipped =>
    if !s.done && iswspace (charAt s.mStr s.mPos) then
      skipWhiteSpaceLoop fuel ⟨s.mStr, s.mPos + 1, s.mEnd, s.mTerminator⟩ true
    else some (skipped, s)

/-- The method `skipWhiteSpace()`. -/
def skipWhiteSpace (s : StringScanner) : Option (Bool × StringScanner) :=
  skipWhiteSpaceLoop (s.mEnd - s.mPos + 1) s false

/-- The method `skipString(str)`; `memcmp` compares `str` with the characters
at the cursor. (It is called with the cursor inside the text, where the
unsigned difference `mStr.length() - mPos` does not wrap.) -/
def skipString (s : StringScanner) (str : Text) : Bool × StringScanner :=
  if str.length > s.mStr.length - s.mPos then (false, s)
  else if substr s.mStr s.mPos str.length = str then
    (true, ⟨s.mStr, s.mPos + str.length, s.mEnd, s.mTerminator⟩)
  else (false, s)

end StringScanner

/-! ## DownloadableSubscription.cpp -/

/-- The constant `MILLIS_IN_HOUR`. -/
def MILLIS_IN_HOUR : Int := 60 * 60 * 1000

/-- The constant `MILLIS_IN_DAY`. -/
def MILLIS_IN_DAY : Int := 24 * MILLIS_IN_HOUR

/-- The constant `MAX_HOUR`. -/
def MAX_HOUR : Int := INT64_MAX / MILLIS_IN_HOUR

/-- The constant `MAX_DAY`. -/
def MAX_DAY : Int := INT64_MAX / MILLIS_IN_DAY

/-- The constant `ADBLOCK_HEADER`. -/
def ADBLOCK_HEADER : Text := "[Adblock".toList

/-- The constant `ADBLOCK_PLUS_EXTRA_HEADER`. -/
def ADBLOCK_PLUS_EXTRA_HEADER : Text := "Plus".toList

/-- The constant `ERROR_INVALID_DATA`. -/
def ERROR_INVALID_DATA : Text := "synchronize_invalid_data".toList

/-- The `for` loop of `ParseParam`; the state is `i`, `foundColon`, `beginParam`
and `endParam`, the result `beginParam`, `endParam` and `beginValue` (the loop
is left as soon as `beginValue` is set). -/
def paramLoop (text : Text) : Nat → Nat → Bool → Nat → Nat → Option (Nat × Nat × Nat)
  | 0, _, _, _, _ => none
  | fuel + 1, i, foundColon, beginParam, endParam =>
    if i < text.length then
      if charAt text i = ' ' ∨ charAt text i = '\t' then
        paramLoop text fuel (i + 1) foundColon beginParam
          (if beginParam > 0 ∧ foundColon = false then i else endParam)
      else if charAt text i = ':' then
        paramLoop text fuel (i + 1) true beginParam i
      else if foundColon then
        if i > 0 then some (beginParam, endParam, i)
        else paramLoop text fuel (i + 1) foundColon beginParam endParam
      else
        paramLoop text fuel (i + 1) foundColon (if beginParam = 0 then i else beginParam) endParam
    else some (beginParam, endParam, 0)

/-- The function `ParseParam(text)`: `some (key, value)` for a pair whose key is
a view of the text, `none` for the default-constructed pair, whose key
`is_invalid()`. (The read `text[0]` of an empty text is a read behind the view;
`charAt` gives NUL there.) -/
def ParseParam (text : Text) : Option (Option (Text × Text)) :=
  if charAt text 0 = '!' then
    match paramLoop text (text.length + 1) 1 false 0 0 with
    | none => none
    | some (beginParam, endParam, beginValue) =>
      if beginValue > 0 then
        some (some (toLower (substr text beginParam (endParam - beginParam)),
          substr text beginValue (text.length - beginValue)))
      else some none
  else some none

/-- The members of `DownloadableSubscription_Parser` that DownloadableSubscription.cpp
uses. (DownloadableSubscription.h of the sources declares `mFiltersText` and
`mParams`; `mRequiredVersion` and `mError` are the ones that the methods of
DownloadableSubscription.cpp read and write.) -/
structure DownloadableSubscription_Parser where
  mFiltersText : List Text
  mParams : StringMap Text
  mRequiredVersion : Text
  mError : Text
deriving DecidableEq, Repr

namespace DownloadableSubscription_Parser

/-- The constructor `DownloadableSubscription_Parser()`. -/
def create : DownloadableSubscription_Parser := ⟨[], [], [], []⟩

/-- The first loop of `GetNextLine`:
`while (ch != '\r' && ch != '\n') { ch = scanner.next(); if (ch == 0) break; }` -/
def lineEndLoop : Nat → StringScanner → Char → Option (StringScanner × Char)
  | 0, _, _ => none
  | fuel + 1, scanner, ch =>
    if ch ≠ '\r' ∧ ch ≠ '\n' then
      if scanner.next.1 = '\x00' then some (scanner.next.2, scanner.next.1)
      else lineEndLoop fuel scanner.next.2 scanner.next.1
    else some (scanner, ch)

/-- The second loop of `GetNextLine`:
`while (scanner.skipOne('\r') || scanner.skipOne('\n'));` -/
def skipNewlines : Nat → StringScanner → Option StringScanner
  | 0, _ => none
  | fuel + 1, scanner =>
    if (scanner.skipOne '\r').1 then skipNewlines fuel (scanner.skipOne '\r').2
    else if ((scanner.skipOne '\r').2.skipOne '\n').1 then
      skipNewlines fuel ((scanner.skipOne '\r').2.skipOne '\n').2
    else some ((scanner.skipOne '\r').2.skipOne '\n').2

/-- The method `GetNextLine(buffer, line)`: the returned flag, the buffer and
the line afterwards. -/
def GetNextLine (buffer : Text) : Option (Bool × Text × Text) :=
  match lineEndLoop (buffer.length + 2) (StringScanner.create buffer 0 '\x00') '\x00' with
  | none => none
  | some (scanner, ch) =>
    let eol := scanner.position
    let line := substr buffer 0 eol
    if eol = 0 ∨ ch = '\x00' then some (false, buffer, line)
    else
      match skipNewlines (buffer.length + 1) scanner with
      | none => none
      | some scanner1 => some (true, buffer.drop (scanner1.position + 1), line)

/-- The loop of `ProcessFirstLine`:
`while ((ch = scanner.next()) && (ch == '.' || std::iswdigit(ch)));` -/
def versionLoop : Nat → StringScanner → Option (StringScanner × Char)
  | 0, _ => none
  | fuel + 1, scanner =>
    if scanner.next.1 ≠ '\x00' ∧ (scanner.next.1 = '.' ∨ iswdigit scanner.next.1 = true) then
      versionLoop fuel scanner.next.2
    else some (scanner.next.2, scanner.next.1)

/-- The method `ProcessFirstLine(line)`: the returned flag and the parser
afterwards. -/
def ProcessFirstLine (self : DownloadableSubscription_Parser) (line : Text) :
    Option (Bool × DownloadableSubscription_Parser) :=
  match findStr line ADBLOCK_HEADER with
  | none => some (false, self)
  | some index =>
    let current := line.drop (index + ADBLOCK_HEADER.length)
    match (StringScanner.create current 0 '\x00').skipWhiteSpace with
    | none => none
    | some (skipped, scanner1) =>
      let plus := if skipped then scanner1.skipString ADBLOCK_PLUS_EXTRA_HEADER
        else (false, scanner1)
      match (if plus.1 then (plus.2.skipWhiteSpace).map Prod.snd else some plus.2) with
      | none => none
      | some scanner2 =>
        let index1 := scanner2.positionPlusOne
        match versionLoop (current.length + 2) scanner2 with
        | none => none
        | some (scanner3, ch) =>
          let scanner4 := if ch ≠ '\x00' then scanner3.back else scanner3
          let minVersion :=
            if scanner4.positionPlusOne > index1 then
              substr current index1 (scanner4.positionPlusOne - index1)
            else []
          if ch ≠ ']' then some (false, self)
          else some (true, ⟨self.mFiltersText, self.mParams, minVersion, self.mError⟩)

/-- The method `ProcessLine(line)`: the parser afterwards. -/
def ProcessLine (self : DownloadableSubscription_Parser) (line : Text) :
    Option DownloadableSubscription_Parser :=
  match ParseParam line with
  | none => none
  | some none =>
    if line ≠ [] then
      some ⟨self.mFiltersText ++ [line], self.mParams, self.mRequiredVersion, self.mError⟩
    else some self
  | some (some param) =>
    some ⟨self.mFiltersText, StringMap.assign self.mParams param.1 param.2,
      self.mRequiredVersion, self.mError⟩

/-- What a call of `Process` leaves behind: the returned flag, the parser, and
the lines that were passed to `ProcessFirstLine` and `ProcessLine`, in order. -/
structure ProcessResult where
  result : Bool
  parser : DownloadableSubscription_Parser
  lines : List Text
deriving DecidableEq, Repr

/-- The `while (true)` loop of `Process`; the state is the parser,
`currentBuffer` and `firstLine`, and the lines handled so far. -/
def processLoop : Nat → DownloadableSubscription_Parser → Text → Bool → List Text →
    Option ProcessResult
  | 0, _, _, _, _ => none
  | fuel + 1, self, currentBuffer, firstLine, lines =>
    match GetNextLine currentBuffer with
    | none => none
    | some (more, buffer1, line) =>
      if firstLine then
        match ProcessFirstLine self line with
        | none => none
        | some (ok, self1) =>
          if !ok then
            some ⟨false, ⟨self1.mFiltersText, self1.mParams, self1.mRequiredVersion,
              ERROR_INVALID_DATA⟩, lines ++ [line]⟩
          else if !more then some ⟨true, self1, lines ++ [line]⟩
          else processLoop fuel self1 buffer1 false (lines ++ [line])
      else
        match ProcessLine self line with
        | none => none
        | some self1 =>
          if !more then some ⟨true, self1, lines ++ [line]⟩
          else processLoop fuel self1 buffer1 false (lines ++ [line])

/-- The method `Process(buffer)`. -/
def Process (self : DownloadableSubscription_Parser) (buffer : Text) : Option ProcessResult :=
  processLoop (buffer.length + 2) self buffer true []

/-- The first loop of `ParseExpires`, over the number; the state is the scanner,
`numStart` and `numLen`. -/
def expiresNumberLoop : Nat → StringScanner → Nat → Nat → Option (StringScanner × Nat × Nat)
  | 0, _, _, _ => none
  | fuel + 1, scanner, numStart, numLen =>
    if !scanner.done then
      if iswdigit scanner.next.1 then
        expiresNumberLoop fuel scanner.next.2
          (if numLen = 0 then scanner.next.2.position else numStart) (numLen + 1)
      else if iswspace scanner.next.1 then
        if numLen ≠ 0 then some (scanner.next.2, numStart, numLen)
        else expiresNumberLoop fuel scanner.next.2 numStart numLen
      else
        some (if numLen ≠ 0 then scanner.next.2.back else scanner.next.2, numStart, numLen)
    else some (scanner, numStart, numLen)

/-- The second loop of `ParseExpires`, over the unit: the value of `isHour`
after it. -/
def expiresUnitLoop : Nat → StringScanner → Bool → Option Bool
  | 0, _, _ => none
  | fuel + 1, scanner, isHour =>
    if !scanner.done then
      if iswspace scanner.next.1 then expiresUnitLoop fuel scanner.next.2 isHour
      else some (if scanner.next.1 = 'h' then true else isHour)
    else some isHour

/-- The method `ParseExpires(expires)`. -/
def ParseExpires (expires : Text) : Option Int :=
  match expiresNumberLoop (expires.length + 1) (StringScanner.create expires 0 '\x00') 0 0 with
  | none => none
  | some (scanner, numStart, numLen) =>
    let num := lexical_cast_int64 (substr expires numStart numLen)
    if num = 0 then some 0
    else
      match expiresUnitLoop (expires.length + 1) scanner false with
      | none => none
      | some isHour =>
        if (isHour = true ∧ num > MAX_HOUR) ∨ num > MAX_DAY then some 0
        else some (wrapInt64 (num * (if isHour then MILLIS_IN_HOUR else MILLIS_IN_DAY)))

end DownloadableSubscription_Parser

/-! ## ActiveFilter.h: the properties; `Serialize` (Filter.cpp, ActiveFilter.cpp) -/

/-- The number of values of `unsigned int`, which has 32 bits on the targets of
these sources (the bindings are built with Emscripten). -/
def UINT_RANGE : Nat := 4294967296

/-- The number of values of `uint64_t`. -/
def UINT64_RANGE : Nat := 18446744073709551616

/-- Modelled from the spec: `String::append` of an unsigned number (String.h is
not part of the sources): "`hitCount=<n>`", the decimal digits of the number. -/
def decimal (n : Nat) : Text := Nat.toDigits 10 n

/-- Modelled from the spec: `String::append` of an `int` (String.h is not part
of the sources): "Each non-default field emits `key=value\n`", the decimal
digits, behind a `-` for a negative number. -/
def decimalInt (n : Int) : Text :=
  if n < 0 then '-' :: decimal n.natAbs else decimal n.natAbs

/-- The method `Filter::Serialize()` of a filter with the text `mText`. -/
def Filter.Serialize (mText : Text) : Text :=
  let result := "[Filter]\ntext=".toList
  let result := result ++ mText
  let result := result ++ ['\n']
  result

namespace ActiveFilter

/-- The getter `GetDisabled()` that `FILTER_PROPERTY` declares. -/
def GetDisabled (f : ActiveFilter) : Bool := f.mDisabled

/-- The setter `SetDisabled(value)` that `FILTER_PROPERTY` declares:
`if (name != value) name = value;` (the notification that follows goes to the
host and leaves the filter as it is). -/
def SetDisabled (f : ActiveFilter) (value : Bool) : ActiveFilter :=
  if f.mDisabled ≠ value then
    ⟨f.mType, f.mText, f.mIgnoreTrailingDot, value, f.mHitCount, f.mLastHit, f.mDomains,
      f.mSitekeys⟩
  else f

/-- The getter `GetHitCount()`. -/
def GetHitCount (f : ActiveFilter) : Nat := f.mHitCount

/-- The setter `SetHitCount(value)`; the parameter has the type `unsigned int`,
so the number that is passed arrives reduced to 32 bits. -/
def SetHitCount (f : ActiveFilter) (value : Nat) : ActiveFilter :=
  if f.mHitCount ≠ value % UINT_RANGE then
    ⟨f.mType, f.mText, f.mIgnoreTrailingDot, f.mDisabled, value % UINT_RANGE, f.mLastHit,
      f.mDomains, f.mSitekeys⟩
  else f

/-- The getter `GetLastHit()`. -/
def GetLastHit (f : ActiveFilter) : Nat := f.mLastHit

/-- The setter `SetLastHit(value)`; the parameter has the type `unsigned int`,
so the number that is passed arrives reduced to 32 bits. -/
def SetLastHit (f : ActiveFilter) (value : Nat) : ActiveFilter :=
  if f.mLastHit ≠ value % UINT_RANGE then
    ⟨f.mType, f.mText, f.mIgnoreTrailingDot, f.mDisabled, f.mHitCount, value % UINT_RANGE,
      f.mDomains, f.mSitekeys⟩
  else f

/-- The method `ActiveFilter::Serialize()`. -/
def Serialize (f : ActiveFilter) : Text :=
  let result := Filter.Serialize f.mText
  let result := if f.mDisabled then result ++ "disabled=true\n".toList else result
  let result :=
    if f.mHitCount ≠ 0 then result ++ "hitCount=".toList ++ decimal f.mHitCount ++ ['\n']
    else result
  let result :=
    if f.mLastHit ≠ 0 then result ++ "lastHit=".toList ++ decimal f.mLastHit ++ ['\n']
    else result
  result

end ActiveFilter

/-! ## DownloadableSubscription.h / DownloadableSubscription.cpp: the subscription -/

/-- Modelled from the spec: the members of `Subscription` (Subscription.h is not
part of the sources): "Common: `id` (URL-or-synthetic), `title`, `disabled`,
`listed` (is it in storage), `filters` (ordered sequence of shared Filter
references)". A filter reference is the address of the filter, `none` for a
null pointer. -/
structure Subscription where
  mID : Text
  mTitle : Text
  mDisabled : Bool
  mListed : Bool
  mFilters : List (Option Nat)
deriving DecidableEq, Repr

/-- The state of a `DownloadableSubscription` object: the `Subscription` part
and the members that the property lines of DownloadableSubscription.h declare
(`uint64_t` and `int` members as numbers). -/
structure DownloadableSubscription extends Subscription where
  mFixedTitle : Bool
  mHomepage : Text
  mLastCheck : Nat
  mHardExpiration : Nat
  mSoftExpiration : Nat
  mLastDownload : Nat
  mDownloadStatus : Text
  mLastSuccess : Nat
  mErrorCount : Int
  mDataRevision : Nat
  mRequiredVersion : Text
  mDownloadCount : Int
deriving DecidableEq, Repr

/-- Modelled from the spec: the constructor `Subscription(type, id)`
(Subscription.h is not part of the sources): a subscription with this `id`, no
title, not disabled, not listed and without filters. -/
def Subscription.create (id : Text) : Subscription := ⟨id, [], false, false, []⟩

namespace DownloadableSubscription

/-- The getter `GetTitle()` of `Subscription`. -/
def GetTitle (s : DownloadableSubscription) : Text := s.mTitle

/-- Modelled from the spec: the setter `SetTitle(value)` of `Subscription`
(Subscription.h is not part of the sources): "set subscription title". -/
def SetTitle (s : DownloadableSubscription) (value : Text) : DownloadableSubscription :=
  ⟨⟨s.mID, value, s.mDisabled, s.mListed, s.mFilters⟩, s.mFixedTitle, s.mHomepage,
    s.mLastCheck, s.mHardExpiration, s.mSoftExpiration, s.mLastDownload, s.mDownloadStatus,
    s.mLastSuccess, s.mErrorCount, s.mDataRevision, s.mRequiredVersion, s.mDownloadCount⟩

/-- The getter `GetFixedTitle()`. -/
def GetFixedTitle (s : DownloadableSubscription) : Bool := s.mFixedTitle

/-- Modelled from the spec: the setter `SetFixedTitle(value)`; the macro
`SUBSCRIPTION_PROPERTY` is in Subscription.h, which is not part of the sources:
"`fixedTitle=true`; else `fixedTitle=false`". -/
def SetFixedTitle (s : DownloadableSubscription) (value : Bool) : DownloadableSubscription :=
  ⟨s.toSubscription, value, s.mHomepage, s.mLastCheck, s.mHardExpiration, s.mSoftExpiration,
    s.mLastDownload, s.mDownloadStatus, s.mLastSuccess, s.mErrorCount, s.mDataRevision,
    s.mRequiredVersion, s.mDownloadCount⟩

/-- Modelled from the spec: the setter `SetDataRevision(value)` (see
`SetFixedTitle`): "`dataRevision := parseInt(params["version"], 0)`". -/
def SetDataRevision (s : DownloadableSubscription) (value : Nat) : DownloadableSubscription :=
  ⟨s.toSubscription, s.mFixedTitle, s.mHomepage, s.mLastCheck, s.mHardExpiration,
    s.mSoftExpiration, s.mLastDownload, s.mDownloadStatus, s.mLastSuccess, s.mErrorCount, value,
    s.mRequiredVersion, s.mDownloadCount⟩

/-- Modelled from the spec: the setter `SetRequiredVersion(value)` (see
`SetFixedTitle`): "Copy `requiredVersion` to subscription". -/
def SetRequiredVersion (s : DownloadableSubscription) (value : Text) :
    DownloadableSubscription :=
  ⟨s.toSubscription, s.mFixedTitle, s.mHomepage, s.mLastCheck, s.mHardExpiration,
    s.mSoftExpiration, s.mLastDownload, s.mDownloadStatus, s.mLastSuccess, s.mErrorCount,
    s.mDataRevision, value, s.mDownloadCount⟩

/-- The getter `GetFilters()` of `Subscription`. -/
def GetFilters (s : DownloadableSubscription) : List (Option Nat) := s.mFilters

/-- Modelled from the spec: `Subscription::SetFilters(filters)` (Subscription.h
is not part of the sources): "atomically replace the subscription's filter
list"; the references that the previous list held are released. -/
def SetFilters (w : World) (s : DownloadableSubscription) (filters : List (Option Nat)) :
    DownloadableSubscription × World :=
  (⟨⟨s.mID, s.mTitle, s.mDisabled, s.mListed, filters⟩, s.mFixedTitle, s.mHomepage,
      s.mLastCheck, s.mHardExpiration, s.mSoftExpiration, s.mLastDownload, s.mDownloadStatus,
      s.mLastSuccess, s.mErrorCount, s.mDataRevision, s.mRequiredVersion, s.mDownloadCount⟩,
    s.mFilters.foldl
      (fun w1 p =>
        match p with
        | some a => w1.releaseRef a
        | none => w1) w)

/-- The constructor `DownloadableSubscription(id)`. -/
def create (id : Text) : DownloadableSubscription :=
  SetTitle ⟨Subscription.create id, false, [], 0, 0, 0, 0, [], 0, 0, 0, [], 0⟩ id

/-- The method `DownloadableSubscription::Serialize()`. Subscription.h and
Subscription.cpp are not part of the sources, so the method takes
`Subscription::Serialize` as an argument. -/
def Serialize (Subscription_Serialize : Subscription → Text) (s : DownloadableSubscription) :
    Text :=
  let result := Subscription_Serialize s.toSubscription
  let result := if s.mFixedTitle then result ++ "fixedTitle=true\n".toList else result
  let result :=
    if s.mHomepage ≠ [] then result ++ "homepage=".toList ++ s.mHomepage ++ ['\n'] else result
  let result :=
    if s.mLastCheck ≠ 0 then result ++ "lastCheck=".toList ++ decimal s.mLastCheck ++ ['\n']
    else result
  let result :=
    if s.mHardExpiration ≠ 0 then
      result ++ "expires=".toList ++ decimal s.mHardExpiration ++ ['\n']
    else result
  let result :=
    if s.mSoftExpiration ≠ 0 then
      result ++ "softExpiration=".toList ++ decimal s.mSoftExpiration ++ ['\n']
    else result
  let result :=
    if s.mLastDownload ≠ 0 then
      result ++ "lastDownload=".toList ++ decimal s.mLastDownload ++ ['\n']
    else result
  let result :=
    if s.mDownloadStatus ≠ [] then
      result ++ "downloadStatus=".toList ++ s.mDownloadStatus ++ ['\n']
    else result
  let result :=
    if s.mLastSuccess ≠ 0 then
      result ++ "lastSuccess=".toList ++ decimal s.mLastSuccess ++ ['\n']
    else result
  let result :=
    if s.mErrorCount ≠ 0 then result ++ "errors=".toList ++ decimalInt s.mErrorCount ++ ['\n']
    else result
  let result :=
    if s.mDataRevision ≠ 0 then result ++ "version=".toList ++ decimal s.mDataRevision ++ ['\n']
    else result
  let result :=
    if s.mRequiredVersion ≠ [] then
      result ++ "requiredVersion=".toList ++ s.mRequiredVersion ++ ['\n']
    else result
  let result :=
    if s.mDownloadCount ≠ 0 then
      result ++ "downloadCount=".toList ++ decimalInt s.mDownloadCount ++ ['\n']
    else result
  result

end DownloadableSubscription

namespace DownloadableSubscription_Parser

/-- What a call of `Finalize` leaves behind: the returned number, the
subscription and the registry of the filters. -/
structure FinalizeResult where
  result : Int
  subscription : DownloadableSubscription
  world : World
deriving DecidableEq, Repr

/-- The loop of `Finalize` over `mFiltersText`:
`filters.emplace_back(Filter::FromText(dependent), false);` -/
def finalizeLoop (regexpParse : Text → RegExpParseResult) :
    List Text → World → List (Option Nat) → Option (List (Option Nat) × World)
  | [], w, filters => some (filters, w)
  | text :: rest, w, filters =>
    match Filter.FromText regexpParse w text with
    | none => none
    | some r => finalizeLoop regexpParse rest r.world (filters ++ [r.result])

/-- The method `Finalize(subscription)`. The two notifications go to the host
and leave the parser and the subscription as they are. `lexical_cast<int32_t>`
(String.h is not part of the sources) gets the whole value of the `version`
param, for which neither the sources nor the specification fix the result, so
the method takes that function as an argument; the `int32_t` it returns is
converted to the `uint64_t` parameter of `SetDataRevision`. -/
def Finalize (regexpParse : Text → RegExpParseResult) (lexical_cast_int32 : Text → Int)
    (self : DownloadableSubscription_Parser) (w : World)
    (subscription : DownloadableSubscription) : Option FinalizeResult :=
  let subscription1 :=
    if self.mRequiredVersion ≠ [] then subscription.SetRequiredVersion self.mRequiredVersion
    else subscription
  let subscription2 :=
    match StringMap.find self.mParams "title".toList with
    | some second => (subscription1.SetTitle second).SetFixedTitle true
    | none => subscription1.SetFixedTitle false
  let version : Int :=
    match StringMap.find self.mParams "version".toList with
    | some second => lexical_cast_int32 second
    | none => 0
  let subscription3 := subscription2.SetDataRevision (version % (UINT64_RANGE : Int)).toNat
  match (match StringMap.find self.mParams "expires".toList with
         | some second => ParseExpires second
         | none => some 0) with
  | none => none
  | some expires =>
    match finalizeLoop regexpParse self.mFiltersText w [] with
    | none => none
    | some (filters, w1) =>
      some ⟨expires, (subscription3.SetFilters w1 filters).1,
        (subscription3.SetFilters w1 filters).2⟩

end DownloadableSubscription_Parser

/-! ## The download parser with the bounds of its reads

The functions below are the functions of StringScanner.h and
DownloadableSubscription.cpp once more, with every read `str[i]` checked against
the length of `str`: a read with `i` in the text gives the character, any other
read ends the run. -/

/-- The outcome of a run with checked reads: the result, a read `str[index]` of
a text of the given length with `index` not below the length, or the end of the
fuel. -/
inductive Checked (α : Type) where
  | ok (value : α)
  | outOfBounds (index length : Nat)
  | noFuel
deriving DecidableEq, Repr

namespace Checked

/-- The rest of a run behind a checked step. -/
def bind {α β : Type} (x : Checked α) (f : α → Checked β) : Checked β :=
  match x with
  | ok value => f value
  | outOfBounds index length => outOfBounds index length
  | noFuel => noFuel

/-- The outcome of a function without checked reads. -/
def ofOption {α : Type} : Option α → Checked α
  | some value => ok value
  | none => noFuel

end Checked

/-- The read `str[i]` with its bounds. -/
def readAt (str : Text) (i : Nat) : Checked Char :=
  if i < str.length then .ok (charAt str i) else .outOfBounds i str.length

namespace StringScanner

/-- The method `next()` with the read `mStr[mPos]` checked; the read is made
only when `done()` is false. -/
def nextChecked (s : StringScanner) : Checked (Char × StringScanner) :=
  if s.done then .ok (s.mTerminator, ⟨s.mStr, s.mPos + 1, s.mEnd, s.mTerminator⟩)
  else (readAt s.mStr s.mPos).bind fun c => .ok (c, ⟨s.mStr, s.mPos + 1, s.mEnd, s.mTerminator⟩)

/-- The method `skipOne(ch)` with the read `mStr[mPos]` checked; `&&` makes the
read only when `done()` is false. -/
def skipOneChecked (s : StringScanner) (ch : Char) : Checked (Bool × StringScanner) :=
  if s.done then .ok (false, s)
  else (readAt s.mStr s.mPos).bind fun c =>
    if c == ch then .ok (true, ⟨s.mStr, s.mPos + 1, s.mEnd, s.mTerminator⟩) else .ok (false, s)

/-- The loop of `skipWhiteSpace` with the read `mStr[mPos]` checked. -/
def skipWhiteSpaceLoopChecked : Nat → StringScanner → Bool → Checked (Bool × StringScanner)
  | 0, _, _ => .noFuel
  | fuel + 1, s, skipped =>
    if s.done then .ok (skipped, s)
    else (readAt s.mStr s.mPos).bind fun c =>
      if iswspace c then
        skipWhiteSpaceLoopChecked fuel ⟨s.mStr, s.mPos + 1, s.mEnd, s.mTerminator⟩ true
      else .ok (skipped, s)

/-- The method `skipWhiteSpace()` with checked reads. -/
def skipWhiteSpaceChecked (s : StringScanner) : Checked (Bool × StringScanner) :=
  skipWhiteSpaceLoopChecked (s.mEnd - s.mPos + 1) s false

/-- The method `skipString(str)` with the reads of `memcmp` checked: it compares
the `str.length()` characters of `mStr` from `mPos` on. With the cursor behind
the text the unsigned difference `mStr.length() - mPos` wraps around to a large
number, the first test fails and `memcmp` is reached. -/
def skipStringChecked (s : StringScanner) (str : Text) : Checked (Bool × StringScanner) :=
  if s.mPos ≤ s.mStr.length then
    if str.length > s.mStr.length - s.mPos then .ok (false, s)
    else if substr s.mStr s.mPos str.length = str then
      .ok (true, ⟨s.mStr, s.mPos + str.length, s.mEnd, s.mTerminator⟩)
    else .ok (false, s)
  else if str = [] then .ok (true, s)
  else .outOfBounds s.mPos s.mStr.length

end StringScanner

/-- The `for` loop of `ParseParam` with the read `text[i]` checked. -/
def paramLoopChecked (text : Text) :
    Nat → Nat → Bool → Nat → Nat → Checked (Nat × Nat × Nat)
  | 0, _, _, _, _ => .noFuel
  | fuel + 1, i, foundColon, beginParam, endParam =>
    if i < text.length then
      (readAt text i).bind fun c =>
        if c = ' ' ∨ c = '\t' then
          paramLoopChecked text fuel (i + 1) foundColon beginParam
            (if beginParam > 0 ∧ foundColon = false then i else endParam)
        else if c = ':' then
          paramLoopChecked text fuel (i + 1) true beginParam i
        else if foundColon then
          if i > 0 then .ok (beginParam, endParam, i)
          else paramLoopChecked text fuel (i + 1) foundColon beginParam endParam
        else
          paramLoopChecked text fuel (i + 1) foundColon (if beginParam = 0 then i else beginParam)
            endParam
    else .ok (beginParam, endParam, 0)

/-- The function `ParseParam(text)` with checked reads; the first of them is
`text[0]`, which is made on every text. -/
def ParseParamChecked (text : Text) : Checked (Option (Text × Text)) :=
  (readAt text 0).bind fun first =>
    if first = '!' then
      (paramLoopChecked text (text.length + 1) 1 false 0 0).bind fun r =>
        if r.2.2 > 0 then
          .ok (some (toLower (substr text r.1 (r.2.1 - r.1)),
            substr text r.2.2 (text.length - r.2.2)))
        else .ok none
    else .ok none

namespace DownloadableSubscription_Parser

/-- The first loop of `GetNextLine` with checked reads. -/
def lineEndLoopChecked : Nat → StringScanner → Char → Checked (StringScanner × Char)
  | 0, _, _ => .noFuel
  | fuel + 1, scanner, ch =>
    if ch ≠ '\r' ∧ ch ≠ '\n' then
      scanner.nextChecked.bind fun r =>
        if r.1 = '\x00' then .ok (r.2, r.1) else lineEndLoopChecked fuel r.2 r.1
    else .ok (scanner, ch)

/-- The second loop of `GetNextLine` with checked reads. -/
def skipNewlinesChecked : Nat → StringScanner → Checked StringScanner
  | 0, _ => .noFuel
  | fuel + 1, scanner =>
    (scanner.skipOneChecked '\r').bind fun r1 =>
      if r1.1 then skipNewlinesChecked fuel r1.2
      else (r1.2.skipOneChecked '\n').bind fun r2 =>
        if r2.1 then skipNewlinesChecked fuel r2.2 else .ok r2.2

/-- The method `GetNextLine(buffer, line)` with checked reads. -/
def GetNextLineChecked (buffer : Text) : Checked (Bool × Text × Text) :=
  (lineEndLoopChecked (buffer.length + 2) (StringScanner.create buffer 0 '\x00') '\x00').bind
    fun r =>
      let eol := r.1.position
      let line := substr buffer 0 eol
      if eol = 0 ∨ r.2 = '\x00' then .ok (false, buffer, line)
      else (skipNewlinesChecked (buffer.length + 1) r.1).bind fun scanner1 =>
        .ok (true, buffer.drop (scanner1.position + 1), line)

/-- The loop of `ProcessFirstLine` with checked reads. -/
def versionLoopChecked : Nat → StringScanner → Checked (StringScanner × Char)
  | 0, _ => .noFuel
  | fuel + 1, scanner =>
    scanner.nextChecked.bind fun r =>
      if r.1 ≠ '\x00' ∧ (r.1 = '.' ∨ iswdigit r.1 = true) then versionLoopChecked fuel r.2
      else .ok (r.2, r.1)

/-- The method `ProcessFirstLine(line)` with checked reads (`line.find` is a
function of String.h). -/
def ProcessFirstLineChecked (self : DownloadableSubscription_Parser) (line : Text) :
    Checked (Bool × DownloadableSubscription_Parser) :=
  match findStr line ADBLOCK_HEADER with
  | none => .ok (false, self)
  | some index =>
    let current := line.drop (index + ADBLOCK_HEADER.length)
    (StringScanner.create current 0 '\x00').skipWhiteSpaceChecked.bind fun r1 =>
      (if r1.1 then r1.2.skipStringChecked ADBLOCK_PLUS_EXTRA_HEADER
       else .ok (false, r1.2)).bind fun plus =>
        (if plus.1 then plus.2.skipWhiteSpaceChecked.bind fun r2 => .ok r2.2
         else .ok plus.2).bind fun scanner2 =>
          let index1 := scanner2.positionPlusOne
          (versionLoopChecked (current.length + 2) scanner2).bind fun r3 =>
            let scanner4 := if r3.2 ≠ '\x00' then r3.1.back else r3.1
            let minVersion :=
              if scanner4.positionPlusOne > index1 then
                substr current index1 (scanner4.positionPlusOne - index1)
              else []
            if r3.2 ≠ ']' then .ok (false, self)
            else .ok (true, ⟨self.mFiltersText, self.mParams, minVersion, self.mError⟩)

/-- The method `ProcessLine(line)` with checked reads. -/
def ProcessLineChecked (self : DownloadableSubscription_Parser) (line : Text) :
    Checked DownloadableSubscription_Parser :=
  (ParseParamChecked line).bind fun param =>
    match param with
    | none =>
      if line ≠ [] then
        .ok ⟨self.mFiltersText ++ [line], self.mParams, self.mRequiredVersion, self.mError⟩
      else .ok self
    | some p =>
      .ok ⟨self.mFiltersText, StringMap.assign self.mParams p.1 p.2, self.mRequiredVersion,
        self.mError⟩

/-- The `while (true)` loop of `Process` with checked reads. -/
def processLoopChecked : Nat → DownloadableSubscription_Parser → Text → Bool → List Text →
    Checked ProcessResult
  | 0, _, _, _, _ => .noFuel
  | fuel + 1, self, currentBuffer, firstLine, lines =>
    (GetNextLineChecked currentBuffer).bind fun next =>
      if firstLine then
        (ProcessFirstLineChecked self next.2.2).bind fun first =>
          if !first.1 then
            .ok ⟨false, ⟨first.2.mFiltersText, first.2.mParams, first.2.mRequiredVersion,
              ERROR_INVALID_DATA⟩, lines ++ [next.2.2]⟩
          else if !next.1 then .ok ⟨true, first.2, lines ++ [next.2.2]⟩
          else processLoopChecked fuel first.2 next.2.1 false (lines ++ [next.2.2])
      else
        (ProcessLineChecked self next.2.2).bind fun self1 =>
          if !next.1 then .ok ⟨true, self1, lines ++ [next.2.2]⟩
          else processLoopChecked fuel self1 next.2.1 false (lines ++ [next.2.2])

/-- The method `Process(buffer)` with checked reads. -/
def ProcessChecked (self : DownloadableSubscription_Parser) (buffer : Text) :
    Checked ProcessResult :=
  processLoopChecked (buffer.length + 2) self buffer true []

end DownloadableSubscription_Parser

/-! ## Reference definitions, in the words of the specification -/

namespace ActiveFilter

/-- A map key matches a host when it is the host itself or a suffix of the host
that is immediately preceded by `.`. -/
def keyMatchesHost (key host : Text) : Prop := key = host ∨ ('.' :: key) <:+ host

instance (key host : Text) : Decidable (keyMatchesHost key host) :=
  inferInstanceAs (Decidable (key = host ∨ ('.' :: key) <:+ host))

/-- The normalised host: lower-cased, minus one trailing `.` when
`ignoreTrailingDot`. -/
def normalizeHost_spec (ignoreTrailingDot : Bool) (h : Text) : Text :=
  if ignoreTrailingDot = true ∧ (toLower h).getLast? = some '.' then (toLower h).dropLast
  else toLower h

/-- The value of the longest key of the map that matches the host, and the
default entry when no key matches. -/
def longestMatch_spec (domains : DomainMap) (host : Text) : Bool :=
  match ((domains.map Prod.fst).filter (fun key => decide (keyMatchesHost key host))).argmax
      List.length with
  | some key => DomainMap.get domains key
  | none => DomainMap.get domains []

/-- Reference for `IsActiveOnDomain`: false if a sitekey set exists and the
sitekey is not in it; otherwise true if there is no domain map; otherwise the
default entry if the host is empty; otherwise the value of the longest key
that matches the normalised host, and the default entry when no key matches. -/
def IsActiveOnDomain_spec (f : ActiveFilter) (h k : Text) : Bool :=
  if (match f.mSitekeys with
      | some sitekeys => decide (¬ k ∈ sitekeys)
      | none => false) then false
  else
    match f.mDomains with
    | none => true
    | some domains =>
      if h = [] then DomainMap.get domains []
      else longestMatch_spec domains (normalizeHost_spec f.mIgnoreTrailingDot h)

/-- The pieces of a domain list between the occurrences of the separator. -/
def segments (separator : Char) : Text → List Text
  | [] => [[]]
  | c :: rest =>
    if c = separator then [] :: segments separator rest
    else
      match segments separator rest with
      | [] => [[c]]
      | s :: ss => (c :: s) :: ss

/-- A domain prefix has an empty segment: a leading comma, a trailing comma,
two adjacent commas, or a segment that consists only of `~` (one or more). The
empty prefix has no segment at all. -/
def hasEmptySegment (domains : Text) : Prop :=
  domains ≠ [] ∧ ∃ seg ∈ segments ',' domains, ∀ c ∈ seg, c = '~'

instance (domains : Text) : Decidable (hasEmptySegment domains) :=
  inferInstanceAs (Decidable (domains ≠ [] ∧ ∃ seg ∈ segments ',' domains, ∀ c ∈ seg, c = '~'))

/-- A domain prefix has an include-mode domain: a segment that is not empty and
does not start with `~`. -/
def hasIncludeDomain (domains : Text) : Prop :=
  ∃ seg ∈ segments ',' domains, seg ≠ [] ∧ seg.head? ≠ some '~'

instance (domains : Text) : Decidable (hasIncludeDomain domains) :=
  inferInstanceAs (Decidable (∃ seg ∈ segments ',' domains, seg ≠ [] ∧ seg.head? ≠ some '~'))

end ActiveFilter

namespace ElemHideBase

/-- The domain prefix of an input text: the characters before the first `#`. -/
def inputPrefix (t : Text) : Text := t.takeWhile (fun c => c != '#')

/-- The part of an input text after its first `#`. -/
def afterFirstHash (t : Text) : Text := (t.dropWhile (fun c => c != '#')).drop 1

/-- A text without its leading spaces. -/
def dropSpaces (t : Text) : Text := t.dropWhile (fun c => c == ' ')

/-- The place where the second `#` is expected when the first `#` is followed by
optional spaces and then an optional `@` or `?`. -/
def secondHashPlace_spec (t : Text) : Text :=
  if (dropSpaces (afterFirstHash t)).head? = some '@' ∨
      (dropSpaces (afterFirstHash t)).head? = some '?' then
    (dropSpaces (afterFirstHash t)).tail
  else dropSpaces (afterFirstHash t)

/-- The place where `Parse` expects the second `#`: after the first `#`,
optional spaces, and then either `@` with optional spaces after it, or `?`, or
nothing. -/
def secondHashPlace (t : Text) : Text :=
  if (dropSpaces (afterFirstHash t)).head? = some '@' then
    dropSpaces (dropSpaces (afterFirstHash t)).tail
  else if (dropSpaces (afterFirstHash t)).head? = some '?' then
    (dropSpaces (afterFirstHash t)).tail
  else dropSpaces (afterFirstHash t)

/-- The selector of an input text: the suffix after the separator and any
spaces that follow it. -/
def inputSelector (t : Text) : Text := dropSpaces ((secondHashPlace t).drop 1)

end ElemHideBase

/-! ### References for the registry, the domain list, the selector and the download -/

namespace ActiveFilter

/-- The number of `~` characters that a piece starts with. -/
def leadingTildes (piece : Text) : Nat := (piece.takeWhile (fun c => c == '~')).length

/-- A remainder without one trailing `.`, when the flag is set. -/
def trimDot (ignoreTrailingDot : Bool) (rem : Text) : Text :=
  if ignoreTrailingDot = true ∧ rem.getLast? = some '.' then rem.dropLast else rem

/-- The remainder of a piece in the words of the specification: the piece
without its first character when that is `~`, and without one trailing `.` when
the flag is set. -/
def pieceRemainder_spec (ignoreTrailingDot : Bool) (piece : Text) : Text :=
  trimDot ignoreTrailingDot (if piece.head? = some '~' then piece.drop 1 else piece)

/-- The remainder of a piece: the piece without the `~` characters it starts
with, and without one trailing `.` when the flag is set. -/
def pieceRemainder (ignoreTrailingDot : Bool) (piece : Text) : Text :=
  trimDot ignoreTrailingDot (piece.drop (leadingTildes piece))

/-- What a piece at offset `off` makes the scan emit: nothing when its
remainder is empty, and otherwise the place of the remainder with
`reverse` telling whether the piece starts with `~`. -/
def pieceDomain (ignoreTrailingDot : Bool) (off : Nat) (piece : Text) : Option ParsedDomain :=
  if pieceRemainder ignoreTrailingDot piece = [] then none
  else some ⟨off + leadingTildes piece, (pieceRemainder ignoreTrailingDot piece).length,
    decide (piece.head? = some '~')⟩

/-- The pieces with the offsets at which they start: each piece is followed by
one separator. -/
def piecesAt : Nat → List Text → List (Nat × Text)
  | _, [] => []
  | off, piece :: rest => (off, piece) :: piecesAt (off + piece.length + 1) rest

/-- Reference for `ParseDomainsInternal` on a non-empty text: the pieces between
the separators are taken in order; each one with a non-empty remainder is
emitted, `hasEmpty` tells whether a piece had an empty remainder, `hasIncludes`
whether an emitted segment is not `reverse`. -/
def ParseDomainsInternal_spec (text : Text) (separator : Char) (ignoreTrailingDot : Bool) :
    ParsedDomains :=
  ⟨((piecesAt 0 (segments separator text)).filterMap
      (fun op => pieceDomain ignoreTrailingDot op.1 op.2)).any (fun d => !d.reverse),
    (piecesAt 0 (segments separator text)).any
      (fun op => (pieceDomain ignoreTrailingDot op.1 op.2).isNone),
    (piecesAt 0 (segments separator text)).filterMap
      (fun op => pieceDomain ignoreTrailingDot op.1 op.2)⟩

end ActiveFilter

namespace ElemHideBase

/-- Reference for the escaping: every opening brace becomes `\7B `, every closing
brace `\7D `, every other character stays. -/
def escapeCurlies_spec : Text → Text
  | [] => []
  | c :: rest =>
    (if c = '\x7b' then ['\\', '7', 'B', ' ']
     else if c = '\x7d' then ['\\', '7', 'D', ' ']
     else [c]) ++ escapeCurlies_spec rest

/-- The number of braces of a text. -/
def countCurlies (s : Text) : Nat := (s.filter (fun c => c == '\x7b' || c == '\x7d')).length

end ElemHideBase

/-- A character that ends a line for `GetNextLine`: `\r`, `\n` or NUL. -/
def isLineEnd (c : Char) : Bool := c == '\r' || c == '\n' || c == '\x00'

/-- A line break character. -/
def isNewline (c : Char) : Bool := c == '\r' || c == '\n'

/-- The first line of a buffer: the characters before the first `\r`, `\n` or
NUL. -/
def firstLine (buffer : Text) : Text := buffer.takeWhile (fun c => !isLineEnd c)

/-- A character of a version: `.` or a decimal digit. -/
def isVersionChar (c : Char) : Bool := c == '.' || iswdigit c

/-- What has to follow the header `[Adblock` for `ProcessFirstLine`, and the
version it takes from there: optional whitespace; then, only behind whitespace,
optionally `Plus` and optional whitespace; then a run of `.` and digits, the
version; then `]`. -/
def versionBehindHeader (current : Text) : Option Text :=
  if ((if current.dropWhile iswspace ≠ current ∧
          ADBLOCK_PLUS_EXTRA_HEADER.isPrefixOf (current.dropWhile iswspace) = true then
        ((current.dropWhile iswspace).drop ADBLOCK_PLUS_EXTRA_HEADER.length).dropWhile iswspace
      else current.dropWhile iswspace).dropWhile isVersionChar).head? = some ']' then
    some ((if current.dropWhile iswspace ≠ current ∧
          ADBLOCK_PLUS_EXTRA_HEADER.isPrefixOf (current.dropWhile iswspace) = true then
        ((current.dropWhile iswspace).drop ADBLOCK_PLUS_EXTRA_HEADER.length).dropWhile iswspace
      else current.dropWhile iswspace).takeWhile isVersionChar)
  else none

/-- Reference for `ProcessFirstLine`: the required version of a valid header
line, taken behind the first occurrence of `[Adblock`, and `none` for a line
that is not a valid header. -/
def headerVersion (line : Text) : Option Text :=
  (findStr line ADBLOCK_HEADER).bind
    (fun index => versionBehindHeader (line.drop (index + ADBLOCK_HEADER.length)))

/-- What has to follow `[Adblock` in the words of the specification: optionally
whitespace, `Plus` and optional whitespace; then a run of `.` and digits, the
version; then `]`. -/
def versionBehindHeader_spec (current : Text) : Option Text :=
  if ((if current.dropWhile iswspace ≠ current ∧
          ADBLOCK_PLUS_EXTRA_HEADER.isPrefixOf (current.dropWhile iswspace) = true then
        ((current.dropWhile iswspace).drop ADBLOCK_PLUS_EXTRA_HEADER.length).dropWhile iswspace
      else current).dropWhile isVersionChar).head? = some ']' then
    some ((if current.dropWhile iswspace ≠ current ∧
          ADBLOCK_PLUS_EXTRA_HEADER.isPrefixOf (current.dropWhile iswspace) = true then
        ((current.dropWhile iswspace).drop ADBLOCK_PLUS_EXTRA_HEADER.length).dropWhile iswspace
      else current).takeWhile isVersionChar)
  else none

/-- A valid header line in the words of the specification: the line contains an
occurrence of `[Adblock` that is followed by what `versionBehindHeader_spec`
describes. -/
def headerValid_spec (line : Text) : Bool :=
  (List.range (line.length + 1)).any (fun i =>
    ADBLOCK_HEADER.isPrefixOf (line.drop i) &&
      (versionBehindHeader_spec (line.drop (i + ADBLOCK_HEADER.length))).isSome)

/-- The pieces of a body between its line-break characters. -/
def breakLines : Text → List Text
  | [] => [[]]
  | c :: rest =>
    if isNewline c then [] :: breakLines rest
    else
      match breakLines rest with
      | [] => [[c]]
      | s :: ss => (c :: s) :: ss

/-- Reference for the line splitting: the maximal runs of characters other than
`\r` and `\n`, in order. -/
def lines_spec (body : Text) : List Text := (breakLines body).filter (fun l => !l.isEmpty)

/-- Whether a body ends with a line-break character. -/
def endsWithNewline (body : Text) : Bool :=
  match body.getLast? with
  | some c => isNewline c
  | none => false

/-! ### References for the serialisations, `Finalize` and the params -/

namespace ActiveFilter

/-- Reference for `ActiveFilter::Serialize`, in the words of the specification:
`[Filter]`, the line `text=<text>`, then `disabled=true` only when true,
`hitCount=<n>` only when non-zero and `lastHit=<ms>` only when non-zero, in this
order, each line ended by a line feed. -/
def Serialize_spec (f : ActiveFilter) : Text :=
  "[Filter]\ntext=".toList ++ f.mText ++ "\n".toList
    ++ (if f.mDisabled = true then "disabled=true\n".toList else [])
    ++ (if f.mHitCount ≠ 0 then "hitCount=".toList ++ decimal f.mHitCount ++ "\n".toList
        else [])
    ++ (if f.mLastHit ≠ 0 then "lastHit=".toList ++ decimal f.mLastHit ++ "\n".toList else [])

end ActiveFilter

namespace DownloadableSubscription

/-- The downloadable-only fields in the order of the specification, each with
its key and with its value when it differs from the default (false, the empty
text or 0). -/
def fields_spec (s : DownloadableSubscription) : List (Text × Option Text) :=
  [("fixedTitle".toList, if s.mFixedTitle = true then some "true".toList else none),
   ("homepage".toList, if s.mHomepage ≠ [] then some s.mHomepage else none),
   ("lastCheck".toList, if s.mLastCheck ≠ 0 then some (decimal s.mLastCheck) else none),
   ("expires".toList,
     if s.mHardExpiration ≠ 0 then some (decimal s.mHardExpiration) else none),
   ("softExpiration".toList,
     if s.mSoftExpiration ≠ 0 then some (decimal s.mSoftExpiration) else none),
   ("lastDownload".toList,
     if s.mLastDownload ≠ 0 then some (decimal s.mLastDownload) else none),
   ("downloadStatus".toList, if s.mDownloadStatus ≠ [] then some s.mDownloadStatus else none),
   ("lastSuccess".toList, if s.mLastSuccess ≠ 0 then some (decimal s.mLastSuccess) else none),
   ("errors".toList, if s.mErrorCount ≠ 0 then some (decimalInt s.mErrorCount) else none),
   ("version".toList, if s.mDataRevision ≠ 0 then some (decimal s.mDataRevision) else none),
   ("requiredVersion".toList,
     if s.mRequiredVersion ≠ [] then some s.mRequiredVersion else none),
   ("downloadCount".toList,
     if s.mDownloadCount ≠ 0 then some (decimalInt s.mDownloadCount) else none)]

/-- The line `key=value` with its line feed for a field that has a value, and
nothing for a field at its default. -/
def fieldLine (field : Text × Option Text) : Text :=
  match field.2 with
  | some value => field.1 ++ '=' :: (value ++ ['\n'])
  | none => []

/-- Reference for the part that `DownloadableSubscription::Serialize` appends to
the serialisation of the `Subscription`: the lines of the fields, in order. -/
def appended_spec (s : DownloadableSubscription) : Text :=
  ((fields_spec s).map fieldLine).flatten

end DownloadableSubscription

/-- Reference for the filter list that `Finalize` builds: one entry per
filter-text line, in the order of the lines, each the result of
`Filter::FromText` on its line in the registry that the lines before it left. -/
inductive FiltersFrom (regexpParse : Text → RegExpParseResult) :
    World → List Text → List (Option Nat) → World → Prop
  | nil (w : World) : FiltersFrom regexpParse w [] [] w
  | cons (w : World) (text : Text) (r : Filter.FromTextResult) (texts : List Text)
      (filters : List (Option Nat)) (w2 : World) :
      Filter.FromText regexpParse w text = some r →
      FiltersFrom regexpParse r.world texts filters w2 →
      FiltersFrom regexpParse w (text :: texts) (r.result :: filters) w2

/-- The characters that make `Parse` return `UNKNOWN` when they come before the
first `#`. -/
def disqualifying : List Char := ['/', '*', '|', '@', '"', '!']

/-- The scanner over `t` with the cursor at `p`. -/
def scannerAt (t : Text) (p : Nat) (terminator : Char) : StringScanner :=
  ⟨t, p, t.length, terminator⟩

/-- The text `rest` with the spaces among its first `n` characters removed. -/
def stripSpaces : Nat → Text → Text
  | 0, rest => rest
  | _ + 1, [] => []
  | n + 1, c :: rest => if c = ' ' then stripSpaces n rest else c :: stripSpaces n rest

/-- The passes of the loop of `ParseDomainsInternal` over the characters `rest`
at position `pos`, and the last pass, over the terminator. -/
def parseDomainsTail (domains : Text) (separator : Char) (ignoreTrailingDot : Bool) :
    Text → Nat → Nat → Bool → ParsedDomains → ParsedDomains
  | [], pos, start, reverse, parsed =>
    (ActiveFilter.parseDomainsStep domains separator ignoreTrailingDot separator pos start
      reverse parsed).2.2
  | c :: rest, pos, start, reverse, parsed =>
    parseDomainsTail domains separator ignoreTrailingDot rest (pos + 1)
      (ActiveFilter.parseDomainsStep domains separator ignoreTrailingDot c pos start reverse
        parsed).1
      (ActiveFilter.parseDomainsStep domains separator ignoreTrailingDot c pos start reverse
        parsed).2.1
      (ActiveFilter.parseDomainsStep domains separator ignoreTrailingDot c pos start reverse
        parsed).2.2

/-- The three element-hide types. -/
def IsKind (kind : FilterType) : Prop :=
  kind = .ELEMHIDE ∨ kind = .ELEMHIDEEXCEPTION ∨ kind = .ELEMHIDEEMULATION

/-- The characters of a separator between its two `#`, for the three
element-hide types, with `n` spaces after the `@`. -/
def sepMiddle (kind : FilterType) (n : Nat) : Text :=
  match kind with
  | .ELEMHIDEEXCEPTION => '@' :: List.replicate n ' '
  | .ELEMHIDEEMULATION => ['?']
  | _ => []

/-- The text of an element-hide filter as `Parse` accepts it: prefix, `#`,
spaces, the middle of the separator, `#`, spaces, selector. -/
def shapeText (P : Text) (n1 : Nat) (kind : FilterType) (n2 n3 : Nat) (S : Text) : Text :=
  P ++ '#' :: (List.replicate n1 ' ' ++ (sepMiddle kind n2 ++
    '#' :: (List.replicate n3 ' ' ++ S)))

/-- The prefix with the spaces behind its first character removed. -/
def normPrefix (P : Text) : Text :=
  match P with
  | [] => []
  | c :: rest => c :: rest.filter (fun x => decide (x ≠ ' '))

/-- The result of `ParseDomainsInternal` on a text, comma-separated, without
`ignoreTrailingDot`. -/
def parsedOf (T : Text) : ParsedDomains :=
  if T = [] then ParsedDomains.create
  else parseDomainsTail T ',' false T 0 0 false ParsedDomains.create

/-- What `Parse` returns on `shapeText P n1 kind n2 n3 S`. -/
def shapeResult (P : Text) (n1 : Nat) (kind : FilterType) (n2 n3 : Nat) (S error : Text) :
    ElemHideBase.ParseResult :=
  if P.contains ' ' then
    ⟨if (parsedOf (toLower (normPrefix P))).hasEmpty then .INVALID else kind,
      toLower (normPrefix P) ++ '#' :: (sepMiddle kind 0 ++ '#' :: S),
      if (parsedOf (toLower (normPrefix P))).hasEmpty then "filter_invalid_domain".toList
      else error,
      ⟨(normPrefix P).length, (normPrefix P).length + 1 + (sepMiddle kind 0).length + 1⟩,
      parsedOf (toLower (normPrefix P))⟩
  else
    ⟨if (parsedOf (toLower P)).hasEmpty then .INVALID else kind,
      toLower P ++ '#' :: (List.replicate n1 ' ' ++ (sepMiddle kind n2 ++
        '#' :: (List.replicate n3 ' ' ++ S))),
      if (parsedOf (toLower P)).hasEmpty then "filter_invalid_domain".toList else error,
      ⟨P.length, P.length + 1 + n1 + (sepMiddle kind n2).length + 1 + n3⟩,
      parsedOf (toLower P)⟩

/-- What `construct` leaves behind when the `switch` makes one object. -/
def madeOne (w : World) (text : Text) (f : FilterObject) : Filter.FromTextResult :=
  ⟨some w.heap.length, text,
    ⟨w.heap ++ [some ⟨f, 1⟩], StringMap.assign w.knownFilters f.mText w.heap.length⟩⟩

/-- What the loop of `ParseDomainsInternal` keeps true of `parsed`: `hasIncludes`
says whether an include-mode segment was emitted, and every emitted segment is
non-empty and lies inside the text. -/
def DomainsInv (D : Text) (parsed : ParsedDomains) : Prop :=
  (parsed.hasIncludes = true ↔ ∃ d ∈ parsed.domains, d.reverse = false) ∧
  ∀ d ∈ parsed.domains, 0 < d.len ∧ d.pos + d.len ≤ D.length

/-- The segment that the scan emits when a separator closes the remainder `rem`
that starts at `start`. -/
def closePiece (itd : Bool) (start : Nat) (rev : Bool) (rem : Text) : Option ParsedDomain :=
  if ActiveFilter.trimDot itd rem = [] then none
  else some ⟨start, (ActiveFilter.trimDot itd rem).length, rev⟩

/-- The effect of one closed piece on `parsed`. -/
def pushPiece (parsed : ParsedDomains) : Option ParsedDomain → ParsedDomains
  | none => ⟨parsed.hasIncludes, true, parsed.domains⟩
  | some d => ⟨if !d.reverse then true else parsed.hasIncludes, parsed.hasEmpty,
      parsed.domains ++ [d]⟩

/-- What the piece under the cursor will emit: `X` is the part of its remainder
that has been read, `s` the part of the piece still to read. -/
def curPiece (itd : Bool) (pos start : Nat) (rev : Bool) (X s : Text) : Option ParsedDomain :=
  if X = [] then
    closePiece itd (pos + ActiveFilter.leadingTildes s)
      (rev || decide (s.head? = some '~')) (s.drop (ActiveFilter.leadingTildes s))
  else closePiece itd start rev (X ++ s)

/-- The value that `ParseExpires` makes of the number `num` it has read and of
the rest of the text behind the number. -/
def expiresValue (num : Int) (R : Text) : Int :=
  if num = 0 then 0
  else if ((R.dropWhile iswspace).head? = some 'h' ∧ num > MAX_HOUR) ∨ num > MAX_DAY then 0
  else num * (if (R.dropWhile iswspace).head? = some 'h' then MILLIS_IN_HOUR else MILLIS_IN_DAY)

/-- What `GetNextLine` returns on a buffer: the first line; and when that line
is not empty and a line break follows it, the flag and the buffer behind the
line breaks. -/
def nextLine (buffer : Text) : Bool × Text × Text :=
  if firstLine buffer = [] ∨
      (buffer.dropWhile (fun c => !isLineEnd c)).headD '\x00' = '\x00' then
    (false, buffer, firstLine buffer)
  else
    (true, ((buffer.dropWhile (fun c => !isLineEnd c)).drop 1).dropWhile isNewline,
      firstLine buffer)

/-- The result of `ProcessFirstLine` for a version found or not found. -/
def firstLineResult (self : DownloadableSubscription_Parser) (version : Option Text) :
    Bool × DownloadableSubscription_Parser :=
  match version with
  | none => (false, self)
  | some v => (true, ⟨self.mFiltersText, self.mParams, v, self.mError⟩)

/-- What `ProcessLine` makes of the parser. -/
def lineStep (self : DownloadableSubscription_Parser) (line : Text) :
    DownloadableSubscription_Parser :=
  match ParseParam line with
  | some (some param) =>
    ⟨self.mFiltersText, StringMap.assign self.mParams param.1 param.2, self.mRequiredVersion,
      self.mError⟩
  | _ =>
    if line ≠ [] then
      ⟨self.mFiltersText ++ [line], self.mParams, self.mRequiredVersion, self.mError⟩
    else self

/-- The lines that the loop of `Process` takes from a buffer. -/
def restLines : Nat → Text → List Text
  | 0, _ => []
  | fuel + 1, buffer =>
    (nextLine buffer).2.2 ::
      (if (nextLine buffer).1 then restLines fuel (nextLine buffer).2.1 else [])

/-- The lines that the loop takes from a buffer without NUL that does not start
with a line break. -/
def handledLines (buffer : Text) : List Text :=
  if buffer = [] then [[]]
  else lines_spec buffer ++ (if endsWithNewline buffer then [[]] else [])

/-- The scanner after `k` consecutive calls of `next()`. -/
def nextTimes : Nat → StringScanner → StringScanner
  | 0, sc => sc
  | k + 1, sc => nextTimes k sc.next.2

/-- The two views that `ParseParam` takes from a line, before the key is
lower-cased: the characters from `beginParam` to `endParam` and the characters
from `beginValue` to the end of the line. -/
def paramView (text : Text) : Option (Text × Text) :=
  if charAt text 0 = '!' then
    match paramLoop text (text.length + 1) 1 false 0 0 with
    | none => none
    | some (beginParam, endParam, beginValue) =>
      if beginValue > 0 then
        some (substr text beginParam (endParam - beginParam),
          substr text beginValue (text.length - beginValue))
      else none
  else none

/-- The line `key<n>` with its line feed for a number that is not 0, and nothing
for 0. -/
def numLine (key : Text) (a : Nat) : Text :=
  if a ≠ 0 then key ++ decimal a ++ ['\n'] else []

/-- The line `disabled=true` for a flag that is set, and nothing otherwise. -/
def flagLine (b : Bool) : Text := if b then "disabled=true\n".toList else []

/-! ## Lemmas

Each loop is first described on the list of the characters it still has to read;
the claims are then proved from those descriptions. -/

/-! ### Reading and writing the buffer -/

theorem charAt_append_cons (A : Text) (c : Char) (R : Text) :
    charAt (A ++ c :: R) A.length = c := by
  induction A with
  | nil => simp [charAt]
  | cons a A ih =>
    show ((a :: A) ++ c :: R).getD (A.length + 1) '\x00' = c
    rw [List.cons_append, List.getD_cons_succ]
    exact ih

theorem set_append_cons (A : Text) (g c : Char) (R : Text) :
    (A ++ g :: R).set A.length c = A ++ c :: R := by
  induction A with
  | nil => simp
  | cons a A ih =>
    show (a :: (A ++ g :: R)).set (A.length + 1) c = a :: (A ++ c :: R)
    rw [List.set_cons_succ, ih]

/-! ### The loops of `NormalizeWhitespace` (Filter.cpp) -/

namespace Filter

theorem copyValid_eq (rest : Text) : ∀ (done gap : Text) (fuel : Nat), gap ≠ [] →
    rest.length + 1 ≤ fuel →
    ∃ G : Text, copyValid (done.length + gap.length + rest.length) fuel
        (done.length + gap.length) (done ++ gap ++ rest) gap.length
      = some (done ++ rest.filter (fun c => !decide (c < ' ')) ++ G, G.length) ∧
      (rest.filter (fun c => !decide (c < ' '))).length + G.length = gap.length + rest.length := by
  induction rest with
  | nil =>
    intro done gap fuel hg h
    obtain ⟨f, rfl⟩ : ∃ f, fuel = f + 1 := ⟨fuel - 1, by omega⟩
    exact ⟨gap, by simp [copyValid], by simp⟩
  | cons c r ih =>
    intro done gap fuel hg h
    obtain ⟨f, rfl⟩ : ∃ f, fuel = f + 1 := ⟨fuel - 1, by omega⟩
    have hc : charAt (done ++ gap ++ c :: r) (done.length + gap.length) = c := by
      have := charAt_append_cons (done ++ gap) c r
      simpa using this
    have hlt : done.length + gap.length < done.length + gap.length + (c :: r).length := by
      simp
    by_cases hcc : c < ' '
    · obtain ⟨G, hG, hlen⟩ := ih done (gap ++ [c]) f (by simp) (by simp at h ⊢; omega)
      refine ⟨G, ?_, ?_⟩
      · rw [copyValid, if_pos hlt, hc, if_pos hcc]
        have e1 : done.length + gap.length + (c :: r).length
            = done.length + (gap ++ [c]).length + r.length := by simp; omega
        have e2 : done.length + gap.length + 1 = done.length + (gap ++ [c]).length := by simp; omega
        have e3 : done ++ gap ++ c :: r = done ++ (gap ++ [c]) ++ r := by simp
        have e4 : gap.length + 1 = (gap ++ [c]).length := by simp
        rw [e1, e2, e3, e4, hG]
        simp [hcc]
      · simp [hcc] at hlen ⊢
        omega
    · obtain ⟨g, gs, rfl⟩ : ∃ g gs, gap = g :: gs := by
        cases gap with
        | nil => exact absurd rfl hg
        | cons g gs => exact ⟨g, gs, rfl⟩
      obtain ⟨G, hG, hlen⟩ := ih (done ++ [c]) (gs ++ [c]) f (by simp) (by simp at h ⊢; omega)
      refine ⟨G, ?_, ?_⟩
      · rw [copyValid, if_pos hlt, hc, if_neg hcc]
        have e0 : done.length + (g :: gs).length - (g :: gs).length = done.length := by omega
        have e1 : done.length + (g :: gs).length + (c :: r).length
            = (done ++ [c]).length + (gs ++ [c]).length + r.length := by simp; omega
        have e2 : done.length + (g :: gs).length + 1
            = (done ++ [c]).length + (gs ++ [c]).length := by simp; omega
        have e3 : (done ++ (g :: gs) ++ c :: r).set done.length c
            = (done ++ [c]) ++ (gs ++ [c]) ++ r := by
          have := set_append_cons done g c (gs ++ c :: r)
          simp [this]
        have e4 : (g :: gs).length = (gs ++ [c]).length := by simp
        rw [e0, e3, e1, e2, e4, hG]
        simp [hcc]
      · simp [hcc] at hlen ⊢
        omega

theorem trimTrailing_eq (B : Text) : ∀ (G : Text) (fuel : Nat), B.length + 1 ≤ fuel →
    trimTrailing (B ++ G) fuel B.length
      = some (B.rdropWhile (fun c => c == ' ')).length := by
  induction B using List.reverseRecOn with
  | nil =>
    intro G fuel h
    obtain ⟨f, rfl⟩ : ∃ f, fuel = f + 1 := ⟨fuel - 1, by omega⟩
    simp [trimTrailing]
  | append_singleton B x ih =>
    intro G fuel h
    obtain ⟨f, rfl⟩ : ∃ f, fuel = f + 1 := ⟨fuel - 1, by omega⟩
    have hc : charAt (B ++ [x] ++ G) ((B ++ [x]).length - 1) = x := by
      have := charAt_append_cons B x G
      simpa using this
    rw [trimTrailing, if_pos (by simp), hc, List.rdropWhile_concat]
    by_cases hx : x = ' '
    · subst hx
      have := ih ([' '] ++ G) f (by simp at h ⊢; omega)
      simp at this ⊢
      exact this
    · simp [hx]

theorem skipLeading_eq (rest : Text) : ∀ (A : Text) (fuel : Nat), rest.length + 1 ≤ fuel →
    skipLeading (A ++ rest) (A.length + rest.length) fuel A.length
      = some (A.length + (rest.takeWhile (fun c => !decide (c > ' '))).length) := by
  induction rest with
  | nil =>
    intro A fuel h
    obtain ⟨f, rfl⟩ : ∃ f, fuel = f + 1 := ⟨fuel - 1, by omega⟩
    simp [skipLeading]
  | cons c r ih =>
    intro A fuel h
    obtain ⟨f, rfl⟩ : ∃ f, fuel = f + 1 := ⟨fuel - 1, by omega⟩
    have h2 := ih (A ++ [c]) f (by simp at h ⊢; omega)
    simp only [List.append_assoc, List.singleton_append, List.length_append, List.length_singleton] at h2
    simp only [skipLeading, charAt_append_cons, List.length_cons]
    by_cases hc : c > ' '
    · simp [hc]
    · have e : A.length + 1 + r.length = A.length + (r.length + 1) := by omega
      rw [e] at h2
      simp [hc, h2, List.takeWhile_cons]
      omega

theorem findInvalid_eq (rest : Text) : ∀ (A : Text) (fuel : Nat), rest.length + 1 ≤ fuel →
    findInvalid (A ++ rest) (A.length + rest.length) fuel A.length
      = some (A.length + (rest.takeWhile (fun c => !decide (c < ' '))).length) := by
  induction rest with
  | nil =>
    intro A fuel h
    obtain ⟨f, rfl⟩ : ∃ f, fuel = f + 1 := ⟨fuel - 1, by omega⟩
    simp [findInvalid]
  | cons c r ih =>
    intro A fuel h
    obtain ⟨f, rfl⟩ : ∃ f, fuel = f + 1 := ⟨fuel - 1, by omega⟩
    have h2 := ih (A ++ [c]) f (by simp at h ⊢; omega)
    simp only [List.append_assoc, List.singleton_append, List.length_append, List.length_singleton] at h2
    simp only [findInvalid, charAt_append_cons, List.length_cons]
    by_cases hc : c < ' '
    · simp [hc]
    · have e : A.length + 1 + r.length = A.length + (r.length + 1) := by omega
      rw [e] at h2
      simp [hc, h2, List.takeWhile_cons]
      omega

theorem rdropWhile_append_cons (p : Char → Bool) (L : Text) (m : Char) (hm : p m = false)
    (M : Text) : (L ++ m :: M).rdropWhile p = L ++ (m :: M).rdropWhile p := by
  induction M using List.reverseRecOn with
  | nil =>
    have e : L ++ [m] = L ++ [m] := rfl
    rw [List.rdropWhile_concat_neg _ _ _ (by simp [hm])]
    rw [show [m] = [] ++ [m] from rfl, List.rdropWhile_concat_neg _ _ _ (by simp [hm])]
  | append_singleton B x ih =>
    have e1 : L ++ m :: (B ++ [x]) = (L ++ m :: B) ++ [x] := by simp
    have e2 : m :: (B ++ [x]) = (m :: B) ++ [x] := by simp
    rw [e1, e2, List.rdropWhile_concat, List.rdropWhile_concat]
    by_cases hx : p x = true
    · simp [hx, ih]
    · simp [hx]

/-- The last two steps of the normalisation on a buffer `L ++ M ++ G`, where
`L` is the leading part that is skipped and `G` the part cut off at the end. -/
theorem trim_substr (L M G : Text) (fuel : Nat) (hf : (L ++ M).length + 1 ≤ fuel)
    (hM : ∀ m ∈ M.head?, m ≠ ' ') :
    ∃ e2, trimTrailing (L ++ M ++ G) fuel (L ++ M).length = some e2 ∧
      substr (L ++ M ++ G) L.length (e2 - L.length) = M.rdropWhile (fun c => c == ' ') := by
  refine ⟨_, trimTrailing_eq (L ++ M) G fuel hf, ?_⟩
  cases M with
  | nil =>
    have h1 : (L.rdropWhile (fun c => c == ' ')).length ≤ L.length :=
      (List.rdropWhile_prefix (fun c => c == ' ') L).length_le
    simp [substr, Nat.sub_eq_zero_of_le h1]
  | cons m M =>
    have hm : (fun c => c == ' ') m = false := by
      simpa using hM m (by simp)
    rw [rdropWhile_append_cons _ L m hm M]
    have hp : (m :: M).rdropWhile (fun c => c == ' ') <+: (m :: M) := List.rdropWhile_prefix _ _
    have hle := hp.length_le
    have htake := List.prefix_iff_eq_take.mp hp
    simp only [substr, List.append_assoc, List.drop_left, List.length_append,
      Nat.add_sub_cancel_left]
    rw [List.take_append_of_le_length hle]
    exact htake.symm

theorem spec_eq (L M : Text) (hL : ∀ c ∈ L, ¬ c > ' ')
    (hM : ∀ m ∈ M.head?, m > ' ') :
    NormalizeWhitespace_spec (L ++ M)
      = (M.filter (fun c => !decide (c < ' '))).rdropWhile (fun c => c == ' ') := by
  unfold NormalizeWhitespace_spec
  have hf : ∀ c ∈ L.filter (fun c => !decide (c < ' ')), (fun c => c == ' ') c = true := by
    intro c hc
    simp only [List.mem_filter, Bool.not_eq_true', decide_eq_false_iff_not] at hc
    have h1 := hL c hc.1
    have : c = ' ' := le_antisymm (not_lt.mp h1) (not_lt.mp hc.2)
    simp [this]
  rw [List.filter_append, List.dropWhile_append_of_pos hf]
  congr 1
  cases M with
  | nil => simp
  | cons m M =>
    have hm : m > ' ' := hM m (by simp)
    have h1 : ¬ m < ' ' := not_lt.mpr (le_of_lt hm)
    have h2 : m ≠ ' ' := ne_of_gt hm
    rw [List.filter_cons_of_pos (by simpa using h1), List.dropWhile_cons_of_neg (by simpa using h2)]

theorem head_filter_gt (M : Text) (hM : ∀ m ∈ M.head?, m > ' ') :
    ∀ m ∈ (M.filter (fun c => !decide (c < ' '))).head?, m ≠ ' ' := by
  cases M with
  | nil => simp
  | cons m M =>
    have hm : m > ' ' := hM m (by simp)
    have h1 : ¬ m < ' ' := not_lt.mpr (le_of_lt hm)
    have h2 : m ≠ ' ' := ne_of_gt hm
    rw [List.filter_cons_of_pos (by simpa using h1)]
    simpa using h2

theorem NormalizeWhitespace_eq_spec (t : Text) :
    NormalizeWhitespace t = some (NormalizeWhitespace_spec t) := by
  have hLM := List.takeWhile_append_dropWhile (fun c => !decide (c > ' ')) t
  generalize hL : t.takeWhile (fun c => !decide (c > ' ')) = L at hLM
  generalize hM : t.dropWhile (fun c => !decide (c > ' ')) = M at hLM
  have hLle : ∀ c ∈ L, ¬ c > ' ' := by
    intro c hc
    rw [← hL] at hc
    simpa using List.mem_takeWhile_imp hc
  have hMhead : ∀ m ∈ M.head?, m > ' ' := by
    intro m hm
    have := List.head?_dropWhile_not (fun c => !decide (c > ' ')) t
    rw [hM] at this
    simp only [Option.mem_def] at hm
    rw [hm] at this
    simpa using this
  have hVW := List.takeWhile_append_dropWhile (fun c => !decide (c < ' ')) M
  generalize hV : M.takeWhile (fun c => !decide (c < ' ')) = V at hVW
  generalize hW : M.dropWhile (fun c => !decide (c < ' ')) = W at hVW
  have hVok : ∀ c ∈ V, ¬ c < ' ' := by
    intro c hc
    rw [← hV] at hc
    simpa using List.mem_takeWhile_imp hc
  have hWhead : ∀ w ∈ W.head?, w < ' ' := by
    intro w hw
    have := List.head?_dropWhile_not (fun c => !decide (c < ' ')) M
    rw [hW] at this
    simp only [Option.mem_def] at hw
    rw [hw] at this
    simpa using this
  have hVfilter : V.filter (fun c => !decide (c < ' ')) = V := by
    rw [List.filter_eq_self]
    intro c hc
    simpa using hVok c hc
  subst hLM
  subst hVW
  have s1 : skipLeading (L ++ (V ++ W)) (L ++ (V ++ W)).length ((L ++ (V ++ W)).length + 1) 0
      = some L.length := by
    have := skipLeading_eq (L ++ (V ++ W)) [] ((L ++ (V ++ W)).length + 1) (le_refl _)
    simp only [List.nil_append, List.length_nil, Nat.zero_add] at this
    rw [this, hL]
  have s2 : findInvalid (L ++ (V ++ W)) (L ++ (V ++ W)).length ((L ++ (V ++ W)).length + 1)
      L.length = some (L.length + V.length) := by
    have := findInvalid_eq (V ++ W) L ((L ++ (V ++ W)).length + 1) (by simp)
    rw [hV] at this
    rw [← this]
    congr 1
    simp
  rw [spec_eq L (V ++ W) hLle hMhead]
  unfold NormalizeWhitespace
  simp only [s1, s2]
  cases W with
  | nil =>
    have hfil : (V ++ []).filter (fun c => !decide (c < ' ')) = V := by simpa using hVfilter
    rw [hfil]
    obtain ⟨e2, he2, hsub⟩ := trim_substr L V [] ((L ++ (V ++ [])).length + 1) (by simp)
      (by
        have := head_filter_gt (V ++ []) hMhead
        rwa [hfil] at this)
    simp only [List.append_nil] at he2 hsub ⊢
    simp only [List.length_append, Nat.lt_irrefl, if_false]
    simp only [List.length_append] at he2
    rw [he2]
    simp only [hsub]
  | cons w W =>
    have hw : w < ' ' := hWhead w (by simp)
    have hfil : (V ++ w :: W).filter (fun c => !decide (c < ' '))
        = V ++ W.filter (fun c => !decide (c < ' ')) := by
      rw [List.filter_append, hVfilter, List.filter_cons_of_neg (by simpa using hw)]
    rw [hfil]
    obtain ⟨G, hG, hlen⟩ := copyValid_eq W (L ++ V) [w] ((L ++ (V ++ w :: W)).length + 1)
      (by simp) (by simp; omega)
    have hlt : L.length + V.length < (L ++ (V ++ w :: W)).length := by simp
    rw [if_pos hlt]
    have e1 : (L ++ V).length + [w].length + W.length = (L ++ (V ++ w :: W)).length := by
      simp; omega
    have e2 : (L ++ V).length + [w].length = L.length + V.length + 1 := by simp
    have e3 : L ++ V ++ [w] ++ W = L ++ (V ++ w :: W) := by simp
    rw [e1, e2, e3] at hG
    simp only [List.length_singleton] at hG
    rw [hG]
    simp only [Option.map_some']
    obtain ⟨e2, he2, hsub⟩ := trim_substr L (V ++ W.filter (fun c => !decide (c < ' '))) G
      ((L ++ (V ++ w :: W)).length + 1)
      (by simp at hlen ⊢; omega)
      (by
        have := head_filter_gt (V ++ w :: W) hMhead
        rwa [hfil] at this)
    have e5 : (L ++ (V ++ w :: W)).length - G.length
        = (L ++ (V ++ W.filter (fun c => !decide (c < ' ')))).length := by
      simp at hlen ⊢; omega
    have e6 : L ++ V ++ W.filter (fun c => !decide (c < ' ')) ++ G
        = L ++ (V ++ W.filter (fun c => !decide (c < ' '))) ++ G := by simp
    rw [e5, e6, he2]
    simp only [hsub]

end Filter

/-! ### `StringMap` and `String::find` -/

theorem find_eq_none_iff {V : Type} (m : StringMap V) (k : Text) :
    StringMap.find m k = none ↔ k ∉ m.map Prod.fst := by
  induction m with
  | nil => exact ⟨fun _ => List.not_mem_nil _, fun _ => rfl⟩
  | cons e m ih =>
    obtain ⟨k1, v1⟩ := e
    rw [List.map_cons, List.mem_cons, not_or]
    by_cases h : k1 = k
    · subst h
      rw [StringMap.find, if_pos rfl]
      exact ⟨fun h2 => (by cases h2), fun h2 => absurd rfl h2.1⟩
    · rw [StringMap.find, if_neg h, ih]
      exact ⟨fun h2 => ⟨fun h3 => h h3.symm, h2⟩, fun h2 => h2.2⟩

theorem find_some_mem {V : Type} (m : StringMap V) (k : Text) (v : V)
    (h : StringMap.find m k = some v) : k ∈ m.map Prod.fst := by
  by_contra hc
  rw [← find_eq_none_iff] at hc
  rw [hc] at h
  cases h

theorem findChar_none (h : Text) (c : Char) (hn : findChar h c = none) : c ∉ h := by
  induction h with
  | nil => simp
  | cons a h ih =>
    by_cases hac : a = c
    · simp [findChar, hac] at hn
    · simp only [findChar, hac, if_false, Option.map_eq_none'] at hn
      simp [Ne.symm hac, ih hn]

theorem findChar_some (h : Text) (c : Char) : ∀ i, findChar h c = some i →
    ∃ pre rest, h = pre ++ c :: rest ∧ c ∉ pre ∧ pre.length = i := by
  induction h with
  | nil => intro i hi; simp [findChar] at hi
  | cons a h ih =>
    intro i hi
    by_cases hac : a = c
    · simp only [findChar, hac, if_true, Option.some.injEq] at hi
      exact ⟨[], h, by simp [hac], by simp, by simpa using hi⟩
    · simp only [findChar, hac, if_false, Option.map_eq_some'] at hi
      obtain ⟨j, hj, rfl⟩ := hi
      obtain ⟨pre, rest, rfl, hpre, hlen⟩ := ih j hj
      exact ⟨a :: pre, rest, by simp, by simp [Ne.symm hac, hpre], by simp [hlen]⟩

/-! ### `IsActiveOnDomain` against its reference -/

namespace ActiveFilter

theorem keyMatchesHost_length {key host : Text} (h : keyMatchesHost key host) :
    key.length ≤ host.length ∧ (host.length ≤ key.length → key = host) := by
  rcases h with h | h
  · subst h; simp
  · have := h.length_le
    simp at this
    exact ⟨by omega, fun h2 => by omega⟩

theorem keyMatchesHost_nodot {key host : Text} (hd : '.' ∉ host) :
    keyMatchesHost key host ↔ key = host := by
  constructor
  · rintro (h | h)
    · exact h
    · exact absurd (h.subset (by simp)) hd
  · exact Or.inl

theorem keyMatchesHost_dot {key pre rest : Text} (hd : '.' ∉ pre) :
    keyMatchesHost key (pre ++ '.' :: rest) ↔
      key = pre ++ '.' :: rest ∨ keyMatchesHost key rest := by
  constructor
  · rintro (h | ⟨p, hp⟩)
    · exact Or.inl h
    · right
      rcases List.append_eq_append_iff.mp hp with ⟨a, ha1, ha2⟩ | ⟨c, hc1, hc2⟩
      · cases a with
        | nil =>
          simp at ha2
          exact Or.inl ha2
        | cons x a =>
          simp at ha2
          exact absurd (by rw [ha1, ← ha2.1]; simp) hd
      · cases c with
        | nil =>
          simp at hc2
          exact Or.inl hc2.symm
        | cons x c =>
          simp at hc2
          exact Or.inr ⟨c, hc2.2.symm⟩
  · rintro (h | h | h)
    · exact Or.inl h
    · subst h
      exact Or.inr ⟨pre, rfl⟩
    · exact Or.inr (h.trans ⟨pre ++ ['.'], by simp⟩)

theorem domainLoop_eq (m : DomainMap) : ∀ (n : Nat) (h : Text), h.length ≤ n →
    ∀ fuel, h.length + 1 ≤ fuel → domainLoop m fuel h = some (longestMatch_spec m h) := by
  intro n
  induction n with
  | zero =>
    intro h hn fuel hf
    obtain ⟨f, rfl⟩ : ∃ f, fuel = f + 1 := ⟨fuel - 1, by omega⟩
    have hnil : h = [] := List.length_eq_zero.mp (by omega)
    subst hnil
    rw [domainLoop]
    cases hfind : StringMap.find m [] with
    | some v =>
      have hmem := find_some_mem m [] v hfind
      have : ((m.map Prod.fst).filter (fun key => decide (keyMatchesHost key []))).argmax
          List.length = some [] := by
        rw [List.argmax_eq_some_iff]
        refine ⟨by simp [hmem, keyMatchesHost], ?_, ?_⟩
        · intro a ha
          simp only [List.mem_filter, decide_eq_true_eq] at ha
          exact (keyMatchesHost_length ha.2).1
        · intro a ha hl
          simp only [List.mem_filter, decide_eq_true_eq] at ha
          rw [(keyMatchesHost_length ha.2).2 hl]
      simp [longestMatch_spec, this, DomainMap.get, hfind]
    | none =>
      have hnm := (find_eq_none_iff m []).mp hfind
      have : (m.map Prod.fst).filter (fun key => decide (keyMatchesHost key [])) = [] := by
        rw [List.filter_eq_nil_iff]
        intro a ha
        simp only [decide_eq_true_eq]
        rw [keyMatchesHost_nodot (by simp)]
        rintro rfl
        exact hnm ha
      simp [longestMatch_spec, this, findChar, DEFAULT_DOMAIN]
  | succ n ih =>
    intro h hn fuel hf
    obtain ⟨f, rfl⟩ : ∃ f, fuel = f + 1 := ⟨fuel - 1, by omega⟩
    rw [domainLoop]
    cases hfind : StringMap.find m h with
    | some v =>
      have hmem := find_some_mem m h v hfind
      have : ((m.map Prod.fst).filter (fun key => decide (keyMatchesHost key h))).argmax
          List.length = some h := by
        rw [List.argmax_eq_some_iff]
        refine ⟨by simp [hmem, keyMatchesHost], ?_, ?_⟩
        · intro a ha
          simp only [List.mem_filter, decide_eq_true_eq] at ha
          exact (keyMatchesHost_length ha.2).1
        · intro a ha hl
          simp only [List.mem_filter, decide_eq_true_eq] at ha
          rw [(keyMatchesHost_length ha.2).2 hl]
      simp [longestMatch_spec, this, DomainMap.get, hfind]
    | none =>
      have hnm := (find_eq_none_iff m h).mp hfind
      cases hdot : findChar h '.' with
      | none =>
        have hd := findChar_none h '.' hdot
        have : (m.map Prod.fst).filter (fun key => decide (keyMatchesHost key h)) = [] := by
          rw [List.filter_eq_nil_iff]
          intro a ha
          simp only [decide_eq_true_eq]
          rw [keyMatchesHost_nodot hd]
          rintro rfl
          exact hnm ha
        simp [longestMatch_spec, this, DEFAULT_DOMAIN]
      | some i =>
        obtain ⟨pre, rest, rfl, hpre, hlen⟩ := findChar_some h '.' i hdot
        have hdrop : (pre ++ '.' :: rest).drop (i + 1) = rest := by
          rw [← hlen]
          have : pre ++ '.' :: rest = (pre ++ ['.']) ++ rest := by simp
          rw [this, show pre.length + 1 = (pre ++ ['.']).length by simp, List.drop_left]
        simp only [hdrop]
        rw [ih rest (by simp at hn; omega) f (by simp at hf; omega)]
        congr 1
        unfold longestMatch_spec
        have hfilt : (m.map Prod.fst).filter
              (fun key => decide (keyMatchesHost key (pre ++ '.' :: rest)))
            = (m.map Prod.fst).filter (fun key => decide (keyMatchesHost key rest)) := by
          apply List.filter_congr
          intro a ha
          have hne : a ≠ pre ++ '.' :: rest := by
            rintro rfl
            exact hnm ha
          simp only [decide_eq_decide]
          rw [keyMatchesHost_dot hpre]
          simp [hne]
        rw [hfilt]

theorem normalizeDocDomain_eq (itd : Bool) (h : Text) :
    normalizeDocDomain itd h = normalizeHost_spec itd h := by
  unfold normalizeDocDomain normalizeHost_spec
  generalize toLower h = l
  induction l using List.reverseRecOn with
  | nil => simp
  | append_singleton B x _ =>
    have hc : charAt (B ++ [x]) ((B ++ [x]).length - 1) = x := by
      have := charAt_append_cons B x []
      simpa using this
    have hl : (B ++ [x]).getLast? = some x := by simp
    simp only [hc, hl, Option.some.injEq, List.dropLast_concat]
    have : (B ++ [x]).length > 0 := by simp
    by_cases h1 : itd = true ∧ x = '.'
    · simp [h1, substr]
    · have h2 : ¬ ((B ++ [x]).length > 0 ∧ itd = true ∧ x = '.') := fun h => h1 h.2
      rw [if_neg h2, if_neg h1]

theorem IsActiveOnDomain_eq_spec (f : ActiveFilter) (h k : Text) :
    IsActiveOnDomain f h k = some (IsActiveOnDomain_spec f h k) := by
  obtain ⟨ty, tx, itd, dis, hc, lh, dom, sk⟩ := f
  have key : ∀ m : DomainMap,
      domainLoop m ((normalizeDocDomain itd h).length + 1) (normalizeDocDomain itd h)
        = some (longestMatch_spec m (normalizeHost_spec itd h)) := by
    intro m
    rw [normalizeDocDomain_eq]
    exact domainLoop_eq m _ _ (le_refl _) _ (le_refl _)
  cases sk with
  | none =>
    cases dom with
    | none => rfl
    | some m =>
      by_cases hh : h = []
      · simp [IsActiveOnDomain, IsActiveOnDomain_spec, GetSitekeys, GetDomains, hh,
          DEFAULT_DOMAIN]
      · simp [IsActiveOnDomain, IsActiveOnDomain_spec, GetSitekeys, GetDomains, hh, key m]
  | some sk =>
    by_cases hk : k ∈ sk
    · cases dom with
      | none => simp [IsActiveOnDomain, IsActiveOnDomain_spec, GetSitekeys, GetDomains, hk]
      | some m =>
        by_cases hh : h = []
        · simp [IsActiveOnDomain, IsActiveOnDomain_spec, GetSitekeys, GetDomains, hh,
            DEFAULT_DOMAIN, hk]
        · simp [IsActiveOnDomain, IsActiveOnDomain_spec, GetSitekeys, GetDomains, hh, key m, hk]
    · simp [IsActiveOnDomain, IsActiveOnDomain_spec, GetSitekeys, GetDomains, hk]

end ActiveFilter

/-! ### `IsActiveOnlyOnDomain` -/

theorem split_at_index (e : Text) (n : Nat) (h : n < e.length) :
    e = e.take n ++ charAt e n :: e.drop (n + 1) := by
  induction e generalizing n with
  | nil => simp at h
  | cons a e ih =>
    cases n with
    | zero => simp [charAt]
    | succ n =>
      have := ih n (by simpa using h)
      simp only [List.take_succ_cons, List.drop_succ_cons, List.cons_append, charAt,
        List.getD_cons_succ]
      rw [charAt] at this
      rw [← this]

namespace ActiveFilter

theorem onlyEntryOk_iff (doc : Text) (item : Text × Bool) :
    onlyEntryOk doc item = true ↔
      (item.2 = true → item.1 = doc ∨ ('.' :: doc) <:+ item.1) := by
  obtain ⟨e, b⟩ := item
  unfold onlyEntryOk
  cases b with
  | false => simp
  | true =>
    by_cases he : e = doc
    · simp [he]
    · simp only [Bool.not_true, he, decide_False, Bool.or_self, Bool.false_eq_true, if_false,
        true_implies, false_or]
      constructor
      · intro h
        split at h
        · rename_i hc
          obtain ⟨h1, h2, h3⟩ := hc
          have hlt : e.length - doc.length - 1 < e.length := by omega
          have hs := split_at_index e (e.length - doc.length - 1) hlt
          rw [h3, show e.length - doc.length - 1 + 1 = e.length - doc.length by omega, h2] at hs
          exact ⟨_, hs.symm⟩
        · cases h
      · rintro ⟨p, hp⟩
        subst hp
        have h1 : (p ++ '.' :: doc).length > doc.length := by simp; omega
        have h2 : (p ++ '.' :: doc).drop ((p ++ '.' :: doc).length - doc.length) = doc := by
          have e1 : (p ++ '.' :: doc).length - doc.length = (p ++ ['.']).length := by simp; omega
          rw [e1, show p ++ '.' :: doc = (p ++ ['.']) ++ doc by simp, List.drop_left]
        have h3 : charAt (p ++ '.' :: doc) ((p ++ '.' :: doc).length - doc.length - 1) = '.' := by
          have e1 : (p ++ '.' :: doc).length - doc.length - 1 = p.length := by simp; omega
          rw [e1, charAt_append_cons]
        rw [if_pos ⟨h1, h2, h3⟩]

theorem IsActiveOnlyOnDomain_iff (f : ActiveFilter) (d : Text) :
    IsActiveOnlyOnDomain f d = true ↔
      ∃ m, f.mDomains = some m ∧ d ≠ [] ∧ DomainMap.get m [] = false ∧
        ∀ e ∈ m, e.2 = true →
          (e.1 = normalizeHost_spec f.mIgnoreTrailingDot d ∨
            ('.' :: normalizeHost_spec f.mIgnoreTrailingDot d) <:+ e.1) := by
  obtain ⟨ty, tx, itd, dis, hc, lh, dom, sk⟩ := f
  cases dom with
  | none => simp [IsActiveOnlyOnDomain, GetDomains]
  | some m =>
    simp only [IsActiveOnlyOnDomain, GetDomains, DEFAULT_DOMAIN, Option.some.injEq,
      exists_eq_left']
    by_cases hd : d = []
    · simp [hd]
    · by_cases hg : DomainMap.get m [] = true
      · simp [hg]
      · have hg2 : DomainMap.get m [] = false := by simpa using hg
        simp only [hd, hg, or_self, if_false, ne_eq, not_false_eq_true, hg2, true_and,
          List.all_eq_true, onlyEntryOk_iff]
        rw [normalizeDocDomain_eq]
        simp [List.all_eq_true, onlyEntryOk_iff]

end ActiveFilter

/-! ### The scanner -/

namespace StringScanner

theorem skipOne_at_end (t : Text) (tm ch : Char) :
    (scannerAt t t.length tm).skipOne ch = (false, scannerAt t t.length tm) := by
  simp [skipOne, scannerAt, done]

theorem skipOne_hit (A : Text) (c : Char) (R : Text) (tm : Char) :
    (scannerAt (A ++ c :: R) A.length tm).skipOne c
      = (true, scannerAt (A ++ c :: R) (A.length + 1) tm) := by
  simp [skipOne, scannerAt, done, charAt_append_cons]

theorem skipOne_miss (A : Text) (c ch : Char) (R : Text) (tm : Char) (h : c ≠ ch) :
    (scannerAt (A ++ c :: R) A.length tm).skipOne ch
      = (false, scannerAt (A ++ c :: R) A.length tm) := by
  simp [skipOne, scannerAt, done, charAt_append_cons, h]

theorem next_at_end (t : Text) (tm : Char) :
    (scannerAt t t.length tm).next = (tm, scannerAt t (t.length + 1) tm) := by
  simp [next, scannerAt, done]

theorem next_hit (A : Text) (c : Char) (R : Text) (tm : Char) :
    (scannerAt (A ++ c :: R) A.length tm).next
      = (c, scannerAt (A ++ c :: R) (A.length + 1) tm) := by
  simp [next, scannerAt, done, charAt_append_cons]

/-- The loop of `skip` stops behind a run of `ch` and leaves `false`. -/
theorem skipLoop_run (ch tm : Char) (n : Nat) : ∀ (A R : Text) (fuel : Nat),
    R.head? ≠ some ch → n + 1 ≤ fuel →
    skipLoop ch fuel (scannerAt (A ++ List.replicate n ch ++ R) A.length tm)
      = some (false, scannerAt (A ++ List.replicate n ch ++ R) (A.length + n) tm) := by
  induction n with
  | zero =>
    intro A R fuel hR hf
    obtain ⟨f, rfl⟩ : ∃ f, fuel = f + 1 := ⟨fuel - 1, by omega⟩
    cases R with
    | nil =>
      have := skipOne_at_end A tm ch
      simp only [List.replicate_zero, List.append_nil, Nat.add_zero] at this ⊢
      rw [skipLoop, this]
      simp
    | cons c R =>
      have hc : c ≠ ch := by simpa using hR
      have := skipOne_miss A c ch R tm hc
      simp only [List.replicate_zero, List.append_nil, Nat.add_zero] at this ⊢
      rw [skipLoop, this]
      simp
  | succ n ih =>
    intro A R fuel hR hf
    obtain ⟨f, rfl⟩ : ∃ f, fuel = f + 1 := ⟨fuel - 1, by omega⟩
    have e : A ++ List.replicate (n + 1) ch ++ R = A ++ ch :: (List.replicate n ch ++ R) := by
      simp [List.replicate_succ]
    have e2 : A ++ ch :: (List.replicate n ch ++ R) = (A ++ [ch]) ++ List.replicate n ch ++ R := by
      simp
    rw [e, skipLoop, skipOne_hit]
    simp only [if_true]
    have := ih (A ++ [ch]) R f hR (by omega)
    rw [e2]
    simp only [List.length_append, List.length_singleton] at this
    rw [this, Nat.add_assoc, Nat.add_comm 1 n]

theorem skip_run (ch tm : Char) (n : Nat) (A R : Text) (hR : R.head? ≠ some ch) :
    (scannerAt (A ++ List.replicate n ch ++ R) A.length tm).skip ch
      = some (false, scannerAt (A ++ List.replicate n ch ++ R) (A.length + n) tm) := by
  unfold skip
  apply skipLoop_run
  · exact hR
  · simp [scannerAt]

theorem done_at_end (t : Text) (tm : Char) : (scannerAt t t.length tm).done = true := by
  simp [scannerAt, done]

theorem done_before (A : Text) (c : Char) (R : Text) (tm : Char) :
    (scannerAt (A ++ c :: R) A.length tm).done = false := by
  simp [scannerAt, done]

theorem position_scannerAt (t : Text) (p : Nat) (tm : Char) :
    (scannerAt t (p + 1) tm).position = p := by
  simp [scannerAt, position]

end StringScanner

/-! ### The first loop of `Parse` -/

namespace ElemHideBase

open StringScanner

theorem disq_iff (c : Char) :
    (c = '/' ∨ c = '*' ∨ c = '|' ∨ c = '@' ∨ c = '"' ∨ c = '!') ↔ c ∈ disqualifying := by
  simp [disqualifying]

theorem scanDomains_step (A : Text) (c : Char) (R : Text) (tm : Char) (fuel : Nat)
    (data : ElemHideData) (seen : Bool) (h1 : c ≠ '#') (h2 : c ∉ disqualifying) :
    scanDomains (fuel + 1) (scannerAt (A ++ c :: R) A.length tm) data seen
      = scanDomains fuel (scannerAt (A ++ c :: R) (A.length + 1) tm) data
          (seen || decide (c = ' ')) := by
  rw [scanDomains, done_before, next_hit]
  have h3 : ¬ (c = '/' ∨ c = '*' ∨ c = '|' ∨ c = '@' ∨ c = '"' ∨ c = '!') := by
    rw [disq_iff]; exact h2
  simp only [Bool.not_false, if_true, h1, if_false, h3]
  by_cases hs : c = ' '
  · simp [hs]
  · simp [hs]

theorem scanDomains_hash (tm : Char) (P : Text) : ∀ (A R : Text) (fuel : Nat)
    (data : ElemHideData) (seen : Bool), (∀ c ∈ P, c ≠ '#' ∧ c ∉ disqualifying) →
    P.length + 1 ≤ fuel →
    scanDomains fuel (scannerAt (A ++ P ++ '#' :: R) A.length tm) data seen
      = some (.left (scannerAt (A ++ P ++ '#' :: R) (A.length + P.length + 1) tm)
          ⟨A.length + P.length, data.mSelectorStart⟩ (seen || P.contains ' ')) := by
  induction P with
  | nil =>
    intro A R fuel data seen _ hf
    obtain ⟨f, rfl⟩ : ∃ f, fuel = f + 1 := ⟨fuel - 1, by omega⟩
    simp only [List.append_nil, List.length_nil, Nat.add_zero]
    rw [scanDomains, done_before, next_hit]
    simp [position_scannerAt]
  | cons c P ih =>
    intro A R fuel data seen hP hf
    obtain ⟨f, rfl⟩ : ∃ f, fuel = f + 1 := ⟨fuel - 1, by omega⟩
    have hc := hP c (by simp)
    have e : A ++ c :: P ++ '#' :: R = A ++ c :: (P ++ '#' :: R) := by simp
    have e2 : A ++ c :: (P ++ '#' :: R) = (A ++ [c]) ++ P ++ '#' :: R := by simp
    rw [e, scanDomains_step _ _ _ _ _ _ _ hc.1 hc.2, e2]
    have := ih (A ++ [c]) R f data (seen || decide (c = ' '))
      (fun x hx => hP x (by simp [hx])) (by simp at hf; omega)
    simp only [List.length_append, List.length_singleton] at this
    rw [this]
    simp only [List.length_cons, List.contains_cons, Bool.or_assoc]
    have e3 : A.length + 1 + P.length = A.length + (P.length + 1) := by omega
    rw [e3]
    congr 4
    by_cases hs : c = ' '
    · simp [hs]
    · have : (' ' == c) = false := by simpa using fun h => hs h.symm
      simp [hs, this]

theorem scanDomains_disq (tm : Char) (P : Text) : ∀ (A : Text) (c : Char) (R : Text)
    (fuel : Nat) (data : ElemHideData) (seen : Bool),
    (∀ x ∈ P, x ≠ '#' ∧ x ∉ disqualifying) → c ∈ disqualifying → P.length + 1 ≤ fuel →
    scanDomains fuel (scannerAt (A ++ P ++ c :: R) A.length tm) data seen = some .unknown := by
  induction P with
  | nil =>
    intro A c R fuel data seen _ hc hf
    obtain ⟨f, rfl⟩ : ∃ f, fuel = f + 1 := ⟨fuel - 1, by omega⟩
    simp only [List.append_nil]
    rw [scanDomains, done_before, next_hit]
    have h1 : c ≠ '#' := by
      rintro rfl
      simp [disqualifying] at hc
    have h3 := (disq_iff c).mpr hc
    simp only [Bool.not_false, if_true, h1, if_false, h3]
  | cons x P ih =>
    intro A c R fuel data seen hP hc hf
    obtain ⟨f, rfl⟩ : ∃ f, fuel = f + 1 := ⟨fuel - 1, by omega⟩
    have hx := hP x (by simp)
    have e : A ++ x :: P ++ c :: R = A ++ x :: (P ++ c :: R) := by simp
    have e2 : A ++ x :: (P ++ c :: R) = (A ++ [x]) ++ P ++ c :: R := by simp
    rw [e, scanDomains_step _ _ _ _ _ _ _ hx.1 hx.2, e2]
    have := ih (A ++ [x]) c R f data (seen || decide (x = ' '))
      (fun y hy => hP y (by simp [hy])) hc (by simp at hf; omega)
    simp only [List.length_append, List.length_singleton] at this
    exact this

theorem scanDomains_end (tm : Char) (P : Text) : ∀ (A : Text) (fuel : Nat)
    (data : ElemHideData) (seen : Bool), (∀ c ∈ P, c ≠ '#' ∧ c ∉ disqualifying) →
    P.length + 1 ≤ fuel →
    scanDomains fuel (scannerAt (A ++ P) A.length tm) data seen
      = some (.left (scannerAt (A ++ P) (A ++ P).length tm) data (seen || P.contains ' ')) := by
  induction P with
  | nil =>
    intro A fuel data seen _ hf
    obtain ⟨f, rfl⟩ : ∃ f, fuel = f + 1 := ⟨fuel - 1, by omega⟩
    simp only [List.append_nil]
    rw [scanDomains, done_at_end]
    simp
  | cons c P ih =>
    intro A fuel data seen hP hf
    obtain ⟨f, rfl⟩ : ∃ f, fuel = f + 1 := ⟨fuel - 1, by omega⟩
    have hc := hP c (by simp)
    have e2 : A ++ c :: P = (A ++ [c]) ++ P := by simp
    rw [scanDomains_step _ _ _ _ _ _ _ hc.1 hc.2, e2]
    have := ih (A ++ [c]) f data (seen || decide (c = ' '))
      (fun x hx => hP x (by simp [hx])) (by simp at hf; omega)
    simp only [List.length_append, List.length_singleton] at this
    rw [this]
    simp only [List.length_append, List.length_singleton, List.contains_cons, Bool.or_assoc]
    congr 4
    by_cases hs : c = ' '
    · simp [hs]
    · have : (' ' == c) = false := by simpa using fun h => hs h.symm
      simp [hs, this]

end ElemHideBase

/-! ### The loop of `NormalizeWhitespace` (ElemHideBase.cpp) -/

theorem stripSpaces_nil (n : Nat) : stripSpaces n [] = [] := by
  cases n <;> rfl

theorem stripSpaces_cons_space (n : Nat) (r : Text) :
    stripSpaces (n + 1) (' ' :: r) = stripSpaces n r := by
  simp [stripSpaces]

theorem stripSpaces_cons_other (n : Nat) (c : Char) (r : Text) (h : c ≠ ' ') :
    stripSpaces (n + 1) (c :: r) = c :: stripSpaces n r := by
  simp [stripSpaces, h]

theorem stripSpaces_append (X : Text) : ∀ (n : Nat) (Y : Text),
    stripSpaces (X.length + n) (X ++ Y)
      = X.filter (fun c => decide (c ≠ ' ')) ++ stripSpaces n Y := by
  induction X with
  | nil => intro n Y; simp
  | cons x X ih =>
    intro n Y
    have e : (x :: X).length + n = (X.length + n) + 1 := by simp; omega
    rw [e]
    by_cases hx : x = ' '
    · subst hx
      simp only [List.cons_append, stripSpaces_cons_space, ih]
      simp
    · simp only [List.cons_append, stripSpaces_cons_other _ _ _ hx, ih]
      simp [hx]

namespace ElemHideBase

/-- The value of `domainsEnd` after the loop of `NormalizeWhitespace`. -/
theorem domainsEnd_step (pos de ss d : Nat) (c : Char) (r : Text) (hde : de ≤ ss) :
    (if pos + 1 ≤ (if pos = de then de - d else de) ∧
          (if pos = de then de - d else de) < pos + (r.length + 1) then
        (if pos = de then de - d else de)
          - ((if pos < ss ∧ c = ' ' then d + 1 else d)
              + (r.take ((if pos = de then de - d else de) - (pos + 1))).count ' ')
      else (if pos = de then de - d else de))
    = (if pos ≤ de ∧ de < pos + (r.length + 1) then
        de - (d + ((c :: r).take (de - pos)).count ' ')
      else de) := by
  rcases Nat.lt_trichotomy pos de with h | h | h
  · have h1 : pos ≠ de := by omega
    have h2 : pos < ss := by omega
    obtain ⟨k, hk⟩ : ∃ k, de - pos = k + 1 := ⟨de - pos - 1, by omega⟩
    have h3 : de - (pos + 1) = k := by omega
    simp only [h1, if_false, h3, hk, List.take_succ_cons, List.count_cons, h2, true_and]
    by_cases hc : c = ' '
    · subst hc
      simp only [if_true, beq_self_eq_true]
      by_cases hcond : pos + 1 ≤ de ∧ de < pos + (r.length + 1)
      · rw [if_pos hcond, if_pos (by omega)]
        omega
      · rw [if_neg hcond, if_neg (by omega)]
    · have hc2 : (c == ' ') = false := by simpa using hc
      simp only [hc, if_false, hc2, Bool.false_eq_true, Nat.add_zero]
      by_cases hcond : pos + 1 ≤ de ∧ de < pos + (r.length + 1)
      · rw [if_pos hcond, if_pos (by omega)]
      · rw [if_neg hcond, if_neg (by omega)]
  · subst h
    simp only [if_true, Nat.sub_self, List.take_zero, List.count_nil, Nat.add_zero]
    rw [if_neg (by omega), if_pos (by omega)]
  · have h1 : pos ≠ de := by omega
    simp only [h1, if_false]
    rw [if_neg (by omega), if_neg (by omega)]

theorem normalizeLoop_eq (ss : Nat) (rest : Text) : ∀ (done gap : Text) (de fuel : Nat),
    de ≤ ss → rest.length + 1 ≤ fuel →
    ∃ G : Text,
      normalizeLoop (done.length + gap.length + rest.length) ss fuel
          (done.length + gap.length) (done ++ gap ++ rest) de gap.length
        = some (done ++ stripSpaces (ss - (done.length + gap.length)) rest ++ G,
            (if done.length + gap.length ≤ de ∧ de < done.length + gap.length + rest.length then
              de - (gap.length + (rest.take (de - (done.length + gap.length))).count ' ')
             else de),
            G.length) ∧
      (stripSpaces (ss - (done.length + gap.length)) rest).length + G.length
        = gap.length + rest.length := by
  induction rest with
  | nil =>
    intro done gap de fuel hde hf
    obtain ⟨f, rfl⟩ : ∃ f, fuel = f + 1 := ⟨fuel - 1, by omega⟩
    refine ⟨gap, ?_, by simp [stripSpaces_nil]⟩
    rw [normalizeLoop, if_neg (by simp)]
    simp only [stripSpaces_nil, List.append_nil, List.length_nil, Nat.add_zero]
    rw [if_neg (by omega)]
  | cons c r ih =>
    intro done gap de fuel hde hf
    obtain ⟨f, rfl⟩ : ∃ f, fuel = f + 1 := ⟨fuel - 1, by omega⟩
    have hc : charAt (done ++ gap ++ c :: r) (done.length + gap.length) = c := by
      have := charAt_append_cons (done ++ gap) c r
      simpa using this
    have hlt : done.length + gap.length < done.length + gap.length + (c :: r).length := by
      simp
    have hde1 : (if done.length + gap.length = de then de - gap.length else de) ≤ ss := by
      split <;> omega
    have hstep := domainsEnd_step (done.length + gap.length) de ss gap.length c r hde
    by_cases hsp : done.length + gap.length < ss ∧ c = ' '
    · obtain ⟨G, hG, hlen⟩ := ih done (gap ++ [c])
        (if done.length + gap.length = de then de - gap.length else de) f hde1
        (by simp at hf ⊢; omega)
      have e1 : done.length + (gap ++ [c]).length = done.length + gap.length + 1 := by
        simp; omega
      have e3 : done ++ (gap ++ [c]) ++ r = done ++ gap ++ c :: r := by simp
      have e4 : (gap ++ [c]).length = gap.length + 1 := by simp
      have e5 : done.length + gap.length + 1 + r.length
          = done.length + gap.length + (c :: r).length := by simp; omega
      rw [e1, e3, e4, e5] at hG
      rw [e1, e4] at hlen
      obtain ⟨k, hk⟩ : ∃ k, ss - (done.length + gap.length) = k + 1 :=
        ⟨ss - (done.length + gap.length) - 1, by omega⟩
      have hk2 : ss - (done.length + gap.length + 1) = k := by omega
      rw [hk2] at hG hlen
      refine ⟨G, ?_, ?_⟩
      · rw [normalizeLoop, if_pos hlt, hc]
        simp only [if_pos hsp]
        rw [hG, hk, hsp.2, stripSpaces_cons_space]
        rw [if_pos hsp, hsp.2] at hstep
        simp only [List.length_cons] at hstep ⊢
        rw [hstep]
      · rw [hk, hsp.2, stripSpaces_cons_space]
        simp only [List.length_cons]
        omega
    · have hset : (done ++ gap ++ c :: r).set (done.length + gap.length - gap.length) c
          = (done ++ [c]) ++ (gap.tail ++ (if gap = [] then [] else [c])) ++ r := by
        rw [Nat.add_sub_cancel]
        cases gap with
        | nil =>
          have := set_append_cons done c c r
          simp [this]
        | cons g gs =>
          have := set_append_cons done g c (gs ++ c :: r)
          simp [this]
      have hgl : (gap.tail ++ (if gap = [] then [] else [c])).length = gap.length := by
        cases gap <;> simp
      obtain ⟨G, hG, hlen⟩ := ih (done ++ [c]) (gap.tail ++ (if gap = [] then [] else [c]))
        (if done.length + gap.length = de then de - gap.length else de) f hde1
        (by simp at hf ⊢; omega)
      rw [hgl] at hG hlen
      have e1 : (done ++ [c]).length + gap.length = done.length + gap.length + 1 := by
        simp; omega
      have e5 : done.length + gap.length + 1 + r.length
          = done.length + gap.length + (c :: r).length := by simp; omega
      rw [e1, e5] at hG
      rw [e1] at hlen
      have hstrip : stripSpaces (ss - (done.length + gap.length)) (c :: r)
          = c :: stripSpaces (ss - (done.length + gap.length + 1)) r := by
        by_cases hlt2 : done.length + gap.length < ss
        · obtain ⟨k, hk⟩ : ∃ k, ss - (done.length + gap.length) = k + 1 :=
            ⟨ss - (done.length + gap.length) - 1, by omega⟩
          have hk2 : ss - (done.length + gap.length + 1) = k := by omega
          have hcs : c ≠ ' ' := fun h => hsp ⟨hlt2, h⟩
          rw [hk, hk2, stripSpaces_cons_other _ _ _ hcs]
        · have h0 : ss - (done.length + gap.length) = 0 := by omega
          have h1 : ss - (done.length + gap.length + 1) = 0 := by omega
          rw [h0, h1]
          rfl
      refine ⟨G, ?_, ?_⟩
      · rw [normalizeLoop, if_pos hlt, hc]
        simp only [if_neg hsp]
        rw [hset, hG, hstrip]
        rw [if_neg hsp] at hstep
        simp only [List.length_cons] at hstep ⊢
        rw [hstep]
        simp
      · rw [hstrip]
        simp only [List.length_cons]
        omega

end ElemHideBase

/-! ### The loop of `ParseDomainsInternal` -/

namespace ActiveFilter

open StringScanner

theorem parseDomainsLoop_eq (D : Text) (sep : Char) (itd : Bool) (rest : Text) :
    ∀ (A : Text) (fuel start : Nat) (rev : Bool) (parsed : ParsedDomains),
    rest.length + 2 ≤ fuel →
    parseDomainsLoop D sep itd fuel (scannerAt (A ++ rest) A.length sep) start rev parsed false
      = some (parseDomainsTail D sep itd rest A.length start rev parsed) := by
  induction rest with
  | nil =>
    intro A fuel start rev parsed hf
    obtain ⟨f, rfl⟩ : ∃ f, fuel = f + 2 := ⟨fuel - 2, by omega⟩
    simp only [List.append_nil]
    rw [parseDomainsLoop]
    simp only [Bool.false_eq_true, if_false, done_at_end, next_at_end, position_scannerAt]
    rw [parseDomainsLoop]
    simp [parseDomainsTail]
  | cons c r ih =>
    intro A fuel start rev parsed hf
    obtain ⟨f, rfl⟩ : ∃ f, fuel = f + 1 := ⟨fuel - 1, by omega⟩
    rw [parseDomainsLoop]
    simp only [Bool.false_eq_true, if_false, done_before, next_hit, position_scannerAt]
    have e2 : A ++ c :: r = (A ++ [c]) ++ r := by simp
    have := ih (A ++ [c]) f
      (parseDomainsStep D sep itd c A.length start rev parsed).1
      (parseDomainsStep D sep itd c A.length start rev parsed).2.1
      (parseDomainsStep D sep itd c A.length start rev parsed).2.2 (by simp at hf; omega)
    simp only [List.length_append, List.length_singleton] at this
    rw [e2, this]
    rfl

theorem ParseDomainsInternal_eq (T : Text) (sep : Char) (itd : Bool) :
    ParseDomainsInternal T sep itd
      = some (if T = [] then ParsedDomains.create
              else parseDomainsTail T sep itd T 0 0 false ParsedDomains.create) := by
  unfold ParseDomainsInternal
  by_cases hT : T = []
  · subst hT
    simp [parseDomainsLoop, StringScanner.create, StringScanner.done]
  · have hd : (StringScanner.create T 0 sep).done = false := by
      cases T with
      | nil => exact absurd rfl hT
      | cons c r => simp [StringScanner.create, StringScanner.done]
    have := parseDomainsLoop_eq T sep itd T [] (T.length + 2) 0 false ParsedDomains.create
      (le_refl _)
    simp only [List.nil_append, List.length_nil] at this
    rw [if_neg hT]
    show parseDomainsLoop T sep itd (T.length + 2) (StringScanner.create T 0 sep) 0 false
      ParsedDomains.create (StringScanner.create T 0 sep).done = _
    rw [hd]
    exact this

theorem segments_ne_nil (sep : Char) (rest : Text) :
    ∃ s ss, segments sep rest = s :: ss := by
  induction rest with
  | nil => exact ⟨[], [], rfl⟩
  | cons c r ih =>
    obtain ⟨s, ss, h⟩ := ih
    by_cases hc : c = sep
    · exact ⟨[], s :: ss, by simp [segments, hc, h]⟩
    · exact ⟨c :: s, ss, by simp [segments, hc, h]⟩

theorem segments_cons_sep (sep : Char) (r : Text) :
    segments sep (sep :: r) = [] :: segments sep r := by
  simp [segments]

theorem segments_cons_other (sep c : Char) (r s : Text) (ss : List Text) (hc : c ≠ sep)
    (h : segments sep r = s :: ss) : segments sep (c :: r) = (c :: s) :: ss := by
  simp [segments, hc, h]

/-- Whether the scan of `rest` finds an empty segment. -/
theorem parseDomainsTail_hasEmpty (D : Text) (sep : Char) (hsep : sep ≠ '~') (rest : Text) :
    ∀ (pos start : Nat) (rev : Bool) (parsed : ParsedDomains) (s : Text) (ss : List Text),
    start ≤ pos → segments sep rest = s :: ss →
    (parseDomainsTail D sep false rest pos start rev parsed).hasEmpty
      = (parsed.hasEmpty || (decide (start = pos) && s.all (fun c => c == '~'))
          || ss.any (fun seg => seg.all (fun c => c == '~'))) := by
  induction rest with
  | nil =>
    intro pos start rev parsed s ss hle hseg
    simp only [segments, List.cons.injEq] at hseg
    obtain ⟨rfl, rfl⟩ := hseg
    simp only [parseDomainsTail, parseDomainsStep, hsep, false_and, if_false, if_true]
    by_cases h : start = pos
    · subst h
      simp
    · have : pos - start > 0 := by omega
      simp [this, h]
  | cons c r ih =>
    intro pos start rev parsed s ss hle hseg
    obtain ⟨s1, ss1, h1⟩ := segments_ne_nil sep r
    rw [parseDomainsTail]
    by_cases hc : c = sep
    · subst hc
      rw [segments_cons_sep, h1] at hseg
      simp only [List.cons.injEq] at hseg
      obtain ⟨rfl, rfl⟩ := hseg
      simp only [parseDomainsStep, hsep, false_and, if_false, if_true]
      rw [ih _ _ _ _ s1 ss1 (le_refl _) h1]
      by_cases h : start = pos
      · subst h
        simp
      · have : pos - start > 0 := by omega
        simp [this, h, Bool.or_assoc]
    · rw [segments_cons_other sep c r s1 ss1 hc h1] at hseg
      simp only [List.cons.injEq] at hseg
      obtain ⟨rfl, rfl⟩ := hseg
      by_cases ht : c = '~' ∧ pos = start
      · obtain ⟨rfl, rfl⟩ := ht
        simp only [parseDomainsStep, and_self, if_true]
        rw [ih _ _ _ _ s1 ss1 (le_refl _) h1]
        simp
      · simp only [parseDomainsStep, ht, if_false, hc]
        rw [ih _ _ _ _ s1 ss1 (by omega) h1]
        have hne : start ≠ pos + 1 := by omega
        by_cases h : start = pos
        · subst h
          have hct : c ≠ '~' := fun h => ht ⟨h, rfl⟩
          have hct2 : (c == '~') = false := by simpa using hct
          simp [hct, hct2, Bool.or_assoc]
        · simp [h, hne, Bool.or_assoc]

/-- Whether the scan of `rest` emits an include-mode segment. -/
theorem parseDomainsTail_hasIncludes (D : Text) (sep : Char) (hsep : sep ≠ '~') (rest : Text) :
    ∀ (pos start : Nat) (rev : Bool) (parsed : ParsedDomains) (s : Text) (ss : List Text),
    start ≤ pos → segments sep rest = s :: ss →
    (parseDomainsTail D sep false rest pos start rev parsed).hasIncludes
      = (parsed.hasIncludes
          || (!rev && (decide (start ≠ pos) || (!s.isEmpty && s.head? != some '~')))
          || ss.any (fun seg => !seg.isEmpty && seg.head? != some '~')) := by
  induction rest with
  | nil =>
    intro pos start rev parsed s ss hle hseg
    simp only [segments, List.cons.injEq] at hseg
    obtain ⟨rfl, rfl⟩ := hseg
    simp only [parseDomainsTail, parseDomainsStep, hsep, false_and, if_false, if_true]
    by_cases h : start = pos
    · subst h
      simp
    · have : pos - start > 0 := by omega
      cases rev <;> simp [this, h]
  | cons c r ih =>
    intro pos start rev parsed s ss hle hseg
    obtain ⟨s1, ss1, h1⟩ := segments_ne_nil sep r
    rw [parseDomainsTail]
    by_cases hc : c = sep
    · subst hc
      rw [segments_cons_sep, h1] at hseg
      simp only [List.cons.injEq] at hseg
      obtain ⟨rfl, rfl⟩ := hseg
      simp only [parseDomainsStep, hsep, false_and, if_false, if_true]
      rw [ih _ _ _ _ s1 ss1 (le_refl _) h1]
      by_cases h : start = pos
      · subst h
        simp [Bool.or_assoc]
      · have : pos - start > 0 := by omega
        cases rev <;> simp [this, h, Bool.or_assoc]
    · rw [segments_cons_other sep c r s1 ss1 hc h1] at hseg
      simp only [List.cons.injEq] at hseg
      obtain ⟨rfl, rfl⟩ := hseg
      by_cases ht : c = '~' ∧ pos = start
      · obtain ⟨rfl, rfl⟩ := ht
        simp only [parseDomainsStep, and_self, if_true]
        rw [ih _ _ _ _ s1 ss1 (le_refl _) h1]
        simp
      · simp only [parseDomainsStep, ht, if_false, hc]
        rw [ih _ _ _ _ s1 ss1 (by omega) h1]
        have hne : start ≠ pos + 1 := by omega
        by_cases h : start = pos
        · subst h
          have hct : c ≠ '~' := fun h => ht ⟨h, rfl⟩
          have hct2 : (some c != some '~') = true := by simpa using hct
          simp [hct, hct2, Bool.or_assoc]
        · simp [h, hne, Bool.or_assoc]

end ActiveFilter

/-! ### `Parse` on every text -/

namespace StringScanner

theorem next_eq (t B R : Text) (p : Nat) (tm : Char) (ht : t = B ++ R) (hp : p = B.length) :
    (scannerAt t p tm).next = (R.headD tm, scannerAt t (p + 1) tm) := by
  subst ht hp
  cases R with
  | nil =>
    have := next_at_end B tm
    simpa using this
  | cons c R => exact next_hit B c R tm

theorem skipOne_eq (t B R : Text) (p : Nat) (tm ch : Char) (ht : t = B ++ R)
    (hp : p = B.length) :
    (scannerAt t p tm).skipOne ch
      = if R.head? = some ch then (true, scannerAt t (p + 1) tm)
        else (false, scannerAt t p tm) := by
  subst ht hp
  cases R with
  | nil =>
    have := skipOne_at_end B tm ch
    simpa using this
  | cons c R =>
    by_cases hc : c = ch
    · subst hc
      simpa using skipOne_hit B c R tm
    · simpa [hc] using skipOne_miss B c ch R tm hc

theorem skip_eq (t B R : Text) (p n : Nat) (tm ch : Char)
    (ht : t = B ++ List.replicate n ch ++ R) (hp : p = B.length) (hR : R.head? ≠ some ch) :
    (scannerAt t p tm).skip ch = some (false, scannerAt t (p + n) tm) := by
  subst ht hp
  exact skip_run ch tm n B R hR

theorem done_eq (t B R : Text) (p : Nat) (tm : Char) (ht : t = B ++ R) (hp : p = B.length) :
    (scannerAt t p tm).done = decide (R = []) := by
  subst ht hp
  cases R with
  | nil => simpa using done_at_end B tm
  | cons c R => simpa using done_before B c R tm

end StringScanner

namespace ElemHideBase

open StringScanner

theorem sep_plain (t A R1 : Text) (p n1 : Nat) (tm : Char) (seen : Bool)
    (ht : t = A ++ List.replicate n1 ' ' ++ R1) (hp : p = A.length)
    (h1 : R1.head? ≠ some ' ') (h2 : R1.head? ≠ some '@') (h3 : R1.head? ≠ some '?') :
    scanSeparator (scannerAt t p tm) seen
      = some (scannerAt t (p + n1 + 1) tm, seen, false, false, R1.headD tm) := by
  unfold scanSeparator
  rw [skip_eq t A R1 p n1 tm ' ' ht hp h1]
  have hB : t = (A ++ List.replicate n1 ' ') ++ R1 := ht
  have hq : p + n1 = (A ++ List.replicate n1 ' ').length := by simp [hp]
  simp only [skipOne_eq t _ R1 (p + n1) tm _ hB hq, h2, h3, if_false,
    next_eq t _ R1 (p + n1) tm hB hq, Bool.or_false, Bool.false_eq_true]

theorem sep_emulation (t A R2 : Text) (p n1 : Nat) (tm : Char) (seen : Bool)
    (ht : t = A ++ List.replicate n1 ' ' ++ '?' :: R2) (hp : p = A.length) :
    scanSeparator (scannerAt t p tm) seen
      = some (scannerAt t (p + n1 + 1 + 1) tm, seen, false, true, R2.headD tm) := by
  unfold scanSeparator
  rw [skip_eq t A ('?' :: R2) p n1 tm ' ' ht hp (by simp)]
  have hB : t = (A ++ List.replicate n1 ' ') ++ '?' :: R2 := ht
  have hq : p + n1 = (A ++ List.replicate n1 ' ').length := by simp [hp]
  have hB2 : t = (A ++ List.replicate n1 ' ' ++ ['?']) ++ R2 := by simp [ht]
  have hq2 : p + n1 + 1 = (A ++ List.replicate n1 ' ' ++ ['?']).length := by
    simp [hp]; omega
  simp only [skipOne_eq t _ ('?' :: R2) (p + n1) tm _ hB hq, List.head?_cons,
    Option.some.injEq, Char.reduceEq, if_false, if_true, Bool.or_false, Bool.false_eq_true,
    next_eq t _ R2 (p + n1 + 1) tm hB2 hq2]

theorem sep_exception (t A R3 : Text) (p n1 n2 : Nat) (tm : Char) (seen : Bool)
    (ht : t = A ++ List.replicate n1 ' ' ++ '@' :: (List.replicate n2 ' ' ++ R3))
    (hp : p = A.length) (h1 : R3.head? ≠ some ' ') :
    scanSeparator (scannerAt t p tm) seen
      = some (scannerAt t (p + n1 + 1 + n2 + 1) tm, seen, true, false, R3.headD tm) := by
  unfold scanSeparator
  rw [skip_eq t A ('@' :: (List.replicate n2 ' ' ++ R3)) p n1 tm ' ' ht hp (by simp)]
  have hB : t = (A ++ List.replicate n1 ' ') ++ '@' :: (List.replicate n2 ' ' ++ R3) := ht
  have hq : p + n1 = (A ++ List.replicate n1 ' ').length := by simp [hp]
  have hB2 : t = (A ++ List.replicate n1 ' ' ++ ['@']) ++ List.replicate n2 ' ' ++ R3 := by
    simp [ht]
  have hq2 : p + n1 + 1 = (A ++ List.replicate n1 ' ' ++ ['@']).length := by
    simp [hp]; omega
  have hB3 : t = (A ++ List.replicate n1 ' ' ++ ['@'] ++ List.replicate n2 ' ') ++ R3 := by
    simp [ht]
  have hq3 : p + n1 + 1 + n2
      = (A ++ List.replicate n1 ' ' ++ ['@'] ++ List.replicate n2 ' ').length := by
    simp [hp]; omega
  simp only [skipOne_eq t _ _ (p + n1) tm _ hB hq, List.head?_cons, if_true,
    skip_eq t _ R3 (p + n1 + 1) n2 tm ' ' hB2 hq2 h1, Bool.or_false,
    next_eq t _ R3 (p + n1 + 1 + n2) tm hB3 hq3]

theorem sep_eval (t A R : Text) (p n1 n2 : Nat) (kind : FilterType) (tm : Char) (seen : Bool)
    (ht : t = A ++ List.replicate n1 ' ' ++ (sepMiddle kind n2 ++ R)) (hp : p = A.length)
    (hk : IsKind kind)
    (h1 : kind = .ELEMHIDE → R.head? ≠ some ' ' ∧ R.head? ≠ some '@' ∧ R.head? ≠ some '?')
    (h2 : kind = .ELEMHIDEEXCEPTION → R.head? ≠ some ' ') :
    scanSeparator (scannerAt t p tm) seen
      = some (scannerAt t (p + n1 + (sepMiddle kind n2).length + 1) tm, seen,
          decide (kind = .ELEMHIDEEXCEPTION), decide (kind = .ELEMHIDEEMULATION),
          R.headD tm) := by
  rcases hk with rfl | rfl | rfl
  · obtain ⟨a, b, c⟩ := h1 rfl
    have := sep_plain t A R p n1 tm seen (by simpa [sepMiddle] using ht) hp a b c
    simpa [sepMiddle] using this
  · have := sep_exception t A R p n1 n2 tm seen (by simpa [sepMiddle] using ht) hp (h2 rfl)
    simp only [sepMiddle, List.length_cons, List.length_replicate, decide_True]
    rw [this]
    have e : p + n1 + 1 + n2 + 1 = p + n1 + (n2 + 1) + 1 := by omega
    rw [e]
    rfl
  · have := sep_emulation t A R p n1 tm seen (by simpa [sepMiddle] using ht) hp
    simpa [sepMiddle] using this

theorem count_space_add_filter (X : Text) :
    X.count ' ' + (X.filter (fun c => decide (c ≠ ' '))).length = X.length := by
  induction X with
  | nil => simp
  | cons x X ih =>
    by_cases hx : x = ' '
    · subst hx
      rw [List.count_cons_self, List.filter_cons_of_neg (by simp), List.length_cons]
      omega
    · rw [List.count_cons_of_ne (Ne.symm hx), List.filter_cons_of_pos (by simpa using hx),
        List.length_cons, List.length_cons]
      omega

theorem NormalizeWhitespace_shape (p0 : Char) (P1 M S : Text) :
    NormalizeWhitespace (p0 :: (P1 ++ '#' :: (M ++ S))) (1 + P1.length)
        (1 + P1.length + 1 + M.length)
      = some (p0 :: (P1.filter (fun c => decide (c ≠ ' ')) ++
                '#' :: (M.filter (fun c => decide (c ≠ ' ')) ++ S)),
          1 + (P1.filter (fun c => decide (c ≠ ' '))).length,
          1 + (P1.filter (fun c => decide (c ≠ ' '))).length + 1
            + (M.filter (fun c => decide (c ≠ ' '))).length) := by
  unfold NormalizeWhitespace
  obtain ⟨G, hG, hlen⟩ := normalizeLoop_eq (1 + P1.length + 1 + M.length)
    (P1 ++ '#' :: (M ++ S)) [p0] [] (1 + P1.length)
    ((p0 :: (P1 ++ '#' :: (M ++ S))).length + 1) (by omega) (by simp)
  have hstrip : stripSpaces (1 + P1.length + 1 + M.length - ([p0].length + ([] : Text).length))
        (P1 ++ '#' :: (M ++ S))
      = P1.filter (fun c => decide (c ≠ ' ')) ++
          '#' :: (M.filter (fun c => decide (c ≠ ' ')) ++ S) := by
    have e : 1 + P1.length + 1 + M.length - ([p0].length + ([] : Text).length)
        = (P1 ++ '#' :: M).length + 0 := by simp; omega
    have e2 : P1 ++ '#' :: (M ++ S) = (P1 ++ '#' :: M) ++ S := by simp
    rw [e, e2, stripSpaces_append]
    simp [stripSpaces, List.filter_cons]
  rw [hstrip] at hG hlen
  have e1 : [p0].length + ([] : Text).length + (P1 ++ '#' :: (M ++ S)).length
      = (p0 :: (P1 ++ '#' :: (M ++ S))).length := by simp; omega
  have e2 : [p0] ++ [] ++ (P1 ++ '#' :: (M ++ S)) = p0 :: (P1 ++ '#' :: (M ++ S)) := by simp
  have e3 : [p0].length + ([] : Text).length = 1 := by simp
  rw [e1, e2, e3] at hG
  simp only [List.length_nil] at hG
  simp only [hG]
  have hcond : 1 ≤ 1 + P1.length ∧
      1 + P1.length < (p0 :: (P1 ++ '#' :: (M ++ S))).length := by
    simp only [List.length_append, List.length_cons]
    omega
  have htake : (P1 ++ '#' :: (M ++ S)).take (1 + P1.length - 1) = P1 := by simp
  have hc1 := count_space_add_filter P1
  have hc2 : (M.filter (fun c => decide (c ≠ ' '))).length ≤ M.length := List.length_filter_le _ _
  have hc3 : (P1.filter (fun c => decide (c ≠ ' '))).length ≤ P1.length :=
    List.length_filter_le _ _
  simp only [List.length_append, List.length_cons, List.length_nil, Nat.zero_add] at hlen
  simp only [if_pos hcond, htake, Nat.zero_add]
  have hsub : substr ([p0] ++ (P1.filter (fun c => decide (c ≠ ' ')) ++
        '#' :: (M.filter (fun c => decide (c ≠ ' ')) ++ S)) ++ G) 0
        ((p0 :: (P1 ++ '#' :: (M ++ S))).length - G.length)
      = p0 :: (P1.filter (fun c => decide (c ≠ ' ')) ++
          '#' :: (M.filter (fun c => decide (c ≠ ' ')) ++ S)) := by
    have e : (p0 :: (P1 ++ '#' :: (M ++ S))).length - G.length
        = ([p0] ++ (P1.filter (fun c => decide (c ≠ ' ')) ++
            '#' :: (M.filter (fun c => decide (c ≠ ' ')) ++ S))).length := by
      simp only [List.length_append, List.length_cons, List.length_nil]
      omega
    rw [substr, List.drop_zero, e, List.take_left]
    simp
  rw [hsub]
  have e5 : 1 + P1.length - P1.count ' '
      = 1 + (P1.filter (fun c => decide (c ≠ ' '))).length := by omega
  have e6 : 1 + P1.length + 1 + M.length - G.length
      = 1 + (P1.filter (fun c => decide (c ≠ ' '))).length + 1
          + (M.filter (fun c => decide (c ≠ ' '))).length := by omega
  rw [e5, e6]

theorem contains_space_false (P : Text) (h : P.contains ' ' = false) :
    P.filter (fun c => decide (c ≠ ' ')) = P := by
  rw [List.filter_eq_self]
  intro c hc
  have : ' ' ∉ P := by simpa using h
  have h2 : c ≠ ' ' := fun e => this (e ▸ hc)
  simpa using h2

theorem Parse_unknown_disq (P R : Text) (c : Char) (error : Text) (data : ElemHideData)
    (pd : ParsedDomains) (hP : ∀ x ∈ P, x ≠ '#' ∧ x ∉ disqualifying)
    (hc : c ∈ disqualifying) :
    Parse (P ++ c :: R) error data pd = some ⟨.UNKNOWN, P ++ c :: R, error, data, pd⟩ := by
  have h1 := scanDomains_disq '\x00' P [] c R ((P ++ c :: R).length + 1) data false hP hc
    (by simp)
  simp only [List.nil_append, List.length_nil] at h1
  unfold Parse
  rw [show StringScanner.create (P ++ c :: R) 0 '\x00' = scannerAt (P ++ c :: R) 0 '\x00'
    from rfl]
  simp only [h1]

theorem Parse_unknown_nohash (P : Text) (error : Text) (data : ElemHideData)
    (pd : ParsedDomains) (hP : ∀ x ∈ P, x ≠ '#' ∧ x ∉ disqualifying) :
    Parse P error data pd = some ⟨.UNKNOWN, P, error, data, pd⟩ := by
  have h1 := scanDomains_end '\x00' P [] (P.length + 1) data false hP (le_refl _)
  simp only [List.nil_append, List.length_nil] at h1
  have h2 := sep_plain P P [] P.length 0 '\x00' (false || P.contains ' ') (by simp) rfl
    (by simp) (by simp) (by simp)
  unfold Parse
  rw [show StringScanner.create P 0 '\x00' = scannerAt P 0 '\x00' from rfl]
  simp only [h1, h2]
  simp

theorem Parse_unknown_sep (P R : Text) (n1 n2 : Nat) (kind : FilterType) (error : Text)
    (data : ElemHideData) (pd : ParsedDomains)
    (hP : ∀ x ∈ P, x ≠ '#' ∧ x ∉ disqualifying) (hk : IsKind kind)
    (h1 : kind = .ELEMHIDE → R.head? ≠ some ' ' ∧ R.head? ≠ some '@' ∧ R.head? ≠ some '?')
    (h2 : kind = .ELEMHIDEEXCEPTION → R.head? ≠ some ' ')
    (hR : R.head? ≠ some '#') :
    Parse (P ++ '#' :: (List.replicate n1 ' ' ++ (sepMiddle kind n2 ++ R))) error data pd
      = some ⟨.UNKNOWN, P ++ '#' :: (List.replicate n1 ' ' ++ (sepMiddle kind n2 ++ R)), error,
          ⟨P.length, data.mSelectorStart⟩, pd⟩ := by
  generalize ht : P ++ '#' :: (List.replicate n1 ' ' ++ (sepMiddle kind n2 ++ R)) = t
  have hs := scanDomains_hash '\x00' P [] (List.replicate n1 ' ' ++ (sepMiddle kind n2 ++ R))
    (t.length + 1) data false hP (by rw [← ht]; simp)
  simp only [List.nil_append, List.length_nil, Nat.zero_add] at hs
  rw [ht] at hs
  have hsep := sep_eval t (P ++ ['#']) R (P.length + 1) n1 n2 kind '\x00'
    (false || P.contains ' ') (by rw [← ht]; simp) (by simp) hk h1 h2
  have hnext : R.headD '\x00' ≠ '#' := by
    cases R with
    | nil => simp
    | cons r R => simpa using hR
  unfold Parse
  rw [show StringScanner.create t 0 '\x00' = scannerAt t 0 '\x00' from rfl]
  simp only [hs, hsep]
  rw [if_pos hnext]

theorem filter_replicate_space (n : Nat) :
    (List.replicate n ' ').filter (fun c => decide (c ≠ ' ')) = [] := by
  rw [List.filter_eq_nil_iff]
  intro a ha
  simp [List.eq_of_mem_replicate ha]

theorem filter_sepMiddle (kind : FilterType) (n : Nat) :
    (sepMiddle kind n).filter (fun c => decide (c ≠ ' ')) = sepMiddle kind 0 := by
  cases kind <;> simp [sepMiddle, List.filter_cons, filter_replicate_space]

/-- The run of `Parse` up to the test for an empty selector. -/
theorem Parse_stage (P S : Text) (n1 n2 n3 : Nat) (kind : FilterType) (error : Text)
    (data : ElemHideData) (pd : ParsedDomains)
    (hP : ∀ x ∈ P, x ≠ '#' ∧ x ∉ disqualifying) (hk : IsKind kind)
    (hS : S.head? ≠ some ' ') :
    Parse (shapeText P n1 kind n2 n3 S) error data pd
      = if S = [] then
          some ⟨.UNKNOWN, shapeText P n1 kind n2 n3 S, error,
            ⟨P.length, data.mSelectorStart⟩, pd⟩
        else
          match (if P.contains ' ' then
                   NormalizeWhitespace (shapeText P n1 kind n2 n3 S) P.length
                     (P.length + 1 + n1 + (sepMiddle kind n2).length + 1 + n3)
                 else some (shapeText P n1 kind n2 n3 S, P.length,
                     P.length + 1 + n1 + (sepMiddle kind n2).length + 1 + n3)) with
          | none => none
          | some (text1, domainsEnd, selectorStart) =>
            match ActiveFilter.ParseDomainsInternal
                (substr (toLower (text1.take domainsEnd) ++ text1.drop domainsEnd) 0 domainsEnd)
                ',' false with
            | none => none
            | some parsed =>
              some ⟨if parsed.hasEmpty then .INVALID else kind,
                toLower (text1.take domainsEnd) ++ text1.drop domainsEnd,
                if parsed.hasEmpty then "filter_invalid_domain".toList else error,
                ⟨domainsEnd, selectorStart⟩, parsed⟩ := by
  generalize ht : shapeText P n1 kind n2 n3 S = t
  have ht' : P ++ '#' :: (List.replicate n1 ' ' ++ (sepMiddle kind n2 ++
      '#' :: (List.replicate n3 ' ' ++ S))) = t := ht
  have hs := scanDomains_hash '\x00' P [] (List.replicate n1 ' ' ++ (sepMiddle kind n2 ++
      '#' :: (List.replicate n3 ' ' ++ S)))
    (t.length + 1) data false hP (by rw [← ht']; simp)
  simp only [List.nil_append, List.length_nil, Nat.zero_add] at hs
  rw [ht'] at hs
  have hsep := sep_eval t (P ++ ['#']) ('#' :: (List.replicate n3 ' ' ++ S)) (P.length + 1)
    n1 n2 kind '\x00' (false || P.contains ' ') (by rw [← ht']; simp) (by simp) hk
    (by intro _; simp) (by intro _; simp)
  have hskip := skip_eq t (P ++ '#' :: (List.replicate n1 ' ' ++ (sepMiddle kind n2 ++ ['#'])))
    S (P.length + 1 + n1 + (sepMiddle kind n2).length + 1) n3 '\x00' ' '
    (by rw [← ht']; simp) (by simp; omega) hS
  have hdone := done_eq t (P ++ '#' :: (List.replicate n1 ' ' ++ (sepMiddle kind n2 ++
      '#' :: List.replicate n3 ' '))) S
    (P.length + 1 + n1 + (sepMiddle kind n2).length + 1 + n3) '\x00'
    (by rw [← ht']; simp) (by simp; omega)
  have hpos : (scannerAt t (P.length + 1 + n1 + (sepMiddle kind n2).length + 1 + n3)
      '\x00').position + 1 = P.length + 1 + n1 + (sepMiddle kind n2).length + 1 + n3 := by
    simp only [scannerAt, StringScanner.position]
    omega
  simp only [Bool.false_or] at hs hsep
  unfold Parse
  rw [show StringScanner.create t 0 '\x00' = scannerAt t 0 '\x00' from rfl]
  simp only [hs]
  simp only [hsep]
  simp only [List.headD_cons, ne_eq, not_true_eq_false, if_false, hskip, hdone, hpos,
    Bool.or_false]
  by_cases hSn : S = []
  · simp only [hSn, decide_True, if_true]
  · simp only [hSn, decide_False, if_false, ElemHideData.GetDomainsSource, Bool.false_eq_true]
    generalize (if P.contains ' ' = true then
        NormalizeWhitespace t P.length (P.length + 1 + n1 + (sepMiddle kind n2).length + 1 + n3)
      else some (t, P.length, P.length + 1 + n1 + (sepMiddle kind n2).length + 1 + n3)) = X
    cases X with
    | none => rfl
    | some x =>
      obtain ⟨text1, de, ss⟩ := x
      simp only []
      generalize ActiveFilter.ParseDomainsInternal
        (substr (toLower (text1.take de) ++ text1.drop de) 0 de) ',' false = Y
      cases Y with
      | none => rfl
      | some parsed =>
        by_cases h : parsed.hasEmpty = true
        · simp [h]
        · rcases hk with rfl | rfl | rfl <;> simp [h]

theorem parsedOf_eq (T : Text) :
    ActiveFilter.ParseDomainsInternal T ',' false = some (parsedOf T) :=
  ActiveFilter.ParseDomainsInternal_eq T ',' false

theorem lower_take_drop (X R : Text) :
    toLower ((X ++ R).take X.length) ++ (X ++ R).drop X.length = toLower X ++ R := by
  rw [List.take_left, List.drop_left]

theorem substr_lower (X R : Text) : substr (toLower X ++ R) 0 X.length = toLower X := by
  have : X.length = (toLower X).length := by simp [toLower]
  rw [substr, List.drop_zero, this, List.take_left]

theorem Parse_unknown_noselector (P : Text) (n1 n2 n3 : Nat) (kind : FilterType)
    (error : Text) (data : ElemHideData) (pd : ParsedDomains)
    (hP : ∀ x ∈ P, x ≠ '#' ∧ x ∉ disqualifying) (hk : IsKind kind) :
    Parse (shapeText P n1 kind n2 n3 []) error data pd
      = some ⟨.UNKNOWN, shapeText P n1 kind n2 n3 [], error,
          ⟨P.length, data.mSelectorStart⟩, pd⟩ := by
  rw [Parse_stage P [] n1 n2 n3 kind error data pd hP hk (by simp), if_pos rfl]

theorem Parse_shape (P S : Text) (n1 n2 n3 : Nat) (kind : FilterType) (error : Text)
    (data : ElemHideData) (pd : ParsedDomains)
    (hP : ∀ x ∈ P, x ≠ '#' ∧ x ∉ disqualifying) (hk : IsKind kind)
    (hS : S ≠ []) (hS2 : S.head? ≠ some ' ') :
    Parse (shapeText P n1 kind n2 n3 S) error data pd
      = some (shapeResult P n1 kind n2 n3 S error) := by
  rw [Parse_stage P S n1 n2 n3 kind error data pd hP hk hS2, if_neg hS]
  by_cases hsp : P.contains ' ' = true
  · obtain ⟨p0, P1, rfl⟩ : ∃ p0 P1, P = p0 :: P1 := by
      cases P with
      | nil => simp at hsp
      | cons p0 P1 => exact ⟨p0, P1, rfl⟩
    have hn := NormalizeWhitespace_shape p0 P1
      (List.replicate n1 ' ' ++ (sepMiddle kind n2 ++ '#' :: List.replicate n3 ' ')) S
    have e1 : p0 :: (P1 ++ '#' :: ((List.replicate n1 ' ' ++
        (sepMiddle kind n2 ++ '#' :: List.replicate n3 ' ')) ++ S))
        = shapeText (p0 :: P1) n1 kind n2 n3 S := by simp [shapeText]
    have e2 : 1 + P1.length = (p0 :: P1).length := by simp; omega
    have e3 : 1 + P1.length + 1 + (List.replicate n1 ' ' ++
        (sepMiddle kind n2 ++ '#' :: List.replicate n3 ' ')).length
        = (p0 :: P1).length + 1 + n1 + (sepMiddle kind n2).length + 1 + n3 := by
      simp; omega
    have e4 : (List.replicate n1 ' ' ++ (sepMiddle kind n2 ++
        '#' :: List.replicate n3 ' ')).filter (fun c => decide (c ≠ ' '))
        = sepMiddle kind 0 ++ ['#'] := by
      rw [List.filter_append, List.filter_append, filter_replicate_space, filter_sepMiddle,
        List.filter_cons_of_pos (by simp), filter_replicate_space]
      simp
    have e5 : p0 :: (P1.filter (fun c => decide (c ≠ ' ')) ++
        '#' :: ((sepMiddle kind 0 ++ ['#']) ++ S))
        = normPrefix (p0 :: P1) ++ '#' :: (sepMiddle kind 0 ++ '#' :: S) := by
      simp [normPrefix]
    have e6 : 1 + (P1.filter (fun c => decide (c ≠ ' '))).length
        = (normPrefix (p0 :: P1)).length := by simp [normPrefix]; omega
    have e7 : (sepMiddle kind 0 ++ ['#']).length = (sepMiddle kind 0).length + 1 := by simp
    rw [e1, e3, e2, e4, e5, e6, e7] at hn
    rw [if_pos hsp, hn]
    simp only [lower_take_drop, substr_lower, parsedOf_eq, shapeResult, hsp, if_true]
    rfl
  · have hsp2 : P.contains ' ' = false := by simpa using hsp
    rw [if_neg hsp]
    simp only [shapeText, lower_take_drop, substr_lower, parsedOf_eq, shapeResult, hsp2,
      Bool.false_eq_true, if_false]

/-- A prefix without `#` and without disqualifying characters. -/
theorem prefix_cases (t : Text) :
    (∃ P R, t = P ++ '#' :: R ∧ ∀ x ∈ P, x ≠ '#' ∧ x ∉ disqualifying) ∨
    (∃ P c R, t = P ++ c :: R ∧ (∀ x ∈ P, x ≠ '#' ∧ x ∉ disqualifying) ∧ c ∈ disqualifying) ∨
    (∀ x ∈ t, x ≠ '#' ∧ x ∉ disqualifying) := by
  induction t with
  | nil => exact Or.inr (Or.inr (by simp))
  | cons c r ih =>
    by_cases h1 : c = '#'
    · exact Or.inl ⟨[], r, by simp [h1], by simp⟩
    · by_cases h2 : c ∈ disqualifying
      · exact Or.inr (Or.inl ⟨[], c, r, by simp, by simp, h2⟩)
      · rcases ih with ⟨P, R, rfl, hP⟩ | ⟨P, d, R, rfl, hP, hd⟩ | hall
        · refine Or.inl ⟨c :: P, R, by simp, ?_⟩
          intro x hx
          rcases List.mem_cons.mp hx with rfl | hx
          · exact ⟨h1, h2⟩
          · exact hP x hx
        · refine Or.inr (Or.inl ⟨c :: P, d, R, by simp, ?_, hd⟩)
          intro x hx
          rcases List.mem_cons.mp hx with rfl | hx
          · exact ⟨h1, h2⟩
          · exact hP x hx
        · refine Or.inr (Or.inr ?_)
          intro x hx
          rcases List.mem_cons.mp hx with rfl | hx
          · exact ⟨h1, h2⟩
          · exact hall x hx

theorem spaces_split (R : Text) :
    ∃ n R1, R = List.replicate n ' ' ++ R1 ∧ R1.head? ≠ some ' ' := by
  induction R with
  | nil => exact ⟨0, [], by simp, by simp⟩
  | cons c r ih =>
    by_cases hc : c = ' '
    · obtain ⟨n, R1, h, h1⟩ := ih
      exact ⟨n + 1, R1, by simp [List.replicate_succ, hc, ← h], h1⟩
    · exact ⟨0, c :: r, by simp, by simpa using hc⟩

theorem sep_cases (R : Text) :
    ∃ kind n1 n2 R', IsKind kind ∧
      R = List.replicate n1 ' ' ++ (sepMiddle kind n2 ++ R') ∧
      (kind = .ELEMHIDE → R'.head? ≠ some ' ' ∧ R'.head? ≠ some '@' ∧ R'.head? ≠ some '?') ∧
      (kind = .ELEMHIDEEXCEPTION → R'.head? ≠ some ' ') := by
  obtain ⟨n1, R1, rfl, h1⟩ := spaces_split R
  cases R1 with
  | nil =>
    exact ⟨.ELEMHIDE, n1, 0, [], Or.inl rfl, by simp [sepMiddle], by simp, by simp⟩
  | cons c R2 =>
    by_cases ha : c = '@'
    · obtain ⟨n2, R3, rfl, h3⟩ := spaces_split R2
      exact ⟨.ELEMHIDEEXCEPTION, n1, n2, R3, Or.inr (Or.inl rfl), by simp [sepMiddle, ha],
        by simp, fun _ => h3⟩
    · by_cases hq : c = '?'
      · exact ⟨.ELEMHIDEEMULATION, n1, 0, R2, Or.inr (Or.inr rfl), by simp [sepMiddle, hq],
          by simp, by simp⟩
      · refine ⟨.ELEMHIDE, n1, 0, c :: R2, Or.inl rfl, by simp [sepMiddle], ?_, by simp⟩
        intro _
        exact ⟨h1, by simpa using ha, by simpa using hq⟩

/-- Either `Parse` returns `UNKNOWN` and leaves the text alone, or the text is
an element-hide filter text. -/
theorem Parse_cases (t error : Text) (data : ElemHideData) (pd : ParsedDomains) :
    (∃ d, Parse t error data pd = some ⟨.UNKNOWN, t, error, d, pd⟩) ∨
    (∃ P n1 kind n2 n3 S, (∀ x ∈ P, x ≠ '#' ∧ x ∉ disqualifying) ∧ IsKind kind ∧
      S ≠ [] ∧ S.head? ≠ some ' ' ∧ t = shapeText P n1 kind n2 n3 S) := by
  rcases prefix_cases t with ⟨P, R, rfl, hP⟩ | ⟨P, c, R, rfl, hP, hc⟩ | hall
  · obtain ⟨kind, n1, n2, R', hk, rfl, h1, h2⟩ := sep_cases R
    by_cases hR : R'.head? = some '#'
    · obtain ⟨R4, rfl⟩ : ∃ R4, R' = '#' :: R4 := by
        cases R' with
        | nil => simp at hR
        | cons r R4 =>
          simp at hR
          exact ⟨R4, by rw [hR]⟩
      obtain ⟨n3, S, rfl, hS⟩ := spaces_split R4
      by_cases hSn : S = []
      · subst hSn
        exact Or.inl ⟨_, Parse_unknown_noselector P n1 n2 n3 kind error data pd hP hk⟩
      · exact Or.inr ⟨P, n1, kind, n2, n3, S, hP, hk, hSn, hS, rfl⟩
    · exact Or.inl ⟨_, Parse_unknown_sep P R' n1 n2 kind error data pd hP hk h1 h2 hR⟩
  · exact Or.inl ⟨_, Parse_unknown_disq P R c error data pd hP hc⟩
  · exact Or.inl ⟨_, Parse_unknown_nohash t error data pd hall⟩

end ElemHideBase

/-! ### Lower-casing and the segments of a domain list -/

theorem lowerChar_upper (c : Char) (h : 'A' ≤ c ∧ c ≤ 'Z') :
    'a' ≤ lowerChar c ∧ lowerChar c ≤ 'z' := by
  have h1 : 65 ≤ c.toNat := by
    have := h.1
    rw [Char.le_def] at this
    exact this
  have h2 : c.toNat ≤ 90 := by
    have := h.2
    rw [Char.le_def] at this
    exact this
  have hc : c = Char.ofNat c.toNat := (Char.ofNat_toNat c).symm
  generalize c.toNat = n at h1 h2 hc
  subst hc
  interval_cases n <;> decide

theorem lowerChar_eq_iff (c x : Char) (hx : ¬ ('a' ≤ x ∧ x ≤ 'z')) (hx2 : ¬ ('A' ≤ x ∧ x ≤ 'Z')) :
    lowerChar c = x ↔ c = x := by
  by_cases h : 'A' ≤ c ∧ c ≤ 'Z'
  · constructor
    · intro e
      exact absurd (e ▸ lowerChar_upper c h) hx
    · intro e
      exact absurd (e ▸ h) hx2
  · simp [lowerChar, h]

theorem lowerChar_eq_comma (c : Char) : lowerChar c = ',' ↔ c = ',' :=
  lowerChar_eq_iff c ',' (by decide) (by decide)

theorem lowerChar_eq_tilde (c : Char) : lowerChar c = '~' ↔ c = '~' :=
  lowerChar_eq_iff c '~' (by decide) (by decide)

namespace ActiveFilter

theorem segments_toLower (T : Text) :
    segments ',' (toLower T) = (segments ',' T).map toLower := by
  induction T with
  | nil => rfl
  | cons c r ih =>
    obtain ⟨s, ss, h⟩ := segments_ne_nil ',' r
    have ih' : segments ',' (List.map lowerChar r) = toLower s :: ss.map toLower := by
      have := ih
      rw [h] at this
      simpa [toLower] using this
    by_cases hc : c = ','
    · subst hc
      have : lowerChar ',' = ',' := by decide
      simp only [toLower, List.map_cons, this, segments_cons_sep] at ih ⊢
      rw [ih]
      rfl
    · have hc2 : lowerChar c ≠ ',' := fun e => hc ((lowerChar_eq_comma c).mp e)
      simp only [toLower, List.map_cons]
      rw [segments_cons_other ',' (lowerChar c) _ _ _ hc2 ih',
        segments_cons_other ',' c r s ss hc h]
      simp [toLower]

theorem allTilde_toLower (s : Text) :
    (∀ c ∈ toLower s, c = '~') ↔ ∀ c ∈ s, c = '~' := by
  simp [toLower, lowerChar_eq_tilde]

theorem hasEmptySegment_toLower (T : Text) :
    hasEmptySegment (toLower T) ↔ hasEmptySegment T := by
  unfold hasEmptySegment
  rw [segments_toLower]
  constructor
  · rintro ⟨h1, seg, hseg, h2⟩
    obtain ⟨s, hs, rfl⟩ := List.mem_map.mp hseg
    exact ⟨by simpa [toLower] using h1, s, hs, (allTilde_toLower s).mp h2⟩
  · rintro ⟨h1, s, hs, h2⟩
    exact ⟨by simpa [toLower] using h1, toLower s, List.mem_map.mpr ⟨s, hs, rfl⟩,
      (allTilde_toLower s).mpr h2⟩

theorem hasIncludeDomain_toLower (T : Text) :
    hasIncludeDomain (toLower T) ↔ hasIncludeDomain T := by
  unfold hasIncludeDomain
  rw [segments_toLower]
  have key : ∀ s : Text, (toLower s ≠ [] ∧ (toLower s).head? ≠ some '~') ↔
      (s ≠ [] ∧ s.head? ≠ some '~') := by
    intro s
    cases s with
    | nil => simp [toLower]
    | cons c s => simp [toLower, lowerChar_eq_tilde]
  constructor
  · rintro ⟨seg, hseg, h2⟩
    obtain ⟨s, hs, rfl⟩ := List.mem_map.mp hseg
    exact ⟨s, hs, (key s).mp h2⟩
  · rintro ⟨s, hs, h2⟩
    exact ⟨toLower s, List.mem_map.mpr ⟨s, hs, rfl⟩, (key s).mpr h2⟩

end ActiveFilter

theorem parsedOf_hasEmpty (T : Text) :
    (parsedOf T).hasEmpty = true ↔ ActiveFilter.hasEmptySegment T := by
  unfold parsedOf ActiveFilter.hasEmptySegment
  by_cases hT : T = []
  · simp [hT, ParsedDomains.create]
  · obtain ⟨s, ss, h⟩ := ActiveFilter.segments_ne_nil ',' T
    rw [if_neg hT, ActiveFilter.parseDomainsTail_hasEmpty T ',' (by decide) T 0 0 false
      ParsedDomains.create s ss (le_refl _) h, h]
    simp [ParsedDomains.create, hT]

theorem parsedOf_hasIncludes (T : Text) :
    (parsedOf T).hasIncludes = true ↔ ActiveFilter.hasIncludeDomain T := by
  unfold parsedOf ActiveFilter.hasIncludeDomain
  by_cases hT : T = []
  · simp [hT, ParsedDomains.create, ActiveFilter.segments]
  · obtain ⟨s, ss, h⟩ := ActiveFilter.segments_ne_nil ',' T
    rw [if_neg hT, ActiveFilter.parseDomainsTail_hasIncludes T ',' (by decide) T 0 0 false
      ParsedDomains.create s ss (le_refl _) h, h]
    simp [ParsedDomains.create, List.isEmpty_iff]

/-! ### The reference functions on an element-hide text -/

namespace ElemHideBase

theorem inputPrefix_shape (P R : Text) (hP : ∀ x ∈ P, x ≠ '#') :
    inputPrefix (P ++ '#' :: R) = P := by
  unfold inputPrefix
  rw [List.takeWhile_append_of_pos (by simpa using hP)]
  simp

theorem afterFirstHash_shape (P R : Text) (hP : ∀ x ∈ P, x ≠ '#') :
    afterFirstHash (P ++ '#' :: R) = R := by
  unfold afterFirstHash
  rw [List.dropWhile_append_of_pos (by simpa using hP)]
  simp

theorem dropSpaces_replicate (n : Nat) (R : Text) (hR : R.head? ≠ some ' ') :
    dropSpaces (List.replicate n ' ' ++ R) = R := by
  unfold dropSpaces
  rw [List.dropWhile_append_of_pos (by
    intro a ha
    simp [List.eq_of_mem_replicate ha])]
  cases R with
  | nil => rfl
  | cons c R =>
    have : c ≠ ' ' := by simpa using hR
    simp [this]

theorem secondHashPlace_shape (P S : Text) (n1 n2 n3 : Nat) (kind : FilterType)
    (hP : ∀ x ∈ P, x ≠ '#') (hk : IsKind kind) :
    secondHashPlace (shapeText P n1 kind n2 n3 S) = '#' :: (List.replicate n3 ' ' ++ S) := by
  unfold secondHashPlace shapeText
  rw [afterFirstHash_shape P _ hP]
  rcases hk with rfl | rfl | rfl
  · rw [dropSpaces_replicate n1 _ (by simp [sepMiddle])]
    simp [sepMiddle]
  · rw [dropSpaces_replicate n1 _ (by simp [sepMiddle])]
    simp only [sepMiddle, List.cons_append, List.head?_cons, if_true, List.tail_cons]
    exact dropSpaces_replicate n2 _ (by simp)
  · rw [dropSpaces_replicate n1 _ (by simp [sepMiddle])]
    simp [sepMiddle]

theorem inputSelector_shape (P S : Text) (n1 n2 n3 : Nat) (kind : FilterType)
    (hP : ∀ x ∈ P, x ≠ '#') (hk : IsKind kind) (hS : S.head? ≠ some ' ') :
    inputSelector (shapeText P n1 kind n2 n3 S) = S := by
  unfold inputSelector
  rw [secondHashPlace_shape P S n1 n2 n3 kind hP hk]
  exact dropSpaces_replicate n3 S hS

theorem inputPrefix_shapeText (P S : Text) (n1 n2 n3 : Nat) (kind : FilterType)
    (hP : ∀ x ∈ P, x ≠ '#') : inputPrefix (shapeText P n1 kind n2 n3 S) = P :=
  inputPrefix_shape P _ hP

theorem normPrefix_eq_filter (P : Text) (h : P.head? ≠ some ' ') :
    normPrefix P = P.filter (fun c => decide (c ≠ ' ')) := by
  cases P with
  | nil => rfl
  | cons c P =>
    have hc : c ≠ ' ' := by simpa using h
    rw [normPrefix, List.filter_cons_of_pos (by simpa using hc)]

theorem inputSelector_suffix (t : Text) : inputSelector t <:+ t := by
  unfold inputSelector dropSpaces
  refine (List.dropWhile_suffix _).trans ((List.drop_suffix _ _).trans ?_)
  have h1 : afterFirstHash t <:+ t := by
    unfold afterFirstHash
    exact (List.drop_suffix _ _).trans (List.dropWhile_suffix _)
  unfold secondHashPlace dropSpaces
  split
  · exact (List.dropWhile_suffix _).trans ((List.tail_suffix _).trans
      ((List.dropWhile_suffix _).trans h1))
  · split
    · exact (List.tail_suffix _).trans ((List.dropWhile_suffix _).trans h1)
    · exact (List.dropWhile_suffix _).trans h1

end ElemHideBase

open ElemHideBase ActiveFilter

theorem length_toLower (X : Text) : (toLower X).length = X.length := by
  simp [toLower]

/-- The postcondition of `Parse` on an element-hide text whose prefix does not
start with a space. -/
theorem shapeResult_post (P S error : Text) (n1 n2 n3 : Nat) (kind : FilterType)
    (hP0 : P.head? ≠ some ' ') (hS : S ≠ []) :
    (shapeResult P n1 kind n2 n3 S error).data.mDomainsEnd
      < (shapeResult P n1 kind n2 n3 S error).data.mSelectorStart ∧
    (shapeResult P n1 kind n2 n3 S error).data.mSelectorStart
      < (shapeResult P n1 kind n2 n3 S error).text.length ∧
    charAt (shapeResult P n1 kind n2 n3 S error).text
      (shapeResult P n1 kind n2 n3 S error).data.mDomainsEnd = '#' ∧
    (shapeResult P n1 kind n2 n3 S error).text.take
      (shapeResult P n1 kind n2 n3 S error).data.mDomainsEnd
      = toLower (P.filter (fun c => decide (c ≠ ' '))) ∧
    (shapeResult P n1 kind n2 n3 S error).text.drop
      (shapeResult P n1 kind n2 n3 S error).data.mSelectorStart = S := by
  have hSl : 0 < S.length := List.length_pos.mpr hS
  by_cases hsp : P.contains ' ' = true
  · simp only [shapeResult, hsp, if_true]
    rw [← normPrefix_eq_filter P hP0]
    generalize normPrefix P = X
    refine ⟨by omega, ?_, ?_, ?_, ?_⟩
    · simp only [List.length_append, List.length_cons, length_toLower]
      omega
    · rw [← length_toLower X]
      exact charAt_append_cons _ _ _
    · rw [← length_toLower X, List.take_left]
    · have e : toLower X ++ '#' :: (sepMiddle kind 0 ++ '#' :: S)
          = (toLower X ++ '#' :: (sepMiddle kind 0 ++ ['#'])) ++ S := by simp
      have e2 : X.length + 1 + (sepMiddle kind 0).length + 1
          = (toLower X ++ '#' :: (sepMiddle kind 0 ++ ['#'])).length := by
        simp only [List.length_append, List.length_cons, length_toLower, List.length_nil]
        omega
      rw [e, e2, List.drop_left]
  · have hsp2 : P.contains ' ' = false := by simpa using hsp
    simp only [shapeResult, hsp2, Bool.false_eq_true, if_false]
    rw [contains_space_false P hsp2]
    refine ⟨by omega, ?_, ?_, ?_, ?_⟩
    · simp only [List.length_append, List.length_cons, length_toLower, List.length_replicate]
      omega
    · rw [← length_toLower P]
      exact charAt_append_cons _ _ _
    · rw [← length_toLower P, List.take_left]
    · have e : toLower P ++ '#' :: (List.replicate n1 ' ' ++ (sepMiddle kind n2 ++
            '#' :: (List.replicate n3 ' ' ++ S)))
          = (toLower P ++ '#' :: (List.replicate n1 ' ' ++ (sepMiddle kind n2 ++
            '#' :: List.replicate n3 ' '))) ++ S := by simp
      have e2 : P.length + 1 + n1 + (sepMiddle kind n2).length + 1 + n3
          = (toLower P ++ '#' :: (List.replicate n1 ' ' ++ (sepMiddle kind n2 ++
            '#' :: List.replicate n3 ' '))).length := by
        simp only [List.length_append, List.length_cons, length_toLower, List.length_replicate]
        omega
      rw [e, e2, List.drop_left]

/-! ### `FromText` on an emulation filter -/

theorem find_assign_self {V : Type} (m : StringMap V) (k : Text) (v : V) :
    StringMap.find (StringMap.assign m k v) k = some v := by
  induction m with
  | nil => simp [StringMap.assign, StringMap.find]
  | cons e m ih =>
    obtain ⟨k1, v1⟩ := e
    by_cases h : k1 = k
    · subst h
      rw [StringMap.assign, if_pos rfl, StringMap.find, if_pos rfl]
    · rw [StringMap.assign, if_neg h, StringMap.find, if_neg h, ih]

theorem FillDomains_default (src : Text) (pd : ParsedDomains) :
    DomainMap.get (FillDomains src pd) DEFAULT_DOMAIN = !pd.hasIncludes := by
  unfold FillDomains DomainMap.get
  rw [find_assign_self]
  rfl

theorem IsGeneric_create (type : FilterType) (text : Text) (data : ElemHideData)
    (pd : ParsedDomains) :
    (ElemHideBase.create type text data pd).IsGeneric
      = if data.mDomainsEnd ≠ 0 then !pd.hasIncludes else true := by
  by_cases h : data.mDomainsEnd ≠ 0
  · have hd : decide (data.mDomainsEnd ≠ 0) = true := by simpa using h
    rw [if_pos h]
    simp only [ElemHideBase.create, ElemHideData.HasDomains, hd, if_true,
      ActiveFilter.IsGeneric, ActiveFilter.GetSitekeys, ActiveFilter.GetDomains,
      ActiveFilter.create]
    exact FillDomains_default _ _
  · have hd : decide (data.mDomainsEnd ≠ 0) = false := by simpa using h
    rw [if_neg h]
    simp only [ElemHideBase.create, ElemHideData.HasDomains, hd, Bool.false_eq_true, if_false,
      ActiveFilter.IsGeneric, ActiveFilter.GetSitekeys, ActiveFilter.GetDomains,
      ActiveFilter.create]

theorem mType_create (type : FilterType) (text : Text) (data : ElemHideData)
    (pd : ParsedDomains) : (ElemHideBase.create type text data pd).mType = type := by
  unfold ElemHideBase.create
  split <;> rfl

theorem mText_create (type : FilterType) (text : Text) (data : ElemHideData)
    (pd : ParsedDomains) : (ElemHideBase.create type text data pd).mText = text := by
  unfold ElemHideBase.create
  split <;> rfl

theorem getD_append_length {α : Type} (l : List α) (a : α) (r : List α) (d : α) :
    (l ++ a :: r).getD l.length d = a := by
  induction l with
  | nil => rfl
  | cons x l ih =>
    show ((x :: l) ++ a :: r).getD (l.length + 1) d = a
    rw [List.cons_append, List.getD_cons_succ]
    exact ih

theorem getD_set_append {α : Type} (l : List α) (a b x d : α) (r : List α) :
    ((l ++ a :: b :: r).set l.length x).getD (l.length + 1) d = b := by
  induction l with
  | nil => rfl
  | cons y l ih =>
    show ((y :: (l ++ a :: b :: r)).set (l.length + 1) x).getD (l.length + 1 + 1) d = b
    rw [List.set_cons_succ, List.getD_cons_succ]
    exact ih

/-- The `switch` of `FromText` for an emulation filter. -/
theorem construct_emulation (w : World) (text error : Text) (data : ElemHideData)
    (re : RegExpFilterData) (pd : ParsedDomains) :
    ∃ p, (Filter.construct w .ELEMHIDEEMULATION text error data re pd).result = some p ∧
      (Filter.construct w .ELEMHIDEEMULATION text error data re pd).text = text ∧
      (Filter.construct w .ELEMHIDEEMULATION text error data re pd).world.deref p =
        some (if (ElemHideBase.create .ELEMHIDEEMULATION text data pd).IsGeneric then
            FilterObject.invalid text "filter_elemhideemulation_nodomain".toList
          else FilterObject.elemhide (ElemHideBase.create .ELEMHIDEEMULATION text data pd)
            data) := by
  by_cases hg : (ElemHideBase.create .ELEMHIDEEMULATION text data pd).IsGeneric = true
  · have h1 : (w.heap ++ [some (⟨.elemhide
          (ElemHideBase.create .ELEMHIDEEMULATION text data pd) data, 1⟩ : FilterCell)] ++
        [some (⟨.invalid text "filter_elemhideemulation_nodomain".toList, 1⟩ :
          FilterCell)]).getD w.heap.length none
        = some ⟨.elemhide (ElemHideBase.create .ELEMHIDEEMULATION text data pd) data, 1⟩ := by
      rw [List.append_assoc]
      exact getD_append_length _ _ _ _
    have h2 : ((w.heap ++ [some (⟨.elemhide
          (ElemHideBase.create .ELEMHIDEEMULATION text data pd) data, 1⟩ : FilterCell)] ++
        [some (⟨.invalid text "filter_elemhideemulation_nodomain".toList, 1⟩ :
          FilterCell)]).set w.heap.length none).getD (w.heap.length + 1) none
        = some ⟨.invalid text "filter_elemhideemulation_nodomain".toList, 1⟩ := by
      rw [List.append_assoc]
      exact getD_set_append _ _ _ _ _ _
    refine ⟨w.heap.length + 1, ?_, ?_, ?_⟩ <;>
      simp only [Filter.construct, World.alloc, hg, if_true, World.destroy, World.deref,
        List.length_append, List.length_singleton, h1, h2, Option.map_some']
  · have h1 : (w.heap ++ [some (⟨.elemhide
          (ElemHideBase.create .ELEMHIDEEMULATION text data pd) data, 1⟩ : FilterCell)]).getD
          w.heap.length none
        = some ⟨.elemhide (ElemHideBase.create .ELEMHIDEEMULATION text data pd) data, 1⟩ :=
      getD_append_length _ _ _ _
    refine ⟨w.heap.length, ?_, ?_, ?_⟩ <;>
      simp only [Filter.construct, World.alloc, hg, World.deref, h1, Option.map_some',
        Bool.false_eq_true, if_false]

theorem shapeResult_parsedDomains (P S error : Text) (n1 n2 n3 : Nat) (kind : FilterType) :
    (shapeResult P n1 kind n2 n3 S error).parsedDomains
      = parsedOf ((shapeResult P n1 kind n2 n3 S error).data.GetDomainsSource
          (shapeResult P n1 kind n2 n3 S error).text) := by
  by_cases hsp : P.contains ' ' = true
  · simp only [shapeResult, hsp, if_true, ElemHideData.GetDomainsSource, substr_lower]
  · have hsp2 : P.contains ' ' = false := by simpa using hsp
    simp only [shapeResult, hsp2, Bool.false_eq_true, if_false, ElemHideData.GetDomainsSource,
      substr_lower]

theorem generic_iff (text : Text) (data : ElemHideData) :
    (ElemHideBase.create .ELEMHIDEEMULATION text data
        (parsedOf (data.GetDomainsSource text))).IsGeneric = true
      ↔ ¬ hasIncludeDomain (data.GetDomainsSource text) := by
  rw [IsGeneric_create]
  by_cases h : data.mDomainsEnd ≠ 0
  · rw [if_pos h, ← parsedOf_hasIncludes]
    simp
  · have h0 : data.mDomainsEnd = 0 := by simpa using h
    rw [if_neg h]
    have : data.GetDomainsSource text = [] := by
      simp [ElemHideData.GetDomainsSource, substr, h0]
    rw [this]
    simp only [true_iff]
    decide

theorem shapeText_head_not_bang (P S : Text) (n1 n2 n3 : Nat) (kind : FilterType)
    (hP : ∀ x ∈ P, x ≠ '#' ∧ x ∉ disqualifying) :
    CommentFilter.Parse (shapeText P n1 kind n2 n3 S) = .UNKNOWN := by
  unfold CommentFilter.Parse
  cases P with
  | nil => simp [shapeText]
  | cons c P =>
    have : c ≠ '!' := by
      rintro rfl
      exact (hP '!' (by simp)).2 (by decide)
    simp [shapeText, this]

/-! ### Further lemmas for the claims -/

theorem clean_of_C3 (D : Text) (hD : ∀ c ∈ D, c ≠ ' ' ∧ c ≠ '#' ∧ c ∉ disqualifying) :
    (∀ x ∈ D, x ≠ '#' ∧ x ∉ disqualifying) ∧ D.contains ' ' = false := by
  refine ⟨fun x hx => ⟨(hD x hx).2.1, (hD x hx).2.2⟩, ?_⟩
  have : ' ' ∉ D := fun h => (hD ' ' h).1 rfl
  simpa using this

theorem Parse_nospace (D S : Text) (kind : FilterType) (error : Text) (data : ElemHideData)
    (pd : ParsedDomains) (hD : ∀ c ∈ D, c ≠ ' ' ∧ c ≠ '#' ∧ c ∉ disqualifying)
    (hseg : ¬ hasEmptySegment D) (hk : IsKind kind) (hS : S ≠ []) (hS2 : S.head? ≠ some ' ') :
    ∃ r, Parse (shapeText D 0 kind 0 0 S) error data pd = some r ∧ r.type = kind ∧
      r.data = ⟨D.length, D.length + 1 + (sepMiddle kind 0).length + 1⟩ := by
  obtain ⟨hc, hsp⟩ := clean_of_C3 D hD
  refine ⟨_, Parse_shape D S 0 0 0 kind error data pd hc hk hS hS2, ?_, ?_⟩
  · have : (parsedOf (toLower D)).hasEmpty = false := by
      have := (parsedOf_hasEmpty (toLower D)).not.mpr
        (fun h => hseg ((hasEmptySegment_toLower D).mp h))
      simpa using this
    simp only [shapeResult, hsp, Bool.false_eq_true, if_false, this]
  · simp only [shapeResult, hsp, Bool.false_eq_true, if_false]

theorem shapeText_mem_hash (P S : Text) (n1 n2 n3 : Nat) (kind : FilterType) :
    '#' ∈ shapeText P n1 kind n2 n3 S := by
  simp [shapeText]

namespace Filter

theorem spec_idempotent (t : Text) :
    NormalizeWhitespace_spec (NormalizeWhitespace_spec t) = NormalizeWhitespace_spec t := by
  generalize hN : NormalizeWhitespace_spec t = N
  have hsub : ∀ c ∈ N, c ∈ t.filter (fun c => !decide (c < ' ')) := by
    intro c hc
    rw [← hN] at hc
    unfold NormalizeWhitespace_spec at hc
    exact (List.dropWhile_suffix _).subset ((List.rdropWhile_prefix _ _).subset hc)
  have h1 : N.filter (fun c => !decide (c < ' ')) = N := by
    rw [List.filter_eq_self]
    intro c hc
    exact (List.mem_filter.mp (hsub c hc)).2
  have h2 : N.dropWhile (fun c => c == ' ') = N := by
    cases hNc : N with
    | nil => rfl
    | cons n N' =>
      have hp : N <+: (t.filter (fun c => !decide (c < ' '))).dropWhile (fun c => c == ' ') := by
        rw [← hN]
        exact List.rdropWhile_prefix _ _
      obtain ⟨rest, hrest⟩ := hp
      have hh := List.head?_dropWhile_not (fun c => c == ' ')
        (t.filter (fun c => !decide (c < ' ')))
      rw [← hrest, hNc] at hh
      simp only [List.cons_append, List.head?_cons] at hh
      rw [List.dropWhile_cons_of_neg (by simpa using hh)]
  have h3 : N.rdropWhile (fun c => c == ' ') = N := by
    rw [← hN]
    unfold NormalizeWhitespace_spec
    exact List.rdropWhile_idempotent _ _
  unfold NormalizeWhitespace_spec
  rw [h1, h2, h3]

theorem spec_of_blank (t : Text) (h : ∀ c ∈ t, c ≤ ' ') : NormalizeWhitespace_spec t = [] := by
  unfold NormalizeWhitespace_spec
  have h1 : (t.filter (fun c => !decide (c < ' '))).dropWhile (fun c => c == ' ') = [] := by
    rw [List.dropWhile_eq_nil_iff]
    intro c hc
    have hc' := List.mem_filter.mp hc
    have h2 : ¬ c < ' ' := by simpa using hc'.2
    have : c = ' ' := le_antisymm (h c hc'.1) (not_lt.mp h2)
    simp [this]
  rw [h1]
  rfl

end Filter

/-! ### The registry: the invariant of `knownFilters` -/

theorem find_assign {V : Type} (m : StringMap V) (k k2 : Text) (v : V) :
    StringMap.find (StringMap.assign m k v) k2
      = if k = k2 then some v else StringMap.find m k2 := by
  induction m with
  | nil =>
    by_cases h : k = k2
    · simp [StringMap.assign, StringMap.find, h]
    · simp [StringMap.assign, StringMap.find, h]
  | cons e m ih =>
    obtain ⟨k1, v1⟩ := e
    by_cases h1 : k1 = k
    · subst h1
      by_cases h : k1 = k2
      · rw [StringMap.assign, if_pos rfl, StringMap.find, if_pos h, if_pos h]
      · rw [StringMap.assign, if_pos rfl, StringMap.find, if_neg h, if_neg h, StringMap.find,
          if_neg h]
    · rw [StringMap.assign, if_neg h1, StringMap.find, ih]
      by_cases h : k1 = k2
      · have : k ≠ k2 := fun e => h1 (h.trans e.symm)
        rw [if_pos h, if_neg this, StringMap.find, if_pos h]
      · rw [if_neg h]
        conv_rhs => rw [StringMap.find, if_neg h]

section

open ElemHideBase ActiveFilter

end

section

open ElemHideBase ActiveFilter

namespace World

end World

end

section

open ElemHideBase ActiveFilter

theorem Parse_total (t error : Text) (data : ElemHideData) (pd : ParsedDomains) :
    ∃ r, Parse t error data pd = some r := by
  rcases Parse_cases t error data pd with ⟨d, hd⟩ | ⟨P, n1, kind, n2, n3, S, hP, hk, hS, hS2, rfl⟩
  · exact ⟨_, hd⟩
  · exact ⟨_, Parse_shape P S n1 n2 n3 kind error data pd hP hk hS hS2⟩

/-- `FromText` on a text: it returns null in every registry state, or it looks
a key up that does not depend on the state, returns the filter found there and
constructs one when there is none. -/
theorem FromText_cases (rp : Text → RegExpParseResult) (t : Text) :
    (∀ w, Filter.FromText rp w t = some ⟨none, [], w⟩) ∨
    ∃ key ty err d re pd,
      (∀ w known, StringMap.find w.knownFilters key = some known →
        Filter.FromText rp w t = some ⟨some known, key, w.addRef known⟩) ∧
      (∀ w, StringMap.find w.knownFilters key = none →
        Filter.FromText rp w t = some (Filter.construct w ty key err d re pd)) := by
  have hn := Filter.NormalizeWhitespace_eq_spec t
  by_cases he : Filter.NormalizeWhitespace_spec t = []
  · left
    intro w
    simp only [Filter.FromText, hn, he, if_true]
  · right
    obtain ⟨parsed, hparsed⟩ :
        ∃ parsed, (if CommentFilter.Parse (Filter.NormalizeWhitespace_spec t) = .UNKNOWN then
               ElemHideBase.Parse (Filter.NormalizeWhitespace_spec t) [] ⟨0, 0⟩
                 ParsedDomains.create
             else some ⟨CommentFilter.Parse (Filter.NormalizeWhitespace_spec t),
               Filter.NormalizeWhitespace_spec t, [], ⟨0, 0⟩, ParsedDomains.create⟩)
          = some parsed := by
      by_cases hc : CommentFilter.Parse (Filter.NormalizeWhitespace_spec t) = .UNKNOWN
      · rw [if_pos hc]
        exact Parse_total _ _ _ _
      · rw [if_neg hc]
        exact ⟨_, rfl⟩
    refine ⟨(if parsed.type = .UNKNOWN then rp parsed.text
          else ⟨parsed.type, parsed.text, parsed.error, ⟨[], 0, false, none, none⟩⟩).text,
      (if parsed.type = .UNKNOWN then rp parsed.text
          else ⟨parsed.type, parsed.text, parsed.error, ⟨[], 0, false, none, none⟩⟩).type,
      (if parsed.type = .UNKNOWN then rp parsed.text
          else ⟨parsed.type, parsed.text, parsed.error, ⟨[], 0, false, none, none⟩⟩).error,
      parsed.data,
      (if parsed.type = .UNKNOWN then rp parsed.text
          else ⟨parsed.type, parsed.text, parsed.error, ⟨[], 0, false, none, none⟩⟩).data,
      parsed.parsedDomains, ?_, ?_⟩
    · intro w known hk
      simp only [Filter.FromText, hn, he, if_false, hparsed, hk]
    · intro w hk
      simp only [Filter.FromText, hn, he, if_false, hparsed, hk]

end

/-! ### `ParseDomainsInternal` and `FillDomains`: the emitted segments and the map -/

namespace ActiveFilter

theorem parseDomainsStep_inv (D : Text) (sep : Char) (itd : Bool) (c : Char)
    (pos start : Nat) (rev : Bool) (parsed : ParsedDomains)
    (hs : start ≤ pos) (hp : pos ≤ D.length) (h : DomainsInv D parsed) :
    (parseDomainsStep D sep itd c pos start rev parsed).1 ≤ pos + 1 ∧
    DomainsInv D (parseDomainsStep D sep itd c pos start rev parsed).2.2 := by
  unfold parseDomainsStep
  by_cases h1 : c = '~' ∧ pos = start
  · rw [if_pos h1]
    exact ⟨by simp only; omega, h⟩
  · rw [if_neg h1]
    by_cases h2 : c = sep
    · rw [if_pos h2]
      refine ⟨le_refl _, ?_⟩
      simp only
      generalize hlen : (if pos - start > 0 ∧ itd = true ∧
        charAt D (start + (pos - start) - 1) = '.' then pos - start - 1 else pos - start) = len
      have hle : len ≤ pos - start := by
        rw [← hlen]
        split <;> omega
      by_cases h3 : len > 0
      · rw [if_pos h3]
        obtain ⟨ha, hb⟩ := h
        constructor
        · cases rev
          · simp only [Bool.not_false, if_true, true_iff]
            exact ⟨⟨start, len, false⟩, by simp, rfl⟩
          · simp only [Bool.not_true, Bool.false_eq_true, if_false]
            rw [ha]
            constructor
            · rintro ⟨d, hd, hr⟩
              exact ⟨d, by simp [hd], hr⟩
            · rintro ⟨d, hd, hr⟩
              simp only [List.mem_append, List.mem_singleton] at hd
              rcases hd with hd | rfl
              · exact ⟨d, hd, hr⟩
              · cases hr
        · intro d hd
          simp only [List.mem_append, List.mem_singleton] at hd
          rcases hd with hd | rfl
          · exact hb d hd
          · exact ⟨h3, by simp only; omega⟩
      · rw [if_neg h3]
        exact h
    · rw [if_neg h2]
      exact ⟨by simp only; omega, h⟩

theorem parseDomainsTail_inv (D : Text) (sep : Char) (itd : Bool) (rest : Text) :
    ∀ (pos start : Nat) (rev : Bool) (parsed : ParsedDomains),
    start ≤ pos → pos + rest.length = D.length → DomainsInv D parsed →
    DomainsInv D (parseDomainsTail D sep itd rest pos start rev parsed) := by
  induction rest with
  | nil =>
    intro pos start rev parsed hs hp h
    rw [parseDomainsTail]
    exact (parseDomainsStep_inv D sep itd sep pos start rev parsed hs
      (by simp at hp; omega) h).2
  | cons c r ih =>
    intro pos start rev parsed hs hp h
    rw [parseDomainsTail]
    have hstep := parseDomainsStep_inv D sep itd c pos start rev parsed hs
      (by simp at hp; omega) h
    exact ih _ _ _ _ hstep.1 (by simp at hp ⊢; omega) hstep.2

theorem ParseDomainsInternal_inv (T : Text) (sep : Char) (itd : Bool) :
    ∃ p, ParseDomainsInternal T sep itd = some p ∧ DomainsInv T p := by
  refine ⟨_, ParseDomainsInternal_eq T sep itd, ?_⟩
  have h0 : DomainsInv T ParsedDomains.create := by
    constructor
    · simp [ParsedDomains.create]
    · intro d hd
      simp [ParsedDomains.create] at hd
  by_cases hT : T = []
  · rw [if_pos hT]
    exact h0
  · rw [if_neg hT]
    exact parseDomainsTail_inv T sep itd T 0 0 false _ (le_refl _) (by simp) h0

/-- The entry of a key after the loop of `FillDomains`: the one of the last
segment with that text, and the former entry when there is no such segment. -/
theorem find_fillLoop (D : Text) (k : Text) : ∀ (ds : List ParsedDomain) (m : DomainMap),
    StringMap.find (fillLoop D ds m) k
      = ((ds.reverse.find? (fun d => decide (substr D d.pos d.len = k))).map
          (fun d => !d.reverse)).or (StringMap.find m k) := by
  intro ds
  induction ds with
  | nil =>
    intro m
    simp [fillLoop]
  | cons d ds ih =>
    intro m
    rw [fillLoop, ih, find_assign, List.reverse_cons, List.find?_append]
    cases hf : List.find? (fun d => decide (substr D d.pos d.len = k)) ds.reverse with
    | some d2 => simp
    | none =>
      by_cases hk : substr D d.pos d.len = k
      · simp [hk]
      · simp [hk]

theorem find_FillDomains (D : Text) (p : ParsedDomains) (k : Text) :
    StringMap.find (FillDomains D p) k
      = if k = [] then some (!p.hasIncludes)
        else (p.domains.reverse.find? (fun d => decide (substr D d.pos d.len = k))).map
          (fun d => !d.reverse) := by
  unfold FillDomains
  rw [find_assign, find_fillLoop]
  by_cases hk : k = []
  · subst hk
    simp [DEFAULT_DOMAIN]
  · have : ¬ DEFAULT_DOMAIN = k := fun e => hk e.symm
    rw [if_neg this, if_neg hk]
    simp [StringMap.find]

theorem substr_length (D : Text) (pos len : Nat) (h : pos + len ≤ D.length) :
    (substr D pos len).length = len := by
  simp [substr]
  omega

end ActiveFilter

section

open ActiveFilter

theorem find?_reverse_of_mem (D : Text) (ds : List ParsedDomain) (d : ParsedDomain)
    (hd : d ∈ ds) :
    ∃ d2, ds.reverse.find? (fun x => decide (substr D x.pos x.len = substr D d.pos d.len))
        = some d2 ∧ d2 ∈ ds ∧ substr D d2.pos d2.len = substr D d.pos d.len := by
  cases hf : ds.reverse.find? (fun x => decide (substr D x.pos x.len = substr D d.pos d.len)) with
  | none =>
    rw [List.find?_eq_none] at hf
    have := hf d (by simpa using hd)
    simp at this
  | some d2 =>
    have h1 := List.mem_of_find?_eq_some hf
    have h2 := List.find?_some hf
    exact ⟨d2, rfl, by simpa using h1, by simpa using h2⟩

end

/-! ### `ParseDomainsInternal` against its reference -/

namespace ActiveFilter

theorem charAt_last (B : Text) (x : Char) (R : Text) :
    charAt (B ++ [x] ++ R) ((B ++ [x]).length - 1) = x := by
  have := charAt_append_cons B x R
  simpa using this

theorem step_sep (A rest : Text) (sep : Char) (hsep : sep ≠ '~') (itd : Bool)
    (start : Nat) (rev : Bool) (parsed : ParsedDomains) (hs : start ≤ A.length) :
    parseDomainsStep (A ++ rest) sep itd sep A.length start rev parsed
      = (A.length + 1, false, pushPiece parsed (closePiece itd start rev (A.drop start))) := by
  have h1 : ¬ (sep = '~' ∧ A.length = start) := fun h => hsep h.1
  unfold parseDomainsStep
  rw [if_neg h1, if_pos rfl]
  simp only
  by_cases hlt : start = A.length
  · subst hlt
    simp [closePiece, trimDot, pushPiece]
  · have hlt2 : start < A.length := by omega
    obtain ⟨B, x, rfl⟩ : ∃ B x, A = B ++ [x] := by
      cases h : A.reverse with
      | nil =>
        have : A = [] := by simpa using h
        subst this
        simp at hlt2
      | cons x B =>
        refine ⟨B.reverse, x, ?_⟩
        have := congrArg List.reverse h
        simpa using this
    have hsB : start ≤ B.length := by
      simp at hlt2
      omega
    have hX : (B ++ [x]).drop start = B.drop start ++ [x] := by
      rw [List.drop_append_of_le_length hsB]
    have hidx : start + ((B ++ [x]).length - start) - 1 = (B ++ [x]).length - 1 := by omega
    have hpos : (B ++ [x]).length - start > 0 := by omega
    rw [hidx, charAt_last, hX]
    have hlen : (B.drop start ++ [x]).length = (B ++ [x]).length - start := by
      simp
      omega
    by_cases hd : itd = true ∧ x = '.'
    · obtain ⟨rfl, rfl⟩ := hd
      have ht : trimDot true (B.drop start ++ ['.']) = B.drop start := by
        simp [trimDot]
      simp only [hpos, true_and, and_self, if_true, closePiece, ht]
      have hl2 : (B ++ ['.']).length - start - 1 = (B.drop start).length := by
        simp
        omega
      rw [hl2]
      by_cases he : B.drop start = []
      · simp [he, pushPiece]
      · have : (B.drop start).length > 0 := List.length_pos.mpr he
        have h3 : start < B.length := by
          simp at this
          exact this
        simp [he, pushPiece, h3]
    · have ht : trimDot itd (B.drop start ++ [x]) = B.drop start ++ [x] := by
        unfold trimDot
        rw [if_neg]
        simpa using hd
      have hc : ¬ ((B ++ [x]).length - start > 0 ∧ itd = true ∧ x = '.') := fun h => hd h.2
      simp only [hc, if_false, closePiece, ht, hlen]
      have h3 : start < B.length + 1 := by
        simp at hlt2
        exact hlt2
      simp [pushPiece, h3]

theorem leadingTildes_tilde (s : Text) : leadingTildes ('~' :: s) = leadingTildes s + 1 := by
  simp [leadingTildes]

theorem leadingTildes_other (c : Char) (s : Text) (h : c ≠ '~') : leadingTildes (c :: s) = 0 := by
  simp [leadingTildes, h]

theorem leadingTildes_nil : leadingTildes [] = 0 := rfl

theorem closePiece_nil (itd : Bool) (start : Nat) (rev : Bool) :
    closePiece itd start rev [] = none := by
  simp [closePiece, trimDot]

theorem curPiece_fresh (itd : Bool) (pos start : Nat) (s : Text) :
    curPiece itd pos start false [] s = pieceDomain itd pos s := by
  simp only [curPiece, if_true, closePiece, pieceDomain, pieceRemainder, Bool.false_or]

theorem parseDomainsTail_pieces (sep : Char) (hsep : sep ≠ '~') (itd : Bool) (rest : Text) :
    ∀ (A : Text) (start : Nat) (rev : Bool) (parsed : ParsedDomains) (s : Text)
      (ss : List Text),
    start ≤ A.length → segments sep rest = s :: ss →
    parseDomainsTail (A ++ rest) sep itd rest A.length start rev parsed
      = ((piecesAt (A.length + s.length + 1) ss).map
          (fun op => pieceDomain itd op.1 op.2)).foldl pushPiece
          (pushPiece parsed (curPiece itd A.length start rev (A.drop start) s)) := by
  induction rest with
  | nil =>
    intro A start rev parsed s ss hs hseg
    simp only [segments, List.cons.injEq] at hseg
    obtain ⟨rfl, rfl⟩ := hseg
    rw [parseDomainsTail, step_sep A [] sep hsep itd start rev parsed hs]
    simp only [piecesAt, List.map_nil, List.foldl_nil]
    by_cases hX : A.drop start = []
    · simp only [curPiece, hX, if_true, closePiece_nil, List.drop_nil]
    · simp only [curPiece, hX, if_false, List.append_nil]
  | cons c r ih =>
    intro A start rev parsed s ss hs hseg
    obtain ⟨s1, ss1, h1⟩ := segments_ne_nil sep r
    have e2 : A ++ c :: r = (A ++ [c]) ++ r := by simp
    have el : (A ++ [c]).length = A.length + 1 := by simp
    rw [parseDomainsTail]
    by_cases hc : c = sep
    · subst hc
      rw [segments_cons_sep, h1] at hseg
      simp only [List.cons.injEq] at hseg
      obtain ⟨rfl, rfl⟩ := hseg
      rw [step_sep A (c :: r) c hsep itd start rev parsed hs]
      simp only
      have := ih (A ++ [c]) (A.length + 1) false
        (pushPiece parsed (closePiece itd start rev (A.drop start))) s1 ss1
        (by rw [el]) h1
      rw [el] at this
      rw [e2, this]
      have hd : (A ++ [c]).drop (A.length + 1) = [] := by
        rw [List.drop_eq_nil_iff]
        rw [el]
      rw [hd, curPiece_fresh]
      simp only [piecesAt, List.map_cons, List.foldl_cons, List.length_nil, Nat.add_zero]
      by_cases hX : A.drop start = []
      · simp only [curPiece, hX, if_true, closePiece_nil, List.drop_nil]
      · simp only [curPiece, hX, if_false, List.append_nil]
    · rw [segments_cons_other sep c r s1 ss1 hc h1] at hseg
      simp only [List.cons.injEq] at hseg
      obtain ⟨rfl, rfl⟩ := hseg
      have hlen : A.length + (c :: s1).length + 1 = A.length + 1 + s1.length + 1 := by
        simp
        omega
      by_cases ht : c = '~' ∧ A.length = start
      · obtain ⟨rfl, rfl⟩ := ht
        have hst : parseDomainsStep (A ++ '~' :: r) sep itd '~' A.length A.length rev parsed
            = (A.length + 1, true, parsed) := by
          simp [parseDomainsStep]
        rw [hst]
        simp only
        have := ih (A ++ ['~']) (A.length + 1) true parsed s1 ss1 (by rw [el]) h1
        rw [el] at this
        rw [e2, this, hlen]
        have hd : (A ++ ['~']).drop (A.length + 1) = [] := by
          rw [List.drop_eq_nil_iff]
          rw [el]
        have hd0 : A.drop A.length = [] := by simp
        rw [hd, hd0]
        simp only [curPiece, if_true, leadingTildes_tilde, List.drop_succ_cons, List.head?_cons,
          decide_True, Bool.or_true, Bool.true_or]
        rw [show A.length + (leadingTildes s1 + 1) = A.length + 1 + leadingTildes s1 by omega]
      · have hst : parseDomainsStep (A ++ c :: r) sep itd c A.length start rev parsed
            = (start, rev, parsed) := by
          simp only [parseDomainsStep, ht, if_false, hc]
        rw [hst]
        simp only
        have := ih (A ++ [c]) start rev parsed s1 ss1 (by rw [el]; omega) h1
        rw [el] at this
        rw [e2, this, hlen]
        have hd : (A ++ [c]).drop start = A.drop start ++ [c] := by
          rw [List.drop_append_of_le_length hs]
        have hne : A.drop start ++ [c] ≠ [] := by simp
        rw [hd]
        simp only [curPiece, hne, if_false, List.append_assoc, List.singleton_append]
        by_cases hX : A.drop start = []
        · have hsl : start = A.length := by
            rw [List.drop_eq_nil_iff] at hX
            omega
          have hct : c ≠ '~' := fun h => ht ⟨h, hsl.symm⟩
          have hh : ¬ (some c = some '~') := by simpa using hct
          subst hsl
          simp only [hX, if_true, List.nil_append, leadingTildes_other c s1 hct, List.drop_zero,
            Nat.add_zero, List.head?_cons, hh, decide_False, Bool.or_false]
        · simp only [hX, if_false]

theorem foldl_pushPiece (rs : List (Option ParsedDomain)) : ∀ parsed : ParsedDomains,
    rs.foldl pushPiece parsed
      = ⟨parsed.hasIncludes || (rs.filterMap id).any (fun d => !d.reverse),
          parsed.hasEmpty || rs.any (fun r => r.isNone),
          parsed.domains ++ rs.filterMap id⟩ := by
  induction rs with
  | nil =>
    intro parsed
    simp
  | cons r rs ih =>
    intro parsed
    rw [List.foldl_cons, ih]
    cases r with
    | none => simp [pushPiece]
    | some d =>
      cases hr : d.reverse <;> simp [pushPiece, hr, Bool.or_assoc]

theorem ParseDomainsInternal_eq_spec (T : Text) (sep : Char) (itd : Bool) (hT : T ≠ [])
    (hsep : sep ≠ '~') :
    ParseDomainsInternal T sep itd = some (ParseDomainsInternal_spec T sep itd) := by
  rw [ParseDomainsInternal_eq, if_neg hT]
  obtain ⟨s, ss, hseg⟩ := segments_ne_nil sep T
  have := parseDomainsTail_pieces sep hsep itd T [] 0 false ParsedDomains.create s ss
    (le_refl _) hseg
  simp only [List.nil_append, List.length_nil, List.drop_nil, curPiece_fresh] at this
  rw [this]
  have e : List.foldl pushPiece (pushPiece ParsedDomains.create (pieceDomain itd 0 s))
      (List.map (fun op => pieceDomain itd op.1 op.2) (piecesAt (0 + s.length + 1) ss))
      = List.foldl pushPiece ParsedDomains.create
          (List.map (fun op => pieceDomain itd op.1 op.2) (piecesAt 0 (s :: ss))) := by
    simp [piecesAt]
  rw [e, foldl_pushPiece, ← hseg]
  simp only [ParsedDomains.create, Bool.false_or, List.nil_append, ParseDomainsInternal_spec,
    List.filterMap_map, Function.id_comp]
  have hany : ∀ l : List (Nat × Text),
      (l.map (fun op => pieceDomain itd op.1 op.2)).any (fun r => r.isNone)
        = l.any (fun op => (pieceDomain itd op.1 op.2).isNone) := by
    intro l
    induction l with
    | nil => rfl
    | cons a l ih => simp only [List.map_cons, List.any_cons, ih]
  rw [hany]

theorem piecesAt_prefix (sep : Char) (rest : Text) : ∀ (A : Text) (op : Nat × Text),
    op ∈ piecesAt A.length (segments sep rest) → op.2 <+: (A ++ rest).drop op.1 := by
  induction rest with
  | nil =>
    intro A op hop
    simp only [segments, piecesAt, List.mem_singleton] at hop
    subst hop
    exact List.nil_prefix
  | cons c r ih =>
    intro A op hop
    obtain ⟨s1, ss1, h1⟩ := segments_ne_nil sep r
    have e2 : A ++ c :: r = (A ++ [c]) ++ r := by simp
    have el : (A ++ [c]).length = A.length + 1 := by simp
    by_cases hc : c = sep
    · subst hc
      rw [segments_cons_sep] at hop
      simp only [piecesAt, List.mem_cons, List.length_nil, Nat.add_zero] at hop
      rcases hop with rfl | hop
      · exact List.nil_prefix
      · rw [e2]
        exact ih (A ++ [c]) op (by rw [el]; exact hop)
    · rw [segments_cons_other sep c r s1 ss1 hc h1] at hop
      simp only [piecesAt, List.mem_cons] at hop
      have hih := ih (A ++ [c])
      rw [el, h1] at hih
      rcases hop with rfl | hop
      · have := hih (A.length + 1, s1) (by simp [piecesAt])
        simp only at this ⊢
        rw [← e2] at this
        have e3 : (A ++ c :: r).drop A.length = c :: r := by simp
        have e4 : (A ++ c :: r).drop (A.length + 1) = r := by
          rw [e2, ← el]
          simp
        rw [e3]
        rw [e4] at this
        exact (List.prefix_cons_inj c).mpr this
      · rw [e2]
        apply hih op
        simp only [piecesAt, List.mem_cons]
        right
        have : A.length + (c :: s1).length + 1 = A.length + 1 + s1.length + 1 := by
          simp
          omega
        rw [← this]
        exact hop

theorem trimDot_prefix (itd : Bool) (rem : Text) : trimDot itd rem <+: rem := by
  unfold trimDot
  split
  · exact List.dropLast_prefix rem
  · exact List.prefix_refl rem

theorem pieceDomain_denotes (itd : Bool) (T : Text) (off : Nat) (piece : Text)
    (d : ParsedDomain) (hp : piece <+: T.drop off) (hd : pieceDomain itd off piece = some d) :
    substr T d.pos d.len = pieceRemainder itd piece ∧
    (d.reverse = true ↔ piece.head? = some '~') := by
  unfold pieceDomain at hd
  split at hd
  · cases hd
  · cases hd
    refine ⟨?_, by simp⟩
    have h1 : pieceRemainder itd piece <+: piece.drop (leadingTildes piece) :=
      trimDot_prefix itd _
    have h2 : piece.drop (leadingTildes piece) <+: (T.drop off).drop (leadingTildes piece) := by
      obtain ⟨t, ht⟩ := hp
      rw [← ht]
      unfold leadingTildes
      rw [List.drop_append_of_le_length (List.takeWhile_prefix _).length_le]
      exact List.prefix_append _ _
    have h3 := h1.trans h2
    rw [List.drop_drop] at h3
    simp only [substr]
    exact (List.prefix_iff_eq_take.mp h3).symm

theorem pieceRemainder_eq_spec (itd : Bool) (piece : Text)
    (h : ¬ ['~', '~'] <+: piece) : pieceRemainder itd piece = pieceRemainder_spec itd piece := by
  unfold pieceRemainder pieceRemainder_spec
  cases piece with
  | nil => rfl
  | cons c s =>
    by_cases hc : c = '~'
    · subst hc
      cases s with
      | nil => rfl
      | cons c2 s2 =>
        have hc2 : c2 ≠ '~' := by
          rintro rfl
          exact h ⟨s2, rfl⟩
        simp [leadingTildes, hc2]
    · simp [leadingTildes, hc]

end ActiveFilter

/-! ### `GetSelector` and `EscapeCurlies` -/

namespace ElemHideBase

theorem memcpy_four (done gap : Text) (a b c d : Char) (h : 4 ≤ gap.length) :
    memcpy (done ++ gap) done.length [a, b, c, d] 4 = done ++ [a, b, c, d] ++ gap.drop 4 := by
  obtain ⟨g0, g1, g2, g3, gap2, rfl⟩ : ∃ g0 g1 g2 g3 gap2, gap = g0 :: g1 :: g2 :: g3 :: gap2 := by
    match gap, h with
    | g0 :: g1 :: g2 :: g3 :: gap2, _ => exact ⟨g0, g1, g2, g3, gap2, rfl⟩
  have s0 := set_append_cons done g0 a (g1 :: g2 :: g3 :: gap2)
  have s1 := set_append_cons (done ++ [a]) g1 b (g2 :: g3 :: gap2)
  have s2 := set_append_cons (done ++ [a, b]) g2 c (g3 :: gap2)
  have s3 := set_append_cons (done ++ [a, b, c]) g3 d gap2
  simp only [List.length_append, List.length_singleton, List.length_cons, List.length_nil,
    List.append_assoc, List.singleton_append, List.cons_append, List.nil_append] at s0 s1 s2 s3
  simp only [memcpy, charAt, List.getD_cons_zero, List.getD_cons_succ, Nat.add_zero, s0, s1, s2,
    s3, List.drop_succ_cons, List.drop_zero, List.append_assoc, List.cons_append,
    List.nil_append]

theorem escapeLoop_eq (rest : Text) : ∀ (A done gap : Text) (fuel : Nat),
    rest.length + 1 ≤ fuel → (escapeCurlies_spec rest).length ≤ gap.length →
    escapeLoop (A ++ rest) fuel A.length (done ++ gap) done.length
      = some (done ++ escapeCurlies_spec rest ++ gap.drop (escapeCurlies_spec rest).length) := by
  induction rest with
  | nil =>
    intro A done gap fuel hf hg
    obtain ⟨f, rfl⟩ : ∃ f, fuel = f + 1 := ⟨fuel - 1, by simp at hf; omega⟩
    rw [escapeLoop]
    simp [escapeCurlies_spec]
  | cons c r ih =>
    intro A done gap fuel hf hg
    obtain ⟨f, rfl⟩ : ∃ f, fuel = f + 1 := ⟨fuel - 1, by simp at hf; omega⟩
    have hlt : A.length < (A ++ c :: r).length := by simp
    have e2 : A ++ c :: r = (A ++ [c]) ++ r := by simp
    have el : (A ++ [c]).length = A.length + 1 := by simp
    have hf2 : r.length + 1 ≤ f := by simp at hf; omega
    rw [escapeLoop, if_pos hlt, charAt_append_cons]
    by_cases h1 : c = '\x7d'
    · subst h1
      rw [if_pos rfl]
      have hspec : escapeCurlies_spec ('\x7d' :: r)
          = ['\\', '7', 'D', ' '] ++ escapeCurlies_spec r := by
        simp [escapeCurlies_spec]
      rw [hspec] at hg ⊢
      have hg4 : 4 ≤ gap.length := by simp at hg; omega
      have hm := memcpy_four done gap '\\' '7' 'D' ' ' hg4
      have hlen : (done ++ ['\\', '7', 'D', ' ']).length = done.length + CURLY_REPLACEMENT_SIZE := by
        simp [CURLY_REPLACEMENT_SIZE, OPENING_CURLY_REPLACEMENT]
      show escapeLoop _ f (A.length + 1) (memcpy (done ++ gap) done.length
        ['\\', '7', 'D', ' '] 4) (done.length + CURLY_REPLACEMENT_SIZE) = _
      rw [hm, ← hlen, ← el, e2,
        ih (A ++ [_]) (done ++ ['\\', '7', 'D', ' ']) (gap.drop 4) f hf2
          (by simp at hg ⊢; omega)]
      simp [List.drop_drop, Nat.add_comm]
      congr 1
      omega
    · rw [if_neg h1]
      by_cases h2 : c = '\x7b'
      · subst h2
        rw [if_pos rfl]
        have hspec : escapeCurlies_spec ('\x7b' :: r)
            = ['\\', '7', 'B', ' '] ++ escapeCurlies_spec r := by
          simp [escapeCurlies_spec]
        rw [hspec] at hg ⊢
        have hg4 : 4 ≤ gap.length := by simp at hg; omega
        have hm := memcpy_four done gap '\\' '7' 'B' ' ' hg4
        have hlen : (done ++ ['\\', '7', 'B', ' ']).length
            = done.length + CURLY_REPLACEMENT_SIZE := by
          simp [CURLY_REPLACEMENT_SIZE, OPENING_CURLY_REPLACEMENT]
        show escapeLoop _ f (A.length + 1) (memcpy (done ++ gap) done.length
          ['\\', '7', 'B', ' '] 4) (done.length + CURLY_REPLACEMENT_SIZE) = _
        rw [hm, ← hlen, ← el, e2,
          ih (A ++ [_]) (done ++ ['\\', '7', 'B', ' ']) (gap.drop 4) f hf2
            (by simp at hg ⊢; omega)]
        simp [List.drop_drop, Nat.add_comm]
        congr 1
        omega
      · rw [if_neg h2]
        have hspec : escapeCurlies_spec (c :: r) = [c] ++ escapeCurlies_spec r := by
          simp [escapeCurlies_spec, h1, h2]
        rw [hspec] at hg ⊢
        obtain ⟨g0, gap2, rfl⟩ : ∃ g0 gap2, gap = g0 :: gap2 := by
          cases gap with
          | nil => simp at hg
          | cons g0 gap2 => exact ⟨g0, gap2, rfl⟩
        have hlen : (done ++ [c]).length = done.length + 1 := by simp
        rw [set_append_cons, ← hlen, ← el, e2]
        have e3 : done ++ c :: gap2 = (done ++ [c]) ++ gap2 := by simp
        rw [e3, ih (A ++ [c]) (done ++ [c]) gap2 f hf2 (by simp at hg ⊢; omega)]
        simp

theorem countLoop_eq (rest : Text) : ∀ (A : Text) (fuel n : Nat), rest.length + 1 ≤ fuel →
    countLoop (A ++ rest) fuel A.length n = some (n + countCurlies rest) := by
  induction rest with
  | nil =>
    intro A fuel n hf
    obtain ⟨f, rfl⟩ : ∃ f, fuel = f + 1 := ⟨fuel - 1, by simp at hf; omega⟩
    rw [countLoop]
    simp [countCurlies]
  | cons c r ih =>
    intro A fuel n hf
    obtain ⟨f, rfl⟩ : ∃ f, fuel = f + 1 := ⟨fuel - 1, by simp at hf; omega⟩
    have hlt : A.length < (A ++ c :: r).length := by simp
    have e2 : A ++ c :: r = (A ++ [c]) ++ r := by simp
    have el : (A ++ [c]).length = A.length + 1 := by simp
    have hf2 : r.length + 1 ≤ f := by simp at hf; omega
    rw [countLoop, if_pos hlt, charAt_append_cons]
    by_cases h : c = '\x7d' ∨ c = '\x7b'
    · rw [if_pos h, ← el, e2, ih (A ++ [c]) f (n + 1) hf2]
      have : countCurlies (c :: r) = countCurlies r + 1 := by
        rcases h with rfl | rfl <;> simp [countCurlies]
      rw [this]
      congr 1
      omega
    · rw [if_neg h, ← el, e2, ih (A ++ [c]) f n hf2]
      have : countCurlies (c :: r) = countCurlies r := by
        have h1 : c ≠ '\x7d' := fun e => h (Or.inl e)
        have h2 : c ≠ '\x7b' := fun e => h (Or.inr e)
        simp [countCurlies, h1, h2]
      rw [this]

theorem length_escapeCurlies_spec (s : Text) :
    (escapeCurlies_spec s).length = s.length + 3 * countCurlies s := by
  induction s with
  | nil => rfl
  | cons c r ih =>
    by_cases h2 : c = '\x7b'
    · subst h2
      simp [escapeCurlies_spec, countCurlies] at ih ⊢
      omega
    · by_cases h1 : c = '\x7d'
      · subst h1
        simp [escapeCurlies_spec, countCurlies] at ih ⊢
        omega
      · simp [escapeCurlies_spec, countCurlies, h1, h2] at ih ⊢
        omega

theorem escapeCurlies_spec_nobrace (s : Text) :
    ∀ c ∈ escapeCurlies_spec s, c ≠ '\x7b' ∧ c ≠ '\x7d' := by
  induction s with
  | nil =>
    intro c hc
    simp [escapeCurlies_spec] at hc
  | cons x r ih =>
    intro c hc
    rw [escapeCurlies_spec, List.mem_append] at hc
    rcases hc with hc | hc
    · by_cases h2 : x = '\x7b'
      · rw [if_pos h2] at hc
        simp only [List.mem_cons, List.mem_singleton, List.not_mem_nil, or_false] at hc
        rcases hc with rfl | rfl | rfl | rfl <;> decide
      · rw [if_neg h2] at hc
        by_cases h1 : x = '\x7d'
        · rw [if_pos h1] at hc
          simp only [List.mem_cons, List.mem_singleton, List.not_mem_nil, or_false] at hc
          rcases hc with rfl | rfl | rfl | rfl <;> decide
        · rw [if_neg h1] at hc
          simp only [List.mem_singleton] at hc
          subst hc
          exact ⟨h2, h1⟩
    · exact ih c hc

theorem escapeCurlies_spec_id (s : Text) (h : countCurlies s = 0) :
    escapeCurlies_spec s = s := by
  induction s with
  | nil => rfl
  | cons c r ih =>
    by_cases h2 : c = '\x7b'
    · subst h2
      simp [countCurlies] at h
    · by_cases h1 : c = '\x7d'
      · subst h1
        simp [countCurlies] at h
      · have hr : countCurlies r = 0 := by
          simpa [countCurlies, h1, h2] using h
        simp [escapeCurlies_spec, h1, h2, ih hr]

theorem GetSelector_eq (base : ActiveFilter) (mData : ElemHideData) :
    GetSelector base mData = some (escapeCurlies_spec (base.mText.drop mData.mSelectorStart)) := by
  unfold GetSelector
  simp only [ElemHideData.GetSelector]
  generalize base.mText.drop mData.mSelectorStart = sel
  have hc := countLoop_eq sel [] (sel.length + 1) 0 (le_refl _)
  simp only [List.nil_append, List.length_nil, Nat.zero_add] at hc
  rw [hc]
  simp only
  by_cases h0 : countCurlies sel = 0
  · simp only [h0, ne_eq, not_true_eq_false, if_false, escapeCurlies_spec_id sel h0]
  · rw [if_pos h0]
    unfold EscapeCurlies
    have hlen := length_escapeCurlies_spec sel
    have he := escapeLoop_eq sel [] []
      (List.replicate (sel.length + countCurlies sel * (CURLY_REPLACEMENT_SIZE - 1)) '\x00')
      (sel.length + 1) (le_refl _)
      (by
        rw [hlen, List.length_replicate]
        simp [CURLY_REPLACEMENT_SIZE, OPENING_CURLY_REPLACEMENT]
        omega)
    simp only [List.nil_append, List.length_nil] at he
    rw [he]
    congr 1
    have : (List.replicate (sel.length + countCurlies sel * (CURLY_REPLACEMENT_SIZE - 1))
        '\x00').drop (escapeCurlies_spec sel).length = [] := by
      rw [List.drop_eq_nil_iff, hlen, List.length_replicate]
      simp [CURLY_REPLACEMENT_SIZE, OPENING_CURLY_REPLACEMENT]
      omega
    rw [this, List.append_nil]

end ElemHideBase

/-! ### `ParseExpires` -/

section

open StringScanner DownloadableSubscription_Parser

theorem create_eq_scannerAt (t : Text) (tm : Char) :
    StringScanner.create t 0 tm = scannerAt t 0 tm := rfl

theorem back_scannerAt (t : Text) (p : Nat) (tm : Char) :
    (scannerAt t (p + 1) tm).back = scannerAt t p tm := by
  simp [back, scannerAt]

theorem wrapInt64_of_range (x : Int) (h0 : 0 ≤ x) (h1 : x ≤ INT64_MAX) : wrapInt64 x = x := by
  unfold wrapInt64
  unfold INT64_MAX at h1
  omega

theorem numberResult_eq {t : Text} {tm : Char} {p p2 a a2 b b2 : Nat} (hp : p = p2)
    (ha : a = a2) (hb : b = b2) :
    some (scannerAt t p tm, a, b) = some (scannerAt t p2 tm, a2, b2) := by
  subst hp ha hb
  rfl

theorem iswspace_not_digit (c : Char) (h : iswspace c = true) : iswdigit c = false := by
  simp only [iswspace, iswdigit, decide_eq_true_eq, decide_eq_false_iff_not] at h ⊢
  rcases h with rfl | ⟨h1, h2⟩
  · decide
  · intro ⟨h3, _⟩
    have a : c.toNat ≤ 13 := h2
    have b : 48 ≤ c.toNat := h3
    omega

/-- The second loop of `ParseExpires` on the rest of the text. -/
theorem expiresUnitLoop_eq (tm : Char) (rest : Text) : ∀ (A : Text) (fuel : Nat),
    rest.length + 1 ≤ fuel →
    expiresUnitLoop fuel (scannerAt (A ++ rest) A.length tm) false
      = some (decide ((rest.dropWhile iswspace).head? = some 'h')) := by
  induction rest with
  | nil =>
    intro A fuel hf
    obtain ⟨f, rfl⟩ : ∃ f, fuel = f + 1 := ⟨fuel - 1, by simp at hf; omega⟩
    rw [expiresUnitLoop]
    simp only [List.append_nil, done_at_end]
    simp
  | cons c r ih =>
    intro A fuel hf
    obtain ⟨f, rfl⟩ : ∃ f, fuel = f + 1 := ⟨fuel - 1, by simp at hf; omega⟩
    have e2 : A ++ c :: r = (A ++ [c]) ++ r := by simp
    have el : (A ++ [c]).length = A.length + 1 := by simp
    rw [expiresUnitLoop]
    simp only [done_before, next_hit, Bool.not_false, if_true]
    by_cases hw : iswspace c = true
    · rw [if_pos hw, ← el, e2, ih (A ++ [c]) f (by simp at hf; omega)]
      simp [List.dropWhile_cons, hw]
    · rw [if_neg hw]
      have hw2 : iswspace c = false := by simpa using hw
      by_cases hh : c = 'h'
      · subst hh
        simp [List.dropWhile_cons, hw2]
      · simp [List.dropWhile_cons, hw2, hh]

/-- The first loop of `ParseExpires` inside a run of digits. -/
theorem expiresNumberLoop_digits (tm : Char) (D : Text) : ∀ (A R : Text) (fuel ns nl : Nat),
    (∀ c ∈ D, iswdigit c = true) → (∀ c ∈ R.head?, iswdigit c = false) → nl ≠ 0 →
    D.length + 1 ≤ fuel →
    expiresNumberLoop fuel (scannerAt (A ++ D ++ R) A.length tm) ns nl
      = some (scannerAt (A ++ D ++ R)
          (A.length + D.length + (if ∃ c ∈ R.head?, iswspace c = true then 1 else 0)) tm,
          ns, nl + D.length) := by
  induction D with
  | nil =>
    intro A R fuel ns nl _ hR hnl hf
    obtain ⟨f, rfl⟩ : ∃ f, fuel = f + 1 := ⟨fuel - 1, by simp at hf; omega⟩
    simp only [List.append_nil, List.length_nil, Nat.add_zero]
    rw [expiresNumberLoop]
    cases R with
    | nil =>
      simp only [List.append_nil, done_at_end]
      simp
    | cons c R =>
      have hc : iswdigit c = false := hR c (by simp)
      simp only [done_before, next_hit, Bool.not_false, if_true, hc, Bool.false_eq_true,
        if_false, hnl, ne_eq, not_false_eq_true]
      by_cases hw : iswspace c = true
      · simp [hw]
      · simp [hw, back_scannerAt]
  | cons d D ih =>
    intro A R fuel ns nl hD hR hnl hf
    obtain ⟨f, rfl⟩ : ∃ f, fuel = f + 1 := ⟨fuel - 1, by simp at hf; omega⟩
    have hd : iswdigit d = true := hD d (by simp)
    have e2 : A ++ d :: D ++ R = (A ++ [d]) ++ D ++ R := by simp
    have e3 : A ++ d :: D ++ R = A ++ d :: (D ++ R) := by simp
    have el : (A ++ [d]).length = A.length + 1 := by simp
    rw [expiresNumberLoop]
    rw [e3]
    simp only [done_before, next_hit, Bool.not_false, if_true, hd, hnl, if_false]
    rw [← e3, e2, ← el]
    rw [ih (A ++ [d]) R f ns (nl + 1) (fun c hc => hD c (by simp [hc])) hR (by omega)
      (by simp at hf; omega)]
    exact numberResult_eq (by simp only [el, List.length_cons]; omega) rfl
      (by simp only [List.length_cons]; omega)

/-- The first loop of `ParseExpires` from the start of the text to the end of
the number. -/
theorem expiresNumberLoop_number (tm : Char) (W : Text) : ∀ (A D R : Text) (fuel ns : Nat),
    (∀ c ∈ W, iswspace c = true) → D ≠ [] → (∀ c ∈ D, iswdigit c = true) →
    (∀ c ∈ R.head?, iswdigit c = false) → W.length + D.length + 1 ≤ fuel →
    expiresNumberLoop fuel (scannerAt (A ++ W ++ D ++ R) A.length tm) ns 0
      = some (scannerAt (A ++ W ++ D ++ R)
          (A.length + W.length + D.length + (if ∃ c ∈ R.head?, iswspace c = true then 1 else 0))
          tm, A.length + W.length, D.length) := by
  induction W with
  | nil =>
    intro A D R fuel ns _ hDne hD hR hf
    obtain ⟨f, rfl⟩ : ∃ f, fuel = f + 1 := ⟨fuel - 1, by simp at hf; omega⟩
    obtain ⟨d, D, rfl⟩ : ∃ d D2, D = d :: D2 := by
      cases D with
      | nil => exact absurd rfl hDne
      | cons d D2 => exact ⟨d, D2, rfl⟩
    have hd : iswdigit d = true := hD d (by simp)
    have e2 : A ++ d :: D ++ R = (A ++ [d]) ++ D ++ R := by simp
    have e3 : A ++ d :: D ++ R = A ++ d :: (D ++ R) := by simp
    have el : (A ++ [d]).length = A.length + 1 := by simp
    simp only [List.append_nil, List.length_nil, Nat.add_zero]
    rw [expiresNumberLoop]
    rw [e3]
    simp only [done_before, next_hit, Bool.not_false, if_true, hd, position_scannerAt]
    rw [← e3, e2, ← el]
    rw [expiresNumberLoop_digits tm D (A ++ [d]) R f A.length (0 + 1)
      (fun c hc => hD c (by simp [hc])) hR (by omega) (by simp at hf; omega)]
    exact numberResult_eq (by simp only [el, List.length_cons]; omega) rfl
      (by simp only [List.length_cons]; omega)
  | cons w W ih =>
    intro A D R fuel ns hW hDne hD hR hf
    obtain ⟨f, rfl⟩ : ∃ f, fuel = f + 1 := ⟨fuel - 1, by simp at hf; omega⟩
    have hw : iswspace w = true := hW w (by simp)
    have hwd : iswdigit w = false := iswspace_not_digit w hw
    have e2 : A ++ w :: W ++ D ++ R = (A ++ [w]) ++ W ++ D ++ R := by simp
    have e3 : A ++ w :: W ++ D ++ R = A ++ w :: (W ++ D ++ R) := by simp
    have el : (A ++ [w]).length = A.length + 1 := by simp
    rw [expiresNumberLoop]
    rw [e3]
    simp only [done_before, next_hit, Bool.not_false, if_true, hwd, hw, Bool.false_eq_true,
      if_false, ne_eq, not_true_eq_false]
    rw [← e3, e2, ← el]
    rw [ih (A ++ [w]) D R f ns (fun c hc => hW c (by simp [hc])) hDne hD hR
      (by simp at hf ⊢; omega)]
    exact numberResult_eq (by simp only [el, List.length_cons]; omega)
      (by simp only [el, List.length_cons]; omega) rfl

/-- The first loop of `ParseExpires` on a text without a number at its start. -/
theorem expiresNumberLoop_none (tm : Char) (W : Text) : ∀ (A R : Text) (fuel ns : Nat),
    (∀ c ∈ W, iswspace c = true) → (∀ c ∈ R.head?, iswdigit c = false ∧ iswspace c = false) →
    W.length + 1 ≤ fuel →
    ∃ sc, expiresNumberLoop fuel (scannerAt (A ++ W ++ R) A.length tm) ns 0 = some (sc, ns, 0) := by
  induction W with
  | nil =>
    intro A R fuel ns _ hR hf
    obtain ⟨f, rfl⟩ : ∃ f, fuel = f + 1 := ⟨fuel - 1, by simp at hf; omega⟩
    simp only [List.append_nil]
    rw [expiresNumberLoop]
    cases R with
    | nil =>
      simp only [List.append_nil, done_at_end]
      exact ⟨scannerAt A A.length tm, by simp⟩
    | cons c R =>
      have hc := hR c (by simp)
      simp only [done_before, next_hit, Bool.not_false, if_true, hc.1, hc.2, Bool.false_eq_true,
        if_false]
      exact ⟨_, rfl⟩
  | cons w W ih =>
    intro A R fuel ns hW hR hf
    obtain ⟨f, rfl⟩ : ∃ f, fuel = f + 1 := ⟨fuel - 1, by simp at hf; omega⟩
    have hw : iswspace w = true := hW w (by simp)
    have hwd : iswdigit w = false := iswspace_not_digit w hw
    have e2 : A ++ w :: W ++ R = (A ++ [w]) ++ W ++ R := by simp
    have e3 : A ++ w :: W ++ R = A ++ w :: (W ++ R) := by simp
    have el : (A ++ [w]).length = A.length + 1 := by simp
    rw [expiresNumberLoop]
    rw [e3]
    simp only [done_before, next_hit, Bool.not_false, if_true, hwd, hw, Bool.false_eq_true,
      if_false, ne_eq, not_true_eq_false]
    rw [← e3, e2, ← el]
    exact ih (A ++ [w]) R f ns (fun c hc => hW c (by simp [hc])) hR (by simp at hf ⊢; omega)

theorem lexical_cast_nonneg (s : Text) : 0 ≤ lexical_cast_int64 s := by
  unfold lexical_cast_int64
  split
  · exact Int.natCast_nonneg _
  · exact le_refl _

theorem substr_mid (W D R : Text) : substr (W ++ D ++ R) W.length D.length = D := by
  simp [substr, List.append_assoc]

theorem expiresUnitLoop_at (t B rest : Text) (p fuel : Nat) (ht : t = B ++ rest)
    (hp : p = B.length) (hf : rest.length + 1 ≤ fuel) :
    expiresUnitLoop fuel (scannerAt t p '\x00') false
      = some (decide ((rest.dropWhile iswspace).head? = some 'h')) := by
  subst ht hp
  exact expiresUnitLoop_eq '\x00' rest B fuel hf

theorem ParseExpires_shape (W D R : Text) (hW : ∀ c ∈ W, iswspace c = true) (hDne : D ≠ [])
    (hD : ∀ c ∈ D, iswdigit c = true) (hR : ∀ c ∈ R.head?, iswdigit c = false) :
    ParseExpires (W ++ D ++ R) = some (expiresValue (lexical_cast_int64 D) R) := by
  unfold ParseExpires
  rw [create_eq_scannerAt]
  have h1 := expiresNumberLoop_number '\x00' W [] D R ((W ++ D ++ R).length + 1) 0 hW hDne hD hR
    (by simp)
  simp only [List.nil_append, List.length_nil, Nat.zero_add] at h1
  rw [h1]
  simp only [substr_mid]
  unfold expiresValue
  by_cases h0 : lexical_cast_int64 D = 0
  · rw [if_pos h0]
    simp only [h0, if_true]
  · rw [if_neg h0]
    simp only [h0, if_false]
    have hu : expiresUnitLoop ((W ++ D ++ R).length + 1)
        (scannerAt (W ++ D ++ R)
          (W.length + D.length + (if ∃ c ∈ R.head?, iswspace c = true then 1 else 0)) '\x00')
        false = some (decide ((R.dropWhile iswspace).head? = some 'h')) := by
      cases R with
      | nil =>
        exact expiresUnitLoop_at _ (W ++ D) [] _ _ (by simp) (by simp) (by simp)
      | cons c R2 =>
        by_cases hw : iswspace c = true
        · have e : (List.dropWhile iswspace (c :: R2)) = List.dropWhile iswspace R2 := by
            simp [List.dropWhile_cons, hw]
          rw [e]
          exact expiresUnitLoop_at _ (W ++ D ++ [c]) R2 _ _ (by simp) (by simp [hw]; omega)
            (by simp; omega)
        · exact expiresUnitLoop_at _ (W ++ D) (c :: R2) _ _ (by simp) (by simp [hw])
            (by simp; omega)
    rw [hu]
    simp only [decide_eq_true_eq]
    by_cases hg : ((R.dropWhile iswspace).head? = some 'h' ∧ lexical_cast_int64 D > MAX_HOUR) ∨
        lexical_cast_int64 D > MAX_DAY
    · rw [if_pos hg, if_pos hg]
    · rw [if_neg hg, if_neg hg]
      congr 1
      apply wrapInt64_of_range
      · apply Int.mul_nonneg (lexical_cast_nonneg D)
        split <;> decide
      · have hd : ¬ lexical_cast_int64 D > MAX_DAY := fun h => hg (Or.inr h)
        have hnn := lexical_cast_nonneg D
        have e1 : MAX_HOUR = 2562047788015 := by decide
        have e2 : MILLIS_IN_HOUR = 3600000 := by decide
        have e3 : MAX_DAY = 106751991167 := by decide
        have e4 : MILLIS_IN_DAY = 86400000 := by decide
        rw [e3] at hd
        by_cases hh : (R.dropWhile iswspace).head? = some 'h'
        · simp only [hh, decide_True, if_true]
          rw [e2]
          unfold INT64_MAX
          omega
        · simp only [hh, decide_False, Bool.false_eq_true, if_false]
          rw [e4]
          unfold INT64_MAX
          omega

theorem ParseExpires_nonumber (t : Text)
    (h : ∀ c ∈ (t.dropWhile iswspace).head?, iswdigit c = false) :
    ParseExpires t = some 0 := by
  have hsplit := List.takeWhile_append_dropWhile iswspace t
  have hW : ∀ c ∈ t.takeWhile iswspace, iswspace c = true := fun c hc =>
    List.mem_takeWhile_imp hc
  have hR : ∀ c ∈ (t.dropWhile iswspace).head?, iswdigit c = false ∧ iswspace c = false := by
    intro c hc
    refine ⟨h c hc, ?_⟩
    cases hdw : t.dropWhile iswspace with
    | nil =>
      rw [hdw] at hc
      simp at hc
    | cons x r =>
      rw [hdw] at hc
      simp only [List.head?_cons, Option.mem_def, Option.some.injEq] at hc
      subst hc
      have := List.head_dropWhile_not iswspace t (by rw [hdw]; simp)
      simp only [hdw, List.head_cons] at this
      simpa using this
  obtain ⟨sc, hsc⟩ := expiresNumberLoop_none '\x00' (t.takeWhile iswspace) []
    (t.dropWhile iswspace) (t.length + 1) 0 hW hR (by
      have := (List.takeWhile_prefix iswspace (l := t)).length_le
      omega)
  simp only [List.nil_append, List.length_nil, hsplit] at hsc
  unfold ParseExpires
  rw [create_eq_scannerAt, hsc]
  simp [substr, lexical_cast_int64]

theorem lexical_cast_digits (D : Text) (hDne : D ≠ []) (hD : ∀ c ∈ D, iswdigit c = true)
    (hn : (digitsValue D : Int) ≤ INT64_MAX) : lexical_cast_int64 D = (digitsValue D : Int) := by
  unfold lexical_cast_int64
  rw [if_pos]
  exact ⟨hDne, by simpa using hD, hn⟩

/-! ### `ParseParam` -/

/-- The loop of `ParseParam` over spaces and tabs that do not end a key. -/
theorem paramLoop_blanks (Ws : Text) : ∀ (A R : Text) (f : Nat) (fc : Bool) (bp ep : Nat),
    (∀ c ∈ Ws, c = ' ' ∨ c = '\t') → (bp = 0 ∨ fc = true) →
    paramLoop (A ++ Ws ++ R) (f + Ws.length) A.length fc bp ep
      = paramLoop (A ++ Ws ++ R) f (A.length + Ws.length) fc bp ep := by
  induction Ws with
  | nil =>
    intro A R f fc bp ep _ _
    rfl
  | cons w Ws ih =>
    intro A R f fc bp ep hW hst
    have hw : w = ' ' ∨ w = '\t' := hW w (by simp)
    have e2 : A ++ w :: Ws ++ R = (A ++ [w]) ++ Ws ++ R := by simp
    have e3 : A ++ w :: Ws ++ R = A ++ w :: (Ws ++ R) := by simp
    have el : (A ++ [w]).length = A.length + 1 := by simp
    have hlt : A.length < (A ++ w :: (Ws ++ R)).length := by simp
    have hcond : ¬ (bp > 0 ∧ fc = false) := by
      rintro ⟨h1, h2⟩
      rcases hst with h | h
      · omega
      · rw [h] at h2
        cases h2
    show paramLoop _ (f + Ws.length + 1) _ _ _ _ = _
    rw [paramLoop, e3, if_pos hlt, charAt_append_cons, if_pos hw, if_neg hcond, ← e3, e2, ← el,
      ih (A ++ [w]) R f fc bp ep (fun c hc => hW c (by simp [hc])) hst]
    congr 1
    simp
    omega

/-- The loop of `ParseParam` over the characters of a key behind its first. -/
theorem paramLoop_key (K : Text) : ∀ (A R : Text) (f : Nat) (bp ep : Nat),
    (∀ c ∈ K, c ≠ ' ' ∧ c ≠ '\t' ∧ c ≠ ':') → bp ≠ 0 →
    paramLoop (A ++ K ++ R) (f + K.length) A.length false bp ep
      = paramLoop (A ++ K ++ R) f (A.length + K.length) false bp ep := by
  induction K with
  | nil =>
    intro A R f bp ep _ _
    rfl
  | cons k K ih =>
    intro A R f bp ep hK hbp
    obtain ⟨h1, h2, h3⟩ := hK k (by simp)
    have e2 : A ++ k :: K ++ R = (A ++ [k]) ++ K ++ R := by simp
    have e3 : A ++ k :: K ++ R = A ++ k :: (K ++ R) := by simp
    have el : (A ++ [k]).length = A.length + 1 := by simp
    have hlt : A.length < (A ++ k :: (K ++ R)).length := by simp
    have hsp : ¬ (k = ' ' ∨ k = '\t') := fun h => h.elim h1 h2
    show paramLoop _ (f + K.length + 1) _ _ _ _ = _
    rw [paramLoop, e3, if_pos hlt, charAt_append_cons, if_neg hsp, if_neg h3,
      if_neg (by simp), if_neg hbp, ← e3, e2, ← el,
      ih (A ++ [k]) R f bp ep (fun c hc => hK c (by simp [hc])) hbp]
    congr 1
    simp
    omega

/-- `ParseParam` on a line of the form `!` blanks key `:` blanks value. -/
theorem ParseParam_shape (W1 K W2 V : Text) (hW1 : ∀ c ∈ W1, c = ' ' ∨ c = '\t')
    (hKne : K ≠ []) (hK : ∀ c ∈ K, c ≠ ' ' ∧ c ≠ '\t' ∧ c ≠ ':')
    (hW2 : ∀ c ∈ W2, c = ' ' ∨ c = '\t')
    (hV : ∃ v V2, V = v :: V2 ∧ v ≠ ' ' ∧ v ≠ '\t' ∧ v ≠ ':') :
    ParseParam ('!' :: (W1 ++ K ++ ':' :: (W2 ++ V))) = some (some (toLower K, V)) := by
  obtain ⟨v, V2, rfl, hv1, hv2, hv3⟩ := hV
  obtain ⟨k, K2, rfl⟩ : ∃ k K2, K = k :: K2 := by
    cases K with
    | nil => exact absurd rfl hKne
    | cons k K2 => exact ⟨k, K2, rfl⟩
  obtain ⟨hk1, hk2, hk3⟩ := hK k (by simp)
  have hksp : ¬ (k = ' ' ∨ k = '\t') := fun h => h.elim hk1 hk2
  have hvsp : ¬ (v = ' ' ∨ v = '\t') := fun h => h.elim hv1 hv2
  generalize ht : '!' :: (W1 ++ k :: K2 ++ ':' :: (W2 ++ v :: V2)) = t
  have t1 : t = ['!'] ++ W1 ++ (k :: K2 ++ ':' :: (W2 ++ v :: V2)) := by
    rw [← ht]
    simp
  have t2 : t = (['!'] ++ W1) ++ k :: (K2 ++ ':' :: (W2 ++ v :: V2)) := by
    rw [← ht]
    simp
  have t3 : t = (['!'] ++ W1 ++ [k]) ++ K2 ++ (':' :: (W2 ++ v :: V2)) := by
    rw [← ht]
    simp
  have t4 : t = (['!'] ++ W1 ++ k :: K2) ++ ':' :: (W2 ++ v :: V2) := by
    rw [← ht]
    simp
  have t5 : t = (['!'] ++ W1 ++ k :: K2 ++ [':']) ++ W2 ++ (v :: V2) := by
    rw [← ht]
    simp
  have t6 : t = (['!'] ++ W1 ++ k :: K2 ++ [':'] ++ W2) ++ v :: V2 := by
    rw [← ht]
    simp
  have hlen : t.length = 1 + W1.length + (K2.length + 1) + 1 + W2.length + (V2.length + 1) := by
    rw [← ht]
    simp
    omega
  have hloop : paramLoop t (t.length + 1) 1 false 0 0
      = some (1 + W1.length, 1 + W1.length + (K2.length + 1),
          1 + W1.length + (K2.length + 1) + 1 + W2.length) := by
    have f1 : t.length + 1
        = ((K2.length + 1) + 1 + W2.length + (V2.length + 1) + 2) + W1.length := by
      omega
    have s1 := paramLoop_blanks W1 ['!'] (k :: K2 ++ ':' :: (W2 ++ v :: V2))
      ((K2.length + 1) + 1 + W2.length + (V2.length + 1) + 2) false 0 0 hW1 (Or.inl rfl)
    rw [← t1] at s1
    simp only [List.length_singleton] at s1
    rw [f1, s1]
    -- first character of the key
    have hlt2 : 1 + W1.length < t.length := by omega
    have c2 : charAt t (1 + W1.length) = k := by
      have := charAt_append_cons (['!'] ++ W1) k (K2 ++ ':' :: (W2 ++ v :: V2))
      rw [← t2] at this
      have e : (['!'] ++ W1).length = 1 + W1.length := by
        simp
        omega
      rw [e] at this
      exact this
    have f2 : (K2.length + 1) + 1 + W2.length + (V2.length + 1) + 2
        = (1 + W2.length + (V2.length + 1) + 2 + K2.length) + 1 := by omega
    rw [f2, paramLoop, if_pos hlt2, c2, if_neg hksp, if_neg hk3, if_neg (by simp), if_pos rfl]
    have s3 := paramLoop_key K2 (['!'] ++ W1 ++ [k]) (':' :: (W2 ++ v :: V2))
      (1 + W2.length + (V2.length + 1) + 2) (1 + W1.length) 0
      (fun c hc => hK c (by simp [hc])) (by omega)
    rw [← t3] at s3
    simp only [List.length_append, List.length_singleton] at s3
    rw [s3]
    -- the colon
    have hlt4 : 1 + W1.length + 1 + K2.length < t.length := by omega
    have c4 : charAt t (1 + W1.length + 1 + K2.length) = ':' := by
      have := charAt_append_cons (['!'] ++ W1 ++ k :: K2) ':' (W2 ++ v :: V2)
      rw [← t4] at this
      have e : (['!'] ++ W1 ++ k :: K2).length = 1 + W1.length + 1 + K2.length := by
        simp
        omega
      rw [e] at this
      exact this
    have f4 : 1 + W2.length + (V2.length + 1) + 2 = ((V2.length + 1) + 2 + W2.length) + 1 := by
      omega
    rw [f4, paramLoop, if_pos hlt4, c4, if_neg (by decide), if_pos rfl]
    have s5 := paramLoop_blanks W2 (['!'] ++ W1 ++ k :: K2 ++ [':']) (v :: V2)
      ((V2.length + 1) + 2) true (1 + W1.length) (1 + W1.length + 1 + K2.length) hW2
      (Or.inr rfl)
    rw [← t5] at s5
    have e5 : (['!'] ++ W1 ++ k :: K2 ++ [':']).length = 1 + W1.length + 1 + K2.length + 1 := by
      simp
      omega
    rw [e5] at s5
    rw [s5]
    -- first character of the value
    have hlt6 : 1 + W1.length + 1 + K2.length + 1 + W2.length < t.length := by omega
    have c6 : charAt t (1 + W1.length + 1 + K2.length + 1 + W2.length) = v := by
      have := charAt_append_cons (['!'] ++ W1 ++ k :: K2 ++ [':'] ++ W2) v V2
      rw [← t6] at this
      have e : (['!'] ++ W1 ++ k :: K2 ++ [':'] ++ W2).length
          = 1 + W1.length + 1 + K2.length + 1 + W2.length := by
        simp
        omega
      rw [e] at this
      exact this
    rw [paramLoop, if_pos hlt6, c6, if_neg hvsp, if_neg hv3, if_pos rfl, if_pos (by omega)]
    congr 3 <;> omega
  unfold ParseParam
  have c0 : charAt t 0 = '!' := by
    rw [← ht]
    rfl
  rw [if_pos c0, hloop]
  simp only
  rw [if_pos (by omega)]
  have ek : substr t (1 + W1.length) (1 + W1.length + (K2.length + 1) - (1 + W1.length))
      = k :: K2 := by
    rw [t2]
    have : 1 + W1.length + (K2.length + 1) - (1 + W1.length) = (k :: K2).length := by
      simp
    rw [this]
    have e : (['!'] ++ W1).length = 1 + W1.length := by
      simp
      omega
    rw [← e]
    simp [substr]
  have ev : substr t (1 + W1.length + (K2.length + 1) + 1 + W2.length)
      (t.length - (1 + W1.length + (K2.length + 1) + 1 + W2.length)) = v :: V2 := by
    have e : (['!'] ++ W1 ++ k :: K2 ++ [':'] ++ W2).length
        = 1 + W1.length + (K2.length + 1) + 1 + W2.length := by
      simp
      omega
    have hl : t.length - (1 + W1.length + (K2.length + 1) + 1 + W2.length) = (v :: V2).length := by
      rw [hlen]
      simp
    rw [hl, ← e, t6]
    simp [substr]
  rw [ek, ev]

theorem ParseParam_not_bang (line : Text) (h : line.head? ≠ some '!') :
    ParseParam line = some none := by
  unfold ParseParam
  rw [if_neg]
  cases line with
  | nil => decide
  | cons c r =>
    simp only [charAt, List.getD_cons_zero]
    simpa using h

/-! ### `GetNextLine` -/

theorem drop_length_takeWhile (p : Char → Bool) (l : Text) :
    l.drop (l.takeWhile p).length = l.dropWhile p := by
  induction l with
  | nil => rfl
  | cons c r ih =>
    by_cases h : p c = true
    · simp [List.takeWhile_cons, List.dropWhile_cons, h, ih]
    · simp [List.takeWhile_cons, List.dropWhile_cons, h]

theorem lineEndLoop_eq (rest : Text) : ∀ (A : Text) (fuel : Nat) (ch0 : Char),
    ch0 ≠ '\r' → ch0 ≠ '\n' → (firstLine rest).length + 2 ≤ fuel →
    lineEndLoop fuel (scannerAt (A ++ rest) A.length '\x00') ch0
      = some (scannerAt (A ++ rest) (A.length + (firstLine rest).length + 1) '\x00',
          (rest.dropWhile (fun c => !isLineEnd c)).headD '\x00') := by
  induction rest with
  | nil =>
    intro A fuel ch0 h1 h2 hf
    obtain ⟨f, rfl⟩ : ∃ f, fuel = f + 1 := ⟨fuel - 1, by omega⟩
    rw [lineEndLoop, if_pos ⟨h1, h2⟩]
    simp only [List.append_nil, next_at_end, if_true]
    rfl
  | cons c r ih =>
    intro A fuel ch0 h1 h2 hf
    obtain ⟨f, rfl⟩ : ∃ f, fuel = f + 1 := ⟨fuel - 1, by omega⟩
    have e2 : A ++ c :: r = (A ++ [c]) ++ r := by simp
    have el : (A ++ [c]).length = A.length + 1 := by simp
    rw [lineEndLoop, if_pos ⟨h1, h2⟩]
    simp only [next_hit]
    by_cases hc0 : c = '\x00'
    · subst hc0
      rw [if_pos rfl]
      simp [firstLine, isLineEnd]
    · rw [if_neg hc0]
      by_cases hnl : c = '\r' ∨ c = '\n'
      · have hfl : firstLine (c :: r) = [] := by
          rcases hnl with rfl | rfl <;> simp [firstLine, isLineEnd]
        have hdw : (c :: r).dropWhile (fun c => !isLineEnd c) = c :: r := by
          rcases hnl with rfl | rfl <;> simp [isLineEnd]
        rw [hfl] at hf ⊢
        rw [hdw]
        obtain ⟨f2, rfl⟩ : ∃ f2, f = f2 + 1 := ⟨f - 1, by simp at hf; omega⟩
        rw [lineEndLoop, if_neg]
        · rfl
        · rintro ⟨a, b⟩
          exact hnl.elim a b
      · have hn1 : c ≠ '\r' := fun h => hnl (Or.inl h)
        have hn2 : c ≠ '\n' := fun h => hnl (Or.inr h)
        have hle : isLineEnd c = false := by simp [isLineEnd, hn1, hn2, hc0]
        have hfl : firstLine (c :: r) = c :: firstLine r := by
          simp [firstLine, hle]
        have hdw : (c :: r).dropWhile (fun c => !isLineEnd c)
            = r.dropWhile (fun c => !isLineEnd c) := by
          simp [List.dropWhile_cons, hle]
        rw [hfl] at hf ⊢
        rw [hdw, e2, ← el, ih (A ++ [c]) f c hn1 hn2 (by simp at hf; omega)]
        simp only [el, List.length_cons]
        congr 3
        omega

theorem skipNewlines_eq (tm : Char) (rest : Text) : ∀ (A : Text) (fuel : Nat),
    (rest.takeWhile isNewline).length + 1 ≤ fuel →
    skipNewlines fuel (scannerAt (A ++ rest) A.length tm)
      = some (scannerAt (A ++ rest) (A.length + (rest.takeWhile isNewline).length) tm) := by
  induction rest with
  | nil =>
    intro A fuel hf
    obtain ⟨f, rfl⟩ : ∃ f, fuel = f + 1 := ⟨fuel - 1, by omega⟩
    rw [skipNewlines]
    simp only [List.append_nil, skipOne_at_end]
    simp
  | cons c r ih =>
    intro A fuel hf
    obtain ⟨f, rfl⟩ : ∃ f, fuel = f + 1 := ⟨fuel - 1, by omega⟩
    have e2 : A ++ c :: r = (A ++ [c]) ++ r := by simp
    have el : (A ++ [c]).length = A.length + 1 := by simp
    rw [skipNewlines]
    by_cases h1 : c = '\r'
    · subst h1
      have hn : isNewline '\r' = true := by decide
      have htw : ('\r' :: r).takeWhile isNewline = '\r' :: r.takeWhile isNewline := by
        simp [List.takeWhile_cons, hn]
      rw [htw] at hf ⊢
      simp only [skipOne_hit, if_true]
      rw [e2, ← el, ih (A ++ ['\r']) f (by simp at hf; omega)]
      simp only [el, List.length_cons]
      congr 2
      omega
    · by_cases h2 : c = '\n'
      · subst h2
        have hn : isNewline '\n' = true := by decide
        have htw : ('\n' :: r).takeWhile isNewline = '\n' :: r.takeWhile isNewline := by
          simp [List.takeWhile_cons, hn]
        rw [htw] at hf ⊢
        simp only [skipOne_miss A '\n' '\r' r tm (by decide), skipOne_hit, Bool.false_eq_true,
          if_false, if_true]
        rw [e2, ← el, ih (A ++ ['\n']) f (by simp at hf; omega)]
        simp only [el, List.length_cons]
        congr 2
        omega
      · have hn : isNewline c = false := by simp [isNewline, h1, h2]
        have htw : (c :: r).takeWhile isNewline = [] := by
          simp [List.takeWhile_cons, hn]
        rw [htw]
        simp only [skipOne_miss A c '\r' r tm h1, skipOne_miss A c '\n' r tm h2,
          Bool.false_eq_true, if_false, List.length_nil, Nat.add_zero]

theorem GetNextLine_eq (buffer : Text) : GetNextLine buffer = some (nextLine buffer) := by
  unfold GetNextLine
  rw [show StringScanner.create buffer 0 (Char.ofNat 0) = scannerAt buffer 0 (Char.ofNat 0) from rfl]
  have h1 := lineEndLoop_eq buffer [] (buffer.length + 2) '\x00' (by decide) (by decide)
    (by
      have := (List.takeWhile_prefix (fun c => !isLineEnd c) (l := buffer)).length_le
      unfold firstLine
      omega)
  simp only [List.nil_append, List.length_nil, Nat.zero_add] at h1
  rw [h1]
  simp only [position_scannerAt]
  have hsub : substr buffer 0 (firstLine buffer).length = firstLine buffer := by
    simp only [substr, List.drop_zero]
    exact (List.prefix_iff_eq_take.mp (List.takeWhile_prefix _)).symm
  rw [hsub]
  unfold nextLine
  by_cases hc : firstLine buffer = [] ∨
      (buffer.dropWhile (fun c => !isLineEnd c)).headD '\x00' = '\x00'
  · rw [if_pos hc, if_pos]
    rcases hc with h | h
    · left
      rw [h]
      rfl
    · right
      exact h
  · rw [if_neg hc, if_neg]
    swap
    · rintro (h | h)
      · exact hc (Or.inl (List.length_eq_zero.mp h))
      · exact hc (Or.inr h)
    have hsplit : buffer = firstLine buffer ++ buffer.dropWhile (fun c => !isLineEnd c) :=
      (List.takeWhile_append_dropWhile _ _).symm
    cases hR : buffer.dropWhile (fun c => !isLineEnd c) with
    | nil =>
      rw [hR] at hc
      exact absurd (Or.inr rfl) hc
    | cons c R2 =>
      rw [hR] at hsplit
      have hs2 : buffer = (firstLine buffer ++ [c]) ++ R2 := by
        rw [List.append_assoc]
        exact hsplit
      have h2 := skipNewlines_eq '\x00' R2 (firstLine buffer ++ [c]) (buffer.length + 1) (by
        have := (List.takeWhile_prefix isNewline (l := R2)).length_le
        have hl := congrArg List.length hs2
        simp at hl
        omega)
      rw [← hs2] at h2
      simp only [List.length_append, List.length_singleton] at h2
      rw [h2]
      have hpos : (scannerAt buffer
          ((firstLine buffer).length + 1 + (List.takeWhile isNewline R2).length) '\x00').position
            + 1 = (firstLine buffer ++ [c]).length + (List.takeWhile isNewline R2).length := by
        simp [scannerAt, StringScanner.position]
        omega
      simp only
      rw [hpos, List.drop_one, List.tail_cons]
      congr 3
      generalize firstLine buffer = L at hs2 ⊢
      subst hs2
      rw [List.drop_append, drop_length_takeWhile]

/-! ### `ProcessFirstLine` -/

theorem skipWhiteSpaceLoop_eq (tm : Char) (rest : Text) : ∀ (A : Text) (fuel : Nat) (sk : Bool),
    rest.length + 1 ≤ fuel →
    skipWhiteSpaceLoop fuel (scannerAt (A ++ rest) A.length tm) sk
      = some (sk || decide (rest.takeWhile iswspace ≠ []),
          scannerAt (A ++ rest) (A.length + (rest.takeWhile iswspace).length) tm) := by
  induction rest with
  | nil =>
    intro A fuel sk hf
    obtain ⟨f, rfl⟩ : ∃ f, fuel = f + 1 := ⟨fuel - 1, by simp at hf; omega⟩
    rw [skipWhiteSpaceLoop]
    simp only [List.append_nil, done_at_end]
    simp
  | cons c r ih =>
    intro A fuel sk hf
    obtain ⟨f, rfl⟩ : ∃ f, fuel = f + 1 := ⟨fuel - 1, by simp at hf; omega⟩
    have e2 : A ++ c :: r = (A ++ [c]) ++ r := by simp
    have el : (A ++ [c]).length = A.length + 1 := by simp
    rw [skipWhiteSpaceLoop]
    have hch : charAt (scannerAt (A ++ c :: r) A.length tm).mStr
        (scannerAt (A ++ c :: r) A.length tm).mPos = c := charAt_append_cons A c r
    rw [done_before, hch]
    by_cases hw : iswspace c = true
    · simp only [hw, Bool.not_false, Bool.and_self, if_true]
      have := ih (A ++ [c]) f true (by simp at hf; omega)
      rw [el, ← e2] at this
      have hs : (⟨(scannerAt (A ++ c :: r) A.length tm).mStr,
          (scannerAt (A ++ c :: r) A.length tm).mPos + 1,
          (scannerAt (A ++ c :: r) A.length tm).mEnd,
          (scannerAt (A ++ c :: r) A.length tm).mTerminator⟩ : StringScanner)
          = scannerAt (A ++ c :: r) (A.length + 1) tm := rfl
      rw [hs, this]
      simp only [List.takeWhile_cons, hw, if_true, List.length_cons, Bool.true_or, ne_eq,
        reduceCtorEq, not_false_eq_true, decide_True, Bool.or_true]
      congr 3
      omega
    · have hw2 : iswspace c = false := by simpa using hw
      simp [hw2, List.takeWhile_cons]

theorem skipWhiteSpace_at (t B R : Text) (p : Nat) (tm : Char) (ht : t = B ++ R)
    (hp : p = B.length) :
    (scannerAt t p tm).skipWhiteSpace
      = some (decide (R.takeWhile iswspace ≠ []),
          scannerAt t (p + (R.takeWhile iswspace).length) tm) := by
  subst ht hp
  unfold skipWhiteSpace
  have := skipWhiteSpaceLoop_eq tm R B ((scannerAt (B ++ R) B.length tm).mEnd
    - (scannerAt (B ++ R) B.length tm).mPos + 1) false (by simp [scannerAt])
  rw [this]
  simp

theorem skipString_at (t B R : Text) (p : Nat) (tm : Char) (str : Text) (ht : t = B ++ R)
    (hp : p = B.length) :
    (scannerAt t p tm).skipString str
      = if str.isPrefixOf R = true then (true, scannerAt t (p + str.length) tm)
        else (false, scannerAt t p tm) := by
  subst ht hp
  unfold skipString
  simp only [scannerAt, List.length_append, Nat.add_sub_cancel_left]
  by_cases hlen : str.length > R.length
  · rw [if_pos hlen, if_neg]
    intro h
    have := (List.isPrefixOf_iff_prefix.mp h).length_le
    omega
  · rw [if_neg hlen]
    have hsub : substr (B ++ R) B.length str.length = R.take str.length := by
      simp [substr]
    rw [hsub]
    by_cases hpre : str.isPrefixOf R = true
    · rw [if_pos hpre, if_pos]
      exact (List.prefix_iff_eq_take.mp (List.isPrefixOf_iff_prefix.mp hpre)).symm
    · rw [if_neg hpre, if_neg]
      intro h
      apply hpre
      rw [List.isPrefixOf_iff_prefix, ← h]
      exact List.take_prefix _ _

theorem isVersionChar_ne_nul (c : Char) (h : isVersionChar c = true) : c ≠ '\x00' := by
  rintro rfl
  revert h
  decide

theorem versionLoop_eq (rest : Text) : ∀ (A : Text) (fuel : Nat),
    (rest.takeWhile isVersionChar).length + 1 ≤ fuel →
    versionLoop fuel (scannerAt (A ++ rest) A.length '\x00')
      = some (scannerAt (A ++ rest) (A.length + (rest.takeWhile isVersionChar).length + 1) '\x00',
          (rest.dropWhile isVersionChar).headD '\x00') := by
  induction rest with
  | nil =>
    intro A fuel hf
    obtain ⟨f, rfl⟩ : ∃ f, fuel = f + 1 := ⟨fuel - 1, by omega⟩
    rw [versionLoop]
    simp only [List.append_nil, next_at_end]
    simp
  | cons c r ih =>
    intro A fuel hf
    obtain ⟨f, rfl⟩ : ∃ f, fuel = f + 1 := ⟨fuel - 1, by omega⟩
    have e2 : A ++ c :: r = (A ++ [c]) ++ r := by simp
    have el : (A ++ [c]).length = A.length + 1 := by simp
    rw [versionLoop]
    simp only [next_hit]
    by_cases hv : isVersionChar c = true
    · have hcond : c ≠ '\x00' ∧ (c = '.' ∨ iswdigit c = true) := by
        refine ⟨isVersionChar_ne_nul c hv, ?_⟩
        simpa [isVersionChar] using hv
      have htw : (c :: r).takeWhile isVersionChar = c :: r.takeWhile isVersionChar := by
        simp [List.takeWhile_cons, hv]
      have hdw : (c :: r).dropWhile isVersionChar = r.dropWhile isVersionChar := by
        simp [List.dropWhile_cons, hv]
      rw [htw] at hf ⊢
      rw [if_pos hcond, hdw, e2, ← el, ih (A ++ [c]) f (by simp at hf; omega)]
      simp only [el, List.length_cons]
      congr 3
      omega
    · have hcond : ¬ (c ≠ '\x00' ∧ (c = '.' ∨ iswdigit c = true)) := by
        rintro ⟨_, h⟩
        apply hv
        simpa [isVersionChar] using h
      have hv2 : isVersionChar c = false := by simpa using hv
      rw [if_neg hcond]
      simp [List.takeWhile_cons, List.dropWhile_cons, hv2]

/-- The last part of `ProcessFirstLine`, from the version on. -/
theorem versionStage (self : DownloadableSubscription_Parser) (current B R : Text)
    (hc : current = B ++ R) :
    (match versionLoop (current.length + 2) (scannerAt current B.length '\x00') with
      | none => none
      | some (scanner3, ch) =>
        let scanner4 := if ch ≠ '\x00' then scanner3.back else scanner3
        let minVersion :=
          if scanner4.positionPlusOne > (scannerAt current B.length '\x00').positionPlusOne then
            substr current (scannerAt current B.length '\x00').positionPlusOne
              (scanner4.positionPlusOne - (scannerAt current B.length '\x00').positionPlusOne)
          else []
        if ch ≠ ']' then some (false, self)
        else some (true, (⟨self.mFiltersText, self.mParams, minVersion, self.mError⟩ :
          DownloadableSubscription_Parser)))
      = some (if (R.dropWhile isVersionChar).head? = some ']' then
          (true, ⟨self.mFiltersText, self.mParams, R.takeWhile isVersionChar, self.mError⟩)
        else (false, self)) := by
  subst hc
  have hv := versionLoop_eq R B ((B ++ R).length + 2) (by
    have := (List.takeWhile_prefix isVersionChar (l := R)).length_le
    simp
    omega)
  rw [hv]
  simp only
  by_cases hb : (R.dropWhile isVersionChar).head? = some ']'
  · have hch : (R.dropWhile isVersionChar).headD '\x00' = ']' := by
      cases hd : R.dropWhile isVersionChar with
      | nil =>
        rw [hd] at hb
        simp at hb
      | cons x r =>
        rw [hd] at hb
        simp only [List.head?_cons, Option.some.injEq] at hb
        subst hb
        rfl
    rw [if_pos hb, hch]
    simp only [ne_eq, not_true_eq_false, if_false, positionPlusOne, scannerAt]
    congr 3
    have hne : ¬ (']' = '\x00') := by decide
    simp only [hne, not_false_eq_true, if_true]
    by_cases hV : R.takeWhile isVersionChar = []
    · simp [hV, back]
    · have hpos : (R.takeWhile isVersionChar).length > 0 := List.length_pos.mpr hV
      have hb2 : (StringScanner.back ⟨B ++ R, B.length + (R.takeWhile isVersionChar).length + 1,
          (B ++ R).length, '\x00'⟩).mPos = B.length + (R.takeWhile isVersionChar).length := by
        simp [back]
      rw [hb2, if_pos (by omega)]
      have : B.length + (R.takeWhile isVersionChar).length - B.length
          = (R.takeWhile isVersionChar).length := by omega
      rw [this]
      simp only [substr, List.drop_left]
      exact (List.prefix_iff_eq_take.mp (List.takeWhile_prefix _)).symm
  · rw [if_neg hb]
    have hch : (R.dropWhile isVersionChar).headD '\x00' ≠ ']' := by
      cases hd : R.dropWhile isVersionChar with
      | nil => decide
      | cons x r =>
        rw [hd] at hb
        simpa using hb
    simp only [hch, ne_eq, not_false_eq_true, if_true]

theorem dropWhile_ne_iff (p : Char → Bool) (l : Text) :
    l.dropWhile p ≠ l ↔ l.takeWhile p ≠ [] := by
  cases l with
  | nil => simp
  | cons c r =>
    by_cases h : p c = true
    · simp only [List.dropWhile_cons, h, if_true, List.takeWhile_cons, ne_eq, reduceCtorEq,
        not_false_eq_true, iff_true]
      intro e
      have := (List.dropWhile_suffix p (l := r)).length_le
      rw [e] at this
      simp at this
    · simp [List.dropWhile_cons, List.takeWhile_cons, h]

theorem firstLineResult_if (self : DownloadableSubscription_Parser) (c : Prop) [Decidable c]
    (v : Text) :
    (if c then (true, (⟨self.mFiltersText, self.mParams, v, self.mError⟩ :
        DownloadableSubscription_Parser)) else (false, self))
      = firstLineResult self (if c then some v else none) := by
  by_cases h : c
  · simp only [h, if_true, firstLineResult]
  · simp only [h, if_false, firstLineResult]

theorem ProcessFirstLine_current (self : DownloadableSubscription_Parser) (current : Text) :
    (match (StringScanner.create current 0 '\x00').skipWhiteSpace with
    | none => none
    | some (skipped, scanner1) =>
      let plus := if skipped then scanner1.skipString ADBLOCK_PLUS_EXTRA_HEADER
        else (false, scanner1)
      match (if plus.1 then (plus.2.skipWhiteSpace).map Prod.snd else some plus.2) with
      | none => none
      | some scanner2 =>
        let index1 := scanner2.positionPlusOne
        match versionLoop (current.length + 2) scanner2 with
        | none => none
        | some (scanner3, ch) =>
          let scanner4 := if ch ≠ '\x00' then scanner3.back else scanner3
          let minVersion :=
            if scanner4.positionPlusOne > index1 then
              substr current index1 (scanner4.positionPlusOne - index1)
            else []
          if ch ≠ ']' then some (false, self)
          else some (true, (⟨self.mFiltersText, self.mParams, minVersion, self.mError⟩ :
            DownloadableSubscription_Parser)))
      = some (firstLineResult self (versionBehindHeader current)) := by
  have hsplit : current = current.takeWhile iswspace ++ current.dropWhile iswspace :=
    (List.takeWhile_append_dropWhile _ _).symm
  have h1 := skipWhiteSpace_at current [] current 0 '\x00' rfl rfl
  rw [show StringScanner.create current 0 '\x00' = scannerAt current 0 '\x00' from rfl, h1]
  simp only [Nat.zero_add]
  have h2 := skipString_at current (current.takeWhile iswspace) (current.dropWhile iswspace)
    (current.takeWhile iswspace).length '\x00' ADBLOCK_PLUS_EXTRA_HEADER hsplit rfl
  by_cases hsk : current.takeWhile iswspace ≠ [] ∧
      ADBLOCK_PLUS_EXTRA_HEADER.isPrefixOf (current.dropWhile iswspace) = true
  · obtain ⟨hs1, hs2⟩ := hsk
    have hd1 : decide (current.takeWhile iswspace ≠ []) = true := by simpa using hs1
    rw [if_pos hs2] at h2
    simp only [hd1, if_true, h2]
    have hpre : current.dropWhile iswspace
        = ADBLOCK_PLUS_EXTRA_HEADER
          ++ (current.dropWhile iswspace).drop ADBLOCK_PLUS_EXTRA_HEADER.length := by
      have hp := List.isPrefixOf_iff_prefix.mp hs2
      conv_lhs => rw [← List.take_append_drop ADBLOCK_PLUS_EXTRA_HEADER.length
        (current.dropWhile iswspace)]
      rw [← List.prefix_iff_eq_take.mp hp]
    have hsplit2 : current = (current.takeWhile iswspace ++ ADBLOCK_PLUS_EXTRA_HEADER)
        ++ (current.dropWhile iswspace).drop ADBLOCK_PLUS_EXTRA_HEADER.length := by
      rw [List.append_assoc, ← hpre]
      exact hsplit
    have h3 := skipWhiteSpace_at current
      (current.takeWhile iswspace ++ ADBLOCK_PLUS_EXTRA_HEADER)
      ((current.dropWhile iswspace).drop ADBLOCK_PLUS_EXTRA_HEADER.length)
      ((current.takeWhile iswspace).length + ADBLOCK_PLUS_EXTRA_HEADER.length) '\x00' hsplit2
      (by simp)
    rw [h3]
    simp only [Option.map_some']
    have hsplit3 : current = (current.takeWhile iswspace ++ ADBLOCK_PLUS_EXTRA_HEADER
        ++ ((current.dropWhile iswspace).drop ADBLOCK_PLUS_EXTRA_HEADER.length).takeWhile
          iswspace)
        ++ ((current.dropWhile iswspace).drop ADBLOCK_PLUS_EXTRA_HEADER.length).dropWhile
          iswspace := by
      rw [List.append_assoc _ _ (List.dropWhile _ _), List.takeWhile_append_dropWhile]
      exact hsplit2
    have hlen : (current.takeWhile iswspace).length + ADBLOCK_PLUS_EXTRA_HEADER.length
        + (((current.dropWhile iswspace).drop ADBLOCK_PLUS_EXTRA_HEADER.length).takeWhile
          iswspace).length
        = (current.takeWhile iswspace ++ ADBLOCK_PLUS_EXTRA_HEADER
        ++ ((current.dropWhile iswspace).drop ADBLOCK_PLUS_EXTRA_HEADER.length).takeWhile
          iswspace).length := by
      simp
      omega
    rw [hlen]
    have hst := versionStage self current _ _ hsplit3
    rw [hst, firstLineResult_if]
    congr 2
    unfold versionBehindHeader
    have hc : current.dropWhile iswspace ≠ current ∧
        ADBLOCK_PLUS_EXTRA_HEADER.isPrefixOf (current.dropWhile iswspace) = true :=
      ⟨(dropWhile_ne_iff _ _).mpr hs1, hs2⟩
    rw [if_pos hc]
  · have hplus : (if decide (current.takeWhile iswspace ≠ []) = true then
          (scannerAt current (current.takeWhile iswspace).length '\x00').skipString
            ADBLOCK_PLUS_EXTRA_HEADER
        else (false, scannerAt current (current.takeWhile iswspace).length '\x00'))
        = (false, scannerAt current (current.takeWhile iswspace).length '\x00') := by
      by_cases hs1 : current.takeWhile iswspace ≠ []
      · have hs2 : ¬ ADBLOCK_PLUS_EXTRA_HEADER.isPrefixOf (current.dropWhile iswspace) = true :=
          fun h => hsk ⟨hs1, h⟩
        have hd1 : decide (current.takeWhile iswspace ≠ []) = true := by simpa using hs1
        rw [if_neg hs2] at h2
        rw [hd1, if_pos rfl, h2]
      · have hd1 : decide (current.takeWhile iswspace ≠ []) = false := by simpa using hs1
        rw [hd1]
        rfl
    simp only [hplus, Bool.false_eq_true, if_false]
    have hst := versionStage self current _ _ hsplit
    rw [hst, firstLineResult_if]
    congr 2
    unfold versionBehindHeader
    have hc : ¬ (current.dropWhile iswspace ≠ current ∧
        ADBLOCK_PLUS_EXTRA_HEADER.isPrefixOf (current.dropWhile iswspace) = true) :=
      fun h => hsk ⟨(dropWhile_ne_iff _ _).mp h.1, h.2⟩
    rw [if_neg hc]

theorem ProcessFirstLine_eq (self : DownloadableSubscription_Parser) (line : Text) :
    ProcessFirstLine self line = some (firstLineResult self (headerVersion line)) := by
  unfold ProcessFirstLine headerVersion
  cases hf : findStr line ADBLOCK_HEADER with
  | none => rfl
  | some index =>
    simp only [Option.bind_some]
    exact ProcessFirstLine_current self _

/-! ### `ProcessLine` and the loop of `Process` -/

theorem paramLoop_total (text : Text) : ∀ (fuel i : Nat) (fc : Bool) (bp ep : Nat),
    text.length + 2 ≤ fuel + i → 0 < fuel → ∃ r, paramLoop text fuel i fc bp ep = some r := by
  intro fuel
  induction fuel with
  | zero =>
    intro i fc bp ep _ h0
    omega
  | succ f ih =>
    intro i fc bp ep h _
    rw [paramLoop]
    by_cases hlt : i < text.length
    · rw [if_pos hlt]
      split
      · exact ih _ _ _ _ (by omega) (by omega)
      · split
        · exact ih _ _ _ _ (by omega) (by omega)
        · split
          · split
            · exact ⟨_, rfl⟩
            · exact ih _ _ _ _ (by omega) (by omega)
          · exact ih _ _ _ _ (by omega) (by omega)
    · rw [if_neg hlt]
      exact ⟨_, rfl⟩

theorem ParseParam_total (text : Text) : ∃ r, ParseParam text = some r := by
  unfold ParseParam
  split
  · obtain ⟨r, hr⟩ := paramLoop_total text (text.length + 1) 1 false 0 0 (by omega) (by omega)
    rw [hr]
    obtain ⟨bp, ep, bv⟩ := r
    simp only
    split
    · exact ⟨_, rfl⟩
    · exact ⟨_, rfl⟩
  · exact ⟨_, rfl⟩

theorem ProcessLine_eq (self : DownloadableSubscription_Parser) (line : Text) :
    ProcessLine self line = some (lineStep self line) := by
  obtain ⟨r, hr⟩ := ParseParam_total line
  unfold ProcessLine lineStep
  rw [hr]
  cases r with
  | none =>
    simp only
    split <;> rfl
  | some param => simp only

theorem nextLine_shorter (buffer : Text) (h : (nextLine buffer).1 = true) :
    (nextLine buffer).2.1.length < buffer.length := by
  unfold nextLine at h ⊢
  split at h
  · cases h
  · rename_i hc
    rw [if_neg hc]
    simp only
    have h1 := (List.dropWhile_suffix isNewline
      (l := (buffer.dropWhile (fun c => !isLineEnd c)).drop 1)).length_le
    have h2 := (List.dropWhile_suffix (fun c => !isLineEnd c) (l := buffer)).length_le
    have h3 : buffer.dropWhile (fun c => !isLineEnd c) ≠ [] := by
      intro e
      rw [e] at hc
      exact hc (Or.inr rfl)
    have h4 := List.length_pos.mpr h3
    simp only [List.length_drop] at h1
    omega

theorem processLoop_rest : ∀ (fuel : Nat) (self : DownloadableSubscription_Parser)
    (buffer : Text) (lines : List Text), buffer.length + 1 ≤ fuel →
    processLoop fuel self buffer false lines
      = some ⟨true, (restLines fuel buffer).foldl lineStep self,
          lines ++ restLines fuel buffer⟩ := by
  intro fuel
  induction fuel with
  | zero =>
    intro self buffer lines h
    omega
  | succ f ih =>
    intro self buffer lines h
    rw [processLoop, GetNextLine_eq]
    simp only [Bool.false_eq_true, if_false, ProcessLine_eq]
    by_cases hm : (nextLine buffer).1 = true
    · have hs := nextLine_shorter buffer hm
      simp only [hm, Bool.not_true, Bool.false_eq_true, if_false, restLines, if_true]
      have h2 : buffer.length ≤ f := by omega
      rw [ih _ _ _ (Nat.succ_le_of_lt (Nat.lt_of_lt_of_le hs h2))]
      simp
    · have hm2 : (nextLine buffer).1 = false := by simpa using hm
      simp only [hm2, Bool.not_false, if_true, restLines, Bool.false_eq_true, if_false,
        List.foldl_cons, List.foldl_nil]

theorem foldl_lineStep_version (ls : List Text) : ∀ self : DownloadableSubscription_Parser,
    (ls.foldl lineStep self).mRequiredVersion = self.mRequiredVersion ∧
    (ls.foldl lineStep self).mError = self.mError := by
  induction ls with
  | nil =>
    intro self
    exact ⟨rfl, rfl⟩
  | cons l ls ih =>
    intro self
    rw [List.foldl_cons]
    obtain ⟨h1, h2⟩ := ih (lineStep self l)
    rw [h1, h2]
    unfold lineStep
    split
    · exact ⟨rfl, rfl⟩
    · split <;> exact ⟨rfl, rfl⟩

/-- `Process` on a body whose first line is not a valid header. -/
theorem Process_invalid (self : DownloadableSubscription_Parser) (body : Text)
    (h : headerVersion (firstLine body) = none) :
    Process self body
      = some ⟨false, ⟨self.mFiltersText, self.mParams, self.mRequiredVersion,
          ERROR_INVALID_DATA⟩, [firstLine body]⟩ := by
  unfold Process
  rw [processLoop, GetNextLine_eq]
  have hl : (nextLine body).2.2 = firstLine body := by
    unfold nextLine
    split <;> rfl
  simp only [if_true, ProcessFirstLine_eq, hl, h, firstLineResult, Bool.not_false,
    List.nil_append]

/-- `Process` on a body whose first line is a valid header. -/
theorem Process_valid (self : DownloadableSubscription_Parser) (body v : Text)
    (h : headerVersion (firstLine body) = some v) :
    Process self body
      = some ⟨true,
          ((restLines (body.length + 2) body).tail).foldl lineStep
            ⟨self.mFiltersText, self.mParams, v, self.mError⟩,
          restLines (body.length + 2) body⟩ := by
  unfold Process
  rw [processLoop, GetNextLine_eq]
  have hl : (nextLine body).2.2 = firstLine body := by
    unfold nextLine
    split <;> rfl
  have hr : restLines (body.length + 2) body
      = (nextLine body).2.2 ::
        (if (nextLine body).1 then restLines (body.length + 1) (nextLine body).2.1 else []) :=
    rfl
  rw [hr]
  simp only [if_true, ProcessFirstLine_eq, hl, h, firstLineResult, Bool.not_true,
    Bool.false_eq_true, if_false, List.nil_append, List.tail_cons]
  by_cases hm : (nextLine body).1 = true
  · have hs := nextLine_shorter body hm
    simp only [hm, Bool.not_true, Bool.false_eq_true, if_false, if_true]
    have h2 : body.length ≤ body.length + 1 := by omega
    rw [processLoop_rest _ _ _ _ (Nat.succ_le_of_lt (Nat.lt_of_lt_of_le hs h2))]
    rfl
  · have hm2 : (nextLine body).1 = false := by simpa using hm
    simp only [hm2, Bool.not_false, if_true, Bool.false_eq_true, if_false, List.foldl_nil]

/-! ### The lines that `Process` handles -/

theorem lines_spec_newline (c : Char) (r : Text) (hc : isNewline c = true) :
    lines_spec (c :: r) = lines_spec r := by
  simp [lines_spec, breakLines, hc]

theorem lines_spec_dropWhile (r : Text) : lines_spec (r.dropWhile isNewline) = lines_spec r := by
  induction r with
  | nil => rfl
  | cons c r ih =>
    by_cases hc : isNewline c = true
    · rw [List.dropWhile_cons, if_pos hc, ih, lines_spec_newline c r hc]
    · rw [List.dropWhile_cons, if_neg hc]

theorem breakLines_run (L : Text) (hL : ∀ x ∈ L, isNewline x = false) (c : Char) (r : Text)
    (hc : isNewline c = true) : breakLines (L ++ c :: r) = L :: breakLines r := by
  induction L with
  | nil => simp [breakLines, hc]
  | cons x L ih =>
    have hx : isNewline x = false := hL x (by simp)
    have := ih (fun y hy => hL y (by simp [hy]))
    simp [breakLines, hx, this]

theorem breakLines_only (L : Text) (hL : ∀ x ∈ L, isNewline x = false) :
    breakLines L = [L] := by
  induction L with
  | nil => rfl
  | cons x L ih =>
    have hx : isNewline x = false := hL x (by simp)
    have := ih (fun y hy => hL y (by simp [hy]))
    simp [breakLines, hx, this]

theorem lines_spec_run (L : Text) (hne : L ≠ []) (hL : ∀ x ∈ L, isNewline x = false) (c : Char)
    (r : Text) (hc : isNewline c = true) : lines_spec (L ++ c :: r) = L :: lines_spec r := by
  unfold lines_spec
  rw [breakLines_run L hL c r hc]
  cases L with
  | nil => exact absurd rfl hne
  | cons _ _ => rfl

theorem lines_spec_only (L : Text) (hne : L ≠ []) (hL : ∀ x ∈ L, isNewline x = false) :
    lines_spec L = [L] := by
  unfold lines_spec
  rw [breakLines_only L hL]
  cases L with
  | nil => exact absurd rfl hne
  | cons _ _ => rfl

theorem endsWithNewline_append (A B : Text) (hB : B ≠ []) :
    endsWithNewline (A ++ B) = endsWithNewline B := by
  unfold endsWithNewline
  rw [List.getLast?_append_of_ne_nil A hB]

theorem endsWithNewline_all (B : Text) (hne : B ≠ []) (hB : ∀ x ∈ B, isNewline x = true) :
    endsWithNewline B = true := by
  unfold endsWithNewline
  cases h : B.getLast? with
  | none =>
    rw [List.getLast?_eq_none_iff] at h
    exact absurd h hne
  | some c =>
    exact hB c (List.mem_of_getLast?_eq_some h)

theorem endsWithNewline_run (L : Text) (hL : ∀ x ∈ L, isNewline x = false) :
    endsWithNewline L = false := by
  unfold endsWithNewline
  cases h : L.getLast? with
  | none => rfl
  | some c =>
    exact hL c (List.mem_of_getLast?_eq_some h)

theorem takeWhile_lineEnd (buffer : Text) (h : '\x00' ∉ buffer) :
    buffer.takeWhile (fun c => !isLineEnd c) = buffer.takeWhile (fun c => !isNewline c) ∧
    buffer.dropWhile (fun c => !isLineEnd c) = buffer.dropWhile (fun c => !isNewline c) := by
  induction buffer with
  | nil => exact ⟨rfl, rfl⟩
  | cons c r ih =>
    have hc : c ≠ '\x00' := fun e => h (by simp [e])
    have hr : '\x00' ∉ r := fun e => h (by simp [e])
    have he : isLineEnd c = isNewline c := by
      simp [isLineEnd, isNewline, hc]
    obtain ⟨h1, h2⟩ := ih hr
    refine ⟨?_, ?_⟩
    · simp only [List.takeWhile_cons, he, h1]
    · simp only [List.dropWhile_cons, he, h2]

theorem restLines_handled : ∀ (fuel : Nat) (buffer : Text), buffer.length + 1 ≤ fuel →
    '\x00' ∉ buffer → (∀ c ∈ buffer.head?, isNewline c = false) →
    restLines fuel buffer = handledLines buffer := by
  intro fuel
  induction fuel with
  | zero =>
    intro buffer h
    omega
  | succ f ih =>
    intro buffer hf hnul hhead
    rw [restLines]
    by_cases hb : buffer = []
    · subst hb
      rfl
    · obtain ⟨h1, h2⟩ := takeWhile_lineEnd buffer hnul
      have hsplit : buffer = buffer.takeWhile (fun c => !isNewline c)
          ++ buffer.dropWhile (fun c => !isNewline c) :=
        (List.takeWhile_append_dropWhile _ _).symm
      generalize hL : buffer.takeWhile (fun c => !isNewline c) = L at h1 hsplit
      generalize hR : buffer.dropWhile (fun c => !isNewline c) = R at h2 hsplit
      have hLnl : ∀ x ∈ L, isNewline x = false := by
        intro x hx
        rw [← hL] at hx
        simpa using List.mem_takeWhile_imp hx
      have hLne : L ≠ [] := by
        intro e
        cases buffer with
        | nil => exact hb rfl
        | cons c r =>
          have hc : isNewline c = false := hhead c (by simp)
          rw [List.takeWhile_cons] at hL
          simp only [hc, Bool.not_false, if_true] at hL
          rw [e] at hL
          cases hL
      have hfl : firstLine buffer = L := h1
      unfold nextLine
      rw [hfl, h2]
      cases R with
      | nil =>
        have hcond : L = [] ∨ ([] : Text).headD '\x00' = '\x00' := Or.inr rfl
        rw [if_pos hcond]
        simp only [Bool.false_eq_true, if_false]
        have hbL : buffer = L := by simpa using hsplit
        rw [hbL]
        unfold handledLines
        rw [if_neg hLne, lines_spec_only L hLne hLnl, endsWithNewline_run L hLnl]
        rfl
      | cons c R2 =>
        have hcnl : isNewline c = true := by
          have := List.head_dropWhile_not (fun c => !isNewline c) buffer (by rw [hR]; simp)
          simp only [hR, List.head_cons] at this
          simpa using this
        have hcmem : c ∈ buffer := by
          rw [hsplit]
          simp
        have hc0 : c ≠ '\x00' := fun e => hnul (e ▸ hcmem)
        have hcond : ¬ (L = [] ∨ (c :: R2).headD '\x00' = '\x00') := by
          rintro (h | h)
          · exact hLne h
          · exact hc0 h
        rw [if_neg hcond]
        simp only [if_true, List.drop_one, List.tail_cons]
        have hsuf : R2.dropWhile isNewline <:+ buffer := by
          rw [hsplit]
          exact (List.dropWhile_suffix isNewline).trans
            ((List.suffix_cons c R2).trans (List.suffix_append L (c :: R2)))
        have hlen : (R2.dropWhile isNewline).length + 1 ≤ f := by
          have h3 := (List.dropWhile_suffix isNewline (l := R2)).length_le
          have h4 := congrArg List.length hsplit
          simp at h4
          omega
        have hnul2 : '\x00' ∉ R2.dropWhile isNewline := fun e => hnul (hsuf.subset e)
        have hhead2 : ∀ x ∈ (R2.dropWhile isNewline).head?, isNewline x = false := by
          intro x hx
          cases hd : R2.dropWhile isNewline with
          | nil =>
            rw [hd] at hx
            simp at hx
          | cons y r =>
            rw [hd] at hx
            simp only [List.head?_cons, Option.mem_def, Option.some.injEq] at hx
            subst hx
            have := List.head_dropWhile_not isNewline R2 (by rw [hd]; simp)
            simp only [hd, List.head_cons] at this
            simpa using this
        rw [ih _ hlen hnul2 hhead2]
        have hbne : L ++ c :: R2 ≠ [] := by simp
        rw [hsplit]
        conv_rhs => unfold handledLines
        rw [if_neg hbne, lines_spec_run L hLne hLnl c R2 hcnl, ← lines_spec_dropWhile R2]
        have hR2 : R2 = R2.takeWhile isNewline ++ R2.dropWhile isNewline :=
          (List.takeWhile_append_dropWhile _ _).symm
        by_cases hb1 : R2.dropWhile isNewline = []
        · have hall : ∀ x ∈ c :: R2, isNewline x = true := by
            intro x hx
            simp only [List.mem_cons] at hx
            rcases hx with rfl | hx
            · exact hcnl
            · rw [hR2, hb1, List.append_nil] at hx
              exact List.mem_takeWhile_imp hx
          rw [endsWithNewline_append L (c :: R2) (by simp),
            endsWithNewline_all (c :: R2) (by simp) hall, hb1]
          rfl
        · have he : L ++ c :: R2
              = (L ++ c :: R2.takeWhile isNewline) ++ R2.dropWhile isNewline := by
            conv_lhs => rw [hR2]
            simp
          rw [he, endsWithNewline_append _ _ hb1]
          unfold handledLines
          rw [if_neg hb1]
          rfl

theorem headerVersion_nil : headerVersion [] = none := by decide

theorem lines_spec_ne_nil (body : Text) : ∀ l ∈ lines_spec body, l ≠ [] := by
  intro l hl
  unfold lines_spec at hl
  have := (List.mem_filter.mp hl).2
  intro e
  rw [e] at this
  simp at this

end

/-! ### The scanner: consecutive calls of `next()` -/

theorem nextTimes_eq : ∀ (k : Nat) (sc : StringScanner),
    nextTimes k sc = ⟨sc.mStr, sc.mPos + k, sc.mEnd, sc.mTerminator⟩ := by
  intro k
  induction k with
  | zero => intro sc; rfl
  | succ k ih =>
    intro sc
    rw [nextTimes, ih]
    simp only [StringScanner.next]
    congr 1
    omega

/-! ### The decimal digits of a number -/

theorem digitChar_value (m : Nat) (h : m < 10) :
    (Nat.digitChar m).toNat - '0'.toNat = m ∧ iswdigit (Nat.digitChar m) = true := by
  interval_cases m <;> decide

theorem digitsValue_append (A : Text) (c : Char) :
    digitsValue (A ++ [c]) = 10 * digitsValue A + (c.toNat - '0'.toNat) := by
  simp [digitsValue, List.foldl_append]

theorem toDigitsCore_eq : ∀ (fuel n : Nat) (acc : Text), n < fuel →
    ∃ ds : Text, Nat.toDigitsCore 10 fuel n acc = ds ++ acc ∧ ds ≠ [] ∧
      (∀ c ∈ ds, iswdigit c = true) ∧ digitsValue ds = n := by
  intro fuel
  induction fuel with
  | zero => intro n acc h; omega
  | succ fuel ih =>
    intro n acc h
    have hd := digitChar_value (n % 10) (Nat.mod_lt _ (by omega))
    by_cases h0 : n / 10 = 0
    · refine ⟨[Nat.digitChar (n % 10)], ?_, by simp, ?_, ?_⟩
      · simp [Nat.toDigitsCore, h0]
      · intro c hc
        simp only [List.mem_singleton] at hc
        rw [hc]
        exact hd.2
      · have := digitsValue_append [] (Nat.digitChar (n % 10))
        simp only [List.nil_append] at this
        rw [this, hd.1]
        simp only [digitsValue, List.foldl_nil]
        omega
    · obtain ⟨ds, h1, _, h3, h4⟩ := ih (n / 10) (Nat.digitChar (n % 10) :: acc) (by omega)
      refine ⟨ds ++ [Nat.digitChar (n % 10)], ?_, by simp, ?_, ?_⟩
      · simp only [Nat.toDigitsCore, h0, if_false, h1, List.append_assoc, List.singleton_append]
      · intro c hc
        rcases List.mem_append.mp hc with hc | hc
        · exact h3 c hc
        · simp only [List.mem_singleton] at hc
          rw [hc]
          exact hd.2
      · rw [digitsValue_append, h4, hd.1]
        omega

theorem decimal_spec (n : Nat) :
    decimal n ≠ [] ∧ (∀ c ∈ decimal n, iswdigit c = true) ∧ digitsValue (decimal n) = n := by
  obtain ⟨ds, h1, h2, h3, h4⟩ := toDigitsCore_eq (n + 1) n [] (by omega)
  have : decimal n = ds := by
    unfold decimal Nat.toDigits
    rw [h1, List.append_nil]
  rw [this]
  exact ⟨h2, h3, h4⟩

theorem decimal_inj (a b : Nat) (h : decimal a = decimal b) : a = b := by
  rw [← (decimal_spec a).2.2, ← (decimal_spec b).2.2, h]

theorem decimal_no_newline (n : Nat) : '\n' ∉ decimal n := by
  intro h
  have := (decimal_spec n).2.1 _ h
  revert this
  decide

theorem decimal_head (n : Nat) : ∃ c r, decimal n = c :: r ∧ iswdigit c = true := by
  have h := decimal_spec n
  cases hd : decimal n with
  | nil => exact absurd hd h.1
  | cons c r =>
    refine ⟨c, r, rfl, ?_⟩
    apply h.2.1
    rw [hd]
    exact List.mem_cons_self _ _

/-! ### `Serialize` -/

theorem split_at_char (c : Char) : ∀ (t1 t2 r1 r2 : Text), c ∉ t1 → c ∉ t2 →
    t1 ++ c :: r1 = t2 ++ c :: r2 → t1 = t2 ∧ r1 = r2 := by
  intro t1
  induction t1 with
  | nil =>
    intro t2 r1 r2 _ h2 h
    cases t2 with
    | nil => simpa using h
    | cons x t2 =>
      simp only [List.nil_append, List.cons_append, List.cons.injEq] at h
      exact absurd (by rw [← h.1]; exact List.mem_cons_self _ _) h2
  | cons y t1 ih =>
    intro t2 r1 r2 h1 h2 h
    cases t2 with
    | nil =>
      simp only [List.nil_append, List.cons_append, List.cons.injEq] at h
      exact absurd (by rw [h.1]; exact List.mem_cons_self _ _) h1
    | cons x t2 =>
      simp only [List.cons_append, List.cons.injEq] at h
      obtain ⟨e1, e2⟩ := ih t2 r1 r2 (fun hh => h1 (List.mem_cons_of_mem _ hh))
        (fun hh => h2 (List.mem_cons_of_mem _ hh)) h.2
      exact ⟨by rw [h.1, e1], e2⟩

theorem numLine_inj (k0 : Char) (key : Text) (a1 a2 : Nat) (Y1 Y2 : Text)
    (h1 : Y1.head? ≠ some k0) (h2 : Y2.head? ≠ some k0)
    (h : numLine (k0 :: key) a1 ++ Y1 = numLine (k0 :: key) a2 ++ Y2) :
    a1 = a2 ∧ Y1 = Y2 := by
  unfold numLine at h
  by_cases e1 : a1 = 0 <;> by_cases e2 : a2 = 0
  · subst e1 e2
    simpa using h
  · exfalso
    subst e1
    simp only [ne_eq, not_true_eq_false, if_false, List.nil_append, e2, not_false_eq_true,
      if_true, List.cons_append] at h
    rw [h] at h1
    exact h1 rfl
  · exfalso
    subst e2
    simp only [ne_eq, not_true_eq_false, if_false, List.nil_append, e1, not_false_eq_true,
      if_true, List.cons_append] at h
    rw [← h] at h2
    exact h2 rfl
  · simp only [ne_eq, e1, e2, not_false_eq_true, if_true, List.append_assoc] at h
    have h3 := List.append_cancel_left h
    have h4 : decimal a1 ++ '\n' :: Y1 = decimal a2 ++ '\n' :: Y2 := h3
    obtain ⟨e3, e4⟩ := split_at_char '\n' _ _ _ _ (decimal_no_newline a1)
      (decimal_no_newline a2) h4
    exact ⟨decimal_inj _ _ e3, e4⟩

theorem numLine_head (k0 c : Char) (key Y : Text) (a : Nat) (hc : c ≠ k0)
    (hY : Y.head? ≠ some c) : (numLine (k0 :: key) a ++ Y).head? ≠ some c := by
  unfold numLine
  by_cases e : a = 0
  · simpa [e] using hY
  · simp only [ne_eq, e, not_false_eq_true, if_true, List.cons_append, List.head?_cons,
      Option.some.injEq]
    exact fun h => hc h.symm

namespace ActiveFilter

theorem Serialize_eq_spec (f : ActiveFilter) : f.Serialize = Serialize_spec f := by
  unfold Serialize Serialize_spec Filter.Serialize
  cases f.mDisabled <;> by_cases h1 : f.mHitCount = 0 <;> by_cases h2 : f.mLastHit = 0 <;>
    simp [h1, h2]

theorem Serialize_spec_form (f : ActiveFilter) :
    Serialize_spec f
      = "[Filter]\ntext=".toList ++ (f.mText ++ '\n' :: (flagLine f.mDisabled
          ++ (numLine "hitCount=".toList f.mHitCount
            ++ (numLine "lastHit=".toList f.mLastHit ++ [])))) := by
  unfold Serialize_spec flagLine numLine
  cases f.mDisabled <;> by_cases h1 : f.mHitCount = 0 <;> by_cases h2 : f.mLastHit = 0 <;>
    simp [h1, h2]

theorem Serialize_spec_inj (f g : ActiveFilter) (hf : '\n' ∉ f.mText) (hg : '\n' ∉ g.mText)
    (h : Serialize_spec f = Serialize_spec g) :
    f.mText = g.mText ∧ f.mDisabled = g.mDisabled ∧ f.mHitCount = g.mHitCount ∧
      f.mLastHit = g.mLastHit := by
  rw [Serialize_spec_form, Serialize_spec_form] at h
  obtain ⟨e1, e2⟩ := split_at_char '\n' _ _ _ _ hf hg (List.append_cancel_left h)
  have hl : ∀ (b : Nat) (c : Char), c ≠ 'l' →
      (numLine "lastHit=".toList b ++ []).head? ≠ some c :=
    fun b c hc => numLine_head 'l' c _ [] b hc (by simp)
  have hd : ∀ (a b : Nat),
      (numLine "hitCount=".toList a ++ (numLine "lastHit=".toList b ++ [])).head?
        ≠ some 'd' :=
    fun a b => numLine_head 'h' 'd' _ _ a (by decide) (hl b 'd' (by decide))
  have e3 : f.mDisabled = g.mDisabled ∧
      numLine "hitCount=".toList f.mHitCount ++ (numLine "lastHit=".toList f.mLastHit ++ [])
      = numLine "hitCount=".toList g.mHitCount
          ++ (numLine "lastHit=".toList g.mLastHit ++ []) := by
    have hdf := hd f.mHitCount f.mLastHit
    have hdg := hd g.mHitCount g.mLastHit
    unfold flagLine at e2
    cases hfd : f.mDisabled <;> cases hgd : g.mDisabled
    · simp only [hfd, hgd, Bool.false_eq_true, if_false, List.nil_append] at e2
      exact ⟨rfl, e2⟩
    · exfalso
      simp only [hfd, hgd, Bool.false_eq_true, if_false, List.nil_append, if_true] at e2
      rw [e2] at hdf
      exact hdf rfl
    · exfalso
      simp only [hfd, hgd, Bool.false_eq_true, if_false, List.nil_append, if_true] at e2
      rw [← e2] at hdg
      exact hdg rfl
    · simp only [hfd, hgd, if_true] at e2
      exact ⟨rfl, List.append_cancel_left e2⟩
  obtain ⟨e4, e5⟩ := numLine_inj 'h' "itCount=".toList f.mHitCount g.mHitCount _ _
    (hl f.mLastHit 'h' (by decide)) (hl g.mLastHit 'h' (by decide)) e3.2
  have e6 := numLine_inj 'l' "astHit=".toList f.mLastHit g.mLastHit [] []
    (by simp) (by simp) e5
  exact ⟨e1, e3.1, e4, e6.1⟩

end ActiveFilter

namespace DownloadableSubscription

theorem fieldLine_ite (c : Prop) [Decidable c] (k v : Text) :
    fieldLine (k, if c then some v else none) = if c then k ++ '=' :: (v ++ ['\n']) else [] := by
  unfold fieldLine
  split_ifs <;> rfl

theorem line_ite3 (c : Prop) [Decidable c] (r k v n : Text) :
    (if c then r ++ k ++ v ++ n else r) = r ++ (if c then k ++ (v ++ n) else []) := by
  split_ifs <;> simp

theorem line_ite1 (c : Prop) [Decidable c] (r x : Text) :
    (if c then r ++ x else r) = r ++ (if c then x else []) := by
  split_ifs <;> simp

theorem Serialize_appends (base : Subscription → Text) (s : DownloadableSubscription) :
    Serialize base s = base s.toSubscription ++ appended_spec s := by
  unfold Serialize appended_spec fields_spec
  simp -zeta only [line_ite3, line_ite1]
  simp only [List.map, fieldLine_ite, List.flatten, List.append_assoc, List.append_nil]
  rfl

end DownloadableSubscription

/-! ### `Finalize` -/

section

open StringScanner DownloadableSubscription_Parser

theorem FromText_total (rp : Text → RegExpParseResult) (w : World) (t : Text) :
    ∃ r, Filter.FromText rp w t = some r := by
  rcases FromText_cases rp t with h | ⟨key, ty, err, d, re, pd, h1, h2⟩
  · exact ⟨_, h w⟩
  · cases hk : StringMap.find w.knownFilters key with
    | none => exact ⟨_, h2 w hk⟩
    | some known => exact ⟨_, h1 w known hk⟩

theorem ParseExpires_total (t : Text) : ∃ v, ParseExpires t = some v := by
  by_cases h : ∀ c ∈ (t.dropWhile iswspace).head?, iswdigit c = false
  · exact ⟨0, ParseExpires_nonumber t h⟩
  · have ht : t = t.takeWhile iswspace ++ (t.dropWhile iswspace).takeWhile iswdigit
        ++ (t.dropWhile iswspace).dropWhile iswdigit := by
      rw [List.append_assoc, List.takeWhile_append_dropWhile, List.takeWhile_append_dropWhile]
    have hs := ParseExpires_shape (t.takeWhile iswspace)
      ((t.dropWhile iswspace).takeWhile iswdigit) ((t.dropWhile iswspace).dropWhile iswdigit)
      (fun c hc => List.mem_takeWhile_imp hc) ?_ (fun c hc => List.mem_takeWhile_imp hc) ?_
    · rw [← ht] at hs
      exact ⟨_, hs⟩
    · intro e
      apply h
      intro c hc
      cases hd : t.dropWhile iswspace with
      | nil => rw [hd] at hc; simp at hc
      | cons x r =>
        rw [hd] at hc e
        simp only [List.head?_cons, Option.mem_def, Option.some.injEq] at hc
        subst hc
        by_contra hx
        have hx2 : iswdigit x = true := by simpa using hx
        simp [List.takeWhile, hx2] at e
    · intro c hc
      cases hd : (t.dropWhile iswspace).dropWhile iswdigit with
      | nil => rw [hd] at hc; simp at hc
      | cons x r =>
        rw [hd] at hc
        simp only [List.head?_cons, Option.mem_def, Option.some.injEq] at hc
        subst hc
        have := List.head_dropWhile_not iswdigit (t.dropWhile iswspace)
          (by rw [hd]; exact List.cons_ne_nil _ _)
        simpa [hd] using this

theorem finalizeLoop_eq (rp : Text → RegExpParseResult) : ∀ (texts : List Text) (w : World)
    (acc : List (Option Nat)),
    ∃ fs w1, finalizeLoop rp texts w acc = some (acc ++ fs, w1) ∧
      FiltersFrom rp w texts fs w1 := by
  intro texts
  induction texts with
  | nil =>
    intro w acc
    exact ⟨[], w, by simp [finalizeLoop], FiltersFrom.nil w⟩
  | cons t ts ih =>
    intro w acc
    obtain ⟨r, hr⟩ := FromText_total rp w t
    obtain ⟨fs, w1, h1, h2⟩ := ih r.world (acc ++ [r.result])
    refine ⟨r.result :: fs, w1, ?_, FiltersFrom.cons w t r ts fs w1 hr h2⟩
    simp only [finalizeLoop, hr, h1, List.append_assoc, List.singleton_append]

theorem FiltersFrom_length (rp : Text → RegExpParseResult) (w w1 : World) (texts : List Text)
    (fs : List (Option Nat)) (h : FiltersFrom rp w texts fs w1) : fs.length = texts.length := by
  induction h with
  | nil => rfl
  | cons w t r ts fs w2 _ _ ih => simp [ih]

theorem Finalize_eq (rp : Text → RegExpParseResult) (cast : Text → Int)
    (self : DownloadableSubscription_Parser) (w : World)
    (subscription : DownloadableSubscription) :
    ∃ r w1, Finalize rp cast self w subscription = some r ∧
      (∀ v, StringMap.find self.mParams "expires".toList = some v →
        ParseExpires v = some r.result) ∧
      (StringMap.find self.mParams "expires".toList = none → r.result = 0) ∧
      FiltersFrom rp w self.mFiltersText r.subscription.mFilters w1 ∧
      (∀ v, StringMap.find self.mParams "title".toList = some v →
        r.subscription.mTitle = v ∧ r.subscription.mFixedTitle = true) ∧
      (StringMap.find self.mParams "title".toList = none →
        r.subscription.mFixedTitle = false ∧ r.subscription.mTitle = subscription.mTitle) := by
  obtain ⟨fs, w1, h1, h2⟩ := finalizeLoop_eq rp self.mFiltersText w []
  rw [List.nil_append] at h1
  have hreq : ∀ (s : DownloadableSubscription) (v : Text),
      (s.SetRequiredVersion v).mTitle = s.mTitle := fun _ _ => rfl
  have hsub : (if self.mRequiredVersion ≠ [] then
        subscription.SetRequiredVersion self.mRequiredVersion else subscription).mTitle
      = subscription.mTitle := by
    split <;> rfl
  cases he : StringMap.find self.mParams "expires".toList with
  | none =>
    cases ht : StringMap.find self.mParams "title".toList with
    | none =>
      obtain ⟨r, hr⟩ : ∃ r, Finalize rp cast self w subscription = some r := by
        simp only [Finalize, he, ht, h1]
        exact ⟨_, rfl⟩
      refine ⟨r, w1, hr, ?_⟩
      simp only [Finalize, he, ht, h1, Option.some.injEq] at hr
      subst hr
      exact ⟨fun v hv => (by cases hv), fun _ => rfl, h2, fun v hv => (by cases hv),
        fun _ => ⟨rfl, hsub⟩⟩
    | some tv =>
      obtain ⟨r, hr⟩ : ∃ r, Finalize rp cast self w subscription = some r := by
        simp only [Finalize, he, ht, h1]
        exact ⟨_, rfl⟩
      refine ⟨r, w1, hr, ?_⟩
      simp only [Finalize, he, ht, h1, Option.some.injEq] at hr
      subst hr
      exact ⟨fun v hv => (by cases hv), fun _ => rfl, h2,
        fun v hv => (by cases hv; exact ⟨rfl, rfl⟩), fun hv => (by cases hv)⟩
  | some ev =>
    obtain ⟨x, hx⟩ := ParseExpires_total ev
    cases ht : StringMap.find self.mParams "title".toList with
    | none =>
      obtain ⟨r, hr⟩ : ∃ r, Finalize rp cast self w subscription = some r := by
        simp only [Finalize, he, ht, h1, hx]
        exact ⟨_, rfl⟩
      refine ⟨r, w1, hr, ?_⟩
      simp only [Finalize, he, ht, h1, hx, Option.some.injEq] at hr
      subst hr
      exact ⟨fun v hv => (by cases hv; exact hx), fun hv => (by cases hv), h2,
        fun v hv => (by cases hv), fun _ => ⟨rfl, hsub⟩⟩
    | some tv =>
      obtain ⟨r, hr⟩ : ∃ r, Finalize rp cast self w subscription = some r := by
        simp only [Finalize, he, ht, h1, hx]
        exact ⟨_, rfl⟩
      refine ⟨r, w1, hr, ?_⟩
      simp only [Finalize, he, ht, h1, hx, Option.some.injEq] at hr
      subst hr
      exact ⟨fun v hv => (by cases hv; exact hx), fun hv => (by cases hv), h2,
        fun v hv => (by cases hv; exact ⟨rfl, rfl⟩), fun hv => (by cases hv)⟩

end

/-! ### The params that `Process` stores -/

section

open StringScanner DownloadableSubscription_Parser

theorem ParseParam_eq_view (text : Text) :
    ParseParam text = some ((paramView text).map (fun p => (toLower p.1, p.2))) := by
  unfold ParseParam paramView
  by_cases h : charAt text 0 = '!'
  · obtain ⟨r, hr⟩ := paramLoop_total text (text.length + 1) 1 false 0 0 (by omega) (by omega)
    obtain ⟨bp, ep, bv⟩ := r
    simp only [h, if_true, hr]
    by_cases hb : bv > 0
    · simp only [hb, if_true, Option.map_some']
    · simp only [hb, if_false, Option.map_none']
  · simp only [h, if_false, Option.map_none']

end

/-! ### The views of `ParseParam` -/

section

open StringScanner DownloadableSubscription_Parser

theorem paramLoop_bounds (text : Text) : ∀ (fuel i : Nat) (fc : Bool) (bp ep : Nat)
    (r : Nat × Nat × Nat), bp < i → (fc = true → bp < ep ∧ ep < i) →
    paramLoop text fuel i fc bp ep = some r → r.2.2 > 0 →
    r.1 < r.2.1 ∧ r.2.1 < r.2.2 ∧ r.2.2 < text.length := by
  intro fuel
  induction fuel with
  | zero => intro i fc bp ep r _ _ h; simp [paramLoop] at h
  | succ fuel ih =>
    intro i fc bp ep r hbp hfc h hr
    rw [paramLoop] at h
    by_cases hi : i < text.length
    · rw [if_pos hi] at h
      by_cases hs : charAt text i = ' ' ∨ charAt text i = '\t'
      · rw [if_pos hs] at h
        refine ih (i + 1) fc bp _ r (by omega) ?_ h hr
        intro e
        have := hfc e
        have hn : ¬ (bp > 0 ∧ fc = false) := by simp [e]
        rw [if_neg hn]
        omega
      · rw [if_neg hs] at h
        by_cases hc : charAt text i = ':'
        · rw [if_pos hc] at h
          exact ih (i + 1) true bp i r (by omega) (fun _ => ⟨hbp, by omega⟩) h hr
        · rw [if_neg hc] at h
          by_cases e : fc = true
          · have hi0 : i > 0 := by omega
            simp only [e, if_true, hi0] at h
            cases h
            have := hfc e
            exact ⟨this.1, this.2, hi⟩
          · have e2 : fc = false := by simpa using e
            simp only [e2, Bool.false_eq_true, if_false] at h
            refine ih (i + 1) false _ ep r ?_ (fun hh => by cases hh) h hr
            split <;> omega
    · rw [if_neg hi] at h
      cases h
      simp at hr

theorem paramView_nonempty (line K v : Text) (h : paramView line = some (K, v)) :
    K ≠ [] ∧ v ≠ [] := by
  unfold paramView at h
  by_cases hb : charAt line 0 = '!'
  · rw [if_pos hb] at h
    cases hl : paramLoop line (line.length + 1) 1 false 0 0 with
    | none => simp [hl] at h
    | some r =>
      obtain ⟨bp, ep, bv⟩ := r
      simp only [hl] at h
      by_cases hv : bv > 0
      · rw [if_pos hv] at h
        have hbd := paramLoop_bounds line (line.length + 1) 1 false 0 0 (bp, ep, bv) (by omega)
          (fun hh => by cases hh) hl hv
        simp only at hbd
        simp only [Option.some.injEq, Prod.mk.injEq] at h
        constructor
        · intro e
          have hlen := congrArg List.length h.1
          rw [e, substr_length _ _ _ (by omega)] at hlen
          simp only [List.length_nil] at hlen
          omega
        · intro e
          have hlen := congrArg List.length h.2
          rw [e, substr_length _ _ _ (by omega)] at hlen
          simp only [List.length_nil] at hlen
          omega
      · rw [if_neg hv] at h
        cases h
  · rw [if_neg hb] at h
    cases h

end

/-! ### A true entry behind a host that is active -/

theorem find_some_mem_pair {V : Type} (m : StringMap V) (k : Text) (v : V)
    (h : StringMap.find m k = some v) : (k, v) ∈ m := by
  induction m with
  | nil => simp [StringMap.find] at h
  | cons e m ih =>
    obtain ⟨k1, v1⟩ := e
    unfold StringMap.find at h
    by_cases hk : k1 = k
    · rw [if_pos hk] at h
      cases h
      rw [hk]
      exact List.mem_cons_self _ _
    · rw [if_neg hk] at h
      exact List.mem_cons_of_mem _ (ih h)

namespace ActiveFilter

theorem longestMatch_true (m : DomainMap) (host : Text)
    (h : longestMatch_spec m host = true) :
    DomainMap.get m [] = true ∨ ∃ key, (key, true) ∈ m ∧ keyMatchesHost key host := by
  unfold longestMatch_spec at h
  cases ha : ((m.map Prod.fst).filter (fun key => decide (keyMatchesHost key host))).argmax
      List.length with
  | none =>
    rw [ha] at h
    exact Or.inl h
  | some key =>
    rw [ha] at h
    right
    have hmem := List.argmax_mem ha
    have hk : keyMatchesHost key host := by
      have := (List.mem_filter.mp hmem).2
      simpa using this
    refine ⟨key, ?_, hk⟩
    simp only [DomainMap.get] at h
    cases hf : StringMap.find m key with
    | none => rw [hf] at h; cases h
    | some b =>
      rw [hf] at h
      simp only [Option.getD_some] at h
      subst h
      exact find_some_mem_pair m key true hf

end ActiveFilter

/-! ### The checked reads of the download parser -/

section

open StringScanner DownloadableSubscription_Parser

theorem bind_ok {α β : Type} (a : α) (f : α → Checked β) : (Checked.ok a).bind f = f a := rfl

theorem ofOption_some {α : Type} (a : α) : Checked.ofOption (some a) = .ok a := rfl

theorem readAt_lt (str : Text) (i : Nat) (h : i < str.length) :
    readAt str i = .ok (charAt str i) := if_pos h

theorem readAt_ge (str : Text) (i : Nat) (h : str.length ≤ i) :
    readAt str i = .outOfBounds i str.length := if_neg (by omega)

theorem nextChecked_eq (s : StringScanner) (h : s.mEnd ≤ s.mStr.length) :
    s.nextChecked = .ok s.next := by
  unfold nextChecked StringScanner.next
  by_cases hd : s.done = true
  · simp only [hd, if_true]
  · have hlt : s.mPos < s.mStr.length := by
      simp only [StringScanner.done, decide_eq_true_eq] at hd
      omega
    simp only [hd, Bool.false_eq_true, if_false, readAt_lt _ _ hlt, bind_ok]

theorem skipOneChecked_eq (s : StringScanner) (ch : Char) (h : s.mEnd ≤ s.mStr.length) :
    s.skipOneChecked ch = .ok (s.skipOne ch) := by
  unfold skipOneChecked StringScanner.skipOne
  by_cases hd : s.done = true
  · simp only [hd, if_true, Bool.not_true, Bool.false_and, Bool.false_eq_true, if_false]
  · have hlt : s.mPos < s.mStr.length := by
      simp only [StringScanner.done, decide_eq_true_eq] at hd
      omega
    have hd2 : s.done = false := by simpa using hd
    simp only [hd2, Bool.false_eq_true, if_false, readAt_lt _ _ hlt, bind_ok,
      Bool.not_false, Bool.true_and]
    split <;> rfl

theorem skipOne_same (s : StringScanner) (ch : Char) :
    (s.skipOne ch).2.mStr = s.mStr ∧ (s.skipOne ch).2.mEnd = s.mEnd := by
  unfold StringScanner.skipOne
  split <;> exact ⟨rfl, rfl⟩

theorem skipWhiteSpaceLoopChecked_eq : ∀ (fuel : Nat) (s : StringScanner) (sk : Bool),
    s.mEnd ≤ s.mStr.length →
    skipWhiteSpaceLoopChecked fuel s sk = Checked.ofOption (skipWhiteSpaceLoop fuel s sk) := by
  intro fuel
  induction fuel with
  | zero => intro s sk _; rfl
  | succ fuel ih =>
    intro s sk h
    rw [skipWhiteSpaceLoopChecked, skipWhiteSpaceLoop]
    by_cases hd : s.done = true
    · simp only [hd, if_true, Bool.not_true, Bool.false_and, Bool.false_eq_true, if_false,
        Checked.ofOption]
    · have hlt : s.mPos < s.mStr.length := by
        simp only [StringScanner.done, decide_eq_true_eq] at hd
        omega
      have hd2 : s.done = false := by simpa using hd
      simp only [hd2, Bool.false_eq_true, if_false, readAt_lt _ _ hlt, bind_ok,
        Bool.not_false, Bool.true_and]
      by_cases hw : iswspace (charAt s.mStr s.mPos) = true
      · simp only [hw, if_true]
        exact ih _ _ h
      · simp only [hw, Bool.false_eq_true, if_false, Checked.ofOption]

theorem skipWhiteSpaceLoop_same : ∀ (fuel : Nat) (s : StringScanner) (sk : Bool)
    (r : Bool × StringScanner), s.mPos ≤ s.mEnd → skipWhiteSpaceLoop fuel s sk = some r →
    r.2.mStr = s.mStr ∧ r.2.mEnd = s.mEnd ∧ r.2.mPos ≤ r.2.mEnd := by
  intro fuel
  induction fuel with
  | zero => intro s sk r _ h; simp [skipWhiteSpaceLoop] at h
  | succ fuel ih =>
    intro s sk r hp h
    rw [skipWhiteSpaceLoop] at h
    split at h
    · rename_i hc
      have hnd : s.mPos < s.mEnd := by
        simp only [StringScanner.done, Bool.and_eq_true, Bool.not_eq_true',
          decide_eq_false_iff_not] at hc
        omega
      have := ih _ _ r (by show s.mPos + 1 ≤ s.mEnd; omega) h
      exact this
    · cases h
      exact ⟨rfl, rfl, hp⟩

theorem skipWhiteSpaceChecked_eq (s : StringScanner) (h : s.mEnd ≤ s.mStr.length) :
    s.skipWhiteSpaceChecked = Checked.ofOption s.skipWhiteSpace :=
  skipWhiteSpaceLoopChecked_eq _ _ _ h

theorem skipWhiteSpace_same (s : StringScanner) (r : Bool × StringScanner)
    (h : s.skipWhiteSpace = some r) :
    r.2.mStr = s.mStr ∧ r.2.mEnd = s.mEnd ∧ (s.mPos ≤ s.mEnd → r.2.mPos ≤ r.2.mEnd) := by
  unfold StringScanner.skipWhiteSpace at h
  by_cases hpe : s.mPos ≤ s.mEnd
  · have := skipWhiteSpaceLoop_same _ _ _ _ hpe h
    exact ⟨this.1, this.2.1, fun _ => this.2.2⟩
  · rw [skipWhiteSpaceLoop] at h
    have hdone : s.done = true := by
      simp only [StringScanner.done, decide_eq_true_eq]
      omega
    simp only [hdone, Bool.not_true, Bool.false_and, Bool.false_eq_true, if_false,
      Option.some.injEq] at h
    rw [← h]
    exact ⟨rfl, rfl, fun hh => absurd hh hpe⟩

theorem skipStringChecked_eq (s : StringScanner) (str : Text) (h : s.mPos ≤ s.mStr.length) :
    s.skipStringChecked str = .ok (s.skipString str) := by
  unfold skipStringChecked StringScanner.skipString
  rw [if_pos h]
  split
  · rfl
  · split <;> rfl

theorem skipString_same (s : StringScanner) (str : Text) :
    (s.skipString str).2.mStr = s.mStr ∧ (s.skipString str).2.mEnd = s.mEnd := by
  unfold StringScanner.skipString
  split
  · exact ⟨rfl, rfl⟩
  · split <;> exact ⟨rfl, rfl⟩

theorem paramLoopChecked_eq (text : Text) : ∀ (fuel i : Nat) (fc : Bool) (bp ep : Nat),
    paramLoopChecked text fuel i fc bp ep = Checked.ofOption (paramLoop text fuel i fc bp ep) := by
  intro fuel
  induction fuel with
  | zero => intro i fc bp ep; rfl
  | succ fuel ih =>
    intro i fc bp ep
    rw [paramLoopChecked, paramLoop]
    by_cases hi : i < text.length
    · simp only [hi, if_true, readAt_lt _ _ hi, bind_ok]
      split
      · exact ih _ _ _ _
      · split
        · exact ih _ _ _ _
        · split
          · split
            · rfl
            · exact ih _ _ _ _
          · exact ih _ _ _ _
    · simp only [hi, if_false, Checked.ofOption]

theorem ParseParamChecked_nil : ParseParamChecked [] = .outOfBounds 0 0 := rfl

theorem ParseParamChecked_eq (text : Text) (h : text ≠ []) :
    ParseParamChecked text = Checked.ofOption (ParseParam text) := by
  have hl : 0 < text.length := List.length_pos.mpr h
  unfold ParseParamChecked ParseParam
  simp only [readAt_lt _ _ hl, bind_ok, paramLoopChecked_eq]
  by_cases hb : charAt text 0 = '!'
  · simp only [hb, if_true]
    cases paramLoop text (text.length + 1) 1 false 0 0 with
    | none => rfl
    | some r =>
      obtain ⟨bp, ep, bv⟩ := r
      simp only [ofOption_some, bind_ok]
      by_cases hv : bv > 0
      · simp only [hv, if_true, ofOption_some]
      · simp only [hv, if_false, ofOption_some]
  · simp only [hb, if_false]
    rfl

theorem lineEndLoopChecked_eq : ∀ (fuel : Nat) (s : StringScanner) (ch : Char),
    s.mEnd ≤ s.mStr.length →
    lineEndLoopChecked fuel s ch = Checked.ofOption (lineEndLoop fuel s ch) := by
  intro fuel
  induction fuel with
  | zero => intro s ch _; rfl
  | succ fuel ih =>
    intro s ch h
    rw [lineEndLoopChecked, lineEndLoop]
    split
    · simp only [nextChecked_eq s h, bind_ok]
      split
      · rfl
      · exact ih _ _ h
    · rfl

theorem lineEndLoop_same : ∀ (fuel : Nat) (s : StringScanner) (ch : Char)
    (r : StringScanner × Char), lineEndLoop fuel s ch = some r →
    r.1.mStr = s.mStr ∧ r.1.mEnd = s.mEnd := by
  intro fuel
  induction fuel with
  | zero => intro s ch r h; simp [lineEndLoop] at h
  | succ fuel ih =>
    intro s ch r h
    rw [lineEndLoop] at h
    split at h
    · split at h
      · cases h
        exact ⟨rfl, rfl⟩
      · exact ih s.next.2 s.next.1 r h
    · cases h
      exact ⟨rfl, rfl⟩

theorem skipNewlinesChecked_eq : ∀ (fuel : Nat) (s : StringScanner),
    s.mEnd ≤ s.mStr.length →
    skipNewlinesChecked fuel s = Checked.ofOption (skipNewlines fuel s) := by
  intro fuel
  induction fuel with
  | zero => intro s _; rfl
  | succ fuel ih =>
    intro s h
    have h1 := skipOne_same s '\r'
    have hinv1 : (s.skipOne '\r').2.mEnd ≤ (s.skipOne '\r').2.mStr.length := by
      rw [h1.1, h1.2]
      exact h
    have h2 := skipOne_same (s.skipOne '\r').2 '\n'
    have hinv2 : ((s.skipOne '\r').2.skipOne '\n').2.mEnd
        ≤ ((s.skipOne '\r').2.skipOne '\n').2.mStr.length := by
      rw [h2.1, h2.2]
      exact hinv1
    rw [skipNewlinesChecked, skipNewlines]
    simp only [skipOneChecked_eq s '\r' h, bind_ok]
    split
    · exact ih _ hinv1
    · simp only [skipOneChecked_eq _ '\n' hinv1, bind_ok]
      split
      · exact ih _ hinv2
      · rfl

theorem GetNextLineChecked_eq (buffer : Text) :
    GetNextLineChecked buffer = .ok (nextLine buffer) := by
  have hg := GetNextLine_eq buffer
  unfold GetNextLine at hg
  unfold GetNextLineChecked
  rw [lineEndLoopChecked_eq _ _ _ (Nat.le_refl _)]
  cases hl : lineEndLoop (buffer.length + 2) (StringScanner.create buffer 0 '\x00') '\x00' with
  | none =>
    rw [hl] at hg
    cases hg
  | some r =>
    obtain ⟨scanner, ch⟩ := r
    rw [hl] at hg
    have hs := lineEndLoop_same _ _ _ _ hl
    simp only at hg hs
    simp only [ofOption_some, bind_ok]
    by_cases hc : scanner.position = 0 ∨ ch = '\x00'
    · rw [if_pos hc] at hg ⊢
      rw [Option.some.inj hg]
    · rw [if_neg hc] at hg ⊢
      rw [skipNewlinesChecked_eq _ _ (by rw [hs.1, hs.2]; exact Nat.le_refl _)]
      cases hn : skipNewlines (buffer.length + 1) scanner with
      | none =>
        rw [hn] at hg
        cases hg
      | some scanner1 =>
        rw [hn] at hg
        simp only [ofOption_some, bind_ok]
        rw [Option.some.inj hg]

theorem versionLoopChecked_eq : ∀ (fuel : Nat) (s : StringScanner),
    s.mEnd ≤ s.mStr.length →
    versionLoopChecked fuel s = Checked.ofOption (versionLoop fuel s) := by
  intro fuel
  induction fuel with
  | zero => intro s _; rfl
  | succ fuel ih =>
    intro s h
    rw [versionLoopChecked, versionLoop]
    simp only [nextChecked_eq s h, bind_ok]
    split
    · exact ih _ h
    · rfl

theorem ProcessFirstLineChecked_eq (self : DownloadableSubscription_Parser) (line : Text) :
    ProcessFirstLineChecked self line = .ok (firstLineResult self (headerVersion line)) := by
  have hg := ProcessFirstLine_eq self line
  unfold ProcessFirstLine at hg
  unfold ProcessFirstLineChecked
  cases hf : findStr line ADBLOCK_HEADER with
  | none =>
    rw [hf] at hg
    simp only at hg ⊢
    rw [Option.some.inj hg]
  | some index =>
    rw [hf] at hg
    simp only at hg ⊢
    rw [skipWhiteSpaceChecked_eq _ (Nat.le_refl _)]
    cases h1 : (StringScanner.create (line.drop (index + ADBLOCK_HEADER.length)) 0
        '\x00').skipWhiteSpace with
    | none =>
      rw [h1] at hg
      cases hg
    | some r1 =>
      obtain ⟨skipped, scanner1⟩ := r1
      rw [h1] at hg
      have hs1 := skipWhiteSpace_same _ _ h1
      simp only at hg hs1
      have hinv1 : scanner1.mEnd ≤ scanner1.mStr.length := by
        rw [hs1.1, hs1.2.1]
        exact Nat.le_refl _
      have hpos1 : scanner1.mPos ≤ scanner1.mStr.length :=
        Nat.le_trans (hs1.2.2 (Nat.zero_le _)) hinv1
      simp only [ofOption_some, bind_ok]
      have hplus : (if skipped = true then scanner1.skipStringChecked ADBLOCK_PLUS_EXTRA_HEADER
            else Checked.ok (false, scanner1))
          = .ok (if skipped = true then scanner1.skipString ADBLOCK_PLUS_EXTRA_HEADER
              else (false, scanner1)) := by
        split
        · exact skipStringChecked_eq _ _ hpos1
        · rfl
      rw [hplus]
      simp only [bind_ok]
      generalize hpl : (if skipped = true then scanner1.skipString ADBLOCK_PLUS_EXTRA_HEADER
        else (false, scanner1)) = plus at hg ⊢
      have hinvp : plus.2.mEnd ≤ plus.2.mStr.length := by
        rw [← hpl]
        split
        · have := skipString_same scanner1 ADBLOCK_PLUS_EXTRA_HEADER
          rw [this.1, this.2]
          exact hinv1
        · exact hinv1
      have hws : (if plus.1 = true then
            plus.2.skipWhiteSpaceChecked.bind fun r2 => Checked.ok r2.2
          else Checked.ok plus.2)
          = Checked.ofOption (if plus.1 = true then (plus.2.skipWhiteSpace).map Prod.snd
              else some plus.2) := by
        split
        · rw [skipWhiteSpaceChecked_eq _ hinvp]
          cases plus.2.skipWhiteSpace <;> rfl
        · rfl
      rw [hws]
      cases h2 : (if plus.1 = true then (plus.2.skipWhiteSpace).map Prod.snd
          else some plus.2) with
      | none =>
        rw [h2] at hg
        cases hg
      | some scanner2 =>
        rw [h2] at hg
        have hinv2 : scanner2.mEnd ≤ scanner2.mStr.length := by
          split at h2
          · cases h3 : plus.2.skipWhiteSpace with
            | none => rw [h3] at h2; cases h2
            | some r3 =>
              rw [h3] at h2
              simp only [Option.map_some', Option.some.injEq] at h2
              subst h2
              have := skipWhiteSpace_same _ _ h3
              rw [this.1, this.2.1]
              exact hinvp
          · cases h2
            exact hinvp
        simp only at hg
        simp only [ofOption_some, bind_ok]
        rw [versionLoopChecked_eq _ _ hinv2]
        cases h4 : versionLoop ((line.drop (index + ADBLOCK_HEADER.length)).length + 2)
            scanner2 with
        | none =>
          rw [h4] at hg
          cases hg
        | some r4 =>
          obtain ⟨scanner3, ch⟩ := r4
          rw [h4] at hg
          simp only at hg
          simp only [ofOption_some, bind_ok]
          split
          · rename_i hch
            rw [if_pos hch] at hg
            rw [Option.some.inj hg]
          · rename_i hch
            rw [if_neg hch] at hg
            rw [Option.some.inj hg]

theorem ProcessLineChecked_eq (self : DownloadableSubscription_Parser) (line : Text) :
    ProcessLineChecked self line
      = if line = [] then .outOfBounds 0 0 else .ok (lineStep self line) := by
  unfold ProcessLineChecked
  by_cases h : line = []
  · subst h
    rfl
  · rw [if_neg h, ParseParamChecked_eq line h]
    obtain ⟨r, hr⟩ := ParseParam_total line
    unfold lineStep
    rw [hr, ofOption_some, bind_ok]
    cases r with
    | none => simp only [ne_eq, h, not_false_eq_true, if_true]
    | some p => rfl

theorem processLoopChecked_rest : ∀ (fuel : Nat) (self : DownloadableSubscription_Parser)
    (buffer : Text) (lines : List Text), buffer.length + 1 ≤ fuel →
    processLoopChecked fuel self buffer false lines
      = if [] ∈ restLines fuel buffer then .outOfBounds 0 0
        else .ok ⟨true, (restLines fuel buffer).foldl lineStep self,
          lines ++ restLines fuel buffer⟩ := by
  intro fuel
  induction fuel with
  | zero =>
    intro self buffer lines h
    omega
  | succ f ih =>
    intro self buffer lines h
    have hr : restLines (f + 1) buffer
        = (nextLine buffer).2.2 ::
          (if (nextLine buffer).1 then restLines f (nextLine buffer).2.1 else []) := rfl
    rw [processLoopChecked, GetNextLineChecked_eq, bind_ok, hr]
    simp only [Bool.false_eq_true, if_false, ProcessLineChecked_eq]
    by_cases hl : (nextLine buffer).2.2 = []
    · rw [if_pos hl, if_pos]
      · rfl
      · rw [hl]
        exact List.mem_cons_self _ _
    · rw [if_neg hl, bind_ok]
      have hmem : ∀ rest : List Text,
          ([] ∈ (nextLine buffer).2.2 :: rest) ↔ [] ∈ rest := by
        intro rest
        constructor
        · intro hm
          rcases List.mem_cons.mp hm with e | e
          · exact absurd e.symm hl
          · exact e
        · exact List.mem_cons_of_mem _
      by_cases hm : (nextLine buffer).1 = true
      · have hs := nextLine_shorter buffer hm
        simp only [hm, Bool.not_true, Bool.false_eq_true, if_false, if_true]
        have h2 : buffer.length ≤ f := by omega
        rw [ih _ _ _ (Nat.succ_le_of_lt (Nat.lt_of_lt_of_le hs h2))]
        by_cases he : [] ∈ restLines f (nextLine buffer).2.1
        · rw [if_pos he, if_pos ((hmem _).mpr he)]
        · rw [if_neg he, if_neg (fun hh => he ((hmem _).mp hh))]
          simp
      · have hm2 : (nextLine buffer).1 = false := by simpa using hm
        simp only [hm2, Bool.not_false, if_true, Bool.false_eq_true, if_false]
        rw [if_neg]
        · simp
        · intro hh
          have := (hmem []).mp hh
          simp at this

theorem ProcessChecked_invalid (self : DownloadableSubscription_Parser) (body : Text)
    (h : headerVersion (firstLine body) = none) :
    ProcessChecked self body = Checked.ofOption (Process self body) := by
  rw [Process_invalid self body h]
  unfold ProcessChecked
  rw [processLoopChecked, GetNextLineChecked_eq, bind_ok]
  have hl : (nextLine body).2.2 = firstLine body := by
    unfold nextLine
    split <;> rfl
  simp only [if_true, ProcessFirstLineChecked_eq, bind_ok, hl, h, firstLineResult,
    Bool.not_false, List.nil_append, ofOption_some]

theorem ProcessChecked_valid (self : DownloadableSubscription_Parser) (body v : Text)
    (h : headerVersion (firstLine body) = some v) :
    ProcessChecked self body
      = if [] ∈ (restLines (body.length + 2) body).tail then .outOfBounds 0 0
        else Checked.ofOption (Process self body) := by
  rw [Process_valid self body v h]
  unfold ProcessChecked
  rw [processLoopChecked, GetNextLineChecked_eq, bind_ok]
  have hl : (nextLine body).2.2 = firstLine body := by
    unfold nextLine
    split <;> rfl
  have hr : restLines (body.length + 2) body
      = (nextLine body).2.2 ::
        (if (nextLine body).1 then restLines (body.length + 1) (nextLine body).2.1 else []) :=
    rfl
  rw [hr]
  simp only [if_true, ProcessFirstLineChecked_eq, bind_ok, hl, h, firstLineResult, Bool.not_true,
    Bool.false_eq_true, if_false, List.nil_append, List.tail_cons, ofOption_some]
  by_cases hm : (nextLine body).1 = true
  · have hs := nextLine_shorter body hm
    simp only [hm, Bool.not_true, Bool.false_eq_true, if_false, if_true]
    have h2 : body.length ≤ body.length + 1 := by omega
    rw [processLoopChecked_rest _ _ _ _ (Nat.succ_le_of_lt (Nat.lt_of_lt_of_le hs h2))]
    rfl
  · have hm2 : (nextLine body).1 = false := by simpa using hm
    simp only [hm2, Bool.not_false, if_true, Bool.false_eq_true, if_false, List.foldl_nil,
      List.not_mem_nil]

theorem restLines_valid (body v : Text) (hnul : '\x00' ∉ body)
    (hv : headerVersion (firstLine body) = some v) :
    ∃ l0 ls, lines_spec body = l0 :: ls ∧
      restLines (body.length + 2) body
        = l0 :: (ls ++ (if endsWithNewline body then [[]] else [])) := by
  have hfl : firstLine body ≠ [] := by
    intro e
    rw [e, headerVersion_nil] at hv
    cases hv
  have hbne : body ≠ [] := by
    rintro rfl
    exact hfl rfl
  have hhead : ∀ c ∈ body.head?, isNewline c = false := by
    intro c hc
    cases body with
    | nil => exact absurd rfl hbne
    | cons x r =>
      simp only [List.head?_cons, Option.mem_def, Option.some.injEq] at hc
      subst hc
      by_contra hn
      have hn2 : isNewline x = true := by simpa using hn
      apply hfl
      have hle : isLineEnd x = true := by
        simp only [isNewline, Bool.or_eq_true] at hn2
        simp only [isLineEnd, Bool.or_eq_true]
        exact Or.inl hn2
      simp [firstLine, hle]
  have hlines := restLines_handled (body.length + 2) body (by omega) hnul hhead
  have hhl : handledLines body
      = lines_spec body ++ (if endsWithNewline body then [[]] else []) := by
    unfold handledLines
    rw [if_neg hbne]
  cases hb : lines_spec body with
  | nil =>
    exfalso
    have h2 : restLines (body.length + 2) body
        = (nextLine body).2.2 ::
          (if (nextLine body).1 then restLines (body.length + 1) (nextLine body).2.1
           else []) := rfl
    have h3 : (nextLine body).2.2 = firstLine body := by
      unfold nextLine
      split <;> rfl
    have h4 : (restLines (body.length + 2) body).head? = some (firstLine body) := by
      rw [h2, h3]
      rfl
    rw [hlines, hhl, hb] at h4
    split at h4
    · simp only [List.nil_append, List.head?_cons, Option.some.injEq] at h4
      exact hfl h4.symm
    · simp at h4
  | cons l0 ls =>
    refine ⟨l0, ls, rfl, ?_⟩
    rw [hlines, hhl, hb]
    rfl

end

/-! ### `skip` on every scanner, the value of `ParseExpires`, the argument of the
network-filter parser and the filters of blank lines -/

section

open StringScanner DownloadableSubscription_Parser

theorem takeWhile_beq_replicate (ch : Char) (l : Text) :
    l.takeWhile (fun c => c == ch)
      = List.replicate (l.takeWhile (fun c => c == ch)).length ch := by
  induction l with
  | nil => rfl
  | cons x r ih =>
    by_cases hx : x = ch
    · subst hx
      simp only [List.takeWhile_cons, beq_self_eq_true, if_true, List.length_cons,
        List.replicate_succ]
      rw [← ih]
    · have : (x == ch) = false := by simpa using hx
      simp [List.takeWhile_cons, this]

theorem skip_create (t : Text) (p : Nat) (tm ch : Char) (hp : p ≤ t.length) :
    (StringScanner.create t p tm).skip ch
      = some (false,
          StringScanner.create t (p + ((t.drop p).takeWhile (fun c => c == ch)).length) tm) := by
  have h1 : t = t.take p ++ List.replicate ((t.drop p).takeWhile (fun c => c == ch)).length ch
      ++ (t.drop p).dropWhile (fun c => c == ch) := by
    rw [List.append_assoc, ← takeWhile_beq_replicate, List.takeWhile_append_dropWhile,
      List.take_append_drop]
  have h2 : p = (t.take p).length := by
    rw [List.length_take]
    omega
  have h3 : ((t.drop p).dropWhile (fun c => c == ch)).head? ≠ some ch := by
    intro e
    cases hd : (t.drop p).dropWhile (fun c => c == ch) with
    | nil => rw [hd] at e; cases e
    | cons x r =>
      rw [hd] at e
      simp only [List.head?_cons, Option.some.injEq] at e
      have := List.head_dropWhile_not (fun c => c == ch) (t.drop p)
        (by rw [hd]; exact List.cons_ne_nil _ _)
      simp [hd, e] at this
  exact skip_eq t _ _ p _ tm ch h1 h2 h3

theorem expiresValue_bounds (num : Int) (R : Text) (h0 : 0 ≤ num) :
    0 ≤ expiresValue num R ∧ expiresValue num R ≤ INT64_MAX ∧
    (expiresValue num R = 0 ∨ 3600000 ≤ expiresValue num R) ∧
    (∃ k : Int, expiresValue num R = 3600000 * k) ∧
    (expiresValue num R = 0 ∨
      ((expiresValue num R = num * 3600000 ∨ expiresValue num R = num * 86400000) ∧
        num * 86400000 ≤ INT64_MAX)) := by
  have e1 : MAX_HOUR = 2562047788015 := by decide
  have e3 : MAX_DAY = 106751991167 := by decide
  have e4 : MILLIS_IN_HOUR = 3600000 := by decide
  have e5 : MILLIS_IN_DAY = 86400000 := by decide
  have e6 : INT64_MAX = 9223372036854775807 := rfl
  unfold expiresValue
  by_cases hn : num = 0
  · rw [if_pos hn]
    exact ⟨le_refl _, by rw [e6]; omega, Or.inl rfl, ⟨0, by omega⟩, Or.inl rfl⟩
  · rw [if_neg hn]
    split
    · exact ⟨le_refl _, by rw [e6]; omega, Or.inl rfl, ⟨0, by omega⟩, Or.inl rfl⟩
    · rename_i hg
      have hd : num ≤ 106751991167 := by
        by_contra hc
        apply hg
        right
        rw [e3]
        omega
      rw [e4, e5, e6]
      split
      · exact ⟨by omega, by omega, Or.inr (by omega), ⟨num, by omega⟩,
          Or.inr ⟨Or.inl rfl, by omega⟩⟩
      · exact ⟨by omega, by omega, Or.inr (by omega), ⟨24 * num, by omega⟩,
          Or.inr ⟨Or.inr rfl, by omega⟩⟩

theorem ParseExpires_value (t : Text) :
    ∃ (num : Int) (R : Text), 0 ≤ num ∧ ParseExpires t = some (expiresValue num R) := by
  by_cases h : ∀ c ∈ (t.dropWhile iswspace).head?, iswdigit c = false
  · exact ⟨0, [], le_refl _, ParseExpires_nonumber t h⟩
  · have ht : t = t.takeWhile iswspace ++ (t.dropWhile iswspace).takeWhile iswdigit
        ++ (t.dropWhile iswspace).dropWhile iswdigit := by
      rw [List.append_assoc, List.takeWhile_append_dropWhile, List.takeWhile_append_dropWhile]
    have hs := ParseExpires_shape (t.takeWhile iswspace)
      ((t.dropWhile iswspace).takeWhile iswdigit) ((t.dropWhile iswspace).dropWhile iswdigit)
      (fun c hc => List.mem_takeWhile_imp hc) ?_ (fun c hc => List.mem_takeWhile_imp hc) ?_
    · rw [← ht] at hs
      exact ⟨_, _, lexical_cast_nonneg _, hs⟩
    · intro e
      apply h
      intro c hc
      cases hd : t.dropWhile iswspace with
      | nil => rw [hd] at hc; simp at hc
      | cons x r =>
        rw [hd] at hc e
        simp only [List.head?_cons, Option.mem_def, Option.some.injEq] at hc
        subst hc
        by_contra hx
        have hx2 : iswdigit x = true := by simpa using hx
        simp [List.takeWhile, hx2] at e
    · intro c hc
      cases hd : (t.dropWhile iswspace).dropWhile iswdigit with
      | nil => rw [hd] at hc; simp at hc
      | cons x r =>
        rw [hd] at hc
        simp only [List.head?_cons, Option.mem_def, Option.some.injEq] at hc
        subst hc
        have := List.head_dropWhile_not iswdigit (t.dropWhile iswspace)
          (by rw [hd]; exact List.cons_ne_nil _ _)
        simpa [hd] using this

theorem Parse_frame (t error : Text) (data : ElemHideData) (pd : ParsedDomains) :
    ∃ r, Parse t error data pd = some r ∧
      (r.type = .UNKNOWN → r.text = t ∧ r.error = error ∧ r.parsedDomains = pd) ∧
      (r.type = .UNKNOWN ∨ r.type = .INVALID ∨ IsKind r.type) := by
  rcases Parse_cases t error data pd with ⟨d, hd⟩ | ⟨P, n1, kind, n2, n3, S, hP, hk, hS, hS2, rfl⟩
  · exact ⟨_, hd, fun _ => ⟨rfl, rfl, rfl⟩, Or.inl rfl⟩
  · refine ⟨_, Parse_shape P S n1 n2 n3 kind error data pd hP hk hS hS2, ?_, ?_⟩
    · intro hu
      exfalso
      unfold shapeResult at hu
      have hkn : kind ≠ .UNKNOWN := by
        rcases hk with h | h | h <;> rw [h] <;> decide
      split at hu
      · simp only at hu
        split at hu
        · cases hu
        · exact hkn hu
      · simp only at hu
        split at hu
        · cases hu
        · exact hkn hu
    · right
      unfold shapeResult
      split
      · simp only
        split
        · exact Or.inl rfl
        · exact Or.inr hk
      · simp only
        split
        · exact Or.inl rfl
        · exact Or.inr hk

theorem FromText_regexp_argument (rp : Text → RegExpParseResult) (w : World) (t : Text) :
    Filter.FromText rp w t
      = Filter.FromText (fun _ => rp (Filter.NormalizeWhitespace_spec t)) w t := by
  unfold Filter.FromText
  rw [Filter.NormalizeWhitespace_eq_spec]
  simp only
  by_cases he : Filter.NormalizeWhitespace_spec t = []
  · rw [if_pos he, if_pos he]
  · rw [if_neg he, if_neg he]
    by_cases hc : CommentFilter.Parse (Filter.NormalizeWhitespace_spec t) = .UNKNOWN
    · rw [if_pos hc]
      obtain ⟨r, hr, hu, _⟩ := Parse_frame (Filter.NormalizeWhitespace_spec t) []
        ⟨0, 0⟩ ParsedDomains.create
      rw [hr]
      simp only
      by_cases hx : r.type = .UNKNOWN
      · simp only [hx, if_true, (hu hx).1]
      · simp only [hx, if_false]
    · rw [if_neg hc]

theorem FromText_blank (rp : Text → RegExpParseResult) (w : World) (t : Text)
    (h : ∀ c ∈ t, c ≤ ' ') : Filter.FromText rp w t = some ⟨none, [], w⟩ := by
  unfold Filter.FromText
  rw [Filter.NormalizeWhitespace_eq_spec, Filter.spec_of_blank t h]
  rfl

theorem FiltersFrom_blank (rp : Text → RegExpParseResult) (w w1 : World) (texts : List Text)
    (fs : List (Option Nat)) (h : FiltersFrom rp w texts fs w1) :
    List.Forall₂ (fun text f => (∀ c ∈ text, c ≤ ' ') → f = none) texts fs := by
  induction h with
  | nil => exact List.Forall₂.nil
  | cons w t r ts fs w2 hr _ ih =>
    refine List.Forall₂.cons ?_ ih
    intro hb
    rw [FromText_blank rp w t hb] at hr
    cases hr
    rfl

end

/-! ### Texts that start with a space -/

/-- The normalised text never starts with a space. -/
theorem spec_head_not_space (t : Text) :
    (Filter.NormalizeWhitespace_spec t).head? ≠ some ' ' := by
  unfold Filter.NormalizeWhitespace_spec
  generalize t.filter (fun c => !decide (c < ' ')) = F
  have hp := List.rdropWhile_prefix (fun c => c == ' ') (F.dropWhile (fun c => c == ' '))
  have hd := List.head?_dropWhile_not (fun c => c == ' ') F
  cases hR : (F.dropWhile (fun c => c == ' ')).rdropWhile (fun c => c == ' ') with
  | nil => simp
  | cons x R =>
    rw [hR] at hp
    obtain ⟨Z, hZ⟩ := hp
    rw [← hZ] at hd
    simp only [List.cons_append, List.head?_cons] at hd
    intro hx
    simp only [List.head?_cons, Option.some.injEq] at hx
    subst hx
    simp at hd

/-- The text that `Filter::NormalizeWhitespace` hands to `Parse` never starts
with a space. -/
theorem NormalizeWhitespace_head (t t1 : Text) (h : Filter.NormalizeWhitespace t = some t1) :
    t1.head? ≠ some ' ' := by
  rw [Filter.NormalizeWhitespace_eq_spec] at h
  cases h
  exact spec_head_not_space t

theorem normPrefix_of_no_space (P : Text) (h : P.contains ' ' = false) : normPrefix P = P := by
  cases P with
  | nil => rfl
  | cons c P =>
    have h2 := contains_space_false (c :: P) h
    have hP : P.filter (fun x => decide (x ≠ ' ')) = P := by
      rw [List.filter_eq_self]
      intro x hx
      exact (List.filter_eq_self.mp h2) x (List.mem_cons_of_mem _ hx)
    rw [normPrefix, hP]

/-- The type and the error of `shapeResult`, in terms of the prefix with the
spaces behind its first character removed. -/
theorem shapeResult_type (P S error : Text) (n1 n2 n3 : Nat) (kind : FilterType) :
    (shapeResult P n1 kind n2 n3 S error).type
      = (if (parsedOf (toLower (normPrefix P))).hasEmpty then .INVALID else kind) ∧
    (shapeResult P n1 kind n2 n3 S error).error
      = (if (parsedOf (toLower (normPrefix P))).hasEmpty then "filter_invalid_domain".toList
          else error) := by
  by_cases hsp : P.contains ' ' = true
  · simp only [shapeResult, hsp, if_true, and_self]
  · have hsp2 : P.contains ' ' = false := by simpa using hsp
    simp only [shapeResult, hsp2, Bool.false_eq_true, if_false, normPrefix_of_no_space P hsp2,
      and_self]

/-- The postcondition of `Parse` on an element-hide text, whatever its first
character is. -/
theorem shapeResult_post_norm (P S error : Text) (n1 n2 n3 : Nat) (kind : FilterType)
    (hS : S ≠ []) :
    (shapeResult P n1 kind n2 n3 S error).data.mDomainsEnd
      < (shapeResult P n1 kind n2 n3 S error).data.mSelectorStart ∧
    (shapeResult P n1 kind n2 n3 S error).data.mSelectorStart
      < (shapeResult P n1 kind n2 n3 S error).text.length ∧
    charAt (shapeResult P n1 kind n2 n3 S error).text
      (shapeResult P n1 kind n2 n3 S error).data.mDomainsEnd = '#' ∧
    (shapeResult P n1 kind n2 n3 S error).text.take
      (shapeResult P n1 kind n2 n3 S error).data.mDomainsEnd
      = toLower (normPrefix P) ∧
    (shapeResult P n1 kind n2 n3 S error).text.drop
      (shapeResult P n1 kind n2 n3 S error).data.mSelectorStart = S := by
  have hSl : 0 < S.length := List.length_pos.mpr hS
  by_cases hsp : P.contains ' ' = true
  · simp only [shapeResult, hsp, if_true]
    generalize normPrefix P = X
    refine ⟨by omega, ?_, ?_, ?_, ?_⟩
    · simp only [List.length_append, List.length_cons, length_toLower]
      omega
    · rw [← length_toLower X]
      exact charAt_append_cons _ _ _
    · rw [← length_toLower X, List.take_left]
    · have e : toLower X ++ '#' :: (sepMiddle kind 0 ++ '#' :: S)
          = (toLower X ++ '#' :: (sepMiddle kind 0 ++ ['#'])) ++ S := by simp
      have e2 : X.length + 1 + (sepMiddle kind 0).length + 1
          = (toLower X ++ '#' :: (sepMiddle kind 0 ++ ['#'])).length := by
        simp only [List.length_append, List.length_cons, length_toLower, List.length_nil]
        omega
      rw [e, e2, List.drop_left]
  · have hsp2 : P.contains ' ' = false := by simpa using hsp
    simp only [shapeResult, hsp2, Bool.false_eq_true, if_false]
    rw [normPrefix_of_no_space P hsp2]
    refine ⟨by omega, ?_, ?_, ?_, ?_⟩
    · simp only [List.length_append, List.length_cons, length_toLower, List.length_replicate]
      omega
    · rw [← length_toLower P]
      exact charAt_append_cons _ _ _
    · rw [← length_toLower P, List.take_left]
    · have e : toLower P ++ '#' :: (List.replicate n1 ' ' ++ (sepMiddle kind n2 ++
            '#' :: (List.replicate n3 ' ' ++ S)))
          = (toLower P ++ '#' :: (List.replicate n1 ' ' ++ (sepMiddle kind n2 ++
            '#' :: List.replicate n3 ' '))) ++ S := by simp
      have e2 : P.length + 1 + n1 + (sepMiddle kind n2).length + 1 + n3
          = (toLower P ++ '#' :: (List.replicate n1 ' ' ++ (sepMiddle kind n2 ++
            '#' :: List.replicate n3 ' '))).length := by
        simp only [List.length_append, List.length_cons, length_toLower, List.length_replicate]
        omega
      rw [e, e2, List.drop_left]

/-- The prefix of a text of the element-hide shape starts as the text does. -/
theorem shapeText_head (P S : Text) (n1 n2 n3 : Nat) (kind : FilterType)
    (h : (shapeText P n1 kind n2 n3 S).head? ≠ some ' ') : P.head? ≠ some ' ' := by
  cases P with
  | nil => simp
  | cons c P => simpa [shapeText] using h

/-! ## The claims -/

/-- C1: `ActiveFilter::IsActiveOnDomain` returns, for every filter state, host
`h` and sitekey `k`, the value of the reference definition: false if a sitekey
set exists and `k` is not in it; otherwise true if there is no domain map;
otherwise `domains[""]` if `h` is empty; otherwise, with `h'` the lower-cased
`h` minus one trailing `.` when `ignoreTrailingDot`, the map value of the
longest key that is `h'` itself or a suffix of `h'` immediately preceded by
`.`, and `domains[""]` when no such key exists. -/
theorem C1_IsActiveOnDomain_refines_spec (f : ActiveFilter) (h k : Text) :
    f.IsActiveOnDomain h k = some (IsActiveOnDomain_spec f h k) :=
  IsActiveOnDomain_eq_spec f h k

/-- C2: `ActiveFilter::IsActiveOnlyOnDomain(d)` returns true if and only if the
filter has a domain map, `d` is non-empty, the default entry is false, and
every include-mode entry of the map equals the normalised `d` or ends with `.`
followed by the normalised `d`; for the filter `foo.com,bar.foo.com##.x` the
query `foo.com` gives true and the query `bar.foo.com` gives false. -/
theorem C2_IsActiveOnlyOnDomain_iff :
    (∀ (f : ActiveFilter) (d : Text), f.IsActiveOnlyOnDomain d = true ↔
      ∃ m, f.mDomains = some m ∧ d ≠ [] ∧ DomainMap.get m [] = false ∧
        ∀ e ∈ m, e.2 = true →
          (e.1 = normalizeHost_spec f.mIgnoreTrailingDot d ∨
            ('.' :: normalizeHost_spec f.mIgnoreTrailingDot d) <:+ e.1)) ∧
    (∀ rp : Text → RegExpParseResult, ∃ r p base data,
      Filter.FromText rp ⟨[], []⟩ "foo.com,bar.foo.com##.x".toList = some r ∧
      r.result = some p ∧ r.world.deref p = some (.elemhide base data) ∧
      base.IsActiveOnlyOnDomain "foo.com".toList = true ∧
      base.IsActiveOnlyOnDomain "bar.foo.com".toList = false) :=
  ⟨IsActiveOnlyOnDomain_iff, fun _ => ⟨_, _, _, _, rfl, rfl, rfl, rfl, rfl⟩⟩

/-- C3: for every text `D ++ SEP ++ S` where `D` contains none of the characters
`# / * | @ " !` or space and has no empty comma-separated segment, `SEP` is one
of `##`, `#@#`, `#?#`, and `S` is non-empty and does not begin with a space,
`ElemHideBase::Parse` returns `ELEMHIDE` for `##`, `ELEMHIDEEXCEPTION` for `#@#`
and `ELEMHIDEEMULATION` for `#?#`, with `domainsEnd = |D|` and
`selectorStart = |D| + |SEP|`. -/
theorem C3_parse_classifies_by_separator (D S error : Text) (data : ElemHideData)
    (pd : ParsedDomains) (hD : ∀ c ∈ D, c ≠ ' ' ∧ c ≠ '#' ∧ c ∉ disqualifying)
    (hseg : ¬ hasEmptySegment D) (hS : S ≠ []) (hS2 : S.head? ≠ some ' ') :
    (∃ r, Parse (D ++ "##".toList ++ S) error data pd = some r ∧ r.type = .ELEMHIDE ∧
      r.data.mDomainsEnd = D.length ∧ r.data.mSelectorStart = D.length + 2) ∧
    (∃ r, Parse (D ++ "#@#".toList ++ S) error data pd = some r ∧
      r.type = .ELEMHIDEEXCEPTION ∧
      r.data.mDomainsEnd = D.length ∧ r.data.mSelectorStart = D.length + 3) ∧
    (∃ r, Parse (D ++ "#?#".toList ++ S) error data pd = some r ∧
      r.type = .ELEMHIDEEMULATION ∧
      r.data.mDomainsEnd = D.length ∧ r.data.mSelectorStart = D.length + 3) := by
  refine ⟨?_, ?_, ?_⟩
  · obtain ⟨r, h1, h2, h3⟩ := Parse_nospace D S .ELEMHIDE error data pd hD hseg (Or.inl rfl)
      hS hS2
    refine ⟨r, ?_, h2, by rw [h3], by rw [h3]; rfl⟩
    rw [← h1]
    simp [shapeText, sepMiddle]
  · obtain ⟨r, h1, h2, h3⟩ := Parse_nospace D S .ELEMHIDEEXCEPTION error data pd hD hseg
      (Or.inr (Or.inl rfl)) hS hS2
    refine ⟨r, ?_, h2, by rw [h3], by rw [h3]; rfl⟩
    rw [← h1]
    simp [shapeText, sepMiddle]
  · obtain ⟨r, h1, h2, h3⟩ := Parse_nospace D S .ELEMHIDEEMULATION error data pd hD hseg
      (Or.inr (Or.inr rfl)) hS hS2
    refine ⟨r, ?_, h2, by rw [h3], by rw [h3]; rfl⟩
    rw [← h1]
    simp [shapeText, sepMiddle]

/-- Witness for C3, at the domain prefix `foo.com,~bar.com` and the selector
`.ad`. -/
theorem C3_witness :
    (∀ c ∈ "foo.com,~bar.com".toList, c ≠ ' ' ∧ c ≠ '#' ∧ c ∉ disqualifying) ∧
    ¬ hasEmptySegment "foo.com,~bar.com".toList ∧
    ((∃ r, Parse ("foo.com,~bar.com".toList ++ "##".toList ++ ".ad".toList) [] ⟨0, 0⟩
        ParsedDomains.create = some r ∧ r.type = .ELEMHIDE ∧
      r.data.mDomainsEnd = "foo.com,~bar.com".toList.length ∧
      r.data.mSelectorStart = "foo.com,~bar.com".toList.length + 2) ∧
    (∃ r, Parse ("foo.com,~bar.com".toList ++ "#@#".toList ++ ".ad".toList) [] ⟨0, 0⟩
        ParsedDomains.create = some r ∧ r.type = .ELEMHIDEEXCEPTION ∧
      r.data.mDomainsEnd = "foo.com,~bar.com".toList.length ∧
      r.data.mSelectorStart = "foo.com,~bar.com".toList.length + 3) ∧
    (∃ r, Parse ("foo.com,~bar.com".toList ++ "#?#".toList ++ ".ad".toList) [] ⟨0, 0⟩
        ParsedDomains.create = some r ∧ r.type = .ELEMHIDEEMULATION ∧
      r.data.mDomainsEnd = "foo.com,~bar.com".toList.length ∧
      r.data.mSelectorStart = "foo.com,~bar.com".toList.length + 3)) :=
  ⟨by decide, by decide,
    C3_parse_classifies_by_separator "foo.com,~bar.com".toList ".ad".toList [] ⟨0, 0⟩
      ParsedDomains.create (by decide) (by decide) (by decide) (by decide)⟩

/-- C4 (as stated, refuted): the first `#` of the text `#@ #x` is followed by
`@` and then by a space, not by a second `#`, and yet `ElemHideBase::Parse`
does not return `UNKNOWN` for it: it returns `ELEMHIDEEXCEPTION`. -/
theorem C4_counterexample :
    '#' ∈ "#@ #x".toList ∧
    (secondHashPlace_spec "#@ #x".toList).head? ≠ some '#' ∧
    (Parse "#@ #x".toList [] ⟨0, 0⟩ ParsedDomains.create).map ParseResult.type
      = some .ELEMHIDEEXCEPTION := by
  decide

/-- C4 (amended): `ElemHideBase::Parse` returns `UNKNOWN` for every text in
which one of the characters `/ * | @ " !` occurs before the first `#`, for
every text without `#`, for every text whose first `#` is not followed, after
optional spaces and then either `@` with optional spaces after it, or `?`, or
nothing, by a second `#`, and for every text in which nothing but spaces
follows the separator. -/
theorem C4_parse_unknown (t error : Text) (data : ElemHideData) (pd : ParsedDomains)
    (h : (∃ c ∈ inputPrefix t, c ∈ disqualifying) ∨ '#' ∉ t ∨
      (secondHashPlace t).head? ≠ some '#' ∨ inputSelector t = []) :
    ∃ r, Parse t error data pd = some r ∧ r.type = .UNKNOWN := by
  rcases Parse_cases t error data pd with ⟨d, hd⟩ | ⟨P, n1, kind, n2, n3, S, hP, hk, hS, hS2, rfl⟩
  · exact ⟨_, hd, rfl⟩
  · exfalso
    have hP' : ∀ x ∈ P, x ≠ '#' := fun x hx => (hP x hx).1
    rcases h with ⟨c, hc1, hc2⟩ | h | h | h
    · rw [inputPrefix_shapeText P S n1 n2 n3 kind hP'] at hc1
      exact (hP c hc1).2 hc2
    · exact h (shapeText_mem_hash P S n1 n2 n3 kind)
    · rw [secondHashPlace_shape P S n1 n2 n3 kind hP' hk] at h
      exact h rfl
    · rw [inputSelector_shape P S n1 n2 n3 kind hP' hk hS2] at h
      exact hS h

/-- Witness for C4, at the network filter text `||ads.example.com^`. -/
theorem C4_witness :
    ((∃ c ∈ inputPrefix "||ads.example.com^".toList, c ∈ disqualifying) ∨
      '#' ∉ "||ads.example.com^".toList ∨
      (secondHashPlace "||ads.example.com^".toList).head? ≠ some '#' ∨
      inputSelector "||ads.example.com^".toList = []) ∧
    ∃ r, Parse "||ads.example.com^".toList [] ⟨0, 0⟩ ParsedDomains.create = some r ∧
      r.type = .UNKNOWN :=
  ⟨by decide, C4_parse_unknown "||ads.example.com^".toList [] ⟨0, 0⟩ ParsedDomains.create
    (by decide)⟩

/-- C5, counterexample: the text ` ,a##x` has the element-hide shape with the
domain prefix ` ,a`, and this prefix with its spaces removed, `,a`, starts with
a comma and so has an empty segment; `ElemHideBase::Parse` returns `ELEMHIDE`
for it, not `INVALID`, because its `NormalizeWhitespace` loop starts at
position 1 and keeps the leading space, which makes the first segment ` `. -/
theorem C5_counterexample :
    " ,a##x".toList = shapeText " ,a".toList 0 .ELEMHIDE 0 0 "x".toList ∧
    (∀ c ∈ " ,a".toList, c ≠ '#' ∧ c ∉ disqualifying) ∧
    " ,a".toList.filter (fun c => decide (c ≠ ' ')) = ",a".toList ∧
    hasEmptySegment (" ,a".toList.filter (fun c => decide (c ≠ ' '))) ∧
    Parse " ,a##x".toList [] ⟨0, 0⟩ ParsedDomains.create
      = some ⟨.ELEMHIDE, " ,a##x".toList, [], ⟨3, 5⟩,
          ⟨true, false, [⟨0, 1, false⟩, ⟨2, 1, false⟩]⟩⟩ := by
  decide

/-- C5: for every text that has the element-hide shape (a domain prefix `P`,
then the separator `##`, `#@#` or `#?#`, with or without the spaces that
`Parse` skips inside it, then a non-empty selector), `ElemHideBase::Parse`
returns `INVALID` with the error `filter_invalid_domain` when the domain
prefix, after removing the spaces behind its first character, contains an
empty comma-separated segment, and it returns the type of the separator, never
`INVALID`, when that prefix has no empty segment. When the prefix does not
start with a space, the spaces behind its first character are all its spaces;
this is so for every text that `Filter::NormalizeWhitespace` produces, that
is, for every text that `FromText` passes to `Parse`. -/
theorem C5_invalid_iff_empty_segment (P S error : Text) (n1 n2 n3 : Nat) (kind : FilterType)
    (data : ElemHideData) (pd : ParsedDomains)
    (hP : ∀ c ∈ P, c ≠ '#' ∧ c ∉ disqualifying)
    (hk : IsKind kind) (hS : S ≠ []) (hS2 : S.head? ≠ some ' ') :
    ∃ r, Parse (shapeText P n1 kind n2 n3 S) error data pd = some r ∧
      (hasEmptySegment (normPrefix P) →
        r.type = .INVALID ∧ r.error = "filter_invalid_domain".toList) ∧
      (¬ hasEmptySegment (normPrefix P) → r.type = kind ∧ r.type ≠ .INVALID) ∧
      (P.head? ≠ some ' ' → normPrefix P = P.filter (fun c => decide (c ≠ ' '))) ∧
      (∀ t0 : Text, Filter.NormalizeWhitespace t0 = some (shapeText P n1 kind n2 n3 S) →
        P.head? ≠ some ' ') := by
  obtain ⟨hty, herr⟩ := shapeResult_type P S error n1 n2 n3 kind
  refine ⟨_, Parse_shape P S n1 n2 n3 kind error data pd hP hk hS hS2, ?_, ?_,
    normPrefix_eq_filter P, ?_⟩
  · intro he
    have h1 : (parsedOf (toLower (normPrefix P))).hasEmpty = true := by
      rw [parsedOf_hasEmpty, hasEmptySegment_toLower]
      exact he
    rw [hty, herr, h1]
    exact ⟨rfl, rfl⟩
  · intro he
    have hkI : kind ≠ .INVALID := by
      rcases hk with rfl | rfl | rfl <;> decide
    have h1 : (parsedOf (toLower (normPrefix P))).hasEmpty = false := by
      have : ¬ (parsedOf (toLower (normPrefix P))).hasEmpty = true := by
        rw [parsedOf_hasEmpty, hasEmptySegment_toLower]
        exact he
      simpa using this
    rw [hty, h1]
    exact ⟨rfl, hkI⟩
  · intro t0 h0
    exact shapeText_head P S n1 n2 n3 kind (NormalizeWhitespace_head t0 _ h0)

/-- Witness for C5, at the text `foo.com, ,bar.com##.ad`, whose prefix has an
empty segment once the spaces are removed. -/
theorem C5_witness :
    (∀ c ∈ "foo.com, ,bar.com".toList, c ≠ '#' ∧ c ∉ disqualifying) ∧
    ∃ r, Parse (shapeText "foo.com, ,bar.com".toList 0 .ELEMHIDE 0 0 ".ad".toList) []
        ⟨0, 0⟩ ParsedDomains.create = some r ∧
      (hasEmptySegment (normPrefix "foo.com, ,bar.com".toList) →
        r.type = .INVALID ∧ r.error = "filter_invalid_domain".toList) ∧
      (¬ hasEmptySegment (normPrefix "foo.com, ,bar.com".toList) →
        r.type = .ELEMHIDE ∧ r.type ≠ .INVALID) ∧
      ("foo.com, ,bar.com".toList.head? ≠ some ' ' →
        normPrefix "foo.com, ,bar.com".toList
          = "foo.com, ,bar.com".toList.filter (fun c => decide (c ≠ ' '))) ∧
      (∀ t0 : Text, Filter.NormalizeWhitespace t0
          = some (shapeText "foo.com, ,bar.com".toList 0 .ELEMHIDE 0 0 ".ad".toList) →
        "foo.com, ,bar.com".toList.head? ≠ some ' ') :=
  ⟨by decide,
    C5_invalid_iff_empty_segment "foo.com, ,bar.com".toList ".ad".toList [] 0 0 0 .ELEMHIDE
      ⟨0, 0⟩ ParsedDomains.create (by decide) (Or.inl rfl) (by decide) (by decide)⟩

/-- C6: for every text that `ElemHideBase::Parse` classifies as
`ELEMHIDEEMULATION` and that is not yet in the registry, `Filter::FromText`
returns an `Invalid` filter with the reason `filter_elemhideemulation_nodomain`
when the domain prefix contains no include-mode domain, and an
`ElemHideEmulation` filter when it contains at least one. -/
theorem C6_emulation_needs_include_domain (rp : Text → RegExpParseResult) (w : World)
    (t t1 : Text) (r : ParseResult)
    (hn : Filter.NormalizeWhitespace t = some t1)
    (hr : Parse t1 [] ⟨0, 0⟩ ParsedDomains.create = some r)
    (hty : r.type = .ELEMHIDEEMULATION)
    (hreg : StringMap.find w.knownFilters r.text = none) :
    ∃ res p, Filter.FromText rp w t = some res ∧ res.result = some p ∧
      (¬ hasIncludeDomain (r.data.GetDomainsSource r.text) →
        res.world.deref p
          = some (.invalid r.text "filter_elemhideemulation_nodomain".toList)) ∧
      (hasIncludeDomain (r.data.GetDomainsSource r.text) →
        ∃ base, res.world.deref p = some (.elemhide base r.data) ∧
          base.mType = .ELEMHIDEEMULATION ∧ base.mText = r.text) := by
  rcases Parse_cases t1 [] ⟨0, 0⟩ ParsedDomains.create with
    ⟨d, hd⟩ | ⟨P, n1, kind, n2, n3, S, hP, hk, hS, hS2, rfl⟩
  · rw [hd] at hr
    cases hr
    cases hty
  · have hne : shapeText P n1 kind n2 n3 S ≠ [] := by simp [shapeText]
    have hcomment := shapeText_head_not_bang P S n1 n2 n3 kind hP
    have hr' := hr
    rw [Parse_shape P S n1 n2 n3 kind [] ⟨0, 0⟩ ParsedDomains.create hP hk hS hS2] at hr'
    have hpd : r.parsedDomains = parsedOf (r.data.GetDomainsSource r.text) := by
      cases hr'
      exact shapeResult_parsedDomains P S [] n1 n2 n3 kind
    obtain ⟨p, hp1, hp2, hp3⟩ := construct_emulation w r.text r.error r.data
      ⟨[], 0, false, none, none⟩ r.parsedDomains
    have hFT : Filter.FromText rp w t
        = some (Filter.construct w .ELEMHIDEEMULATION r.text r.error r.data
            ⟨[], 0, false, none, none⟩ r.parsedDomains) := by
      simp only [Filter.FromText, hn, hne, if_false, hcomment, if_true, hr, hty]
      simp [hreg]
    refine ⟨_, p, hFT, hp1, ?_, ?_⟩
    · intro hno
      rw [hp3, hpd, if_pos ((generic_iff r.text r.data).mpr hno)]
    · intro hyes
      have hg : ¬ (ElemHideBase.create .ELEMHIDEEMULATION r.text r.data
          (parsedOf (r.data.GetDomainsSource r.text))).IsGeneric = true :=
        fun h => (generic_iff r.text r.data).mp h hyes
      rw [hp3, hpd, if_neg hg]
      exact ⟨_, rfl, mType_create _ _ _ _, mText_create _ _ _ _⟩

/-- Witness for C6, at the two texts of scenario S3 and the empty registry: the
text `#?#div:-abp-has(.ad)` gives an `Invalid` filter with the reason
`filter_elemhideemulation_nodomain`, the text `foo.com#?#div:-abp-has(.ad)` an
`ElemHideEmulation` filter. -/
theorem C6_witness :
    (Filter.NormalizeWhitespace "#?#div:-abp-has(.ad)".toList
        = some "#?#div:-abp-has(.ad)".toList ∧
      ¬ hasIncludeDomain [] ∧
      ∃ res p, Filter.FromText (fun t => ⟨.INVALID, t, [], ⟨[], 0, false, none, none⟩⟩)
          ⟨[], []⟩ "#?#div:-abp-has(.ad)".toList = some res ∧ res.result = some p ∧
        res.world.deref p = some (.invalid "#?#div:-abp-has(.ad)".toList
          "filter_elemhideemulation_nodomain".toList)) ∧
    (Filter.NormalizeWhitespace "foo.com#?#div:-abp-has(.ad)".toList
        = some "foo.com#?#div:-abp-has(.ad)".toList ∧
      hasIncludeDomain "foo.com".toList ∧
      ∃ res p, Filter.FromText (fun t => ⟨.INVALID, t, [], ⟨[], 0, false, none, none⟩⟩)
          ⟨[], []⟩ "foo.com#?#div:-abp-has(.ad)".toList = some res ∧ res.result = some p ∧
        ∃ base, res.world.deref p = some (.elemhide base ⟨7, 10⟩) ∧
          base.mType = .ELEMHIDEEMULATION ∧
          base.mText = "foo.com#?#div:-abp-has(.ad)".toList) := by
  refine ⟨⟨by decide, by decide, ?_⟩, ⟨by decide, by decide, ?_⟩⟩
  · obtain ⟨res, p, h1, h2, h3, _⟩ := C6_emulation_needs_include_domain
      (fun t => ⟨.INVALID, t, [], ⟨[], 0, false, none, none⟩⟩) ⟨[], []⟩
      "#?#div:-abp-has(.ad)".toList "#?#div:-abp-has(.ad)".toList
      ⟨.ELEMHIDEEMULATION, "#?#div:-abp-has(.ad)".toList, [], ⟨0, 3⟩, ⟨false, false, []⟩⟩
      (by decide) (by decide) rfl rfl
    exact ⟨res, p, h1, h2, h3 (by decide)⟩
  · obtain ⟨res, p, h1, h2, _, h4⟩ := C6_emulation_needs_include_domain
      (fun t => ⟨.INVALID, t, [], ⟨[], 0, false, none, none⟩⟩) ⟨[], []⟩
      "foo.com#?#div:-abp-has(.ad)".toList "foo.com#?#div:-abp-has(.ad)".toList
      ⟨.ELEMHIDEEMULATION, "foo.com#?#div:-abp-has(.ad)".toList, [], ⟨7, 10⟩,
        ⟨true, false, [⟨0, 7, false⟩]⟩⟩
      (by decide) (by decide) rfl rfl
    exact ⟨res, p, h1, h2, h4 (by decide)⟩

/-- C7 (the code at the failing input): for the text `a# #x`, which has no
space in its domain prefix, `ElemHideBase::Parse` returns `ELEMHIDE` with
`selectorStart = 4` and leaves the text as it was, with a space at index 2,
before `selectorStart`; `StringScanner::skip` has reported `false` for the
spaces it skipped. -/
theorem C7_space_left_before_selector :
    Parse "a# #x".toList [] ⟨0, 0⟩ ParsedDomains.create
      = some ⟨.ELEMHIDE, "a# #x".toList, [], ⟨1, 4⟩, ⟨true, false, [⟨0, 1, false⟩]⟩⟩ ∧
    charAt "a# #x".toList 2 = ' ' ∧
    (scannerAt "a# #x".toList 2 '\x00').skip ' '
      = some (false, scannerAt "a# #x".toList 3 '\x00') := by
  decide

/-- C8, counterexample: `ElemHideBase::Parse` classifies the text ` a b##x` as
`ELEMHIDE` and turns it into ` ab##x` with `domainsEnd = 3`: its
`NormalizeWhitespace` loop starts at position 1, so the leading space stays, and
`text[0..domainsEnd)` is ` ab`, which is not the domain prefix ` a b` with its
spaces removed, `ab`. -/
theorem C8_counterexample :
    Parse " a b##x".toList [] ⟨0, 0⟩ ParsedDomains.create
      = some ⟨.ELEMHIDE, " ab##x".toList, [], ⟨3, 5⟩, ⟨true, false, [⟨0, 3, false⟩]⟩⟩ ∧
    inputPrefix " a b##x".toList = " a b".toList ∧
    " ab##x".toList.take 3 = " ab".toList ∧
    toLower ((inputPrefix " a b##x".toList).filter (fun c => decide (c ≠ ' '))) = "ab".toList ∧
    " ab##x".toList.take 3
      ≠ toLower ((inputPrefix " a b##x".toList).filter (fun c => decide (c ≠ ' '))) := by
  decide

/-- C8: for every text that `ElemHideBase::Parse` classifies as an element-hide
variant, the resulting text, `domainsEnd` and `selectorStart` satisfy
`domainsEnd < selectorStart`, `selectorStart ≤ |text|`, `text[domainsEnd] = '#'`,
`text[0..domainsEnd)` is the lower-cased domain prefix of the input with the
spaces behind its first character removed, and `text[selectorStart..]` is the
selector of the input (its suffix after the separator and the spaces that
follow it), which is non-empty and does not start with a space. When the input
does not start with a space, `text[0..domainsEnd)` is the lower-cased domain
prefix with all its spaces removed; this is so for every text that
`Filter::NormalizeWhitespace` produces, that is, for every text that `FromText`
passes to `Parse`. -/
theorem C8_parse_postcondition (t error : Text) (data : ElemHideData) (pd : ParsedDomains)
    (r : ParseResult) (hr : Parse t error data pd = some r)
    (hty : r.type ≠ .UNKNOWN) :
    r.data.mDomainsEnd < r.data.mSelectorStart ∧
    r.data.mSelectorStart ≤ r.text.length ∧
    charAt r.text r.data.mDomainsEnd = '#' ∧
    r.text.take r.data.mDomainsEnd = toLower (normPrefix (inputPrefix t)) ∧
    (t.head? ≠ some ' ' →
      r.text.take r.data.mDomainsEnd
        = toLower ((inputPrefix t).filter (fun c => decide (c ≠ ' ')))) ∧
    (∀ t0 : Text, Filter.NormalizeWhitespace t0 = some t → t.head? ≠ some ' ') ∧
    r.text.drop r.data.mSelectorStart = inputSelector t ∧
    inputSelector t <:+ t ∧
    inputSelector t ≠ [] ∧
    (inputSelector t).head? ≠ some ' ' := by
  rcases Parse_cases t error data pd with ⟨d, hd⟩ | ⟨P, n1, kind, n2, n3, S, hP, hk, hS, hS2, rfl⟩
  · rw [hd] at hr
    cases hr
    exact absurd rfl hty
  · have hP' : ∀ x ∈ P, x ≠ '#' := fun x hx => (hP x hx).1
    rw [Parse_shape P S n1 n2 n3 kind error data pd hP hk hS hS2] at hr
    cases hr
    obtain ⟨h1, h2, h3, h4, h5⟩ := shapeResult_post_norm P S error n1 n2 n3 kind hS
    rw [inputPrefix_shapeText P S n1 n2 n3 kind hP',
      inputSelector_shape P S n1 n2 n3 kind hP' hk hS2]
    refine ⟨h1, le_of_lt h2, h3, h4, ?_, ?_, h5, ?_, hS, hS2⟩
    · intro ht
      rw [h4, normPrefix_eq_filter P (shapeText_head P S n1 n2 n3 kind ht)]
    · intro t0 h0
      exact NormalizeWhitespace_head t0 _ h0
    · have := inputSelector_suffix (shapeText P n1 kind n2 n3 S)
      rwa [inputSelector_shape P S n1 n2 n3 kind hP' hk hS2] at this

/-- Witness for C8, at the text `Foo.com , ~b.c# @ #  .X y`, which `Parse`
turns into `foo.com,~b.c#@#.X y`. -/
theorem C8_witness :
    (⟨.ELEMHIDEEXCEPTION, "foo.com,~b.c#@#.X y".toList, [], ⟨12, 15⟩,
        ⟨true, false, [⟨0, 7, false⟩, ⟨9, 3, true⟩]⟩⟩ : ParseResult).type ≠ .UNKNOWN ∧
    (12 < 15 ∧ 15 ≤ "foo.com,~b.c#@#.X y".toList.length ∧
      charAt "foo.com,~b.c#@#.X y".toList 12 = '#' ∧
      "foo.com,~b.c#@#.X y".toList.take 12
        = toLower (normPrefix (inputPrefix "Foo.com , ~b.c# @ #  .X y".toList)) ∧
      ("Foo.com , ~b.c# @ #  .X y".toList.head? ≠ some ' ' →
        "foo.com,~b.c#@#.X y".toList.take 12
          = toLower ((inputPrefix "Foo.com , ~b.c# @ #  .X y".toList).filter
              (fun c => decide (c ≠ ' ')))) ∧
      (∀ t0 : Text, Filter.NormalizeWhitespace t0 = some "Foo.com , ~b.c# @ #  .X y".toList →
        "Foo.com , ~b.c# @ #  .X y".toList.head? ≠ some ' ') ∧
      "foo.com,~b.c#@#.X y".toList.drop 15 = inputSelector "Foo.com , ~b.c# @ #  .X y".toList ∧
      inputSelector "Foo.com , ~b.c# @ #  .X y".toList <:+ "Foo.com , ~b.c# @ #  .X y".toList ∧
      inputSelector "Foo.com , ~b.c# @ #  .X y".toList ≠ [] ∧
      (inputSelector "Foo.com , ~b.c# @ #  .X y".toList).head? ≠ some ' ') :=
  ⟨by decide,
    C8_parse_postcondition "Foo.com , ~b.c# @ #  .X y".toList [] ⟨0, 0⟩ ParsedDomains.create
      ⟨.ELEMHIDEEXCEPTION, "foo.com,~b.c#@#.X y".toList, [], ⟨12, 15⟩,
        ⟨true, false, [⟨0, 7, false⟩, ⟨9, 3, true⟩]⟩⟩ (by decide) (by decide)⟩

/-- C9: the `NormalizeWhitespace` of Filter.cpp returns, for every text, the
text with every character below U+0020 deleted and then the leading and
trailing spaces stripped; `  ||ads.example.com^  ` normalises to
`||ads.example.com^`, and a text made only of characters up to U+0020
normalises to the empty text, for which `FromText` returns null. -/
theorem C9_NormalizeWhitespace_refines_spec :
    (∀ t : Text, Filter.NormalizeWhitespace t = some (Filter.NormalizeWhitespace_spec t)) ∧
    Filter.NormalizeWhitespace "  ||ads.example.com^  ".toList
      = some "||ads.example.com^".toList ∧
    (∀ t : Text, (∀ c ∈ t, c ≤ ' ') →
      Filter.NormalizeWhitespace t = some [] ∧
      ∀ (rp : Text → RegExpParseResult) (w : World),
        Filter.FromText rp w t = some ⟨none, [], w⟩) := by
  refine ⟨Filter.NormalizeWhitespace_eq_spec, by decide, ?_⟩
  intro t ht
  have h1 : Filter.NormalizeWhitespace t = some [] := by
    rw [Filter.NormalizeWhitespace_eq_spec, Filter.spec_of_blank t ht]
  refine ⟨h1, ?_⟩
  intro rp w
  simp only [Filter.FromText, h1, if_true]

/-- C10: whitespace normalisation is idempotent, `Normalize(Normalize(t)) =
Normalize(t)` for every text `t`, and `FromText` applied to `Normalize(t)`
returns what `FromText` applied to `t` returns, in every state of the
registry. -/
theorem C10_NormalizeWhitespace_idempotent (rp : Text → RegExpParseResult) (w : World)
    (t : Text) :
    ∃ n, Filter.NormalizeWhitespace t = some n ∧ Filter.NormalizeWhitespace n = some n ∧
      Filter.FromText rp w n = Filter.FromText rp w t := by
  refine ⟨Filter.NormalizeWhitespace_spec t, Filter.NormalizeWhitespace_eq_spec t, ?_, ?_⟩
  · rw [Filter.NormalizeWhitespace_eq_spec, Filter.spec_idempotent]
  · have h1 := Filter.NormalizeWhitespace_eq_spec t
    have h2 : Filter.NormalizeWhitespace (Filter.NormalizeWhitespace_spec t)
        = some (Filter.NormalizeWhitespace_spec t) := by
      rw [Filter.NormalizeWhitespace_eq_spec, Filter.spec_idempotent]
    simp only [Filter.FromText, h1, h2]

section

open ElemHideBase ActiveFilter

end

section

open ActiveFilter

/-- C12: for every domain-list text, separator and flag, `ParseDomainsInternal`
returns a result `p` whose `hasIncludes` is true exactly when an emitted
segment has `reverse = false`; the map that `FillDomains` builds from `p` holds
the default (empty) key with the value `!p.hasIncludes`, and it maps the text
of every emitted segment, which is never empty, to `!reverse` of the last
emitted segment with that text. -/
theorem C12_FillDomains_entries (text : Text) (separator : Char) (ignoreTrailingDot : Bool) :
    ∃ p, ParseDomainsInternal text separator ignoreTrailingDot = some p ∧
      (p.hasIncludes = true ↔ ∃ d ∈ p.domains, d.reverse = false) ∧
      StringMap.find (FillDomains text p) DEFAULT_DOMAIN = some (!p.hasIncludes) ∧
      ∀ d ∈ p.domains, substr text d.pos d.len ≠ DEFAULT_DOMAIN ∧
        ∃ last, p.domains.reverse.find?
            (fun x => decide (substr text x.pos x.len = substr text d.pos d.len)) = some last ∧
          StringMap.find (FillDomains text p) (substr text d.pos d.len)
            = some (!last.reverse) := by
  obtain ⟨p, hp, hinc, hseg⟩ := ParseDomainsInternal_inv text separator ignoreTrailingDot
  refine ⟨p, hp, hinc, ?_, ?_⟩
  · rw [find_FillDomains]
    exact if_pos rfl
  · intro d hd
    have hne : substr text d.pos d.len ≠ [] := by
      intro e
      have := substr_length text d.pos d.len (hseg d hd).2
      rw [e] at this
      have := (hseg d hd).1
      simp at *
      omega
    refine ⟨hne, ?_⟩
    obtain ⟨d2, h1, _, _⟩ := find?_reverse_of_mem text p.domains d hd
    refine ⟨d2, h1, ?_⟩
    rw [find_FillDomains, if_neg hne, h1]
    rfl

/-- C13 (counterexample): the domain list `a,~a` gives the map with `a ↦ false`
and the default entry `false`: the default entry is false although no
non-default entry is true. The element-hide filter `a,~a##x` has that map. -/
theorem C13_counterexample :
    ParseDomains "a,~a".toList ',' false = some [("a".toList, false), ([], false)] ∧
    StringMap.find [("a".toList, false), (([] : Text), false)] DEFAULT_DOMAIN = some false ∧
    (¬ ∃ k, k ≠ DEFAULT_DOMAIN ∧
      StringMap.find [("a".toList, false), (([] : Text), false)] k = some true) ∧
    ∀ rp : Text → RegExpParseResult,
      (Filter.FromText rp ⟨[], []⟩ "a,~a##x".toList).map
          (fun r => r.result.map (fun p => (r.world.deref p).map (fun f =>
            match f with
            | .elemhide base _ => base.mDomains
            | _ => none)))
        = some (some (some (some [("a".toList, false), ([], false)]))) := by
  refine ⟨by decide, by decide, ?_, fun rp => rfl⟩
  rintro ⟨k, hk, hf⟩
  have h1 : StringMap.find [("a".toList, false), (([] : Text), false)] k = some true := hf
  simp only [StringMap.find] at h1
  split at h1
  · cases h1
  · split at h1
    · cases h1
    · cases h1

/-- C13 (amended): for every domain-list text, separator and flag, the map built
by `ParseDomains` has a default entry, which is false exactly when
`ParseDomainsInternal` emitted an include-mode segment (`hasIncludes`); a true
non-default entry in the map makes the default entry false; and the default
entry being false gives a true non-default entry when no text is emitted both
as an include-mode and as an exclude-mode segment. -/
theorem C13_default_entry (text : Text) (separator : Char) (ignoreTrailingDot : Bool) :
    ∃ p m, ParseDomainsInternal text separator ignoreTrailingDot = some p ∧
      ParseDomains text separator ignoreTrailingDot = some m ∧
      (StringMap.find m DEFAULT_DOMAIN = some false ∨
        StringMap.find m DEFAULT_DOMAIN = some true) ∧
      (StringMap.find m DEFAULT_DOMAIN = some false ↔ ∃ d ∈ p.domains, d.reverse = false) ∧
      ((∃ k, k ≠ DEFAULT_DOMAIN ∧ StringMap.find m k = some true) →
        StringMap.find m DEFAULT_DOMAIN = some false) ∧
      ((∀ d ∈ p.domains, ∀ d2 ∈ p.domains,
          substr text d.pos d.len = substr text d2.pos d2.len → d.reverse = d2.reverse) →
        StringMap.find m DEFAULT_DOMAIN = some false →
        ∃ k, k ≠ DEFAULT_DOMAIN ∧ StringMap.find m k = some true) := by
  obtain ⟨p, hp, hinc, hseg⟩ := ParseDomainsInternal_inv text separator ignoreTrailingDot
  have hdef : StringMap.find (FillDomains text p) DEFAULT_DOMAIN = some (!p.hasIncludes) := by
    rw [find_FillDomains]
    exact if_pos rfl
  have hiff : StringMap.find (FillDomains text p) DEFAULT_DOMAIN = some false
      ↔ ∃ d ∈ p.domains, d.reverse = false := by
    rw [hdef, ← hinc]
    cases p.hasIncludes <;> simp
  refine ⟨p, FillDomains text p, hp, by simp only [ParseDomains, hp], ?_, hiff, ?_, ?_⟩
  · rw [hdef]
    cases p.hasIncludes <;> simp
  · rintro ⟨k, hk, hf⟩
    have hk2 : ¬ k = [] := hk
    rw [find_FillDomains, if_neg hk2] at hf
    cases hfd : p.domains.reverse.find? (fun d => decide (substr text d.pos d.len = k)) with
    | none =>
      rw [hfd] at hf
      cases hf
    | some d =>
      rw [hfd] at hf
      have hmem := List.mem_of_find?_eq_some hfd
      refine hiff.mpr ⟨d, by simpa using hmem, ?_⟩
      simp only [Option.map_some', Option.some.injEq, Bool.not_eq_true'] at hf
      exact hf
  · intro hnodup hfalse
    obtain ⟨d, hd, hr⟩ := hiff.mp hfalse
    have hne : substr text d.pos d.len ≠ [] := by
      intro e
      have := substr_length text d.pos d.len (hseg d hd).2
      rw [e] at this
      have := (hseg d hd).1
      simp at *
      omega
    obtain ⟨d2, h1, h2, h3⟩ := find?_reverse_of_mem text p.domains d hd
    refine ⟨substr text d.pos d.len, hne, ?_⟩
    rw [find_FillDomains, if_neg hne, h1]
    have := hnodup d hd d2 h2 h3.symm
    rw [hr] at this
    simp only [Option.map_some', ← this, Bool.not_false]

/-- C14 (counterexample): on the domain list `~~a`, which is one piece,
`ParseDomainsInternal` emits the segment `(2, 1, reverse)`, which denotes `a`:
both `~` are dropped. With exactly one character dropped the remainder is
`~a`. -/
theorem C14_counterexample :
    segments ',' "~~a".toList = ["~~a".toList] ∧
    ParseDomainsInternal "~~a".toList ',' false = some ⟨false, false, [⟨2, 1, true⟩]⟩ ∧
    substr "~~a".toList 2 1 = "a".toList ∧
    pieceRemainder_spec false "~~a".toList = "~a".toList := by
  decide

/-- C14 (amended): for every non-empty domain list and separator `,` or `|`,
`ParseDomainsInternal` returns the reference result: the pieces between the
separators are taken in order, the last one like the others; for each piece
`reverse` is true iff its first character is `~`; all the `~` characters the
piece starts with are dropped, and one trailing `.` when `ignoreTrailingDot` is
set; a non-empty remainder is emitted as `(start, len, reverse)` denoting
exactly that remainder, an empty one emits nothing and sets `hasEmpty`. For a
piece that does not start with two `~` the remainder is the one of the
specification, with one character dropped. -/
theorem C14_ParseDomainsInternal_refines_spec (text : Text) (separator : Char)
    (ignoreTrailingDot : Bool) (ht : text ≠ [])
    (hsep : separator = ',' ∨ separator = '|') :
    ParseDomainsInternal text separator ignoreTrailingDot
      = some (ParseDomainsInternal_spec text separator ignoreTrailingDot) ∧
    (∀ op ∈ piecesAt 0 (segments separator text),
      op.2 <+: text.drop op.1 ∧
      (pieceRemainder ignoreTrailingDot op.2 = [] →
        pieceDomain ignoreTrailingDot op.1 op.2 = none) ∧
      (pieceRemainder ignoreTrailingDot op.2 ≠ [] →
        ∃ d, pieceDomain ignoreTrailingDot op.1 op.2 = some d ∧
          substr text d.pos d.len = pieceRemainder ignoreTrailingDot op.2 ∧
          (d.reverse = true ↔ op.2.head? = some '~')) ∧
      (¬ ['~', '~'] <+: op.2 →
        pieceRemainder ignoreTrailingDot op.2 = pieceRemainder_spec ignoreTrailingDot op.2)) := by
  have hs : separator ≠ '~' := by
    rcases hsep with rfl | rfl <;> decide
  refine ⟨ParseDomainsInternal_eq_spec text separator ignoreTrailingDot ht hs, ?_⟩
  intro op hop
  have hpre := piecesAt_prefix separator text [] op hop
  refine ⟨hpre, ?_, ?_, pieceRemainder_eq_spec ignoreTrailingDot op.2⟩
  · intro he
    simp only [pieceDomain, he, if_true]
  · intro hne
    have hd : pieceDomain ignoreTrailingDot op.1 op.2
        = some ⟨op.1 + leadingTildes op.2, (pieceRemainder ignoreTrailingDot op.2).length,
            decide (op.2.head? = some '~')⟩ := by
      simp only [pieceDomain, hne, if_false]
    obtain ⟨h1, h2⟩ := pieceDomain_denotes ignoreTrailingDot text op.1 op.2 _ hpre hd
    exact ⟨_, hd, h1, h2⟩

/-- Witness for C14, at the list `example.com|~sub.example.com.` with the
separator `|` and `ignoreTrailingDot` set. -/
theorem C14_witness :
    ParseDomainsInternal "example.com|~sub.example.com.".toList '|' true
      = some ⟨true, false, [⟨0, 11, false⟩, ⟨13, 15, true⟩]⟩ ∧
    substr "example.com|~sub.example.com.".toList 13 15 = "sub.example.com".toList := by
  have h := (C14_ParseDomainsInternal_refines_spec "example.com|~sub.example.com.".toList '|'
    true (by decide) (Or.inr rfl)).1
  refine ⟨?_, by decide⟩
  rw [h]
  decide

end

section

open ElemHideBase

/-- C15: for every element-hide filter, `GetSelector()` returns the selector
`text[selectorStart..]` with every opening brace replaced by the four
characters `\7B ` and every closing brace by `\7D `, the other characters
copied in order; the result contains no brace, has the length of the selector
plus three times the number of its braces, and is the selector itself when
that has no brace. The filter made from `example.com##div{color:red}` has the
selector `div\7B color:red\7D `. -/
theorem C15_GetSelector_escapes (base : ActiveFilter) (mData : ElemHideData) :
    GetSelector base mData = some (escapeCurlies_spec (base.mText.drop mData.mSelectorStart)) ∧
    (∀ c ∈ escapeCurlies_spec (base.mText.drop mData.mSelectorStart),
      c ≠ '\x7b' ∧ c ≠ '\x7d') ∧
    (escapeCurlies_spec (base.mText.drop mData.mSelectorStart)).length
      = (base.mText.drop mData.mSelectorStart).length
        + 3 * countCurlies (base.mText.drop mData.mSelectorStart) ∧
    (countCurlies (base.mText.drop mData.mSelectorStart) = 0 →
      GetSelector base mData = some (base.mText.drop mData.mSelectorStart)) ∧
    (∀ rp : Text → RegExpParseResult,
      (Filter.FromText rp ⟨[], []⟩ "example.com##div\x7bcolor:red\x7d".toList).bind
          (fun r => r.result.bind (fun p => (r.world.deref p).bind FilterObject.GetSelector))
        = some "div\\7B color:red\\7D ".toList) := by
  refine ⟨GetSelector_eq base mData, escapeCurlies_spec_nobrace _,
    length_escapeCurlies_spec _, ?_, ?_⟩
  · intro h
    rw [GetSelector_eq, escapeCurlies_spec_id _ h]
  · intro rp
    have hn : Filter.NormalizeWhitespace "example.com##div\x7bcolor:red\x7d".toList
        = some "example.com##div\x7bcolor:red\x7d".toList := by decide
    have hp : Parse "example.com##div\x7bcolor:red\x7d".toList [] ⟨0, 0⟩ ParsedDomains.create
        = some ⟨.ELEMHIDE, "example.com##div\x7bcolor:red\x7d".toList, [], ⟨11, 13⟩,
            ⟨true, false, [⟨0, 11, false⟩]⟩⟩ := by decide
    have hc : CommentFilter.Parse "example.com##div\x7bcolor:red\x7d".toList = .UNKNOWN := by
      decide
    have hft : Filter.FromText rp ⟨[], []⟩ "example.com##div\x7bcolor:red\x7d".toList
        = some (madeOne ⟨[], []⟩ "example.com##div\x7bcolor:red\x7d".toList
            (.elemhide (ElemHideBase.create .ELEMHIDE
              "example.com##div\x7bcolor:red\x7d".toList ⟨11, 13⟩
              ⟨true, false, [⟨0, 11, false⟩]⟩) ⟨11, 13⟩)) := by
      simp only [Filter.FromText, hn, hc, if_true, hp]
      rfl
    rw [hft]
    simp only [madeOne, Option.bind_some, World.deref, List.length_nil, List.nil_append,
      List.getD_cons_zero, Option.map_some', FilterObject.GetSelector, GetSelector_eq,
      mText_create]
    decide

end

section

open StringScanner DownloadableSubscription_Parser

/-- C16: for every text `W D R` with `W` a run of whitespace, `D` a maximal
non-empty run of decimal digits with value `n` and `R` the rest, `ParseExpires`
returns `n * 3600000` when the first non-whitespace character of `R` is `h`
and `n * 86400000` otherwise, for `1 ≤ n ≤ 106751991167`, and 0 for `n = 0`;
it returns 0 for every text whose first non-whitespace character is not a
decimal digit, the empty text included. The texts `2 h`, `5 days` and
`not-a-number` give 7200000, 432000000 and 0. -/
theorem C16_ParseExpires_unit_rule :
    (∀ W D R : Text, (∀ c ∈ W, iswspace c = true) → D ≠ [] → (∀ c ∈ D, iswdigit c = true) →
      (∀ c ∈ R.head?, iswdigit c = false) →
      (1 ≤ digitsValue D → digitsValue D ≤ 106751991167 →
        ParseExpires (W ++ D ++ R)
          = some (if (R.dropWhile iswspace).head? = some 'h' then (digitsValue D : Int) * 3600000
                  else (digitsValue D : Int) * 86400000)) ∧
      (digitsValue D = 0 → ParseExpires (W ++ D ++ R) = some 0)) ∧
    (∀ t : Text, (∀ c ∈ (t.dropWhile iswspace).head?, iswdigit c = false) →
      ParseExpires t = some 0) ∧
    ParseExpires [] = some 0 ∧
    ParseExpires "2 h".toList = some 7200000 ∧
    ParseExpires "5 days".toList = some 432000000 ∧
    ParseExpires "not-a-number".toList = some 0 := by
  refine ⟨?_, ParseExpires_nonumber, by decide, by decide, by decide, by decide⟩
  intro W D R hW hDne hD hR
  have hshape := ParseExpires_shape W D R hW hDne hD hR
  constructor
  · intro h1 h2
    have hn : (digitsValue D : Int) ≤ INT64_MAX := by
      unfold INT64_MAX
      omega
    rw [hshape, lexical_cast_digits D hDne hD hn]
    unfold expiresValue
    have e1 : MAX_HOUR = 2562047788015 := by decide
    have e2 : MILLIS_IN_HOUR = 3600000 := by decide
    have e3 : MAX_DAY = 106751991167 := by decide
    have e4 : MILLIS_IN_DAY = 86400000 := by decide
    have h0 : ¬ (digitsValue D : Int) = 0 := by omega
    have hg : ¬ (((R.dropWhile iswspace).head? = some 'h' ∧ (digitsValue D : Int) > MAX_HOUR) ∨
        (digitsValue D : Int) > MAX_DAY) := by
      rw [e1, e3]
      rintro (⟨_, h⟩ | h) <;> omega
    rw [if_neg h0, if_neg hg, e2, e4]
    by_cases hh : (R.dropWhile iswspace).head? = some 'h'
    · rw [if_pos hh, if_pos hh]
    · rw [if_neg hh, if_neg hh]
  · intro h0
    have hn : (digitsValue D : Int) ≤ INT64_MAX := by
      unfold INT64_MAX
      omega
    rw [hshape, lexical_cast_digits D hDne hD hn]
    unfold expiresValue
    rw [if_pos (by omega)]

/-- C17 (the code at the failing input): the text `106751991168 h` gives 0,
although `106751991168 * 3600000 = 384307168204800000` fits a signed 64-bit
integer: the guard `(isHour && num > MAX_HOUR) || num > MAX_DAY` compares an
hour count with `MAX_DAY = 106751991167` as well. For every count `n` with
`1 ≤ n < 2^63` the result is 0 when `n > MAX_DAY` and `n` times the unit
otherwise, for hours as for days. -/
theorem C17_guard_rejects_valid_hours :
    ParseExpires "106751991168 h".toList = some 0 ∧
    (106751991168 : Int) * MILLIS_IN_HOUR = 384307168204800000 ∧
    (384307168204800000 : Int) ≤ INT64_MAX ∧
    MAX_DAY = 106751991167 ∧ MAX_HOUR = 2562047788015 ∧
    (∀ W D R : Text, (∀ c ∈ W, iswspace c = true) → D ≠ [] → (∀ c ∈ D, iswdigit c = true) →
      (∀ c ∈ R.head?, iswdigit c = false) → 1 ≤ digitsValue D →
      (digitsValue D : Int) ≤ INT64_MAX →
      ParseExpires (W ++ D ++ R)
        = some (if (digitsValue D : Int) > MAX_DAY then 0
                else (digitsValue D : Int) *
                  (if (R.dropWhile iswspace).head? = some 'h' then MILLIS_IN_HOUR
                   else MILLIS_IN_DAY))) := by
  refine ⟨by decide, by decide, by decide, by decide, by decide, ?_⟩
  intro W D R hW hDne hD hR h1 hn
  rw [ParseExpires_shape W D R hW hDne hD hR, lexical_cast_digits D hDne hD hn]
  unfold expiresValue
  have e1 : MAX_HOUR = 2562047788015 := by decide
  have e3 : MAX_DAY = 106751991167 := by decide
  have h0 : ¬ (digitsValue D : Int) = 0 := by omega
  rw [if_neg h0]
  by_cases hd : (digitsValue D : Int) > MAX_DAY
  · rw [if_pos (Or.inr hd), if_pos hd]
  · rw [if_neg hd, if_neg]
    rintro (⟨_, h⟩ | h)
    · rw [e1] at h
      rw [e3] at hd
      omega
    · exact hd h

/-- C18 (counterexample): `Process` accepts the body `[Adblock 2.0]`, with the
required version `2.0`, although its whitespace is not followed by `Plus`; and
it rejects the body `[Adblock[Adblock]`, although the line contains the
occurrence `[Adblock]`, because only the first occurrence of `[Adblock` is
looked at. -/
theorem C18_counterexample :
    (Process create "[Adblock 2.0]".toList).map (fun r => (r.result, r.parser.mRequiredVersion))
      = some (true, "2.0".toList) ∧
    headerValid_spec "[Adblock 2.0]".toList = false ∧
    (Process create "[Adblock[Adblock]".toList).map (fun r => (r.result, r.parser.mError))
      = some (false, "synchronize_invalid_data".toList) ∧
    headerValid_spec "[Adblock[Adblock]".toList = true := by
  decide

/-- C18 (amended): for every body, `Process` returns true if and only if, in the
first line (the body up to the first `\r`, `\n` or NUL), the first occurrence of
`[Adblock` is followed by optional whitespace, then, only behind whitespace,
optionally `Plus` and optional whitespace, then a possibly empty run of `.` and
digits, then `]`. On success the required version is that run (`2.0` for
`[Adblock Plus 2.0]`, empty for `[Adblock]`); otherwise `Process` returns false,
sets the error to `synchronize_invalid_data` and records no filter-text line
and no param. -/
theorem C18_header_validation (self : DownloadableSubscription_Parser) (body : Text) :
    (∃ r, Process self body = some r ∧
      (r.result = true ↔ ∃ v, headerVersion (firstLine body) = some v) ∧
      (∀ v, headerVersion (firstLine body) = some v →
        r.result = true ∧ r.parser.mRequiredVersion = v ∧ r.parser.mError = self.mError) ∧
      (headerVersion (firstLine body) = none →
        r.result = false ∧
        r.parser = ⟨self.mFiltersText, self.mParams, self.mRequiredVersion,
          "synchronize_invalid_data".toList⟩)) ∧
    headerVersion "[Adblock Plus 2.0]".toList = some "2.0".toList ∧
    headerVersion "[Adblock]".toList = some [] ∧
    headerVersion "[Adblock Plus 2.0".toList = none := by
  refine ⟨?_, by decide, by decide, by decide⟩
  cases h : headerVersion (firstLine body) with
  | none =>
    refine ⟨_, Process_invalid self body h, ?_, ?_, ?_⟩
    · simp
    · intro v hv
      cases hv
    · intro _
      exact ⟨rfl, rfl⟩
  | some v =>
    refine ⟨_, Process_valid self body v h, ?_, ?_, ?_⟩
    · simp
    · intro v2 hv
      cases hv
      have := foldl_lineStep_version (restLines (body.length + 2) body).tail
        ⟨self.mFiltersText, self.mParams, v, self.mError⟩
      exact ⟨rfl, this.1, this.2⟩
    · intro hn
      cases hn

/-- C20: for every line `!` `W1` `K` `:` `W2` `V`, with `W1` and `W2` runs of spaces
and tabs, `K` non-empty and free of space, tab and `:`, and `V` non-empty and
starting with a character other than space, tab and `:`, `ParseParam` returns
the pair of the lower-cased `K` and `V`, which runs to the end of the line; for
every line that does not start with `!` it returns no param. The line
`! Homepage: https://example.org` gives `homepage` and `https://example.org`. -/
theorem C20_ParseParam_key_value :
    (∀ W1 K W2 V : Text, (∀ c ∈ W1, c = ' ' ∨ c = '\t') → K ≠ [] →
      (∀ c ∈ K, c ≠ ' ' ∧ c ≠ '\t' ∧ c ≠ ':') → (∀ c ∈ W2, c = ' ' ∨ c = '\t') →
      (∃ v V2, V = v :: V2 ∧ v ≠ ' ' ∧ v ≠ '\t' ∧ v ≠ ':') →
      ParseParam ('!' :: (W1 ++ K ++ ':' :: (W2 ++ V))) = some (some (toLower K, V))) ∧
    (∀ line : Text, line.head? ≠ some '!' → ParseParam line = some none) ∧
    ParseParam "! Homepage: https://example.org".toList
      = some (some ("homepage".toList, "https://example.org".toList)) := by
  exact ⟨ParseParam_shape, ParseParam_not_bang, by decide⟩

end

section

open StringScanner DownloadableSubscription_Parser

/-- C21: for every parser state, registry and subscription, `Finalize` returns,
and if the params contain the key `title` then afterwards the title of the
subscription is the value of that param and `fixedTitle` is true; if they do
not, `fixedTitle` is false and the title is the one from before. After `Process`
on the body of scenario S6, with the line `! Title: Test List`, `Finalize`
leaves the title `Test List` and `fixedTitle` true. -/
theorem C21_Finalize_title (rp : Text → RegExpParseResult) (cast : Text → Int)
    (self : DownloadableSubscription_Parser) (w : World)
    (subscription : DownloadableSubscription) :
    (∃ r, Finalize rp cast self w subscription = some r ∧
      (∀ v, StringMap.find self.mParams "title".toList = some v →
        r.subscription.GetTitle = v ∧ r.subscription.GetFixedTitle = true) ∧
      (StringMap.find self.mParams "title".toList = none →
        r.subscription.GetFixedTitle = false ∧
          r.subscription.GetTitle = subscription.GetTitle)) ∧
    (∃ p r, Process DownloadableSubscription_Parser.create
          ("[Adblock Plus 2.0]\n! Title: Test List\n! Expires: 1 day\n"
            ++ "! Homepage: https://example.org\n||ads.example.com^\n##.banner").toList
          = some p ∧ p.result = true ∧
        Finalize rp cast p.parser w subscription = some r ∧
        r.subscription.GetTitle = "Test List".toList ∧
        r.subscription.GetFixedTitle = true) := by
  constructor
  · obtain ⟨r, w1, h1, _, _, _, h5, h6⟩ := Finalize_eq rp cast self w subscription
    exact ⟨r, h1, h5, h6⟩
  · have hp : Process DownloadableSubscription_Parser.create
          ("[Adblock Plus 2.0]\n! Title: Test List\n! Expires: 1 day\n"
            ++ "! Homepage: https://example.org\n||ads.example.com^\n##.banner").toList
        = some ⟨true, ⟨["||ads.example.com^".toList, "##.banner".toList],
            [("title".toList, "Test List".toList), ("expires".toList, "1 day".toList),
              ("homepage".toList, "https://example.org".toList)], "2.0".toList, []⟩,
            ["[Adblock Plus 2.0]".toList, "! Title: Test List".toList,
              "! Expires: 1 day".toList, "! Homepage: https://example.org".toList,
              "||ads.example.com^".toList, "##.banner".toList]⟩ := by
      decide
    obtain ⟨r, w1, h1, _, _, _, h5, _⟩ := Finalize_eq rp cast
      ⟨["||ads.example.com^".toList, "##.banner".toList],
        [("title".toList, "Test List".toList), ("expires".toList, "1 day".toList),
          ("homepage".toList, "https://example.org".toList)], "2.0".toList, []⟩ w subscription
    exact ⟨_, r, hp, rfl, h1, h5 "Test List".toList (by decide)⟩

/-- C22: for every parser state, registry and subscription, `Finalize` returns;
the number it returns is `ParseExpires(v)` when the params contain the key
`expires` with the value `v` (so 0 when `v` does not start, behind whitespace,
with a digit), and 0 when they contain no such key; the filter list of the
subscription afterwards has one entry per recorded filter-text line, in the
order of the lines, each the result of `Filter::FromText` on its line. After
`Process` on the body of scenario S6, `Finalize` returns 86,400,000 and leaves 2
filters. -/
theorem C22_Finalize_result (rp : Text → RegExpParseResult) (cast : Text → Int)
    (self : DownloadableSubscription_Parser) (w : World)
    (subscription : DownloadableSubscription) :
    (∃ r, Finalize rp cast self w subscription = some r ∧
      (∀ v, StringMap.find self.mParams "expires".toList = some v →
        ParseExpires v = some r.result) ∧
      (∀ v, StringMap.find self.mParams "expires".toList = some v →
        (∀ c ∈ (v.dropWhile iswspace).head?, iswdigit c = false) → r.result = 0) ∧
      (StringMap.find self.mParams "expires".toList = none → r.result = 0) ∧
      r.subscription.GetFilters.length = self.mFiltersText.length ∧
      ∃ w1, FiltersFrom rp w self.mFiltersText r.subscription.GetFilters w1) ∧
    (∃ p r, Process DownloadableSubscription_Parser.create
          ("[Adblock Plus 2.0]\n! Title: Test List\n! Expires: 1 day\n"
            ++ "! Homepage: https://example.org\n||ads.example.com^\n##.banner").toList
          = some p ∧ p.result = true ∧
        Finalize rp cast p.parser w subscription = some r ∧
        r.result = 86400000 ∧ r.subscription.GetFilters.length = 2) := by
  constructor
  · obtain ⟨r, w1, h1, h2, h3, h4, _, _⟩ := Finalize_eq rp cast self w subscription
    refine ⟨r, h1, h2, ?_, h3, FiltersFrom_length rp w w1 _ _ h4, w1, h4⟩
    intro v hv hd
    have h5 := h2 v hv
    rw [ParseExpires_nonumber v hd] at h5
    exact (Option.some.inj h5).symm
  · have hp : Process DownloadableSubscription_Parser.create
          ("[Adblock Plus 2.0]\n! Title: Test List\n! Expires: 1 day\n"
            ++ "! Homepage: https://example.org\n||ads.example.com^\n##.banner").toList
        = some ⟨true, ⟨["||ads.example.com^".toList, "##.banner".toList],
            [("title".toList, "Test List".toList), ("expires".toList, "1 day".toList),
              ("homepage".toList, "https://example.org".toList)], "2.0".toList, []⟩,
            ["[Adblock Plus 2.0]".toList, "! Title: Test List".toList,
              "! Expires: 1 day".toList, "! Homepage: https://example.org".toList,
              "||ads.example.com^".toList, "##.banner".toList]⟩ := by
      decide
    obtain ⟨r, w1, h1, h2, _, h4, _, _⟩ := Finalize_eq rp cast
      ⟨["||ads.example.com^".toList, "##.banner".toList],
        [("title".toList, "Test List".toList), ("expires".toList, "1 day".toList),
          ("homepage".toList, "https://example.org".toList)], "2.0".toList, []⟩ w subscription
    refine ⟨_, r, hp, rfl, h1, ?_, FiltersFrom_length rp w w1 _ _ h4⟩
    have h5 := h2 "1 day".toList (by decide)
    have h6 : ParseExpires "1 day".toList = some 86400000 := by decide
    rw [h6] at h5
    exact (Option.some.inj h5).symm

end

/-- C23: for every active filter, `ActiveFilter::Serialize()` is `[Filter]`, the
line `text=` with the text, then `disabled=true` exactly when the filter is
disabled, then `hitCount=` with the decimal number exactly when `hitCount` is
not 0, then `lastHit=` with the decimal number exactly when `lastHit` is not 0,
each ended by a line feed, and nothing else; a filter as the constructor leaves
it serialises to the two header lines; and for two filters whose texts are
canonical (here: contain no line feed), equal serialisations mean equal text,
`disabled`, `hitCount` and `lastHit`. -/
theorem C23_Serialize_format :
    (∀ f : ActiveFilter, ActiveFilter.Serialize f = ActiveFilter.Serialize_spec f) ∧
    (∀ (type : FilterType) (text : Text) (ignoreTrailingDot : Bool),
      ActiveFilter.Serialize (ActiveFilter.create type text ignoreTrailingDot)
        = "[Filter]\ntext=".toList ++ text ++ "\n".toList) ∧
    (∀ f g : ActiveFilter, '\n' ∉ f.mText → '\n' ∉ g.mText →
      ActiveFilter.Serialize f = ActiveFilter.Serialize g →
      f.mText = g.mText ∧ f.mDisabled = g.mDisabled ∧ f.mHitCount = g.mHitCount ∧
        f.mLastHit = g.mLastHit) ∧
    ActiveFilter.Serialize
        (((ActiveFilter.create .BLOCKING "||ads.example.com^".toList true).SetDisabled
          true).SetHitCount 3 |>.SetLastHit 1500000000)
      = ("[Filter]\ntext=||ads.example.com^\ndisabled=true\nhitCount=3\n"
          ++ "lastHit=1500000000\n").toList := by
  refine ⟨ActiveFilter.Serialize_eq_spec, ?_, ?_, by decide⟩
  · intro type text itd
    simp [ActiveFilter.Serialize, Filter.Serialize, ActiveFilter.create]
  · intro f g hf hg h
    rw [ActiveFilter.Serialize_eq_spec, ActiveFilter.Serialize_eq_spec] at h
    exact ActiveFilter.Serialize_spec_inj f g hf hg h

/-- C24: for every downloadable subscription, `DownloadableSubscription::Serialize()`
is the serialisation of the `Subscription` followed by one line `key=value` for
each downloadable-only field that differs from its default (false, the empty
text or 0) and by no line for a field at its default, the keys in the order
`fixedTitle`, `homepage`, `lastCheck`, `expires`, `softExpiration`,
`lastDownload`, `downloadStatus`, `lastSuccess`, `errors`, `version`,
`requiredVersion`, `downloadCount`; a subscription as the constructor leaves it
appends nothing. -/
theorem C24_Serialize_appends_fields (base : Subscription → Text)
    (s : DownloadableSubscription) :
    DownloadableSubscription.Serialize base s
      = base s.toSubscription ++ DownloadableSubscription.appended_spec s ∧
    (DownloadableSubscription.fields_spec s).map Prod.fst
      = ["fixedTitle".toList, "homepage".toList, "lastCheck".toList, "expires".toList,
          "softExpiration".toList, "lastDownload".toList, "downloadStatus".toList,
          "lastSuccess".toList, "errors".toList, "version".toList, "requiredVersion".toList,
          "downloadCount".toList] ∧
    (DownloadableSubscription.fields_spec s).map Prod.snd
      = [if s.mFixedTitle = true then some "true".toList else none,
          if s.mHomepage ≠ [] then some s.mHomepage else none,
          if s.mLastCheck ≠ 0 then some (decimal s.mLastCheck) else none,
          if s.mHardExpiration ≠ 0 then some (decimal s.mHardExpiration) else none,
          if s.mSoftExpiration ≠ 0 then some (decimal s.mSoftExpiration) else none,
          if s.mLastDownload ≠ 0 then some (decimal s.mLastDownload) else none,
          if s.mDownloadStatus ≠ [] then some s.mDownloadStatus else none,
          if s.mLastSuccess ≠ 0 then some (decimal s.mLastSuccess) else none,
          if s.mErrorCount ≠ 0 then some (decimalInt s.mErrorCount) else none,
          if s.mDataRevision ≠ 0 then some (decimal s.mDataRevision) else none,
          if s.mRequiredVersion ≠ [] then some s.mRequiredVersion else none,
          if s.mDownloadCount ≠ 0 then some (decimalInt s.mDownloadCount) else none] ∧
    (∀ id : Text,
      DownloadableSubscription.Serialize base (DownloadableSubscription.create id)
        = base (DownloadableSubscription.create id).toSubscription) ∧
    DownloadableSubscription.Serialize base
        ⟨s.toSubscription, true, "https://example.org".toList, 0, 86400, 0, 7, [], 0, -2, 0,
          "2.0".toList, 3⟩
      = base s.toSubscription
          ++ ("fixedTitle=true\nhomepage=https://example.org\nexpires=86400\n"
            ++ "lastDownload=7\nerrors=-2\nrequiredVersion=2.0\ndownloadCount=3\n").toList := by
  refine ⟨DownloadableSubscription.Serialize_appends base s, rfl, rfl, ?_, ?_⟩
  · intro id
    rw [DownloadableSubscription.Serialize_appends]
    have : DownloadableSubscription.appended_spec (DownloadableSubscription.create id) = [] :=
      rfl
    rw [this, List.append_nil]
  · rw [DownloadableSubscription.Serialize_appends]
    congr 1
    simp only [DownloadableSubscription.appended_spec, DownloadableSubscription.fields_spec,
      List.map, DownloadableSubscription.fieldLine_ite]
    decide

/-- C25, counterexample: the number 4294967296 is below 2^64, and after
`SetLastHit(4294967296)` on a new filter `GetLastHit()` returns 0 and
`Serialize` prints no `lastHit` line; a time stamp in milliseconds such as
1500000000000 comes back as 1056413696. The setter declared by
`FILTER_PROPERTY(unsigned int, mLastHit, ...)` takes an `unsigned int`, so the
number arrives converted to 32 bits. -/
theorem C25_counterexample :
    4294967296 < 18446744073709551616 ∧
    ActiveFilter.GetLastHit
      (ActiveFilter.SetLastHit (ActiveFilter.create .BLOCKING "a".toList true) 4294967296)
      = 0 ∧
    ActiveFilter.GetLastHit
      (ActiveFilter.SetLastHit (ActiveFilter.create .BLOCKING "a".toList true) 4294967296)
      ≠ 4294967296 ∧
    ActiveFilter.Serialize
      (ActiveFilter.SetLastHit (ActiveFilter.create .BLOCKING "a".toList true) 4294967296)
      = "[Filter]\ntext=a\n".toList ∧
    1500000000000 < 18446744073709551616 ∧
    ActiveFilter.GetLastHit
      (ActiveFilter.SetLastHit (ActiveFilter.create .BLOCKING "a".toList true) 1500000000000)
      = 1056413696 ∧
    ActiveFilter.Serialize
      (ActiveFilter.SetLastHit (ActiveFilter.create .BLOCKING "a".toList true) 1500000000000)
      = "[Filter]\ntext=a\nlastHit=1056413696\n".toList := by
  decide

/-- C25: the `lastHit` field of an active filter holds an `unsigned int`, a
32-bit value: for every `v` with `0 ≤ v < 2^32`, after `SetLastHit(v)` the
getter `GetLastHit()` returns `v`, the other members are as before, and
`Serialize` prints the text, `disabled` and `hitCount` lines as before followed
by the line `lastHit=v` in decimal when `v` is not 0 and by no `lastHit` line
when it is 0; a number of any size that is passed to the setter arrives
reduced modulo 2^32. -/
theorem C25_lastHit_is_32_bit (f : ActiveFilter) (v : Nat) (hv : v < 4294967296) :
    ActiveFilter.GetLastHit (ActiveFilter.SetLastHit f v) = v ∧
    ActiveFilter.SetLastHit f v
      = ⟨f.mType, f.mText, f.mIgnoreTrailingDot, f.mDisabled, f.mHitCount, v, f.mDomains,
          f.mSitekeys⟩ ∧
    ActiveFilter.Serialize (ActiveFilter.SetLastHit f v)
      = ActiveFilter.Serialize (ActiveFilter.SetLastHit f 0)
        ++ (if v ≠ 0 then "lastHit=".toList ++ decimal v ++ "\n".toList else []) ∧
    (∀ w : Nat, ActiveFilter.GetLastHit (ActiveFilter.SetLastHit f w) = w % 4294967296) := by
  have hset : ∀ w : Nat, ActiveFilter.SetLastHit f w
      = ⟨f.mType, f.mText, f.mIgnoreTrailingDot, f.mDisabled, f.mHitCount, w % 4294967296,
          f.mDomains, f.mSitekeys⟩ := by
    intro w
    unfold ActiveFilter.SetLastHit UINT_RANGE
    by_cases e : f.mLastHit = w % 4294967296
    · rw [if_neg (not_not.mpr e), ← e]
    · rw [if_pos e]
  have hmod : v % 4294967296 = v := Nat.mod_eq_of_lt hv
  refine ⟨?_, ?_, ?_, ?_⟩
  · rw [hset, hmod]
    rfl
  · rw [hset, hmod]
  · rw [hset v, hset 0, hmod, ActiveFilter.Serialize_eq_spec, ActiveFilter.Serialize_eq_spec]
    simp [ActiveFilter.Serialize_spec]
  · intro w
    rw [hset]
    rfl

/-- Witness for C25, at a filter with the hit count 3 and the time stamp
1500000000 (in seconds, below 2^32), which `Serialize` prints as
`lastHit=1500000000` behind the `hitCount` line. -/
theorem C25_witness :
    1500000000 < 4294967296 ∧
    (ActiveFilter.GetLastHit
      (ActiveFilter.SetLastHit
        (ActiveFilter.SetHitCount (ActiveFilter.create .BLOCKING "a".toList true) 3)
        1500000000) = 1500000000 ∧
    ActiveFilter.SetLastHit
        (ActiveFilter.SetHitCount (ActiveFilter.create .BLOCKING "a".toList true) 3)
        1500000000
      = ⟨(ActiveFilter.SetHitCount (ActiveFilter.create .BLOCKING "a".toList true) 3).mType,
          (ActiveFilter.SetHitCount (ActiveFilter.create .BLOCKING "a".toList true) 3).mText,
          (ActiveFilter.SetHitCount
            (ActiveFilter.create .BLOCKING "a".toList true) 3).mIgnoreTrailingDot,
          (ActiveFilter.SetHitCount (ActiveFilter.create .BLOCKING "a".toList true) 3).mDisabled,
          (ActiveFilter.SetHitCount (ActiveFilter.create .BLOCKING "a".toList true) 3).mHitCount,
          1500000000,
          (ActiveFilter.SetHitCount (ActiveFilter.create .BLOCKING "a".toList true) 3).mDomains,
          (ActiveFilter.SetHitCount
            (ActiveFilter.create .BLOCKING "a".toList true) 3).mSitekeys⟩ ∧
    ActiveFilter.Serialize
        (ActiveFilter.SetLastHit
          (ActiveFilter.SetHitCount (ActiveFilter.create .BLOCKING "a".toList true) 3)
          1500000000)
      = ActiveFilter.Serialize
          (ActiveFilter.SetLastHit
            (ActiveFilter.SetHitCount (ActiveFilter.create .BLOCKING "a".toList true) 3) 0)
        ++ (if 1500000000 ≠ 0 then "lastHit=".toList ++ decimal 1500000000 ++ "\n".toList
            else []) ∧
    (∀ w : Nat, ActiveFilter.GetLastHit
      (ActiveFilter.SetLastHit
        (ActiveFilter.SetHitCount (ActiveFilter.create .BLOCKING "a".toList true) 3) w)
      = w % 4294967296)) ∧
    ActiveFilter.Serialize
      (ActiveFilter.SetLastHit
        (ActiveFilter.SetHitCount (ActiveFilter.create .BLOCKING "a".toList true) 3)
        1500000000) = "[Filter]\ntext=a\nhitCount=3\nlastHit=1500000000\n".toList :=
  ⟨by decide,
    C25_lastHit_is_32_bit
      (ActiveFilter.SetHitCount (ActiveFilter.create .BLOCKING "a".toList true) 3)
      1500000000 (by decide), by decide⟩

/-- C26: for the scanner over a text `s` with the terminator `T`, created at
position 0, and for every `k`: after `k` calls of `next()` the cursor is `k`
(also when `k` is beyond the length of `s`); the call of `next()` that follows,
the `(k+1)`-th, returns `s[k]` when `k < |s|` and `T` otherwise, and `position()`
right after it returns `k`; `done()` is true exactly when the cursor has reached
the length of `s`; `back()` moves the cursor back by one, so it undoes a call of
`next()`, and it leaves a scanner with the cursor 0 as it is. -/
theorem C26_scanner_cursor (s : Text) (T : Char) (k : Nat) :
    (nextTimes k (StringScanner.create s 0 T)).mPos = k ∧
    (nextTimes k (StringScanner.create s 0 T)).next.1 = s.getD k T ∧
    (k < s.length → some (nextTimes k (StringScanner.create s 0 T)).next.1 = s.get? k) ∧
    (s.length ≤ k → (nextTimes k (StringScanner.create s 0 T)).next.1 = T) ∧
    (nextTimes k (StringScanner.create s 0 T)).next.2
      = nextTimes (k + 1) (StringScanner.create s 0 T) ∧
    (nextTimes k (StringScanner.create s 0 T)).next.2.position = k ∧
    ((nextTimes k (StringScanner.create s 0 T)).done = true ↔ s.length ≤ k) ∧
    (nextTimes (k + 1) (StringScanner.create s 0 T)).back
      = nextTimes k (StringScanner.create s 0 T) ∧
    (StringScanner.create s 0 T).back = StringScanner.create s 0 T ∧
    (∀ sc : StringScanner, (sc.done = true ↔ sc.mEnd ≤ sc.mPos) ∧
      (sc.back.mPos = sc.mPos - 1) ∧ sc.back.mStr = sc.mStr ∧ sc.back.mEnd = sc.mEnd ∧
      sc.back.mTerminator = sc.mTerminator ∧ sc.next.2.mPos = sc.mPos + 1) := by
  have hk : nextTimes k (StringScanner.create s 0 T) = ⟨s, k, s.length, T⟩ := by
    rw [nextTimes_eq]
    simp [StringScanner.create]
  have hk1 : nextTimes (k + 1) (StringScanner.create s 0 T) = ⟨s, k + 1, s.length, T⟩ := by
    rw [nextTimes_eq]
    simp [StringScanner.create]
  rw [hk, hk1]
  have hnext : (StringScanner.next ⟨s, k, s.length, T⟩).1 = s.getD k T := by
    simp only [StringScanner.next, StringScanner.done, charAt]
    by_cases h : k < s.length
    · have h2 : ¬ k ≥ s.length := by omega
      simp only [h2, decide_False, Bool.false_eq_true, if_false]
      rw [List.getD_eq_getElem _ _ h, List.getD_eq_getElem _ _ h]
    · have h2 : k ≥ s.length := by omega
      simp only [h2, decide_True, if_true]
      rw [List.getD_eq_default _ _ h2]
  refine ⟨rfl, hnext, ?_, ?_, rfl, rfl, ?_, ?_, ?_, ?_⟩
  · intro h
    rw [hnext, List.getD_eq_getElem _ _ h, List.get?_eq_getElem?, List.getElem?_eq_getElem h]
  · intro h
    rw [hnext, List.getD_eq_default _ _ h]
  · simp [StringScanner.done]
  · simp [StringScanner.back]
  · simp [StringScanner.back, StringScanner.create]
  · intro sc
    refine ⟨by simp [StringScanner.done], ?_, ?_, ?_, ?_, rfl⟩
    all_goals
      unfold StringScanner.back
      split <;> first | rfl | omega

section

open StringScanner DownloadableSubscription_Parser

/-- C27: the key that `ParseParam` returns runs from the first character that is
not a space, a tab or a colon up to the last colon before the value, because the
case `':'` of its loop sets `endParam` again: `! Expires : 1 day` gives the key
`expires` followed by a space, so a lookup of `expires` in the params of such a
body finds nothing; `! a b: v` is taken for a param with the key `a b`;
`!a::v` gives the key `a:`; and `!:v`, where no key character comes before the
colon, gives the key `!`. What holds of every line that `ParseParam` takes for
a param is that the key and the value are not empty. -/
theorem C27_key_runs_to_the_colon :
    ParseParam "! Expires : 1 day".toList = some (some ("expires ".toList, "1 day".toList)) ∧
    (Process DownloadableSubscription_Parser.create
        "[Adblock]\n! Expires : 1 day".toList).map
      (fun r => (StringMap.find r.parser.mParams "expires".toList, r.parser.mParams))
      = some (none, [("expires ".toList, "1 day".toList)]) ∧
    ParseParam "! a b: v".toList = some (some ("a b".toList, "v".toList)) ∧
    ParseParam "!a::v".toList = some (some ("a:".toList, "v".toList)) ∧
    ParseParam "!:v".toList = some (some ("!".toList, "v".toList)) ∧
    (∀ line k v : Text, ParseParam line = some (some (k, v)) → k ≠ [] ∧ v ≠ []) := by
  refine ⟨by decide, by decide, by decide, by decide, by decide, ?_⟩
  intro line k v h
  rw [ParseParam_eq_view] at h
  cases hv : paramView line with
  | none => rw [hv] at h; cases h
  | some p =>
    obtain ⟨K, v2⟩ := p
    rw [hv] at h
    simp only [Option.map_some', Option.some.injEq, Prod.mk.injEq] at h
    have hne := paramView_nonempty line K v2 hv
    refine ⟨?_, by rw [← h.2]; exact hne.2⟩
    intro e
    apply hne.1
    have := congrArg List.length h.1
    rw [e, length_toLower] at this
    exact List.length_eq_zero.mp this

end

/-- C30: if `IsActiveOnlyOnDomain(d)` is true, then for every host `h` and
sitekey `k` for which `IsActiveOnDomain(h, k)` is true, the normalised `h`
(lower-cased, one trailing dot removed when `ignoreTrailingDot`) is the
normalised `d` or ends with `.` followed by the normalised `d`; on the empty
host the filter is not active. (`IsActiveOnDomain` returns on every host.) -/
theorem C30_only_on_domain_is_sound (f : ActiveFilter) (d : Text)
    (hd : IsActiveOnlyOnDomain f d = true) :
    (∀ h k : Text, IsActiveOnDomain f h k = some true →
      normalizeHost_spec f.mIgnoreTrailingDot h = normalizeHost_spec f.mIgnoreTrailingDot d ∨
        ('.' :: normalizeHost_spec f.mIgnoreTrailingDot d)
          <:+ normalizeHost_spec f.mIgnoreTrailingDot h) ∧
    (∀ k : Text, IsActiveOnDomain f [] k = some false) ∧
    (∀ h k : Text, ∃ b, IsActiveOnDomain f h k = some b) := by
  obtain ⟨m, hm, hdne, hdef, hall⟩ := (IsActiveOnlyOnDomain_iff f d).mp hd
  refine ⟨?_, ?_, fun h k => ⟨_, IsActiveOnDomain_eq_spec f h k⟩⟩
  · intro h k hact
    rw [IsActiveOnDomain_eq_spec] at hact
    have hact2 : IsActiveOnDomain_spec f h k = true := Option.some.inj hact
    unfold IsActiveOnDomain_spec at hact2
    rw [hm] at hact2
    split at hact2
    · cases hact2
    · simp only at hact2
      by_cases hh : h = []
      · rw [if_pos hh, hdef] at hact2
        cases hact2
      · rw [if_neg hh] at hact2
        rcases longestMatch_true m _ hact2 with h1 | ⟨key, hkey, hmatch⟩
        · rw [hdef] at h1
          cases h1
        · have hk := hall (key, true) hkey rfl
          simp only at hk
          rcases hk with hk | hk <;> rcases hmatch with hmt | hmt
          · left
            rw [← hmt, hk]
          · right
            rw [← hk]
            exact hmt
          · right
            rw [← hmt]
            exact hk
          · right
            exact hk.trans ((List.suffix_cons _ _).trans hmt)
  · intro k
    rw [IsActiveOnDomain_eq_spec]
    congr 1
    unfold IsActiveOnDomain_spec
    rw [hm]
    split
    · rfl
    · simp [hdef]

/-- Witness for C30, at the filter of scenario S7 with the domains `foo.com` and
`bar.foo.com`, the domain `foo.com` and the host `a.bar.foo.com`. -/
theorem C30_witness :
    IsActiveOnlyOnDomain
        ⟨.ELEMHIDE, "foo.com,bar.foo.com##.x".toList, false, false, 0, 0,
          some [("foo.com".toList, true), ("bar.foo.com".toList, true), ([], false)], none⟩
        "foo.com".toList = true ∧
      IsActiveOnDomain
        ⟨.ELEMHIDE, "foo.com,bar.foo.com##.x".toList, false, false, 0, 0,
          some [("foo.com".toList, true), ("bar.foo.com".toList, true), ([], false)], none⟩
        "a.bar.FOO.com".toList [] = some true ∧
      (normalizeHost_spec false "a.bar.FOO.com".toList = normalizeHost_spec false "foo.com".toList ∨
        ('.' :: normalizeHost_spec false "foo.com".toList)
          <:+ normalizeHost_spec false "a.bar.FOO.com".toList) :=
  ⟨by decide, by decide,
    (C30_only_on_domain_is_sound
      ⟨.ELEMHIDE, "foo.com,bar.foo.com##.x".toList, false, false, 0, 0,
        some [("foo.com".toList, true), ("bar.foo.com".toList, true), ([], false)], none⟩
      "foo.com".toList (by decide)).1 "a.bar.FOO.com".toList [] (by decide)⟩

section

open StringScanner DownloadableSubscription_Parser

/-- C31: `Filter::FromText` returns a null pointer for every text that consists
only of spaces and control characters, in every registry, and `ProcessLine`
records such a line when it is not empty, so `Finalize` puts a null pointer into
the filter list for it: for every parser state, the entry of a recorded line of
spaces and control characters is null. After `Process` on a valid header
followed by a line of two spaces and a line with a tab, `Finalize` leaves the
filter list with two null entries. -/
theorem C31_blank_line_gives_null_filter (rp : Text → RegExpParseResult) (cast : Text → Int)
    (w : World) (subscription : DownloadableSubscription) :
    (∀ t : Text, (∀ c ∈ t, c ≤ ' ') → Filter.FromText rp w t = some ⟨none, [], w⟩) ∧
    (∀ (self : DownloadableSubscription_Parser) (line : Text), line ≠ [] →
      (∀ c ∈ line, c ≤ ' ') →
      ProcessLine self line
        = some ⟨self.mFiltersText ++ [line], self.mParams, self.mRequiredVersion,
            self.mError⟩) ∧
    (∀ (self : DownloadableSubscription_Parser) (r : FinalizeResult),
      Finalize rp cast self w subscription = some r →
      List.Forall₂ (fun text f => (∀ c ∈ text, c ≤ ' ') → f = none)
        self.mFiltersText r.subscription.GetFilters) ∧
    (∃ p r, Process DownloadableSubscription_Parser.create "[Adblock]\n  \n\t".toList = some p ∧
      p.result = true ∧ p.parser.mFiltersText = ["  ".toList, "\t".toList] ∧
      Finalize rp cast p.parser w subscription = some r ∧
      r.subscription.GetFilters = [none, none]) := by
  have h3 : ∀ (self : DownloadableSubscription_Parser) (r : FinalizeResult),
      Finalize rp cast self w subscription = some r →
      List.Forall₂ (fun text f => (∀ c ∈ text, c ≤ ' ') → f = none)
        self.mFiltersText r.subscription.GetFilters := by
    intro self r hr
    obtain ⟨r2, w1, h1, _, _, h4, _, _⟩ := Finalize_eq rp cast self w subscription
    rw [hr] at h1
    cases h1
    exact FiltersFrom_blank rp w w1 _ _ h4
  refine ⟨fun t h => FromText_blank rp w t h, ?_, h3, ?_⟩
  · intro self line hne hb
    have hbang : line.head? ≠ some '!' := by
      intro e
      cases line with
      | nil => cases e
      | cons x r =>
        simp only [List.head?_cons, Option.some.injEq] at e
        have := hb x (List.mem_cons_self _ _)
        rw [e] at this
        revert this
        decide
    rw [ProcessLine_eq]
    simp only [lineStep, ParseParam_not_bang line hbang, ne_eq, hne, not_false_eq_true, if_true]
  · have hp : Process DownloadableSubscription_Parser.create "[Adblock]\n  \n\t".toList
        = some ⟨true, ⟨["  ".toList, "\t".toList], [], [], []⟩,
            ["[Adblock]".toList, "  ".toList, "\t".toList]⟩ := by
      decide
    obtain ⟨r, w1, h1, _, _, _, _, _⟩ := Finalize_eq rp cast
      ⟨["  ".toList, "\t".toList], [], [], []⟩ w subscription
    refine ⟨_, r, hp, rfl, rfl, h1, ?_⟩
    have hf := h3 _ r h1
    simp only at hf
    generalize r.subscription.GetFilters = fs at hf ⊢
    cases hf with
    | cons ha hrest =>
      cases hrest with
      | cons hb hnil =>
        cases hnil
        rw [ha (by decide), hb (by decide)]

/-- C32: with every read checked against the length of the text that is read,
`GetNextLine` and `ProcessFirstLine` return on every buffer and line without a
read outside the text, and so does `ParseParam` on every line that is not
empty; on the empty line `ParseParam` reads `text[0]`, the index 0 of a text of
length 0. `Process` passes the empty line to `ProcessLine` and `ParseParam`
when the body ends with a line break: on a body without NUL whose first line is
a valid header the read outside the line happens exactly when the body ends with
`\r` or `\n`, and without it `Process` returns what it returns without the
checks. On the body `[Adblock]` followed by a line feed the read happens; on
the empty body and on a body with an invalid header it does not. -/
theorem C32_ParseParam_reads_empty_line :
    (∀ buffer : Text, GetNextLineChecked buffer = .ok (nextLine buffer) ∧
      Checked.ofOption (GetNextLine buffer) = .ok (nextLine buffer)) ∧
    (∀ (self : DownloadableSubscription_Parser) (line : Text),
      ProcessFirstLineChecked self line = Checked.ofOption (ProcessFirstLine self line) ∧
      ∃ r, ProcessFirstLineChecked self line = .ok r) ∧
    (∀ text : Text, text ≠ [] →
      ParseParamChecked text = Checked.ofOption (ParseParam text) ∧
      ∃ r, ParseParamChecked text = .ok r) ∧
    ParseParamChecked [] = .outOfBounds 0 0 ∧
    (∀ self : DownloadableSubscription_Parser, ProcessLineChecked self [] = .outOfBounds 0 0) ∧
    (∀ (self : DownloadableSubscription_Parser) (body : Text), '\x00' ∉ body →
      headerVersion (firstLine body) ≠ none →
      (endsWithNewline body = true → ProcessChecked self body = .outOfBounds 0 0) ∧
      (endsWithNewline body = false →
        ProcessChecked self body = Checked.ofOption (Process self body) ∧
        ∃ r, ProcessChecked self body = .ok r)) ∧
    (∀ (self : DownloadableSubscription_Parser) (body : Text),
      headerVersion (firstLine body) = none →
      ProcessChecked self body = Checked.ofOption (Process self body) ∧
      ∃ r, ProcessChecked self body = .ok r) ∧
    ProcessChecked DownloadableSubscription_Parser.create "[Adblock]\n".toList
      = .outOfBounds 0 0 ∧
    (Process DownloadableSubscription_Parser.create "[Adblock]\n".toList).map
      (fun r => r.lines) = some ["[Adblock]".toList, []] ∧
    ProcessChecked DownloadableSubscription_Parser.create "[Adblock]\n! Title: T\r\n".toList
      = .outOfBounds 0 0 ∧
    ProcessChecked DownloadableSubscription_Parser.create []
      = .ok ⟨false, ⟨[], [], [], ERROR_INVALID_DATA⟩, [[]]⟩ := by
  refine ⟨?_, ?_, ?_, rfl, ?_, ?_, ?_, by decide, by decide, by decide, by decide⟩
  · intro buffer
    exact ⟨GetNextLineChecked_eq buffer, by rw [GetNextLine_eq]; rfl⟩
  · intro self line
    rw [ProcessFirstLineChecked_eq, ProcessFirstLine_eq]
    exact ⟨rfl, _, rfl⟩
  · intro text h
    obtain ⟨r, hr⟩ := ParseParam_total text
    rw [ParseParamChecked_eq text h, hr]
    exact ⟨rfl, _, rfl⟩
  · intro self
    rw [ProcessLineChecked_eq, if_pos rfl]
  · intro self body hnul hheader
    obtain ⟨v, hv⟩ : ∃ v, headerVersion (firstLine body) = some v := by
      cases h : headerVersion (firstLine body) with
      | none => exact absurd h hheader
      | some v => exact ⟨v, rfl⟩
    obtain ⟨l0, ls, hls, hrest⟩ := restLines_valid body v hnul hv
    have hne := lines_spec_ne_nil body
    rw [hls] at hne
    have hnot : [] ∉ ls := fun hm => hne [] (List.mem_cons_of_mem _ hm) rfl
    rw [ProcessChecked_valid self body v hv, hrest, List.tail_cons]
    constructor
    · intro he
      rw [he, if_pos]
      simp
    · intro he
      rw [he, if_neg]
      · rw [Process_valid self body v hv]
        exact ⟨rfl, _, rfl⟩
      · simpa using hnot
  · intro self body h
    rw [ProcessChecked_invalid self body h, Process_invalid self body h]
    exact ⟨rfl, _, rfl⟩

/-- C33: for every text, `ParseExpires` returns a number that is not negative
and at most 2^63 - 1, that is 0 or at least 3,600,000, and that is a multiple
of 3,600,000; for a text whose digit run denotes `n` below 2^63 the number is 0
or the exact product of `n` and 3,600,000 or 86,400,000, and then even
`n * 86,400,000` is at most 2^63 - 1, so the product that the code computes in
`int64_t` is never reduced. The largest day count `106751991167` gives
`9223372036828800000`; one more gives 0. -/
theorem C33_ParseExpires_never_wraps :
    (∀ t : Text, ∃ v, ParseExpires t = some v ∧ 0 ≤ v ∧ v ≤ INT64_MAX ∧
      (v = 0 ∨ 3600000 ≤ v) ∧ ∃ k : Int, v = 3600000 * k) ∧
    (∀ W D R : Text, (∀ c ∈ W, iswspace c = true) → D ≠ [] → (∀ c ∈ D, iswdigit c = true) →
      (∀ c ∈ R.head?, iswdigit c = false) → (digitsValue D : Int) ≤ INT64_MAX →
      ∃ v, ParseExpires (W ++ D ++ R) = some v ∧
        (v = 0 ∨ ((v = (digitsValue D : Int) * 3600000 ∨ v = (digitsValue D : Int) * 86400000) ∧
          (digitsValue D : Int) * 86400000 ≤ INT64_MAX))) ∧
    INT64_MAX = 2 ^ 63 - 1 ∧
    ParseExpires "106751991167 d".toList = some 9223372036828800000 ∧
    ParseExpires "106751991168 d".toList = some 0 ∧
    ParseExpires "106751991167 h".toList = some 384307168201200000 := by
  refine ⟨?_, ?_, by decide, by decide, by decide, by decide⟩
  · intro t
    obtain ⟨num, R, h0, h⟩ := ParseExpires_value t
    obtain ⟨b1, b2, b3, b4, _⟩ := expiresValue_bounds num R h0
    exact ⟨_, h, b1, b2, b3, b4⟩
  · intro W D R hW hDne hD hR hn
    refine ⟨_, ParseExpires_shape W D R hW hDne hD hR, ?_⟩
    rw [lexical_cast_digits D hDne hD hn]
    exact (expiresValue_bounds _ R (Int.natCast_nonneg _)).2.2.2.2

end

/-- C34: on every text `ElemHideBase::Parse` returns, and when it returns
`UNKNOWN` it leaves the text, the error and the parsed domains as they were on
entry; it returns `UNKNOWN`, `INVALID` or one of the three element-hide types, so
a text that differs afterwards comes with `INVALID` or an element-hide type. In
`Filter::FromText` the network-filter parser is therefore called, if at all,
with the whitespace-normalised text. The text `A b|c#d` is returned as it is,
with its space and its capital letter. -/
theorem C34_unknown_leaves_text (t error : Text) (data : ElemHideData) (pd : ParsedDomains) :
    (∃ r, Parse t error data pd = some r ∧
      (r.type = .UNKNOWN → r.text = t ∧ r.text.length = t.length ∧ r.error = error ∧
        r.parsedDomains = pd) ∧
      (r.text ≠ t → r.type = .INVALID ∨ IsKind r.type) ∧
      (r.type = .UNKNOWN ∨ r.type = .INVALID ∨ IsKind r.type)) ∧
    (∀ (rp : Text → RegExpParseResult) (w : World),
      Filter.FromText rp w t
        = Filter.FromText (fun _ => rp (Filter.NormalizeWhitespace_spec t)) w t) ∧
    (Parse "A b|c#d".toList [] ⟨0, 0⟩ ParsedDomains.create).map (fun r => (r.type, r.text))
      = some (.UNKNOWN, "A b|c#d".toList) ∧
    (Parse "A b# c".toList [] ⟨0, 0⟩ ParsedDomains.create).map (fun r => (r.type, r.text))
      = some (.UNKNOWN, "A b# c".toList) ∧
    (Parse "A b##c".toList [] ⟨0, 0⟩ ParsedDomains.create).map (fun r => (r.type, r.text))
      = some (.ELEMHIDE, "ab##c".toList) := by
  refine ⟨?_, fun rp w => FromText_regexp_argument rp w t, by decide, by decide, by decide⟩
  obtain ⟨r, hr, hu, hty⟩ := Parse_frame t error data pd
  refine ⟨r, hr, ?_, ?_, hty⟩
  · intro h
    have := hu h
    exact ⟨this.1, by rw [this.1], this.2.1, this.2.2⟩
  · intro hne
    rcases hty with h | h | h
    · exact absurd (hu h).1 hne
    · exact Or.inl h
    · exact Or.inr h

/-- C35: for every scanner with the cursor `p` inside the text or at its end and
every character `ch`, `skip(ch)` leaves the cursor behind the longest run of
`ch` that starts at `p`, and it returns false, also when it has consumed
characters: the loop `while ((skipped = skipOne(ch)));` ends with the call of
`skipOne` that fails, and `skipped` holds that result. On the text of a space
and an `x`, `skip(' ')` moves the cursor to 1 and returns false, where
`skipWhiteSpace()` moves it to 1 and returns true. -/
theorem C35_skip_returns_false :
    (∀ (t : Text) (p : Nat) (tm ch : Char), p ≤ t.length →
      (StringScanner.create t p tm).skip ch
        = some (false,
            StringScanner.create t
              (p + ((t.drop p).takeWhile (fun c => c == ch)).length) tm)) ∧
    (StringScanner.create " x".toList 0 '\x00').skip ' '
      = some (false, StringScanner.create " x".toList 1 '\x00') ∧
    (StringScanner.create " x".toList 0 '\x00').skipWhiteSpace
      = some (true, StringScanner.create " x".toList 1 '\x00') ∧
    (StringScanner.create "   ".toList 1 '\x00').skip ' '
      = some (false, StringScanner.create "   ".toList 3 '\x00') := by
  exact ⟨skip_create, by decide, by decide, by decide⟩

end ABP
